import Mathlib

/-!
# Array builders of `cpp/src/arrow/builder.cc`

A shallow embedding of the builder family: the base `ArrayBuilder` (validity
bitmap, length, capacity, null count) and the typed builders layered on it.

Conventions of the embedding.

* A buffer (`PoolBuffer`) is the list of its `size()` bytes, each byte a `Nat`.
  A null `shared_ptr` is `none`.
* A function returns `Option`: `none` stands for a run that does not hand back
  a builder (an error `Status`, or an access outside the bytes of a buffer,
  which is undefined behaviour in the source).
* Counters (`length_`, `capacity_`, `null_count_`, table sizes) are natural
  numbers; values written into buffers at a fixed width are truncated to that
  width explicitly.
* The memory pool never fails in this embedding.
-/

namespace Arrow

/-! ## Buffers and bit utilities -/

/-- Modelled from the spec: `PoolBuffer::Resize` of the memory-pool collaborator
(buffer.h is not part of the sources). The first `new_size` bytes are kept and
newly grown bytes are zero-filled, as the spec's Growable Buffer invariant says. -/
def PoolBuffer.Resize (buf : List Nat) (new_size : Nat) : List Nat :=
  buf.take new_size ++ List.replicate (new_size - buf.length) 0

/-- The libc call `memset(p + off, v, n)` on a buffer: `none` when the range
leaves the buffer. -/
def memset (buf : List Nat) (off v n : Nat) : Option (List Nat) :=
  if off + n ≤ buf.length then
    some (buf.take off ++ List.replicate n v ++ buf.drop (off + n))
  else none

/-- Modelled from the spec: `BitUtil::CeilByte` (bit-util.h is not part of the
sources): the bit count rounded up to a multiple of 8, so that
`CeilByte n / 8` is `ceil(n / 8)` bytes. -/
def CeilByte (size : Nat) : Nat := (size + 7) / 8 * 8

/-- Modelled from the spec: `BitUtil::BytesForBits`, `ceil(bits / 8)`. -/
def BytesForBits (size : Nat) : Nat := CeilByte size / 8

/-- Search for the least power of two at or above `n`, starting from `p`. -/
def nextPower2From : Nat → Nat → Nat → Nat
  | 0, p, _ => p
  | fuel + 1, p, n => if n ≤ p then p else nextPower2From fuel (2 * p) n

/-- Modelled from the spec: `BitUtil::NextPower2`, "the next power of two ≥ n"
(bit-util.h is not part of the sources). -/
def NextPower2 (n : Nat) : Nat := nextPower2From n 1 n

/-- Modelled from the spec: `BitUtil::kBitmask[i]`, the byte with only bit `i`
set (little-endian bit order within each byte). -/
def kBitmask (i : Nat) : Nat := 2 ^ i

/-- Modelled from the spec: `BitUtil::kFlippedBitmask[i]`, the byte with every
bit but bit `i` set. -/
def kFlippedBitmask (i : Nat) : Nat := 255 - 2 ^ i

/-- Modelled from the spec: `BitUtil::GetBit(bits, i)`: bit `i % 8` of byte
`i / 8`. A byte outside the buffer reads as 0. -/
def GetBit (bits : List Nat) (i : Nat) : Bool := (bits.getD (i / 8) 0).testBit (i % 8)

/-- Modelled from the spec: `BitUtil::SetBit(bits, i)`:
`bits[i / 8] |= kBitmask[i % 8]`. -/
def SetBit (bits : List Nat) (i : Nat) : Option (List Nat) :=
  match bits[i / 8]? with
  | some b => some (bits.set (i / 8) (b ||| kBitmask (i % 8)))
  | none => none

/-- Modelled from the spec: `BitUtil::ClearBit(bits, i)`:
`bits[i / 8] &= kFlippedBitmask[i % 8]`. -/
def ClearBit (bits : List Nat) (i : Nat) : Option (List Nat) :=
  match bits[i / 8]? with
  | some b => some (bits.set (i / 8) (b &&& kFlippedBitmask (i % 8)))
  | none => none

/-- Modelled from the spec: `BitUtil::SetBitTo(bits, i, v)`. -/
def SetBitTo (bits : List Nat) (i : Nat) (v : Bool) : Option (List Nat) :=
  if v then SetBit bits i else ClearBit bits i

/-- The loop `for (i = from; i < to; ++i) BitUtil::SetBit(bits, i)`, with
`n = to - from` iterations left. -/
def setBitsLoop : Nat → Nat → List Nat → Option (List Nat)
  | 0, _, bits => some bits
  | n + 1, i, bits =>
    match SetBit bits i with
    | some bits1 => setBitsLoop n (i + 1) bits1
    | none => none

/-- Modelled from the spec: the floor minimum builder capacity
`kMinBuilderCapacity` of builder.h (not part of the sources; upstream it is
`1 << 5`). -/
def kMinBuilderCapacity : Nat := 32

/-! ## ArrayBuilder -/

/-- The data members of `ArrayBuilder`. `null_bitmap_data_` is the data pointer
of `null_bitmap` and is not kept separately. -/
structure ArrayBuilder where
  null_bitmap : Option (List Nat)
  null_count : Nat
  length : Nat
  capacity : Nat
deriving DecidableEq

/-- A freshly constructed builder: no buffers, all counters 0. -/
def ArrayBuilder.fresh : ArrayBuilder :=
  { null_bitmap := none, null_count := 0, length := 0, capacity := 0 }

/-- The method `ArrayBuilder::Init(capacity)`: a new zeroed bitmap of
`CeilByte(capacity) / 8` bytes. -/
def ArrayBuilder.Init (b : ArrayBuilder) (capacity : Nat) : Option ArrayBuilder :=
  let to_alloc := CeilByte capacity / 8
  let bm := PoolBuffer.Resize [] to_alloc
  match memset bm 0 0 bm.length with
  | some bm1 => some { b with null_bitmap := some bm1, capacity := capacity }
  | none => none

/-- The body of `ArrayBuilder::Resize(new_bits)` once `null_bitmap_` is known
to be non-null (the null case dispatches to the virtual `Init`). -/
def ArrayBuilder.ResizeBitmap (b : ArrayBuilder) (bm : List Nat) (new_bits : Nat) :
    Option ArrayBuilder :=
  let new_bytes := CeilByte new_bits / 8
  let old_bytes := bm.length
  let bm1 := PoolBuffer.Resize bm new_bytes
  if old_bytes < new_bytes then
    match memset bm1 old_bytes 0 (bm1.length - old_bytes) with
    | some bm2 => some { b with null_bitmap := some bm2, capacity := new_bits }
    | none => none
  else some { b with null_bitmap := some bm1, capacity := new_bits }

/-- The method `ArrayBuilder::Resize(new_bits)` on a plain base builder. -/
def ArrayBuilder.Resize (b : ArrayBuilder) (new_bits : Nat) : Option ArrayBuilder :=
  match b.null_bitmap with
  | none => b.Init new_bits
  | some bm => b.ResizeBitmap bm new_bits

/-- The method `ArrayBuilder::Reserve(elements)` on a plain base builder. -/
def ArrayBuilder.Reserve (b : ArrayBuilder) (elements : Nat) : Option ArrayBuilder :=
  if b.length + elements > b.capacity then
    b.Resize (NextPower2 (b.length + elements))
  else some b

/-- The method `ArrayBuilder::UnsafeAppendToBitmap(bool is_valid)`. -/
def ArrayBuilder.UnsafeAppendToBitmap (b : ArrayBuilder) (is_valid : Bool) :
    Option ArrayBuilder :=
  if is_valid then
    match b.null_bitmap with
    | some bm =>
      match SetBit bm b.length with
      | some bm1 => some { b with null_bitmap := some bm1, length := b.length + 1 }
      | none => none
    | none => none
  else some { b with null_count := b.null_count + 1, length := b.length + 1 }

/-- The local variables of the loop in the bulk `UnsafeAppendToBitmap`. -/
structure BitmapCursor where
  data : List Nat
  byte_offset : Nat
  bit_offset : Nat
  bitset : Nat
  null_count : Nat
deriving DecidableEq

/-- The bitmap as it is once the pending `bitset` is stored back at
`byte_offset` (the store the loop performs when it leaves a byte). -/
def BitmapCursor.commit (c : BitmapCursor) : List Nat := c.data.set c.byte_offset c.bitset

/-- The head of the loop body of the bulk `UnsafeAppendToBitmap`:
`if (bit_offset == 8) { bit_offset = 0; data[byte_offset] = bitset;
byte_offset++; bitset = data[byte_offset]; }`. -/
def BitmapCursor.flush (c : BitmapCursor) : Option BitmapCursor :=
  if c.bit_offset = 8 then
    if c.byte_offset < c.data.length then
      let data1 := c.data.set c.byte_offset c.bitset
      match data1[c.byte_offset + 1]? with
      | some bs => some { c with data := data1, bit_offset := 0,
                                 byte_offset := c.byte_offset + 1, bitset := bs }
      | none => none
    else none
  else some c

/-- The rest of the loop body: set or clear bit `bit_offset` of `bitset`
according to `valid_bytes[i]`, count a null, and `bit_offset++`. -/
def BitmapCursor.put (c : BitmapCursor) (v : Nat) : BitmapCursor :=
  if v ≠ 0 then
    { c with bitset := c.bitset ||| kBitmask c.bit_offset, bit_offset := c.bit_offset + 1 }
  else
    { c with bitset := c.bitset &&& kFlippedBitmask c.bit_offset,
             null_count := c.null_count + 1, bit_offset := c.bit_offset + 1 }

/-- The loop of the bulk `UnsafeAppendToBitmap`: `n` iterations are left and
`i` is the loop counter. -/
def appendBitsLoop (valid_bytes : List Nat) : Nat → Nat → BitmapCursor → Option BitmapCursor
  | 0, _, c => some c
  | n + 1, i, c =>
    match c.flush with
    | none => none
    | some c1 =>
      match valid_bytes[i]? with
      | none => none
      | some v => appendBitsLoop valid_bytes n (i + 1) (c1.put v)

/-- The method `ArrayBuilder::UnsafeSetNotNull(length)`. The first loop is
transcribed as written: it sets bits `0 .. pad_to_byte - 1`. The subtraction
`length - pad_to_byte` is signed in the source; a negative difference divided
by 8 truncates to 0 because `pad_to_byte < 8`, as the natural-number
subtraction does here. A null bitmap is an empty buffer: a call that touches no
byte goes through, any access fails. -/
def ArrayBuilder.UnsafeSetNotNull (b : ArrayBuilder) (length : Nat) : Option ArrayBuilder :=
  let new_length := length + b.length
  let pad_to_byte0 := 8 - b.length % 8
  let pad_to_byte := if pad_to_byte0 = 8 then 0 else pad_to_byte0
  let bm := b.null_bitmap.getD []
  match setBitsLoop pad_to_byte 0 bm with
  | none => none
  | some bm1 =>
    let fast_length := (length - pad_to_byte) / 8
    match memset bm1 ((b.length + pad_to_byte) / 8) 255 fast_length with
    | none => none
    | some bm2 =>
      let start := b.length + pad_to_byte + fast_length * 8
      match setBitsLoop (new_length - start) start bm2 with
      | none => none
      | some bm3 =>
        some { b with null_bitmap := b.null_bitmap.map (fun _ => bm3), length := new_length }

/-- The method `ArrayBuilder::UnsafeAppendToBitmap(valid_bytes, length)`;
`valid_bytes = none` is the null pointer. -/
def ArrayBuilder.UnsafeAppendToBitmapBulk (b : ArrayBuilder) (valid_bytes : Option (List Nat))
    (length : Nat) : Option ArrayBuilder :=
  match valid_bytes with
  | none => b.UnsafeSetNotNull length
  | some vb =>
    match b.null_bitmap with
    | none => none
    | some bm =>
      match bm[b.length / 8]? with
      | none => none
      | some bitset0 =>
        let c0 : BitmapCursor :=
          { data := bm, byte_offset := b.length / 8, bit_offset := b.length % 8,
            bitset := bitset0, null_count := b.null_count }
        match appendBitsLoop vb length 0 c0 with
        | none => none
        | some c =>
          if c.bit_offset ≠ 0 then
            if c.byte_offset < c.data.length then
              some { b with null_bitmap := some (c.data.set c.byte_offset c.bitset),
                            null_count := c.null_count, length := b.length + length }
            else none
          else
            some { b with null_bitmap := some c.data, null_count := c.null_count,
                          length := b.length + length }

/-- Whether validity bit `i` of the builder is set (`false` with no bitmap). -/
def ArrayBuilder.IsValid (b : ArrayBuilder) (i : Nat) : Bool :=
  match b.null_bitmap with
  | some bm => GetBit bm i
  | none => false

/-! ## PrimitiveBuilder -/

/-- The libc call `memcpy(dst + off, src, n)`: `none` when either range leaves
its buffer. -/
def memcpy (dst : List Nat) (off : Nat) (src : List Nat) (n : Nat) : Option (List Nat) :=
  if off + n ≤ dst.length ∧ n ≤ src.length then
    some (dst.take off ++ src.take n ++ dst.drop (off + n))
  else none

/-- Modelled from the spec: `TypeTraits<T>::bytes_required(n)` of type_traits.h
(not part of the sources): "the exact byte length needed for `n` elements" of a
fixed-width type of `width` bytes. -/
def bytes_required (width n : Nat) : Nat := n * width

/-- The data members of `PrimitiveBuilder<T>`: the base builder, the value
buffer `data_` (`raw_data_` is its data pointer) and `width = sizeof(value_type)`,
fixed by the template argument. -/
structure PrimitiveBuilder where
  base : ArrayBuilder
  data : Option (List Nat)
  width : Nat
deriving DecidableEq

/-- A freshly constructed `PrimitiveBuilder<T>` for a type of `width` bytes. -/
def PrimitiveBuilder.fresh (width : Nat) : PrimitiveBuilder :=
  { base := ArrayBuilder.fresh, data := none, width := width }

/-- The method `PrimitiveBuilder<T>::Init(capacity)`. -/
def PrimitiveBuilder.Init (p : PrimitiveBuilder) (capacity : Nat) : Option PrimitiveBuilder :=
  match p.base.Init capacity with
  | none => none
  | some b1 =>
    let nbytes := bytes_required p.width capacity
    let d := PoolBuffer.Resize [] nbytes
    match memset d 0 0 nbytes with
    | some d1 => some { p with base := b1, data := some d1 }
    | none => none

/-- The method `ArrayBuilder::Resize` run on a `PrimitiveBuilder`: with no
bitmap the virtual `Init` is `PrimitiveBuilder<T>::Init`. -/
def PrimitiveBuilder.ArrayBuilder_Resize (p : PrimitiveBuilder) (new_bits : Nat) :
    Option PrimitiveBuilder :=
  match p.base.null_bitmap with
  | none => p.Init new_bits
  | some bm =>
    match p.base.ResizeBitmap bm new_bits with
    | some b1 => some { p with base := b1 }
    | none => none

/-- The method `PrimitiveBuilder<T>::Resize(capacity)`. The length of the final
`memset` is `new_bytes - old_bytes` cast to `size_t`: when it is negative the
call runs over the whole address space, which is `none` here. -/
def PrimitiveBuilder.Resize (p : PrimitiveBuilder) (capacity0 : Nat) : Option PrimitiveBuilder :=
  let capacity := if capacity0 < kMinBuilderCapacity then kMinBuilderCapacity else capacity0
  if p.base.capacity = 0 then p.Init capacity
  else
    match p.ArrayBuilder_Resize capacity with
    | none => none
    | some p1 =>
      match p1.data with
      | none => none
      | some d =>
        let old_bytes := d.length
        let new_bytes := bytes_required p1.width capacity
        let d1 := PoolBuffer.Resize d new_bytes
        if new_bytes < old_bytes then none
        else
          match memset d1 old_bytes 0 (new_bytes - old_bytes) with
          | some d2 => some { p1 with data := some d2 }
          | none => none

/-- The method `ArrayBuilder::Reserve` run on a `PrimitiveBuilder` (the virtual
`Resize` is `PrimitiveBuilder<T>::Resize`). -/
def PrimitiveBuilder.Reserve (p : PrimitiveBuilder) (elements : Nat) : Option PrimitiveBuilder :=
  if p.base.length + elements > p.base.capacity then
    p.Resize (NextPower2 (p.base.length + elements))
  else some p

/-- The method `PrimitiveBuilder<T>::Append(values, length, valid_bytes)`;
`values` is the input array as raw bytes. -/
def PrimitiveBuilder.Append (p : PrimitiveBuilder) (values : List Nat) (length : Nat)
    (valid_bytes : Option (List Nat)) : Option PrimitiveBuilder :=
  match p.Reserve length with
  | none => none
  | some p1 =>
    let copied : Option (Option (List Nat)) :=
      if length > 0 then
        match p1.data with
        | none => none
        | some d =>
          match memcpy d (p1.base.length * p1.width) values (bytes_required p1.width length) with
          | some d1 => some (some d1)
          | none => none
      else some p1.data
    match copied with
    | none => none
    | some data1 =>
      match p1.base.UnsafeAppendToBitmapBulk valid_bytes length with
      | some b1 => some { p1 with base := b1, data := data1 }
      | none => none

/-- The array `PrimitiveBuilder<T>::Finish` constructs:
`(type_, length_, data_, null_bitmap_, null_count_)`. -/
structure PrimitiveArray where
  length : Nat
  data : Option (List Nat)
  null_bitmap : Option (List Nat)
  null_count : Nat
  width : Nat
deriving DecidableEq

/-- The method `PrimitiveBuilder<T>::Finish`. -/
def PrimitiveBuilder.Finish (p : PrimitiveBuilder) : Option (PrimitiveArray × PrimitiveBuilder) :=
  let bytes := bytes_required p.width p.base.length
  let trimmed : Option (Option (List Nat)) :=
    match p.data with
    | none => if bytes > 0 then none else some none
    | some d =>
      if bytes > 0 ∧ bytes < d.length then some (some (PoolBuffer.Resize d bytes))
      else some (some d)
  match trimmed with
  | none => none
  | some data1 =>
    some ({ length := p.base.length, data := data1, null_bitmap := p.base.null_bitmap,
            null_count := p.base.null_count, width := p.width },
          { p with data := none,
                   base := { null_bitmap := none, null_count := 0, length := 0, capacity := 0 } })

/-- The bytes of element `i` of the value buffer. -/
def PrimitiveBuilder.GetValue (p : PrimitiveBuilder) (i : Nat) : List Nat :=
  match p.data with
  | some d => (d.drop (i * p.width)).take p.width
  | none => []

/-- The state invariant of a primitive builder (the spec's Builder State):
`length ≤ capacity`, and once capacity is non-zero both buffers exist and are
sized for `capacity` elements. -/
def PrimitiveBuilder.WF (p : PrimitiveBuilder) : Prop :=
  p.base.length ≤ p.base.capacity ∧
    (p.base.capacity ≠ 0 →
      ∃ bm d, p.base.null_bitmap = some bm ∧ p.data = some d ∧
        bm.length = CeilByte p.base.capacity / 8 ∧
        d.length = bytes_required p.width p.base.capacity)

/-- A primitive builder in mid-use: one-byte elements, capacity 8, three
elements appended (the second one null). -/
def PrimitiveBuilder.sample : PrimitiveBuilder :=
  { base := { null_bitmap := some [5], null_count := 1, length := 3, capacity := 8 },
    data := some [1, 2, 3, 0, 0, 0, 0, 0], width := 1 }

/-! ## Fixed-width integers in buffers -/

/-- The `w` little-endian bytes of the unsigned value `x` (truncated to `w` bytes). -/
def toBytesLE : Nat → Nat → List Nat
  | 0, _ => []
  | w + 1, x => x % 256 :: toBytesLE w (x / 256)

/-- The unsigned value of little-endian bytes. -/
def fromBytesLE : List Nat → Nat
  | [] => 0
  | b :: bs => b + 256 * fromBytesLE bs

/-- The bytes `[off, off + w)` of a buffer; `none` when they leave the buffer. -/
def readBytes (buf : List Nat) (off w : Nat) : Option (List Nat) :=
  if off + w ≤ buf.length then some ((buf.drop off).take w) else none

/-- Store `bs` at byte offset `off`; `none` when the range leaves the buffer. -/
def writeBytes (buf : List Nat) (off : Nat) (bs : List Nat) : Option (List Nat) :=
  if off + bs.length ≤ buf.length then
    some (buf.take off ++ bs ++ buf.drop (off + bs.length))
  else none

/-- The two's-complement reading of a `w`-byte pattern `u`. -/
def toSigned (w u : Nat) : Int :=
  if u < 2 ^ (8 * w - 1) then (u : Int) else (u : Int) - 2 ^ (8 * w)

/-- The `w`-byte two's-complement pattern of `x`: `static_cast` to the signed
type of `w` bytes. -/
def ofSigned (w : Nat) (x : Int) : Nat := (x % 2 ^ (8 * w)).toNat

/-- Element `i` of a buffer viewed as an array of signed `w`-byte integers
(`reinterpret_cast<const intN_t*>(data)[i]`, little-endian host). -/
def loadInt (w : Nat) (buf : List Nat) (i : Nat) : Option Int :=
  match readBytes buf (i * w) w with
  | some bs => some (toSigned w (fromBytesLE bs))
  | none => none

/-- Store `x`, cast to the signed `w`-byte type, as element `i` of a buffer
viewed as an array of `w`-byte integers. -/
def storeInt (w : Nat) (buf : List Nat) (i : Nat) (x : Int) : Option (List Nat) :=
  writeBytes buf (i * w) (toBytesLE w (ofSigned w x))

/-! ## BufferBuilder -/

/-- Modelled from the spec: `BufferBuilder` of buffer.h (not part of the
sources), the growable byte buffer "consumed via allocate/resize/shrink
operations": `bytes` are the `size_` bytes written so far, `capacity` the
allocated size. -/
structure BufferBuilder where
  bytes : List Nat
  capacity : Nat
deriving DecidableEq

/-- Modelled from the spec: a new `BufferBuilder`, empty. -/
def BufferBuilder.fresh : BufferBuilder := { bytes := [], capacity := 0 }

/-- Modelled from the spec: `BufferBuilder::Resize(elements)`, a change of the
allocated size that keeps the bytes that still fit. -/
def BufferBuilder.Resize (bb : BufferBuilder) (elements : Nat) : BufferBuilder :=
  if elements = 0 then bb else { bytes := bb.bytes.take elements, capacity := elements }

/-- Modelled from the spec: `BufferBuilder::Append(data, length)`, growing on
demand and copying the bytes to the end. -/
def BufferBuilder.Append (bb : BufferBuilder) (data : List Nat) : BufferBuilder :=
  { bytes := bb.bytes ++ data, capacity := max bb.capacity (bb.bytes.length + data.length) }

/-- Modelled from the spec: `BufferBuilder::Append<T>(value)` for an integer
type of `w` bytes: the `sizeof(T)` bytes of the value. -/
def BufferBuilder.AppendInt (bb : BufferBuilder) (w : Nat) (x : Int) : BufferBuilder :=
  bb.Append (toBytesLE w (ofSigned w x))

/-- Modelled from the spec: `BufferBuilder::Advance(length)`, which moves the
end over `length` zeroed bytes. -/
def BufferBuilder.Advance (bb : BufferBuilder) (length : Nat) : BufferBuilder :=
  bb.Append (List.replicate length 0)

/-- Modelled from the spec: `BufferBuilder::Finish()`, which hands over the
written bytes and leaves the builder empty. -/
def BufferBuilder.Finish (bb : BufferBuilder) : List Nat × BufferBuilder :=
  (bb.bytes, BufferBuilder.fresh)

/-! ## FixedSizeBinaryBuilder and DecimalBuilder -/

/-- The data members of `FixedSizeBinaryBuilder`. -/
structure FixedSizeBinaryBuilder where
  base : ArrayBuilder
  byte_width : Nat
  byte_builder : BufferBuilder
deriving DecidableEq

/-- A freshly constructed `FixedSizeBinaryBuilder` for records of `byte_width` bytes. -/
def FixedSizeBinaryBuilder.fresh (byte_width : Nat) : FixedSizeBinaryBuilder :=
  { base := ArrayBuilder.fresh, byte_width := byte_width, byte_builder := BufferBuilder.fresh }

/-- The method `FixedSizeBinaryBuilder::Init(elements)`. -/
def FixedSizeBinaryBuilder.Init (f : FixedSizeBinaryBuilder) (elements : Nat) :
    Option FixedSizeBinaryBuilder :=
  match f.base.Init elements with
  | none => none
  | some b1 =>
    some { f with base := b1, byte_builder := f.byte_builder.Resize (elements * f.byte_width) }

/-- The method `ArrayBuilder::Resize` run on a `FixedSizeBinaryBuilder`: with no
bitmap the virtual `Init` is `FixedSizeBinaryBuilder::Init`. -/
def FixedSizeBinaryBuilder.ArrayBuilder_Resize (f : FixedSizeBinaryBuilder) (new_bits : Nat) :
    Option FixedSizeBinaryBuilder :=
  match f.base.null_bitmap with
  | none => f.Init new_bits
  | some bm =>
    match f.base.ResizeBitmap bm new_bits with
    | some b1 => some { f with base := b1 }
    | none => none

/-- The method `FixedSizeBinaryBuilder::Resize(capacity)`. -/
def FixedSizeBinaryBuilder.Resize (f : FixedSizeBinaryBuilder) (capacity : Nat) :
    Option FixedSizeBinaryBuilder :=
  let f1 := { f with byte_builder := f.byte_builder.Resize (capacity * f.byte_width) }
  f1.ArrayBuilder_Resize capacity

/-- The method `ArrayBuilder::Reserve` run on a `FixedSizeBinaryBuilder`. -/
def FixedSizeBinaryBuilder.Reserve (f : FixedSizeBinaryBuilder) (elements : Nat) :
    Option FixedSizeBinaryBuilder :=
  if f.base.length + elements > f.base.capacity then
    f.Resize (NextPower2 (f.base.length + elements))
  else some f

/-- The method `FixedSizeBinaryBuilder::Append(const uint8_t* value)`; `value`
holds the `byte_width_` bytes read from the pointer. -/
def FixedSizeBinaryBuilder.Append (f : FixedSizeBinaryBuilder) (value : List Nat) :
    Option FixedSizeBinaryBuilder :=
  match f.Reserve 1 with
  | none => none
  | some f1 =>
    match f1.base.UnsafeAppendToBitmap true with
    | none => none
    | some b1 =>
      some { f1 with base := b1, byte_builder := f1.byte_builder.Append (value.take f1.byte_width) }

/-- The array `FixedSizeBinaryBuilder::Finish` and `DecimalBuilder::Finish`
construct; `sign_bitmap` is present for `DecimalArray` only. -/
structure FixedSizeBinaryArray where
  length : Nat
  data : List Nat
  null_bitmap : Option (List Nat)
  null_count : Nat
  sign_bitmap : Option (List Nat)
deriving DecidableEq

/-- The method `FixedSizeBinaryBuilder::Finish`: the produced array and the
builder as the method leaves it. -/
def FixedSizeBinaryBuilder.Finish (f : FixedSizeBinaryBuilder) :
    FixedSizeBinaryArray × FixedSizeBinaryBuilder :=
  let r := f.byte_builder.Finish
  ({ length := f.base.length, data := r.1, null_bitmap := f.base.null_bitmap,
     null_count := f.base.null_count, sign_bitmap := none },
   { f with byte_builder := r.2 })

/-- The data members of `DecimalBuilder`: a `FixedSizeBinaryBuilder` and the
sign bitmap (`sign_bitmap_data_` is its data pointer). -/
structure DecimalBuilder where
  fsb : FixedSizeBinaryBuilder
  sign_bitmap : Option (List Nat)
deriving DecidableEq

/-- A freshly constructed `DecimalBuilder` for a decimal type of `byte_width` bytes. -/
def DecimalBuilder.fresh (byte_width : Nat) : DecimalBuilder :=
  { fsb := FixedSizeBinaryBuilder.fresh byte_width, sign_bitmap := none }

/-- The method `DecimalBuilder::Init(capacity)`. The inner call
`FixedSizeBinaryBuilder::Init` is qualified, so it is the base-class body. -/
def DecimalBuilder.Init (d : DecimalBuilder) (capacity : Nat) : Option DecimalBuilder :=
  match d.fsb.Init capacity with
  | none => none
  | some f1 =>
    if f1.byte_width = 16 then
      match f1.base.null_bitmap with
      | none => none
      | some bm =>
        let sb := PoolBuffer.Resize [] bm.length
        match memset sb 0 0 sb.length with
        | some sb1 => some { fsb := f1, sign_bitmap := some sb1 }
        | none => none
    else some { d with fsb := f1 }

/-- The method `ArrayBuilder::Resize` run on a `DecimalBuilder`: with no bitmap
the virtual `Init` is `DecimalBuilder::Init`. -/
def DecimalBuilder.ArrayBuilder_Resize (d : DecimalBuilder) (new_bits : Nat) :
    Option DecimalBuilder :=
  match d.fsb.base.null_bitmap with
  | none => d.Init new_bits
  | some bm =>
    match d.fsb.base.ResizeBitmap bm new_bits with
    | some b1 => some { d with fsb := { d.fsb with base := b1 } }
    | none => none

/-- The method `FixedSizeBinaryBuilder::Resize` run on a `DecimalBuilder`. -/
def DecimalBuilder.FixedSizeBinaryBuilder_Resize (d : DecimalBuilder) (capacity : Nat) :
    Option DecimalBuilder :=
  let d1 : DecimalBuilder :=
    { d with fsb := { d.fsb with
        byte_builder := d.fsb.byte_builder.Resize (capacity * d.fsb.byte_width) } }
  d1.ArrayBuilder_Resize capacity

/-- The method `DecimalBuilder::Resize(capacity)`. -/
def DecimalBuilder.Resize (d : DecimalBuilder) (capacity : Nat) : Option DecimalBuilder :=
  let old_bytes :=
    match d.fsb.base.null_bitmap with
    | some bm => bm.length
    | none => 0
  match d.sign_bitmap with
  | none => d.Init capacity
  | some sb =>
    match d.FixedSizeBinaryBuilder_Resize capacity with
    | none => none
    | some d1 =>
      if d1.fsb.byte_width = 16 then
        match d1.fsb.base.null_bitmap with
        | none => none
        | some bm =>
          let sb1 := PoolBuffer.Resize sb bm.length
          let new_bytes := sb1.length
          if old_bytes < new_bytes then
            match memset sb1 old_bytes 0 (sb1.length - old_bytes) with
            | some sb2 => some { d1 with sign_bitmap := some sb2 }
            | none => none
          else some { d1 with sign_bitmap := some sb1 }
      else some d1

/-- The method `ArrayBuilder::Reserve` run on a `DecimalBuilder` (the virtual
`Resize` is `DecimalBuilder::Resize`). -/
def DecimalBuilder.Reserve (d : DecimalBuilder) (elements : Nat) : Option DecimalBuilder :=
  if d.fsb.base.length + elements > d.fsb.base.capacity then
    d.Resize (NextPower2 (d.fsb.base.length + elements))
  else some d

/-- The method `FixedSizeBinaryBuilder::Append(const uint8_t*)` run on a
`DecimalBuilder`. -/
def DecimalBuilder.FixedSizeBinaryBuilder_Append (d : DecimalBuilder) (value : List Nat) :
    Option DecimalBuilder :=
  match d.Reserve 1 with
  | none => none
  | some d1 =>
    match d1.fsb.base.UnsafeAppendToBitmap true with
    | none => none
    | some b1 =>
      some { d1 with fsb := { d1.fsb with
        base := b1,
        byte_builder := d1.fsb.byte_builder.Append (value.take d1.fsb.byte_width) } }

/-- The method `DecimalBuilder::Append(const decimal::Decimal<T>&)` for the 32-
and 64-bit decimals; `value` holds the bytes of `val.value`. -/
def DecimalBuilder.Append (d : DecimalBuilder) (value : List Nat) : Option DecimalBuilder :=
  match d.Reserve 1 with
  | none => none
  | some d1 => d1.FixedSizeBinaryBuilder_Append value

/-- The method `DecimalBuilder::Finish`: the produced array and the builder as
the method leaves it. -/
def DecimalBuilder.Finish (d : DecimalBuilder) : FixedSizeBinaryArray × DecimalBuilder :=
  let r := d.fsb.byte_builder.Finish
  ({ length := d.fsb.base.length, data := r.1, null_bitmap := d.fsb.base.null_bitmap,
     null_count := d.fsb.base.null_count, sign_bitmap := d.sign_bitmap },
   { d with fsb := { d.fsb with byte_builder := r.2 } })

/-! ## ListBuilder and BinaryBuilder -/

/-- The data members of `ListBuilder`. The child `value_builder_` is taken to be
a primitive builder, as it is for the Binary and String builders (`ListBuilder`
uses only its `length()` and `Finish`); `values` is the pre-built child array of
the second constructor. -/
structure ListBuilder where
  base : ArrayBuilder
  offset_builder : BufferBuilder
  value_builder : Option PrimitiveBuilder
  values : Option PrimitiveArray
deriving DecidableEq

/-- The method `ListBuilder::Init(elements)`. -/
def ListBuilder.Init (l : ListBuilder) (elements : Nat) : Option ListBuilder :=
  match l.base.Init elements with
  | none => none
  | some b1 =>
    some { l with base := b1, offset_builder := l.offset_builder.Resize ((elements + 1) * 8) }

/-- The method `ArrayBuilder::Resize` run on a `ListBuilder`: with no bitmap the
virtual `Init` is `ListBuilder::Init`. -/
def ListBuilder.ArrayBuilder_Resize (l : ListBuilder) (new_bits : Nat) : Option ListBuilder :=
  match l.base.null_bitmap with
  | none => l.Init new_bits
  | some bm =>
    match l.base.ResizeBitmap bm new_bits with
    | some b1 => some { l with base := b1 }
    | none => none

/-- The method `ListBuilder::Resize(capacity)`. -/
def ListBuilder.Resize (l : ListBuilder) (capacity : Nat) : Option ListBuilder :=
  let l1 := { l with offset_builder := l.offset_builder.Resize ((capacity + 1) * 8) }
  l1.ArrayBuilder_Resize capacity

/-- The method `ArrayBuilder::Reserve` run on a `ListBuilder`. -/
def ListBuilder.Reserve (l : ListBuilder) (elements : Nat) : Option ListBuilder :=
  if l.base.length + elements > l.base.capacity then
    l.Resize (NextPower2 (l.base.length + elements))
  else some l

/-- The method `ListBuilder::Append(bool is_valid)`: the child's current length
is appended as an `int32_t` offset. -/
def ListBuilder.Append (l : ListBuilder) (is_valid : Bool) : Option ListBuilder :=
  match l.Reserve 1 with
  | none => none
  | some l1 =>
    match l1.base.UnsafeAppendToBitmap is_valid with
    | none => none
    | some b1 =>
      match l1.value_builder with
      | none => none
      | some vb =>
        some { l1 with base := b1,
                       offset_builder := l1.offset_builder.AppendInt 4 (vb.base.length : Int) }

/-- The array `ListBuilder::Finish` constructs:
`(type_, length_, offsets, items, null_bitmap_, null_count_)`. -/
structure ListArray where
  length : Nat
  offsets : List Nat
  items : PrimitiveArray
  null_bitmap : Option (List Nat)
  null_count : Nat
deriving DecidableEq

/-- The method `ListBuilder::Reset`. -/
def ListBuilder.Reset (l : ListBuilder) : ListBuilder :=
  { l with base := { l.base with capacity := 0, length := 0, null_count := 0, null_bitmap := none } }

/-- The method `ListBuilder::Finish`: the closing offset is appended with
`offset_builder_.Append<int64_t>(items->length())`. -/
def ListBuilder.Finish (l : ListBuilder) : Option (ListArray × ListBuilder) :=
  let finished : Option (PrimitiveArray × Option PrimitiveBuilder) :=
    match l.values with
    | some items => some (items, l.value_builder)
    | none =>
      match l.value_builder with
      | none => none
      | some vb =>
        match vb.Finish with
        | some (items, vb1) => some (items, some vb1)
        | none => none
  match finished with
  | none => none
  | some (items, vb1) =>
    let ob1 := l.offset_builder.AppendInt 8 (items.length : Int)
    let r := ob1.Finish
    some ({ length := l.base.length, offsets := r.1, items := items,
            null_bitmap := l.base.null_bitmap, null_count := l.base.null_count },
          ListBuilder.Reset { l with offset_builder := r.2, value_builder := vb1 })

/-- A freshly constructed `BinaryBuilder` (or `StringBuilder`): a `ListBuilder`
over a `UInt8Builder` child, which `byte_builder_` also points to. -/
def BinaryBuilder.fresh : ListBuilder :=
  { base := ArrayBuilder.fresh, offset_builder := BufferBuilder.fresh,
    value_builder := some (PrimitiveBuilder.fresh 1), values := none }

/-- Modelled from the spec: `BinaryBuilder::Append(value, length)` of builder.h
(not part of the sources): the element boundary is recorded with
`ListBuilder::Append(true)`, then the bytes go to the child byte builder with
`byte_builder_->Append(value, length)` (no validity array). -/
def BinaryBuilder.Append (l : ListBuilder) (value : List Nat) : Option ListBuilder :=
  match l.Append true with
  | none => none
  | some l1 =>
    match l1.value_builder with
    | none => none
    | some vb =>
      match vb.Append value value.length none with
      | some vb1 => some { l1 with value_builder := some vb1 }
      | none => none

/-- Modelled from the spec: `BinaryBuilder::AppendNull()` of builder.h (not part
of the sources): `ListBuilder::Append(false)`. -/
def BinaryBuilder.AppendNull (l : ListBuilder) : Option ListBuilder := l.Append false

/-- The method `BinaryBuilder::GetValue(i, &out_length)`: the start offset of
the returned pointer within the child's bytes, and `out_length`. -/
def BinaryBuilder.GetValue (l : ListBuilder) (i : Nat) : Option (Int × Int) :=
  match loadInt 4 l.offset_builder.bytes i with
  | none => none
  | some offset =>
    if i + 1 = l.base.length then
      match l.value_builder with
      | none => none
      | some vb => some (offset, toSigned 4 (ofSigned 4 (vb.base.length : Int)) - offset)
    else
      match loadInt 4 l.offset_builder.bytes (i + 1) with
      | none => none
      | some next => some (offset, next - offset)

/-- One step of a Binary/String builder session: a value or a null. -/
def BinaryBuilder.step (l : ListBuilder) (op : Option (List Nat)) : Option ListBuilder :=
  match op with
  | some value => BinaryBuilder.Append l value
  | none => BinaryBuilder.AppendNull l

/-- A session: the appends of `ops` in order, starting from `l`. -/
def BinaryBuilder.run : ListBuilder → List (Option (List Nat)) → Option ListBuilder
  | l, [] => some l
  | l, op :: ops =>
    match BinaryBuilder.step l op with
    | some l1 => BinaryBuilder.run l1 ops
    | none => none

/-- The byte length of an appended element (0 for a null). -/
def BinaryBuilder.opLength (op : Option (List Nat)) : Nat :=
  match op with
  | some value => value.length
  | none => 0

/-- The total byte length of a sequence of appended elements. -/
def BinaryBuilder.totalLength (ops : List (Option (List Nat))) : Nat :=
  (ops.map BinaryBuilder.opLength).sum

/-- The bytes of all appended elements, in order (nothing for a null). -/
def BinaryBuilder.allBytes : List (Option (List Nat)) → List Nat
  | [] => []
  | op :: ops => op.getD [] ++ BinaryBuilder.allBytes ops

/-- The relation between a Binary/String builder and the session `ops` that
produced it: the child holds the bytes of all elements, the offsets buffer
holds one 32-bit offset per element (the byte length of the elements before
it), and the validity bits mirror the session. -/
def BinaryBuilder.Inv (l : ListBuilder) (ops : List (Option (List Nat))) : Prop :=
  l.values = none ∧
  (∃ vb, l.value_builder = some vb ∧ vb.WF ∧ vb.width = 1 ∧
    vb.base.length = BinaryBuilder.totalLength ops ∧
    (vb.data.getD []).take (BinaryBuilder.totalLength ops) = BinaryBuilder.allBytes ops) ∧
  l.offset_builder.bytes.length = 4 * ops.length ∧
  (∀ i, i < ops.length →
    loadInt 4 l.offset_builder.bytes i = some (BinaryBuilder.totalLength (ops.take i) : Int)) ∧
  l.base.length = ops.length ∧ l.base.length ≤ l.base.capacity ∧
  (match l.base.null_bitmap with
    | none => l.base.capacity = 0
    | some bm => bm.length = CeilByte l.base.capacity / 8) ∧
  (∀ i, l.base.IsValid i = (ops.getD i none).isSome)

/-! ## DictionaryBuilder -/

/-- The hash-table constants of `DictionaryBuilder`, declared in builder.h (not
part of the sources) and therefore parameters here: the initial table size, the
empty-slot marker, and the maximum load `kMaxHashTableLoad` as the fraction
`loadNum / loadDen`, so that `length > size * kMaxHashTableLoad` reads
`length * loadDen > size * loadNum`. -/
structure HashConsts where
  kInitialHashTableSize : Nat
  kHashSlotEmpty : Nat
  loadNum : Nat
  loadDen : Nat
deriving DecidableEq

/-- The value-kind specific parts of `DictionaryBuilder<T>`: `HashValue` (its
result taken as a bit pattern, which is all that `& mod_bitmask_` uses) and the
comparison `different other value` that `SlotDifferent` applies to the stored
dictionary value `other` and the probe `value`. -/
structure DictKind (α : Type) where
  HashValue : α → Nat
  different : α → α → Bool

/-- The libc call `memcmp(a, b, n) == 0` on byte strings that hold at least the
bytes compared. -/
def memcmpEq (a b : List Nat) (n : Nat) : Bool := a.take n == b.take n

/-- The binary specialization (`BINARY_DICTIONARY_SPECIALIZATIONS`): values are
byte strings (`WrappedBinary`), `HashValue` hashes the bytes with any function
`hash`, and `SlotDifferent` is
`!(other_length == value.length_ && 0 == memcmp(other_value, value.ptr_, value.length_))`. -/
def binaryKind (hash : List Nat → Nat) : DictKind (List Nat) :=
  { HashValue := hash,
    different := fun other value =>
      !(other.length == value.length && memcmpEq other value value.length) }

/-- The generic kind of `DictionaryBuilder<T>` for a scalar type with decidable
equality: `SlotDifferent` is `other != value`. -/
def scalarKind {α : Type} [DecidableEq α] (hash : α → Nat) : DictKind α :=
  { HashValue := hash, different := fun other value => decide (other ≠ value) }

/-- The data members of `DictionaryBuilder<T>`. `hash_slots` is the table
`hash_table_` viewed as `int32_t` slots. The nested builders are held by their
contents: `dict_builder` is the sequence of values appended to `dict_builder_`,
`values_builder` the sequence of indices appended to `values_builder_` (`none`
for a null); their single-element appends are declared in builder.h. -/
structure DictionaryBuilder (α : Type) where
  base : ArrayBuilder
  hash_slots : List Nat
  hash_table_size : Nat
  mod_bitmask : Nat
  dict_builder : List α
  values_builder : List (Option Nat)
deriving DecidableEq

/-- A freshly constructed `DictionaryBuilder<T>`: an empty hash table buffer and
empty nested builders. -/
def DictionaryBuilder.fresh (α : Type) : DictionaryBuilder α :=
  { base := ArrayBuilder.fresh, hash_slots := [], hash_table_size := 0, mod_bitmask := 0,
    dict_builder := [], values_builder := [] }

/-- The method `DictionaryBuilder<T>::Init(elements)`. Its last statement,
`return values_builder_.Init(elements)`, is `AdaptiveIntBuilderBase::Init` on
the index builder: it replaces the null bitmap and the data of the index builder
by zeroed buffers and leaves its `length_`, so that every index appended before
reads as a null afterwards. -/
def DictionaryBuilder.Init {α : Type} (c : HashConsts) (d : DictionaryBuilder α)
    (elements : Nat) : Option (DictionaryBuilder α) :=
  match d.base.Init elements with
  | none => none
  | some b1 =>
    some { d with base := b1,
                  hash_slots := List.replicate c.kInitialHashTableSize c.kHashSlotEmpty,
                  hash_table_size := c.kInitialHashTableSize,
                  mod_bitmask := c.kInitialHashTableSize - 1,
                  values_builder := d.values_builder.map (fun _ => none) }

/-- The method `ArrayBuilder::Resize` run on a `DictionaryBuilder`: with no
bitmap the virtual `Init` is `DictionaryBuilder<T>::Init`. -/
def DictionaryBuilder.ArrayBuilder_Resize {α : Type} (c : HashConsts) (d : DictionaryBuilder α)
    (new_bits : Nat) : Option (DictionaryBuilder α) :=
  match d.base.null_bitmap with
  | none => d.Init c new_bits
  | some bm =>
    match d.base.ResizeBitmap bm new_bits with
    | some b1 => some { d with base := b1 }
    | none => none

/-- The method `DictionaryBuilder<T>::Resize(capacity)`. -/
def DictionaryBuilder.Resize {α : Type} (c : HashConsts) (d : DictionaryBuilder α)
    (capacity0 : Nat) : Option (DictionaryBuilder α) :=
  let capacity := if capacity0 < kMinBuilderCapacity then kMinBuilderCapacity else capacity0
  if d.base.capacity = 0 then d.Init c capacity
  else d.ArrayBuilder_Resize c capacity

/-- The method `ArrayBuilder::Reserve` run on a `DictionaryBuilder`. -/
def DictionaryBuilder.Reserve {α : Type} (c : HashConsts) (d : DictionaryBuilder α)
    (elements : Nat) : Option (DictionaryBuilder α) :=
  if d.base.length + elements > d.base.capacity then
    d.Resize c (NextPower2 (d.base.length + elements))
  else some d

/-- The method `GetDictionaryValue(index)`: element `index` of the dictionary
builder's data; `none` when there is no such element. -/
def GetDictionaryValue {α : Type} (dict : List α) (index : Nat) : Option α := dict[index]?

/-- The method `SlotDifferent(index, value)`. -/
def SlotDifferent {α : Type} (k : DictKind α) (dict : List α) (index : Nat) (value : α) :
    Option Bool :=
  match GetDictionaryValue dict index with
  | some other => some (k.different other value)
  | none => none

/-- The probe step `++j; if (j == size) { j = 0; }`. -/
def wrapNext (size j : Nat) : Nat := if j + 1 = size then 0 else j + 1

/-- What the probe loop finds at one slot. -/
inductive ProbeStep where
  | stop (j index : Nat)
  | next
  | fault
deriving DecidableEq

/-- One evaluation of `index = slots[j]` and of the loop condition
`kHashSlotEmpty != index && SlotDifferent(index, value)`: `stop` when the
condition is false, `next` when it is true, `fault` when the slot or the
dictionary value read leaves its buffer. -/
def probeAt {α : Type} (c : HashConsts) (k : DictKind α) (dict : List α) (slots : List Nat)
    (value : α) (j : Nat) : ProbeStep :=
  match slots[j]? with
  | none => ProbeStep.fault
  | some index =>
    if index = c.kHashSlotEmpty then ProbeStep.stop j index
    else
      match SlotDifferent k dict index value with
      | none => ProbeStep.fault
      | some false => ProbeStep.stop j index
      | some true => ProbeStep.next

/-- The linear probe shared by `Append` and `DoubleTableSize`:
`index = slots[j]; while (kHashSlotEmpty != index && SlotDifferent(index, value))
{ ++j; if (j == size) j = 0; index = slots[j]; }`, returning the final `j` and
`index`. `fuel` bounds the number of loop iterations; the result is `none` when
it runs out or when a read leaves its buffer. -/
def probe {α : Type} (c : HashConsts) (k : DictKind α) (dict : List α) (slots : List Nat)
    (size : Nat) (value : α) : Nat → Nat → Option (Nat × Nat)
  | 0, j =>
    match probeAt c k dict slots value j with
    | ProbeStep.stop j1 index => some (j1, index)
    | ProbeStep.next => none
    | ProbeStep.fault => none
  | fuel + 1, j =>
    match probeAt c k dict slots value j with
    | ProbeStep.stop j1 index => some (j1, index)
    | ProbeStep.next => probe c k dict slots size value fuel (wrapNext size j)
    | ProbeStep.fault => none

/-- The loop of `DoubleTableSize` over the old slots that are still to be
moved; `new_slots` is the table being filled. -/
def rehashLoop {α : Type} (c : HashConsts) (k : DictKind α) (dict : List α) (new_size : Nat) :
    List Nat → List Nat → Option (List Nat)
  | [], new_slots => some new_slots
  | index :: rest, new_slots =>
    if index = c.kHashSlotEmpty then rehashLoop c k dict new_size rest new_slots
    else
      match GetDictionaryValue dict index with
      | none => none
      | some value =>
        match probe c k dict new_slots new_size value new_size
            (k.HashValue value &&& (new_size - 1)) with
        | none => none
        | some (j, _) =>
          if j < new_slots.length then
            rehashLoop c k dict new_size rest (new_slots.set j index)
          else none

/-- The method `DictionaryBuilder<T>::DoubleTableSize()`. The loop reads the
old slots `0 .. hash_table_size_ - 1`; a table shorter than that is a read
outside the buffer. -/
def DictionaryBuilder.DoubleTableSize {α : Type} (c : HashConsts) (k : DictKind α)
    (d : DictionaryBuilder α) : Option (DictionaryBuilder α) :=
  let new_size := d.hash_table_size * 2
  let new_hash_slots := List.replicate new_size c.kHashSlotEmpty
  if d.hash_slots.length < d.hash_table_size then none
  else
    match rehashLoop c k d.dict_builder new_size (d.hash_slots.take d.hash_table_size)
        new_hash_slots with
    | none => none
    | some slots1 =>
      some { d with hash_slots := slots1, hash_table_size := new_size,
                    mod_bitmask := new_size - 1 }

/-- The method `DictionaryBuilder<T>::Append(value)`. -/
def DictionaryBuilder.Append {α : Type} (c : HashConsts) (k : DictKind α)
    (d : DictionaryBuilder α) (value : α) : Option (DictionaryBuilder α) :=
  match d.Reserve c 1 with
  | none => none
  | some d1 =>
    match probe c k d1.dict_builder d1.hash_slots d1.hash_table_size value d1.hash_table_size
        (k.HashValue value &&& d1.mod_bitmask) with
    | none => none
    | some (j, index) =>
      if index = c.kHashSlotEmpty then
        let index1 := d1.dict_builder.length
        if j < d1.hash_slots.length then
          let d2 := { d1 with hash_slots := d1.hash_slots.set j index1,
                              dict_builder := d1.dict_builder ++ [value] }
          let grown : Option (DictionaryBuilder α) :=
            if d2.dict_builder.length * c.loadDen > d2.hash_table_size * c.loadNum then
              d2.DoubleTableSize c k
            else some d2
          match grown with
          | none => none
          | some d3 => some { d3 with values_builder := d3.values_builder ++ [some index1] }
        else none
      else some { d1 with values_builder := d1.values_builder ++ [some index] }

/-- The method `DictionaryBuilder<T>::AppendNull()`. -/
def DictionaryBuilder.AppendNull {α : Type} (d : DictionaryBuilder α) :
    Option (DictionaryBuilder α) :=
  some { d with values_builder := d.values_builder ++ [none] }

/-- The method `DictionaryBuilder<T>::Finish`: the dictionary and the indices
handed to the `DictionaryArray`, and the builder as the method leaves it (both
nested builders finished, nothing else touched). -/
def DictionaryBuilder.Finish {α : Type} (d : DictionaryBuilder α) :
    (List α × List (Option Nat)) × DictionaryBuilder α :=
  ((d.dict_builder, d.values_builder), { d with dict_builder := [], values_builder := [] })

/-- A run of `Append` calls over `values`, in order. -/
def DictionaryBuilder.appendAll {α : Type} (c : HashConsts) (k : DictKind α) :
    DictionaryBuilder α → List α → Option (DictionaryBuilder α)
  | d, [] => some d
  | d, v :: vs =>
    match d.Append c k v with
    | some d1 => DictionaryBuilder.appendAll c k d1 vs
    | none => none

/-- The dictionary the spec prescribes after one more value: unchanged when the
value is already present, else extended at the end. -/
def insertNew {α : Type} [DecidableEq α] (acc : List α) (v : α) : List α :=
  if v ∈ acc then acc else acc ++ [v]

/-- The upstream constants: 1024 initial slots, `INT32_MAX` as the empty marker
and a maximum load of 0.7. -/
def HashConsts.upstream : HashConsts :=
  { kInitialHashTableSize := 1024, kHashSlotEmpty := 2147483647, loadNum := 7, loadDen := 10 }

/-- A hash function for examples: the sum of the bytes. -/
def byteSum (value : List Nat) : Nat := value.sum

/-- Slot `s` of a table holds a dictionary index (it is not the empty marker). -/
def Occupied (c : HashConsts) (slots : List Nat) (s : Nat) : Prop :=
  ∃ x, slots[s]? = some x ∧ x ≠ c.kHashSlotEmpty

/-- Index `i` is reachable by the linear probe that starts at slot `start`: some
slot `(start + n) % size` holds `i` and every slot before it on the probe
sequence is occupied. -/
def ProbePath (c : HashConsts) (slots : List Nat) (size start i : Nat) : Prop :=
  ∃ n, n < size ∧ slots[(start + n) % size]? = some i ∧
    ∀ (m : Nat), m < n → Occupied c slots ((start + m) % size)

/-- The probe for `value` stops at slot `s`: the slot is empty or holds the
index of a dictionary value that is not different from `value`. -/
def StopsAt {α : Type} (c : HashConsts) (k : DictKind α) (dict : List α) (slots : List Nat)
    (value : α) (s : Nat) : Prop :=
  ∃ x, slots[s]? = some x ∧
    (x = c.kHashSlotEmpty ∨ ∃ u, dict[x]? = some u ∧ k.different u value = false)

/-- The probe for `value` moves on from slot `s`: the slot holds the index of a
dictionary value different from `value`. -/
def ContinuesAt {α : Type} (c : HashConsts) (k : DictKind α) (dict : List α) (slots : List Nat)
    (value : α) (s : Nat) : Prop :=
  ∃ x u, slots[s]? = some x ∧ x ≠ c.kHashSlotEmpty ∧ dict[x]? = some u ∧
    k.different u value = true

/-- A table of `size` slots whose occupied slots hold indices of `dict`. -/
def TableGood {α : Type} (c : HashConsts) (dict : List α) (slots : List Nat) (size : Nat) : Prop :=
  slots.length = size ∧
    ∀ (s x : Nat), slots[s]? = some x → x ≠ c.kHashSlotEmpty → x < dict.length

/-- The state invariant of an initialised dictionary builder: capacity is
reserved, the table is good, the probe mask is below the table size, the
dictionary has no duplicates and fewer entries than the table has slots, at
most `dict.length` slots are occupied, no index equals the empty marker, and
every dictionary index is reachable by the probe that starts at its value's
hash position. -/
def DictionaryBuilder.Inv {α : Type} (c : HashConsts) (k : DictKind α)
    (d : DictionaryBuilder α) : Prop :=
  d.base.length + 1 ≤ d.base.capacity ∧
  TableGood c d.dict_builder d.hash_slots d.hash_table_size ∧
  d.mod_bitmask + 1 = d.hash_table_size ∧
  d.dict_builder.Nodup ∧
  d.dict_builder.length < d.hash_table_size ∧
  d.hash_table_size ≤ d.hash_slots.count c.kHashSlotEmpty + d.dict_builder.length ∧
  d.dict_builder.length < c.kHashSlotEmpty ∧
  ∀ (i : Nat) (v : α), d.dict_builder[i]? = some v →
    ProbePath c d.hash_slots d.hash_table_size (k.HashValue v &&& d.mod_bitmask) i

/-- The position of the first occurrence of `v` in a list (its length when `v`
does not occur). -/
def positionOf {α : Type} [DecidableEq α] (v : α) : List α → Nat
  | [] => 0
  | a :: l => if a = v then 0 else positionOf v l + 1

/-! ## AdaptiveIntBuilder -/

/-- The data members of `AdaptiveIntBuilderBase` / `AdaptiveIntBuilder`: the
base builder, the raw buffer `data_` (`raw_data_` is its data pointer) and the
current byte width `int_size_`. -/
structure AdaptiveIntBuilder where
  base : ArrayBuilder
  data : Option (List Nat)
  int_size : Nat
deriving DecidableEq

/-- A freshly constructed `AdaptiveIntBuilder`: no buffers, `int_size_ = 1`. -/
def AdaptiveIntBuilder.fresh : AdaptiveIntBuilder :=
  { base := ArrayBuilder.fresh, data := none, int_size := 1 }

/-- The method `AdaptiveIntBuilderBase::Init(capacity)`. -/
def AdaptiveIntBuilder.Init (a : AdaptiveIntBuilder) (capacity : Nat) :
    Option AdaptiveIntBuilder :=
  match a.base.Init capacity with
  | none => none
  | some b1 =>
    let nbytes := capacity * a.int_size
    let d := PoolBuffer.Resize [] nbytes
    match memset d 0 0 nbytes with
    | some d1 => some { a with base := b1, data := some d1 }
    | none => none

/-- The method `ArrayBuilder::Resize` run on an adaptive builder: with no bitmap
the virtual `Init` is `AdaptiveIntBuilderBase::Init`. -/
def AdaptiveIntBuilder.ArrayBuilder_Resize (a : AdaptiveIntBuilder) (new_bits : Nat) :
    Option AdaptiveIntBuilder :=
  match a.base.null_bitmap with
  | none => a.Init new_bits
  | some bm =>
    match a.base.ResizeBitmap bm new_bits with
    | some b1 => some { a with base := b1 }
    | none => none

/-- The method `AdaptiveIntBuilderBase::Resize(capacity)`. As in
`PrimitiveBuilder<T>::Resize`, a negative `new_bytes - old_bytes` makes the
final `memset` run over the whole address space, which is `none` here. -/
def AdaptiveIntBuilder.Resize (a : AdaptiveIntBuilder) (capacity0 : Nat) :
    Option AdaptiveIntBuilder :=
  let capacity := if capacity0 < kMinBuilderCapacity then kMinBuilderCapacity else capacity0
  if a.base.capacity = 0 then a.Init capacity
  else
    match a.ArrayBuilder_Resize capacity with
    | none => none
    | some a1 =>
      match a1.data with
      | none => none
      | some d =>
        let old_bytes := d.length
        let new_bytes := capacity * a1.int_size
        let d1 := PoolBuffer.Resize d new_bytes
        if new_bytes < old_bytes then none
        else
          match memset d1 old_bytes 0 (new_bytes - old_bytes) with
          | some d2 => some { a1 with data := some d2 }
          | none => none

/-- The method `ArrayBuilder::Reserve` run on an adaptive builder. -/
def AdaptiveIntBuilder.Reserve (a : AdaptiveIntBuilder) (elements : Nat) :
    Option AdaptiveIntBuilder :=
  if a.base.length + elements > a.base.capacity then
    a.Resize (NextPower2 (a.base.length + elements))
  else some a

/-- Modelled from the spec: "the smallest power-of-two byte count whose signed
range contains the value". -/
def minimalIntSize (val : Int) : Nat :=
  if -(2 : Int) ^ 7 ≤ val ∧ val < 2 ^ 7 then 1
  else if -(2 : Int) ^ 15 ≤ val ∧ val < 2 ^ 15 then 2
  else if -(2 : Int) ^ 31 ≤ val ∧ val < 2 ^ 31 then 4
  else 8

/-- Modelled from the spec: `expanded_int_size(val, current_int_size)` of
builder.h (not part of the sources): the minimal width able to represent `val`
and everything already written at the current width. -/
def expanded_int_size (val : Int) (current_int_size : Nat) : Nat :=
  max current_int_size (minimalIntSize val)

/-- The loop of `AdaptiveIntBuilder::Append` that computes `new_int_size` from
the valid entries: `n` iterations are left, `i` is the loop counter. -/
def expandedSizeLoop (values : List Int) (valid_bytes : Option (List Nat)) :
    Nat → Nat → Nat → Option Nat
  | 0, _, new_int_size => some new_int_size
  | n + 1, i, new_int_size =>
    let valid : Option Bool :=
      match valid_bytes with
      | none => some true
      | some vb =>
        match vb[i]? with
        | some b => some (decide (b ≠ 0))
        | none => none
    match valid with
    | none => none
    | some false => expandedSizeLoop values valid_bytes n (i + 1) new_int_size
    | some true =>
      match values[i]? with
      | some val =>
        expandedSizeLoop values valid_bytes n (i + 1) (expanded_int_size val new_int_size)
      | none => none

/-- The call `std::copy_backward(src, src + length_, dst + length_)` of
`ExpandIntSizeInternal`, with `src` and `dst` the same buffer viewed at the old
and at the new width: elements `n - 1, …, 0` are read at `old_size` bytes and
stored at `new_size` bytes, in that order. -/
def copyBackward (old_size new_size : Nat) : Nat → List Nat → Option (List Nat)
  | 0, data => some data
  | n + 1, data =>
    match loadInt old_size data n with
    | none => none
    | some x =>
      match storeInt new_size data n x with
      | none => none
      | some data1 => copyBackward old_size new_size n data1

/-- The method `AdaptiveIntBuilder::ExpandIntSizeInternal<new_type, old_type>()`
with `new_size = sizeof(new_type)` and `old_size = sizeof(old_type)`. -/
def AdaptiveIntBuilder.ExpandIntSizeInternal (a : AdaptiveIntBuilder) (new_size old_size : Nat) :
    Option AdaptiveIntBuilder :=
  if old_size ≥ new_size then some a
  else
    match a.data with
    | none => none
    | some d =>
      let a1 := { a with int_size := new_size }
      match a1.Resize (d.length / old_size) with
      | none => none
      | some a2 =>
        match a2.data with
        | none => none
        | some d2 =>
          match copyBackward old_size new_size a2.base.length d2 with
          | some d3 => some { a2 with data := some d3 }
          | none => none

/-- The method `AdaptiveIntBuilder::ExpandIntSizeN<new_type>()`: the `switch`
on `int_size_`, whose `default` does nothing. -/
def AdaptiveIntBuilder.ExpandIntSizeN (a : AdaptiveIntBuilder) (new_size : Nat) :
    Option AdaptiveIntBuilder :=
  if a.int_size = 1 ∨ a.int_size = 2 ∨ a.int_size = 4 ∨ a.int_size = 8 then
    a.ExpandIntSizeInternal new_size a.int_size
  else some a

/-- The method `AdaptiveIntBuilder::ExpandIntSize(new_int_size)`: the `switch`
on `new_int_size`, whose `default` does nothing. -/
def AdaptiveIntBuilder.ExpandIntSize (a : AdaptiveIntBuilder) (new_int_size : Nat) :
    Option AdaptiveIntBuilder :=
  if new_int_size = 1 ∨ new_int_size = 2 ∨ new_int_size = 4 ∨ new_int_size = 8 then
    a.ExpandIntSizeN new_int_size
  else some a

/-- The stores of `std::transform(values, values + length, data_ptr, cast)`:
each value, cast to the type of `w` bytes, goes to element `i, i + 1, …`. For
`w = 8` this is the `memcpy` of the `int64_t` input. -/
def storeAll (w : Nat) : List Nat → Nat → List Int → Option (List Nat)
  | data, _, [] => some data
  | data, i, x :: xs =>
    match storeInt w data i x with
    | some data1 => storeAll w data1 (i + 1) xs
    | none => none

/-- The first block of `AdaptiveIntBuilder::Append` after `Reserve`: for a
non-empty batch below width 8, compute `new_int_size` over the valid entries
and expand when it differs from `int_size_`. -/
def AdaptiveIntBuilder.expandFor (a : AdaptiveIntBuilder) (values : List Int) (length : Nat)
    (valid_bytes : Option (List Nat)) : Option AdaptiveIntBuilder :=
  if length > 0 ∧ a.int_size < 8 then
    match expandedSizeLoop values valid_bytes length 0 a.int_size with
    | none => none
    | some new_int_size =>
      if new_int_size ≠ a.int_size then a.ExpandIntSize new_int_size else some a
  else some a

/-- The second block of `AdaptiveIntBuilder::Append`: the `memcpy` (width 8) or
the `std::transform` with a cast (widths 1, 2, 4) of all `length` input values
to the elements from `length_` on; any other width stores nothing. The result
is the value buffer afterwards. With no buffer (`raw_data_` null) only an empty
batch can be stored, and reading past the input is no result. -/
def AdaptiveIntBuilder.storeValues (a : AdaptiveIntBuilder) (values : List Int) (length : Nat) :
    Option (Option (List Nat)) :=
  if values.length < length then none
  else if a.int_size = 1 ∨ a.int_size = 2 ∨ a.int_size = 4 ∨ a.int_size = 8 then
    match a.data with
    | some d =>
      match storeAll a.int_size d a.base.length (values.take length) with
      | some d1 => some (some d1)
      | none => none
    | none => if length = 0 then some none else none
  else some a.data

/-- The method `AdaptiveIntBuilder::Append(values, length, valid_bytes)`. -/
def AdaptiveIntBuilder.Append (a : AdaptiveIntBuilder) (values : List Int) (length : Nat)
    (valid_bytes : Option (List Nat)) : Option AdaptiveIntBuilder :=
  match a.Reserve length with
  | none => none
  | some a1 =>
    match a1.expandFor values length valid_bytes with
    | none => none
    | some a2 =>
      match a2.storeValues values length with
      | none => none
      | some data1 =>
        match a2.base.UnsafeAppendToBitmapBulk valid_bytes length with
        | some b1 => some { a2 with base := b1, data := data1 }
        | none => none

/-- One batch of an adaptive-builder session: the values and the validity
array, if any. -/
structure IntBatch where
  values : List Int
  valid_bytes : Option (List Nat)

/-- A session: the bulk appends of `batches` in order, starting from `a`. -/
def AdaptiveIntBuilder.run : AdaptiveIntBuilder → List IntBatch → Option AdaptiveIntBuilder
  | a, [] => some a
  | a, b :: bs =>
    match a.Append b.values b.values.length b.valid_bytes with
    | some a1 => AdaptiveIntBuilder.run a1 bs
    | none => none

/-- Whether entry `j` of a batch is appended as valid: the validity array is
absent or its byte `j` is non-zero. -/
def validAt (valid_bytes : Option (List Nat)) (j : Nat) : Bool :=
  match valid_bytes with
  | none => true
  | some vb => decide (vb.getD j 0 ≠ 0)

/-- The values from position `i` of a batch on, each with its validity. -/
def entriesFrom (valid_bytes : Option (List Nat)) : Nat → List Int → List (Int × Bool)
  | _, [] => []
  | i, x :: xs => (x, validAt valid_bytes i) :: entriesFrom valid_bytes (i + 1) xs

/-- The entries of a batch: each value with its validity as appended. -/
def IntBatch.entries (b : IntBatch) : List (Int × Bool) := entriesFrom b.valid_bytes 0 b.values

/-- The entries of a session, in order of position. -/
def sessionEntries : List IntBatch → List (Int × Bool)
  | [] => []
  | b :: bs => b.entries ++ sessionEntries bs

/-- A well-formed batch: every value is an `int64_t`, a validity array has one
byte per value, and a batch that carries a validity array is not empty. -/
def IntBatch.WellFormed (b : IntBatch) : Prop :=
  (∀ x, x ∈ b.values → -(2 : Int) ^ 63 ≤ x ∧ x < 2 ^ 63) ∧
  (match b.valid_bytes with
    | none => True
    | some vb => vb.length = b.values.length ∧ 0 < b.values.length)

instance IntBatch.decidableWellFormed (b : IntBatch) : Decidable b.WellFormed := by
  unfold IntBatch.WellFormed
  cases b.valid_bytes <;> exact inferInstance

/-- The value `x` is in the range of the signed integer type of `w` bytes. -/
def fitsIn (w : Nat) (x : Int) : Prop := -(2 : Int) ^ (8 * w - 1) ≤ x ∧ x < 2 ^ (8 * w - 1)

/-- The widths an adaptive builder can have. -/
def isIntSize (w : Nat) : Prop := w = 1 ∨ w = 2 ∨ w = 4 ∨ w = 8

/-- The state invariant of an adaptive builder: `length ≤ capacity`, and once
capacity is non-zero both buffers exist and are sized for `capacity` elements
of the current width. -/
def AdaptiveIntBuilder.WF (a : AdaptiveIntBuilder) : Prop :=
  a.base.length ≤ a.base.capacity ∧
    (a.base.capacity ≠ 0 →
      ∃ bm d, a.base.null_bitmap = some bm ∧ a.data = some d ∧
        bm.length = CeilByte a.base.capacity / 8 ∧
        d.length = a.base.capacity * a.int_size)

/-- The relation between an adaptive builder and the entries appended so far:
the state invariant holds, the width is one of 1, 2, 4, 8, there is one element
per entry, and every entry appended as valid fits the current width and is read
back from the buffer at that width. -/
def AdaptiveIntBuilder.Inv (a : AdaptiveIntBuilder) (es : List (Int × Bool)) : Prop :=
  a.WF ∧ isIntSize a.int_size ∧ a.base.length = es.length ∧
  ∀ (p : Nat) (x : Int), es[p]? = some (x, true) →
    loadInt a.int_size (a.data.getD []) p = some x ∧ fitsIn a.int_size x


/-! ## Checked operations of the base builder -/

/-- The results of `ArrayBuilder::Advance`: `Status::OK()` and
`Status::Invalid("Builder must be expanded")`. -/
inductive Status where
  | OK
  | Invalid
deriving DecidableEq

/-- The method `ArrayBuilder::Advance(elements)`: the returned status and the
builder as the call leaves it. -/
def ArrayBuilder.Advance (b : ArrayBuilder) (elements : Nat) : Status × ArrayBuilder :=
  if b.length + elements > b.capacity then (Status.Invalid, b)
  else (Status.OK, { b with length := b.length + elements })

/-- The method `ArrayBuilder::AppendToBitmap(bool is_valid)` on a plain base
builder. -/
def ArrayBuilder.AppendToBitmap (b : ArrayBuilder) (is_valid : Bool) : Option ArrayBuilder :=
  let grown : Option ArrayBuilder :=
    if b.length = b.capacity then b.Resize (NextPower2 (b.capacity + 1)) else some b
  match grown with
  | none => none
  | some b1 => b1.UnsafeAppendToBitmap is_valid

/-- The method `ArrayBuilder::AppendToBitmap(valid_bytes, length)` on a plain
base builder. -/
def ArrayBuilder.AppendToBitmapBulk (b : ArrayBuilder) (valid_bytes : Option (List Nat))
    (length : Nat) : Option ArrayBuilder :=
  match b.Reserve length with
  | none => none
  | some b1 => b1.UnsafeAppendToBitmapBulk valid_bytes length

/-- The method `ArrayBuilder::SetNotNull(length)` on a plain base builder. -/
def ArrayBuilder.SetNotNull (b : ArrayBuilder) (length : Nat) : Option ArrayBuilder :=
  match b.Reserve length with
  | none => none
  | some b1 => b1.UnsafeSetNotNull length

/-- A call of one of the checked public operations of the base builder. -/
inductive BuilderOp where
  | Init (capacity : Nat)
  | Resize (new_bits : Nat)
  | Reserve (elements : Nat)
  | Advance (elements : Nat)
  | AppendToBitmap (is_valid : Bool)
  | AppendToBitmapBulk (valid_bytes : Option (List Nat)) (length : Nat)
  | SetNotNull (length : Nat)
deriving DecidableEq

/-- The builder after one call. A refused `Advance` leaves the builder as it
was; `none` is a call that reads or writes outside the bitmap. -/
def ArrayBuilder.apply (b : ArrayBuilder) : BuilderOp → Option ArrayBuilder
  | BuilderOp.Init capacity => b.Init capacity
  | BuilderOp.Resize new_bits => b.Resize new_bits
  | BuilderOp.Reserve elements => b.Reserve elements
  | BuilderOp.Advance elements => some (b.Advance elements).2
  | BuilderOp.AppendToBitmap is_valid => b.AppendToBitmap is_valid
  | BuilderOp.AppendToBitmapBulk valid_bytes length => b.AppendToBitmapBulk valid_bytes length
  | BuilderOp.SetNotNull length => b.SetNotNull length

/-- A sequence of calls, in order. -/
def ArrayBuilder.runOps : ArrayBuilder → List BuilderOp → Option ArrayBuilder
  | b, [] => some b
  | b, op :: ops =>
    match b.apply op with
    | some b1 => ArrayBuilder.runOps b1 ops
    | none => none

/-- Whether a call keeps the capacity at or above the current length: `Init`
and `Resize` take the new capacity as their argument. -/
def BuilderOp.coversLength (b : ArrayBuilder) : BuilderOp → Bool
  | BuilderOp.Init capacity => decide (b.length ≤ capacity)
  | BuilderOp.Resize new_bits => decide (b.length ≤ new_bits)
  | _ => true

/-- Whether every `Init` and `Resize` of a sequence of calls is given a
capacity that covers the length the builder has when it is called. -/
def ArrayBuilder.coveredOps : ArrayBuilder → List BuilderOp → Bool
  | _, [] => true
  | b, op :: ops =>
    op.coversLength b &&
      match b.apply op with
      | some b1 => ArrayBuilder.coveredOps b1 ops
      | none => true

/-- The number of clear bits among bits `[0, n)` of a bitmap. -/
def countClear (bits : List Nat) (n : Nat) : Nat :=
  ((List.range n).filter (fun i => !GetBit bits i)).length

/-- The zero entries among the first `length` bytes of an explicit validity
array (none when the array is absent). -/
def zeroEntries (valid_bytes : Option (List Nat)) (length : Nat) : Nat :=
  match valid_bytes with
  | none => 0
  | some vb => (vb.take length).count 0

/-- The state invariant of a plain base builder: `length ≤ capacity`, no bitmap
only while the capacity is 0, and a bitmap of `ceil(capacity / 8)` bytes. -/
def ArrayBuilder.WF (b : ArrayBuilder) : Prop :=
  b.length ≤ b.capacity ∧
    match b.null_bitmap with
    | none => b.capacity = 0
    | some bm => bm.length = CeilByte b.capacity / 8

instance ArrayBuilder.decidableWF (b : ArrayBuilder) : Decidable b.WF := by
  unfold ArrayBuilder.WF
  cases b.null_bitmap <;> exact inferInstance

/-! ## Sessions of a primitive builder -/

/-- One bulk append of a session: the input array as raw bytes, the element
count and the validity array, if any. -/
structure PrimitiveBatch where
  values : List Nat
  length : Nat
  valid_bytes : Option (List Nat)
deriving DecidableEq

/-- A session: the bulk appends of `batches` in order, starting from `p`. -/
def PrimitiveBuilder.run : PrimitiveBuilder → List PrimitiveBatch → Option PrimitiveBuilder
  | p, [] => some p
  | p, b :: bs =>
    match p.Append b.values b.length b.valid_bytes with
    | some p1 => PrimitiveBuilder.run p1 bs
    | none => none

/-- The nulls of one batch: the zero entries among its validity bytes. -/
def PrimitiveBatch.nulls (b : PrimitiveBatch) : Nat := zeroEntries b.valid_bytes b.length

/-- A call on a primitive builder between its construction and `Finish`. -/
inductive PrimitiveOp where
  | Reserve (elements : Nat)
  | Append (batch : PrimitiveBatch)
deriving DecidableEq

/-- The builder after one call. -/
def PrimitiveBuilder.apply (p : PrimitiveBuilder) : PrimitiveOp → Option PrimitiveBuilder
  | PrimitiveOp.Reserve elements => p.Reserve elements
  | PrimitiveOp.Append batch => p.Append batch.values batch.length batch.valid_bytes

/-- A sequence of `Reserve` and `Append` calls, in order. -/
def PrimitiveBuilder.runOps : PrimitiveBuilder → List PrimitiveOp → Option PrimitiveBuilder
  | p, [] => some p
  | p, op :: ops =>
    match p.apply op with
    | some p1 => PrimitiveBuilder.runOps p1 ops
    | none => none

/-- Element `i` of an input array of `width`-byte elements given as raw bytes. -/
def elementAt (width : Nat) (values : List Nat) (i : Nat) : List Nat :=
  (values.drop (i * width)).take width

/-! ## Finish of the adaptive builder -/

/-- The method `AdaptiveIntBuilder::Finish` (`AdaptiveUIntBuilder::Finish` has
the same text with the unsigned array types): the produced array, whose type is
chosen by the `switch` on `int_size_`, and the builder as the method leaves it.
The `default` case returns `Status::NotImplemented`. -/
def AdaptiveIntBuilder.Finish (a : AdaptiveIntBuilder) :
    Option (PrimitiveArray × AdaptiveIntBuilder) :=
  let bytes := a.base.length * a.int_size
  let trimmed : Option (Option (List Nat)) :=
    match a.data with
    | none => if bytes > 0 then none else some none
    | some d =>
      if bytes > 0 ∧ bytes < d.length then some (some (PoolBuffer.Resize d bytes))
      else some (some d)
  match trimmed with
  | none => none
  | some data1 =>
    if a.int_size = 1 ∨ a.int_size = 2 ∨ a.int_size = 4 ∨ a.int_size = 8 then
      some ({ length := a.base.length, data := data1, null_bitmap := a.base.null_bitmap,
              null_count := a.base.null_count, width := a.int_size },
            { a with data := none,
                     base := { null_bitmap := none, null_count := 0, length := 0, capacity := 0 } })
    else none

/-- One cycle of an adaptive builder: the values of one bulk append without a
validity array, then `Finish`. -/
def AdaptiveIntBuilder.cycle (a : AdaptiveIntBuilder) (values : List Int) :
    Option (PrimitiveArray × AdaptiveIntBuilder) :=
  match a.Append values values.length none with
  | some a1 => a1.Finish
  | none => none

/-! ## BooleanBuilder -/

/-- The data members of `BooleanBuilder`: the base builder and the bit-packed
value buffer `data_` (`raw_data_` is its data pointer). -/
structure BooleanBuilder where
  base : ArrayBuilder
  data : Option (List Nat)
deriving DecidableEq

/-- A freshly constructed `BooleanBuilder`. -/
def BooleanBuilder.fresh : BooleanBuilder := { base := ArrayBuilder.fresh, data := none }

/-- The method `BooleanBuilder::Init(capacity)`. -/
def BooleanBuilder.Init (p : BooleanBuilder) (capacity : Nat) : Option BooleanBuilder :=
  match p.base.Init capacity with
  | none => none
  | some b1 =>
    let nbytes := BytesForBits capacity
    let d := PoolBuffer.Resize [] nbytes
    match memset d 0 0 nbytes with
    | some d1 => some { base := b1, data := some d1 }
    | none => none

/-- The method `ArrayBuilder::Resize` run on a `BooleanBuilder`: with no bitmap
the virtual `Init` is `BooleanBuilder::Init`. -/
def BooleanBuilder.ArrayBuilder_Resize (p : BooleanBuilder) (new_bits : Nat) :
    Option BooleanBuilder :=
  match p.base.null_bitmap with
  | none => p.Init new_bits
  | some bm =>
    match p.base.ResizeBitmap bm new_bits with
    | some b1 => some { p with base := b1 }
    | none => none

/-- The method `BooleanBuilder::Resize(capacity)`. As in
`PrimitiveBuilder<T>::Resize`, a negative `new_bytes - old_bytes` makes the
final `memset` run over the whole address space, which is `none` here. -/
def BooleanBuilder.Resize (p : BooleanBuilder) (capacity0 : Nat) : Option BooleanBuilder :=
  let capacity := if capacity0 < kMinBuilderCapacity then kMinBuilderCapacity else capacity0
  if p.base.capacity = 0 then p.Init capacity
  else
    match p.ArrayBuilder_Resize capacity with
    | none => none
    | some p1 =>
      match p1.data with
      | none => none
      | some d =>
        let old_bytes := d.length
        let new_bytes := BytesForBits capacity
        let d1 := PoolBuffer.Resize d new_bytes
        if new_bytes < old_bytes then none
        else
          match memset d1 old_bytes 0 (new_bytes - old_bytes) with
          | some d2 => some { p1 with data := some d2 }
          | none => none

/-- The method `ArrayBuilder::Reserve` run on a `BooleanBuilder`. -/
def BooleanBuilder.Reserve (p : BooleanBuilder) (elements : Nat) : Option BooleanBuilder :=
  if p.base.length + elements > p.base.capacity then
    p.Resize (NextPower2 (p.base.length + elements))
  else some p

/-- A list builder with nothing appended: all base counters 0 and no bitmap,
whatever its child. -/
def ListBuilder.fresh (value_builder : Option PrimitiveBuilder) (values : Option PrimitiveArray) :
    ListBuilder :=
  { base := ArrayBuilder.fresh, offset_builder := BufferBuilder.fresh,
    value_builder := value_builder, values := values }


/-! ## Floating-point dictionary values -/

/-- Whether a 32-bit pattern is an IEEE-754 single-precision NaN: all eight
exponent bits set and a non-zero fraction. -/
def isNaN32 (bits : Nat) : Bool := (bits / 2 ^ 23) % 256 == 255 && bits % 2 ^ 23 != 0

/-- The C++ comparison `other != value` on two `float`s given by their bit
patterns: true when either is a NaN; otherwise false exactly when the patterns
are equal or both are zeros (`+0.0` and `-0.0`). -/
def floatDifferent (other value : Nat) : Bool :=
  isNaN32 other || isNaN32 value ||
    !(other == value || (other % 2 ^ 31 == 0 && value % 2 ^ 31 == 0))

/-- The generic kind of `DictionaryBuilder<FloatType>`: values are `float`s held
by their 32-bit patterns, `HashValue` hashes the four bytes with any function
`hash`, and `SlotDifferent` is `other != value` on floats. -/
def floatKind (hash : Nat → Nat) : DictKind Nat :=
  { HashValue := hash, different := floatDifferent }

/-! ## MakeBuilder -/

/-- Modelled from the spec: the kinds `Type::type` of a logical type without
nested types to build (type.h is not part of the sources); `LIST` and `STRUCT`
are the constructors of `DataType`. -/
inductive TypeKind where
  | NA | BOOL | UINT8 | INT8 | UINT16 | INT16 | UINT32 | INT32 | UINT64 | INT64
  | HALF_FLOAT | FLOAT | DOUBLE | STRING | BINARY | FIXED_SIZE_BINARY
  | DATE32 | DATE64 | TIMESTAMP | TIME32 | TIME64 | INTERVAL | DECIMAL
  | UNION | DICTIONARY
deriving DecidableEq

/-- Modelled from the spec: a logical type descriptor, as far as `MakeBuilder`
looks at it: its kind, the value type of a list, the field types of a struct in
field order. -/
inductive DataType where
  | scalar (id : TypeKind)
  | list (value_type : DataType)
  | struct (children : List DataType)

/-- The builder `MakeBuilder` hands back: `typed id` is the `new BuilderType(pool,
type)` of the `BUILDER_CASE` for `id`, `list` a `ListBuilder` over its value
builder, `struct` a `StructBuilder` over its field builders. -/
inductive BuilderTree where
  | typed (id : TypeKind)
  | list (value_builder : BuilderTree)
  | struct (field_builders : List BuilderTree)

/-- The kinds that have a `BUILDER_CASE` in the `switch` of `MakeBuilder`. -/
def hasBuilderCase : TypeKind → Bool
  | TypeKind.UINT8 => true
  | TypeKind.INT8 => true
  | TypeKind.UINT16 => true
  | TypeKind.INT16 => true
  | TypeKind.UINT32 => true
  | TypeKind.INT32 => true
  | TypeKind.UINT64 => true
  | TypeKind.INT64 => true
  | TypeKind.DATE32 => true
  | TypeKind.DATE64 => true
  | TypeKind.TIME32 => true
  | TypeKind.TIME64 => true
  | TypeKind.TIMESTAMP => true
  | TypeKind.BOOL => true
  | TypeKind.FLOAT => true
  | TypeKind.DOUBLE => true
  | TypeKind.STRING => true
  | TypeKind.BINARY => true
  | TypeKind.FIXED_SIZE_BINARY => true
  | TypeKind.DECIMAL => true
  | _ => false

mutual
/-- The function `MakeBuilder(pool, type, &out)`: `none` is the
`Status::NotImplemented` of the `default` case, passed up by `RETURN_NOT_OK`. -/
def MakeBuilder : DataType → Option BuilderTree
  | DataType.scalar id => if hasBuilderCase id then some (BuilderTree.typed id) else none
  | DataType.list value_type =>
    match MakeBuilder value_type with
    | none => none
    | some value_builder => some (BuilderTree.list value_builder)
  | DataType.struct children =>
    match MakeBuilders children with
    | none => none
    | some values_builder => some (BuilderTree.struct values_builder)
/-- The loop `for (auto it : fields)` of the `STRUCT` case, which stops at the
first field whose builder cannot be made. -/
def MakeBuilders : List DataType → Option (List BuilderTree)
  | [] => some []
  | field :: fields =>
    match MakeBuilder field with
    | none => none
    | some builder =>
      match MakeBuilders fields with
      | none => none
      | some values_builder => some (builder :: values_builder)
end

/-- The supported leaf kinds, as the spec's factory lists them: the integer,
date, time, timestamp, boolean, float, double, string, binary, fixed-size
binary and decimal kinds. -/
def supportedKinds : List TypeKind :=
  [TypeKind.UINT8, TypeKind.INT8, TypeKind.UINT16, TypeKind.INT16, TypeKind.UINT32,
   TypeKind.INT32, TypeKind.UINT64, TypeKind.INT64, TypeKind.DATE32, TypeKind.DATE64,
   TypeKind.TIME32, TypeKind.TIME64, TypeKind.TIMESTAMP, TypeKind.BOOL, TypeKind.FLOAT,
   TypeKind.DOUBLE, TypeKind.STRING, TypeKind.BINARY, TypeKind.FIXED_SIZE_BINARY,
   TypeKind.DECIMAL]

mutual
/-- Whether a type and every type nested in it through list value types and
struct field types has a supported kind. -/
def DataType.supported : DataType → Bool
  | DataType.scalar id => decide (id ∈ supportedKinds)
  | DataType.list value_type => value_type.supported
  | DataType.struct children => DataType.allSupported children
/-- Whether every type of a list of field types is supported. -/
def DataType.allSupported : List DataType → Bool
  | [] => true
  | field :: fields => field.supported && DataType.allSupported fields
end

mutual
/-- The builder tree that mirrors a type: a list builder over the tree of the
value type, a struct builder with one tree per field, in field order. -/
def DataType.mirror : DataType → BuilderTree
  | DataType.scalar id => BuilderTree.typed id
  | DataType.list value_type => BuilderTree.list value_type.mirror
  | DataType.struct children => BuilderTree.struct (DataType.mirrorAll children)
/-- The trees that mirror a list of field types, in order. -/
def DataType.mirrorAll : List DataType → List BuilderTree
  | [] => []
  | field :: fields => field.mirror :: DataType.mirrorAll fields
end


/-! ## BooleanBuilder::Append -/

/-- The loop of `BooleanBuilder::Append`: an entry whose validity byte is zero is
skipped; otherwise bit `length_ + i` of the value buffer is set when
`values[i] > 0` and cleared when not. `n` iterations are left and `i` is the
loop counter. -/
def BooleanBuilder.appendLoop (values : List Nat) (valid_bytes : Option (List Nat))
    (length_ : Nat) : Nat → Nat → List Nat → Option (List Nat)
  | 0, _, data => some data
  | n + 1, i, data =>
    let skip : Option Bool :=
      match valid_bytes with
      | none => some false
      | some vb =>
        match vb[i]? with
        | some b => some (decide (b = 0))
        | none => none
    match skip with
    | none => none
    | some true => BooleanBuilder.appendLoop values valid_bytes length_ n (i + 1) data
    | some false =>
      match values[i]? with
      | none => none
      | some v =>
        match (if v > 0 then SetBit data (length_ + i) else ClearBit data (length_ + i)) with
        | some data1 => BooleanBuilder.appendLoop values valid_bytes length_ n (i + 1) data1
        | none => none

/-- The method `BooleanBuilder::Append(values, length, valid_bytes)`; `values`
holds one byte per element. A null `raw_data_` is an empty buffer: a call that
touches no bit goes through, any access fails. -/
def BooleanBuilder.Append (p : BooleanBuilder) (values : List Nat) (length : Nat)
    (valid_bytes : Option (List Nat)) : Option BooleanBuilder :=
  match p.Reserve length with
  | none => none
  | some p1 =>
    match BooleanBuilder.appendLoop values valid_bytes p1.base.length length 0
        (p1.data.getD []) with
    | none => none
    | some d1 =>
      match p1.base.UnsafeAppendToBitmapBulk valid_bytes length with
      | some b1 => some { base := b1, data := p1.data.map (fun _ => d1) }
      | none => none

/-- Value bit `j` of a boolean builder (`false` outside the buffer). -/
def BooleanBuilder.valueBit (p : BooleanBuilder) (j : Nat) : Bool := GetBit (p.data.getD []) j

/-- The state invariant of a boolean builder: `length ≤ capacity`, and once
capacity is non-zero both buffers exist and hold `ceil(capacity / 8)` bytes. -/
def BooleanBuilder.WF (p : BooleanBuilder) : Prop :=
  p.base.length ≤ p.base.capacity ∧
    (p.base.capacity ≠ 0 →
      ∃ bm d, p.base.null_bitmap = some bm ∧ p.data = some d ∧
        bm.length = CeilByte p.base.capacity / 8 ∧
        d.length = BytesForBits p.base.capacity)


/-! ## Sessions of a fixed-size binary builder -/

/-- The method `FixedSizeBinaryBuilder::AppendNull()`. -/
def FixedSizeBinaryBuilder.AppendNull (f : FixedSizeBinaryBuilder) :
    Option FixedSizeBinaryBuilder :=
  match f.Reserve 1 with
  | none => none
  | some f1 =>
    match f1.base.UnsafeAppendToBitmap false with
    | none => none
    | some b1 =>
      some { f1 with base := b1, byte_builder := f1.byte_builder.Advance f1.byte_width }

/-- The method `FixedSizeBinaryBuilder::Append(data, length, valid_bytes)`: the
`length * byte_width_` bytes at `data` are copied whatever the validity; a
shorter input is a read outside it. -/
def FixedSizeBinaryBuilder.AppendBulk (f : FixedSizeBinaryBuilder) (data : List Nat)
    (length : Nat) (valid_bytes : Option (List Nat)) : Option FixedSizeBinaryBuilder :=
  match f.Reserve length with
  | none => none
  | some f1 =>
    match f1.base.UnsafeAppendToBitmapBulk valid_bytes length with
    | none => none
    | some b1 =>
      if data.length < length * f1.byte_width then none
      else
        some { f1 with base := b1,
                       byte_builder := f1.byte_builder.Append (data.take (length * f1.byte_width)) }

/-- A call on a fixed-size binary builder between its construction and `Finish`. -/
inductive FixedSizeBinaryOp where
  | Append (value : List Nat)
  | AppendNull
  | AppendBulk (data : List Nat) (length : Nat) (valid_bytes : Option (List Nat))
deriving DecidableEq

/-- The builder after one call. -/
def FixedSizeBinaryBuilder.apply (f : FixedSizeBinaryBuilder) :
    FixedSizeBinaryOp → Option FixedSizeBinaryBuilder
  | FixedSizeBinaryOp.Append value => f.Append value
  | FixedSizeBinaryOp.AppendNull => f.AppendNull
  | FixedSizeBinaryOp.AppendBulk data length valid_bytes => f.AppendBulk data length valid_bytes

/-- A sequence of calls, in order. -/
def FixedSizeBinaryBuilder.runOps :
    FixedSizeBinaryBuilder → List FixedSizeBinaryOp → Option FixedSizeBinaryBuilder
  | f, [] => some f
  | f, op :: ops =>
    match f.apply op with
    | some f1 => FixedSizeBinaryBuilder.runOps f1 ops
    | none => none

/-- The records `0 .. n - 1` of a bulk input of `w`-byte records, from record
`i` on. -/
def bulkRecords (w : Nat) (data : List Nat) : Nat → Nat → List (Option (List Nat))
  | 0, _ => []
  | n + 1, i => some (elementAt w data i) :: bulkRecords w data n (i + 1)

/-- The records one call appends, in order: the record itself for a value, `none`
for a null, the `length` records of a bulk input. -/
def FixedSizeBinaryOp.records (w : Nat) : FixedSizeBinaryOp → List (Option (List Nat))
  | FixedSizeBinaryOp.Append value => [some value]
  | FixedSizeBinaryOp.AppendNull => [none]
  | FixedSizeBinaryOp.AppendBulk data length _ => bulkRecords w data length 0

/-- The records a sequence of calls appends, in order. -/
def sessionRecords (w : Nat) : List FixedSizeBinaryOp → List (Option (List Nat))
  | [] => []
  | op :: ops => op.records w ++ sessionRecords w ops

/-- Whether the record given to a single `Append` holds exactly `w` bytes. -/
def FixedSizeBinaryOp.sized (w : Nat) : FixedSizeBinaryOp → Bool
  | FixedSizeBinaryOp.Append value => decide (value.length = w)
  | _ => true

/-- The bytes a record takes in the value buffer: its own bytes, or `w` zero
bytes for a null. -/
def recordBytes (w : Nat) (record : Option (List Nat)) : List Nat :=
  record.getD (List.replicate w 0)

/-- The bytes of a sequence of records, one after the other. -/
def concatRecords (w : Nat) : List (Option (List Nat)) → List Nat
  | [] => []
  | record :: records => recordBytes w record ++ concatRecords w records


/-! ## Wide decimals -/

/-- The method `DecimalBuilder::Append(const decimal::Decimal128&)`. `bytes` and
`is_negative` are what `decimal::ToBytes` (decimal.h, not part of the sources)
hands back for the value: its 16 magnitude bytes and whether it is negative.
The two `DCHECK_NE`s on `sign_bitmap_` are debug assertions and are not compiled
into a release build; `sign_bitmap_->Reserve(1)` on a null `sign_bitmap_` is a
null dereference. -/
def DecimalBuilder.Append128 (d : DecimalBuilder) (bytes : List Nat) (is_negative : Bool) :
    Option DecimalBuilder :=
  match d.Reserve 1 with
  | none => none
  | some d1 =>
    match d1.FixedSizeBinaryBuilder_Append bytes with
    | none => none
    | some d2 =>
      match d2.sign_bitmap with
      | none => none
      | some sb =>
        match SetBitTo sb (d2.fsb.base.length - 1) is_negative with
        | some sb1 => some { d2 with sign_bitmap := some sb1 }
        | none => none

/-- A run of `Decimal128` appends, each value given by its magnitude bytes and
its sign. -/
def DecimalBuilder.run128 : DecimalBuilder → List (List Nat × Bool) → Option DecimalBuilder
  | d, [] => some d
  | d, v :: vs =>
    match d.Append128 v.1 v.2 with
    | some d1 => DecimalBuilder.run128 d1 vs
    | none => none

/-- The relation between a 16-byte decimal builder and the signs of the values
appended so far: one element per value, `length ≤ capacity`, either no buffers
yet (capacity 0) or a null bitmap and a sign bitmap of `ceil(capacity / 8)`
bytes each, in which for every `i < length` the null bitmap bit is set and the
sign bitmap bit is the sign of value `i`. -/
def DecimalBuilder.Inv16 (d : DecimalBuilder) (signs : List Bool) : Prop :=
  d.fsb.byte_width = 16 ∧ d.fsb.base.length = signs.length ∧
  d.fsb.base.length ≤ d.fsb.base.capacity ∧
  ((d.fsb.base.capacity = 0 ∧ d.fsb.base.null_bitmap = none ∧ d.sign_bitmap = none) ∨
    ∃ bm sb, d.fsb.base.null_bitmap = some bm ∧ d.sign_bitmap = some sb ∧
      bm.length = CeilByte d.fsb.base.capacity / 8 ∧ sb.length = bm.length ∧
      ∀ i, i < d.fsb.base.length → GetBit bm i = true ∧ GetBit sb i = signs.getD i false)


/-! ## Sessions of a list builder -/

/-- Modelled from the spec: `BufferBuilder::UnsafeAppend(data, length)` of
buffer.h (not part of the sources): the bytes are copied to the end without a
capacity check, so bytes that do not fit the allocated size are a write outside
the buffer. -/
def BufferBuilder.UnsafeAppend (bb : BufferBuilder) (data : List Nat) : Option BufferBuilder :=
  if bb.bytes.length + data.length ≤ bb.capacity then
    some { bb with bytes := bb.bytes ++ data }
  else none

/-- The bytes of an array of `int32_t` offsets. -/
def offsetBytes : List Int → List Nat
  | [] => []
  | x :: xs => toBytesLE 4 (ofSigned 4 x) ++ offsetBytes xs

/-- The method `ListBuilder::Append(offsets, length, valid_bytes)`: the first
`length` caller-supplied offsets are copied to the offsets buffer as they are; a
shorter input is a read outside it. -/
def ListBuilder.AppendBulk (l : ListBuilder) (offsets : List Int) (length : Nat)
    (valid_bytes : Option (List Nat)) : Option ListBuilder :=
  match l.Reserve length with
  | none => none
  | some l1 =>
    match l1.base.UnsafeAppendToBitmapBulk valid_bytes length with
    | none => none
    | some b1 =>
      if offsets.length < length then none
      else
        match l1.offset_builder.UnsafeAppend (offsetBytes (offsets.take length)) with
        | some ob1 => some { l1 with base := b1, offset_builder := ob1 }
        | none => none

/-- A call on a list builder or on its child builder between construction and
`Finish`. -/
inductive ListOp where
  | Append (is_valid : Bool)
  | Child (batch : PrimitiveBatch)
  | AppendBulk (offsets : List Int) (length : Nat) (valid_bytes : Option (List Nat))

/-- The builder after one call; `Child` is a bulk append to the child value
builder (`value_builder()->Append(...)`). -/
def ListBuilder.apply (l : ListBuilder) : ListOp → Option ListBuilder
  | ListOp.Append is_valid => l.Append is_valid
  | ListOp.Child batch =>
    match l.value_builder with
    | none => none
    | some vb =>
      match vb.Append batch.values batch.length batch.valid_bytes with
      | some vb1 => some { l with value_builder := some vb1 }
      | none => none
  | ListOp.AppendBulk offsets length valid_bytes => l.AppendBulk offsets length valid_bytes

/-- A sequence of calls, in order. -/
def ListBuilder.runOps : ListBuilder → List ListOp → Option ListBuilder
  | l, [] => some l
  | l, op :: ops =>
    match l.apply op with
    | some l1 => ListBuilder.runOps l1 ops
    | none => none

/-- Whether a call is a bulk append of caller-supplied offsets. -/
def ListOp.isBulk : ListOp → Bool
  | ListOp.AppendBulk _ _ _ => true
  | _ => false

/-- The recorded offsets `0 .. n - 1` of a list builder, read as `int32_t`. -/
def ListBuilder.offsets (l : ListBuilder) (n : Nat) : List (Option Int) :=
  (List.range n).map (fun i => loadInt 4 l.offset_builder.bytes i)

/-- The relation between a list builder and the child lengths `ks` recorded by
its boundary appends so far: the child is a well-formed builder at least as
long as every recorded length, the recorded lengths never decrease, the offsets
buffer holds them as `int32_t` values, and the base builder is well formed. -/
def ListBuilder.Recorded (l : ListBuilder) (ks : List Nat) : Prop :=
  (∃ vb, l.value_builder = some vb ∧ vb.WF ∧ ∀ k, k ∈ ks → k ≤ vb.base.length) ∧
  ks.Pairwise (fun a b => a ≤ b) ∧
  l.offset_builder.bytes = offsetBytes (ks.map Int.ofNat) ∧
  l.base.length = ks.length ∧ l.base.length ≤ l.base.capacity ∧
  (match l.base.null_bitmap with
    | none => l.base.capacity = 0
    | some bm => bm.length = CeilByte l.base.capacity / 8)

/-- The list builder after four boundary appends around two appends to a byte
child. -/
def ListBuilder.sample : ListBuilder :=
  { base := { null_bitmap := some [13], null_count := 1, length := 4, capacity := 4 },
    offset_builder := { bytes := [0, 0, 0, 0, 3, 0, 0, 0, 3, 0, 0, 0, 5, 0, 0, 0],
                        capacity := 40 },
    value_builder := some
      { base := { null_bitmap := some [31, 0, 0, 0], null_count := 0, length := 5,
                  capacity := 32 },
        data := some ([1, 2, 3, 4, 5] ++ List.replicate 27 0), width := 1 },
    values := none }

/-! ## AdaptiveUIntBuilder

`AdaptiveUIntBuilder` shares its data members and `Init`, `Resize` and `Reserve`
with the signed builder through `AdaptiveIntBuilderBase`, whose fields are the
structure `AdaptiveIntBuilder` above; the methods below are the unsigned ones. -/

/-- Modelled from the spec: "the smallest power-of-two byte count whose unsigned
range contains the value". -/
def minimalUIntSize (val : Nat) : Nat :=
  if val < 2 ^ 8 then 1
  else if val < 2 ^ 16 then 2
  else if val < 2 ^ 32 then 4
  else 8

/-- Modelled from the spec: `expanded_uint_size(val, current_int_size)` of
builder.h (not part of the sources): the minimal width able to represent `val`
and everything already written at the current width. -/
def expanded_uint_size (val : Nat) (current_int_size : Nat) : Nat :=
  max current_int_size (minimalUIntSize val)

/-- Element `i` of a buffer viewed as an array of unsigned `w`-byte integers
(`reinterpret_cast<const uintN_t*>(data)[i]`, little-endian host). -/
def loadUInt (w : Nat) (buf : List Nat) (i : Nat) : Option Nat :=
  match readBytes buf (i * w) w with
  | some bs => some (fromBytesLE bs)
  | none => none

/-- Store `x`, cast to the unsigned `w`-byte type, as element `i` of a buffer
viewed as an array of `w`-byte integers. -/
def storeUInt (w : Nat) (buf : List Nat) (i : Nat) (x : Nat) : Option (List Nat) :=
  writeBytes buf (i * w) (toBytesLE w x)

/-- The loop of `AdaptiveUIntBuilder::Append` that computes `new_int_size` from
the valid entries: `n` iterations are left, `i` is the loop counter. -/
def expandedUIntSizeLoop (values : List Nat) (valid_bytes : Option (List Nat)) :
    Nat → Nat → Nat → Option Nat
  | 0, _, new_int_size => some new_int_size
  | n + 1, i, new_int_size =>
    let valid : Option Bool :=
      match valid_bytes with
      | none => some true
      | some vb =>
        match vb[i]? with
        | some b => some (decide (b ≠ 0))
        | none => none
    match valid with
    | none => none
    | some false => expandedUIntSizeLoop values valid_bytes n (i + 1) new_int_size
    | some true =>
      match values[i]? with
      | some val =>
        expandedUIntSizeLoop values valid_bytes n (i + 1) (expanded_uint_size val new_int_size)
      | none => none

/-- The call `std::copy_backward(src, src + length_, dst + length_)` of
`AdaptiveUIntBuilder::ExpandIntSizeInternal`: elements `n - 1, …, 0` are read
at `old_size` bytes, unsigned, and stored at `new_size` bytes, in that order. -/
def copyBackwardU (old_size new_size : Nat) : Nat → List Nat → Option (List Nat)
  | 0, data => some data
  | n + 1, data =>
    match loadUInt old_size data n with
    | none => none
    | some x =>
      match storeUInt new_size data n x with
      | none => none
      | some data1 => copyBackwardU old_size new_size n data1

/-- The method `AdaptiveUIntBuilder::ExpandIntSizeInternal<new_type, old_type>()`
with `new_size = sizeof(new_type)` and `old_size = sizeof(old_type)`. -/
def AdaptiveUIntBuilder.ExpandIntSizeInternal (a : AdaptiveIntBuilder) (new_size old_size : Nat) :
    Option AdaptiveIntBuilder :=
  if old_size ≥ new_size then some a
  else
    match a.data with
    | none => none
    | some d =>
      let a1 := { a with int_size := new_size }
      match a1.Resize (d.length / old_size) with
      | none => none
      | some a2 =>
        match a2.data with
        | none => none
        | some d2 =>
          match copyBackwardU old_size new_size a2.base.length d2 with
          | some d3 => some { a2 with data := some d3 }
          | none => none

/-- The method `AdaptiveUIntBuilder::ExpandIntSizeN<new_type>()`: the `switch`
on `int_size_`, whose `default` does nothing. -/
def AdaptiveUIntBuilder.ExpandIntSizeN (a : AdaptiveIntBuilder) (new_size : Nat) :
    Option AdaptiveIntBuilder :=
  if a.int_size = 1 ∨ a.int_size = 2 ∨ a.int_size = 4 ∨ a.int_size = 8 then
    AdaptiveUIntBuilder.ExpandIntSizeInternal a new_size a.int_size
  else some a

/-- The method `AdaptiveUIntBuilder::ExpandIntSize(new_int_size)`: the `switch`
on `new_int_size`, whose `default` does nothing. -/
def AdaptiveUIntBuilder.ExpandIntSize (a : AdaptiveIntBuilder) (new_int_size : Nat) :
    Option AdaptiveIntBuilder :=
  if new_int_size = 1 ∨ new_int_size = 2 ∨ new_int_size = 4 ∨ new_int_size = 8 then
    AdaptiveUIntBuilder.ExpandIntSizeN a new_int_size
  else some a

/-- The stores of `std::transform(values, values + length, data_ptr, cast)` with
unsigned casts: each value, cast to the type of `w` bytes, goes to element
`i, i + 1, …`. For `w = 8` this is the `memcpy` of the `uint64_t` input. -/
def storeAllU (w : Nat) : List Nat → Nat → List Nat → Option (List Nat)
  | data, _, [] => some data
  | data, i, x :: xs =>
    match storeUInt w data i x with
    | some data1 => storeAllU w data1 (i + 1) xs
    | none => none

/-- The first block of `AdaptiveUIntBuilder::Append` after `Reserve`: for a
non-empty batch below width 8, compute `new_int_size` over the valid entries
and expand when it differs from `int_size_`. -/
def AdaptiveUIntBuilder.expandFor (a : AdaptiveIntBuilder) (values : List Nat) (length : Nat)
    (valid_bytes : Option (List Nat)) : Option AdaptiveIntBuilder :=
  if length > 0 ∧ a.int_size < 8 then
    match expandedUIntSizeLoop values valid_bytes length 0 a.int_size with
    | none => none
    | some new_int_size =>
      if new_int_size ≠ a.int_size then AdaptiveUIntBuilder.ExpandIntSize a new_int_size
      else some a
  else some a

/-- The second block of `AdaptiveUIntBuilder::Append`: the `memcpy` (width 8) or
the `std::transform` with a cast (widths 1, 2, 4) of all `length` input values
to the elements from `length_` on; any other width stores nothing. -/
def AdaptiveUIntBuilder.storeValues (a : AdaptiveIntBuilder) (values : List Nat) (length : Nat) :
    Option (Option (List Nat)) :=
  if values.length < length then none
  else if a.int_size = 1 ∨ a.int_size = 2 ∨ a.int_size = 4 ∨ a.int_size = 8 then
    match a.data with
    | some d =>
      match storeAllU a.int_size d a.base.length (values.take length) with
      | some d1 => some (some d1)
      | none => none
    | none => if length = 0 then some none else none
  else some a.data

/-- The method `AdaptiveUIntBuilder::Append(values, length, valid_bytes)`. -/
def AdaptiveUIntBuilder.Append (a : AdaptiveIntBuilder) (values : List Nat) (length : Nat)
    (valid_bytes : Option (List Nat)) : Option AdaptiveIntBuilder :=
  match a.Reserve length with
  | none => none
  | some a1 =>
    match AdaptiveUIntBuilder.expandFor a1 values length valid_bytes with
    | none => none
    | some a2 =>
      match AdaptiveUIntBuilder.storeValues a2 values length with
      | none => none
      | some data1 =>
        match a2.base.UnsafeAppendToBitmapBulk valid_bytes length with
        | some b1 => some { a2 with base := b1, data := data1 }
        | none => none

/-- One batch of an unsigned adaptive-builder session: the values and the
validity array, if any. -/
structure UIntBatch where
  values : List Nat
  valid_bytes : Option (List Nat)

/-- A session: the bulk appends of `batches` in order, starting from `a`. -/
def AdaptiveUIntBuilder.run : AdaptiveIntBuilder → List UIntBatch → Option AdaptiveIntBuilder
  | a, [] => some a
  | a, b :: bs =>
    match AdaptiveUIntBuilder.Append a b.values b.values.length b.valid_bytes with
    | some a1 => AdaptiveUIntBuilder.run a1 bs
    | none => none

/-- The values from position `i` of an unsigned batch on, each with its
validity. -/
def uentriesFrom (valid_bytes : Option (List Nat)) : Nat → List Nat → List (Nat × Bool)
  | _, [] => []
  | i, x :: xs => (x, validAt valid_bytes i) :: uentriesFrom valid_bytes (i + 1) xs

/-- The entries of an unsigned batch: each value with its validity as appended. -/
def UIntBatch.entries (b : UIntBatch) : List (Nat × Bool) := uentriesFrom b.valid_bytes 0 b.values

/-- The entries of an unsigned session, in order of position. -/
def usessionEntries : List UIntBatch → List (Nat × Bool)
  | [] => []
  | b :: bs => b.entries ++ usessionEntries bs

/-- A well-formed unsigned batch: every value is a `uint64_t`, a validity array
has one byte per value, and a batch that carries a validity array is not
empty. -/
def UIntBatch.WellFormed (b : UIntBatch) : Prop :=
  (∀ x, x ∈ b.values → x < 2 ^ 64) ∧
  (match b.valid_bytes with
    | none => True
    | some vb => vb.length = b.values.length ∧ 0 < b.values.length)

instance UIntBatch.decidableWellFormed (b : UIntBatch) : Decidable b.WellFormed := by
  unfold UIntBatch.WellFormed
  cases b.valid_bytes <;> exact inferInstance

/-- The value `x` is in the range of the unsigned integer type of `w` bytes. -/
def fitsInU (w : Nat) (x : Nat) : Prop := x < 2 ^ (8 * w)

/-- The relation between an unsigned adaptive builder and the entries appended so
far: the state invariant holds, the width is one of 1, 2, 4, 8, there is one
element per entry, and every entry appended as valid fits the current width and
is read back from the buffer at that width. -/
def AdaptiveUIntBuilder.Inv (a : AdaptiveIntBuilder) (es : List (Nat × Bool)) : Prop :=
  a.WF ∧ isIntSize a.int_size ∧ a.base.length = es.length ∧
  ∀ (p : Nat) (x : Nat), es[p]? = some (x, true) →
    loadUInt a.int_size (a.data.getD []) p = some x ∧ fitsInU a.int_size x

/-! ## Growth when the memory pool can refuse

The definitions above take a pool that never fails. Here every
`PoolBuffer::Resize` asks the pool, whose answers are a list of booleans, one per
request in order (`false`: the request fails with `Status::OutOfMemory`; once
the list is used up every request succeeds). -/

/-- The outcome of a call that may run out of memory: `ok` with the builder and
the answers the pool has left, `oom` with the builder as the call leaves it when
it returns the allocation error, `fault` for an access outside a buffer. -/
inductive Alloc (σ : Type) where
  | ok (state : σ) (pool : List Bool)
  | oom (state : σ)
  | fault
deriving DecidableEq

/-- Modelled from the spec: `PoolBuffer::Resize(new_size)` against a pool that
can refuse ("`resize(buffer, new_bytes) -> Status`"): the resized buffer, or
`none` with the buffer left as it was, and the answers left. -/
def PoolBuffer.TryResize (pool : List Bool) (buf : List Nat) (new_size : Nat) :
    Option (List Nat) × List Bool :=
  match pool with
  | [] => (some (PoolBuffer.Resize buf new_size), [])
  | true :: rest => (some (PoolBuffer.Resize buf new_size), rest)
  | false :: rest => (none, rest)

/-- The method `ArrayBuilder::Init(capacity)` with a pool that can refuse:
`null_bitmap_` already points to the new, empty buffer when the resize fails. -/
def ArrayBuilder.TryInit (b : ArrayBuilder) (pool : List Bool) (capacity : Nat) :
    Alloc ArrayBuilder :=
  let to_alloc := CeilByte capacity / 8
  match PoolBuffer.TryResize pool [] to_alloc with
  | (none, _) => Alloc.oom { b with null_bitmap := some [] }
  | (some bm, pool1) =>
    match memset bm 0 0 bm.length with
    | some bm1 => Alloc.ok { b with null_bitmap := some bm1, capacity := capacity } pool1
    | none => Alloc.fault

/-- The body of `ArrayBuilder::Resize(new_bits)` once `null_bitmap_` is known
to be non-null, with a pool that can refuse. -/
def ArrayBuilder.TryResizeBitmap (b : ArrayBuilder) (pool : List Bool) (bm : List Nat)
    (new_bits : Nat) : Alloc ArrayBuilder :=
  let new_bytes := CeilByte new_bits / 8
  let old_bytes := bm.length
  match PoolBuffer.TryResize pool bm new_bytes with
  | (none, _) => Alloc.oom b
  | (some bm1, pool1) =>
    if old_bytes < new_bytes then
      match memset bm1 old_bytes 0 (bm1.length - old_bytes) with
      | some bm2 => Alloc.ok { b with null_bitmap := some bm2, capacity := new_bits } pool1
      | none => Alloc.fault
    else Alloc.ok { b with null_bitmap := some bm1, capacity := new_bits } pool1

/-- The method `PrimitiveBuilder<T>::Init(capacity)` with a pool that can
refuse. -/
def PrimitiveBuilder.TryInit (p : PrimitiveBuilder) (pool : List Bool) (capacity : Nat) :
    Alloc PrimitiveBuilder :=
  match p.base.TryInit pool capacity with
  | Alloc.fault => Alloc.fault
  | Alloc.oom b1 => Alloc.oom { p with base := b1 }
  | Alloc.ok b1 pool1 =>
    let nbytes := bytes_required p.width capacity
    match PoolBuffer.TryResize pool1 [] nbytes with
    | (none, _) => Alloc.oom { p with base := b1, data := some [] }
    | (some d, pool2) =>
      match memset d 0 0 nbytes with
      | some d1 => Alloc.ok { p with base := b1, data := some d1 } pool2
      | none => Alloc.fault

/-- The method `ArrayBuilder::Resize` run on a `PrimitiveBuilder`, with a pool
that can refuse. -/
def PrimitiveBuilder.TryArrayBuilder_Resize (p : PrimitiveBuilder) (pool : List Bool)
    (new_bits : Nat) : Alloc PrimitiveBuilder :=
  match p.base.null_bitmap with
  | none => p.TryInit pool new_bits
  | some bm =>
    match p.base.TryResizeBitmap pool bm new_bits with
    | Alloc.fault => Alloc.fault
    | Alloc.oom b1 => Alloc.oom { p with base := b1 }
    | Alloc.ok b1 pool1 => Alloc.ok { p with base := b1 } pool1

/-- The method `PrimitiveBuilder<T>::Resize(capacity)` with a pool that can
refuse. -/
def PrimitiveBuilder.TryResize (p : PrimitiveBuilder) (pool : List Bool) (capacity0 : Nat) :
    Alloc PrimitiveBuilder :=
  let capacity := if capacity0 < kMinBuilderCapacity then kMinBuilderCapacity else capacity0
  if p.base.capacity = 0 then p.TryInit pool capacity
  else
    match p.TryArrayBuilder_Resize pool capacity with
    | Alloc.fault => Alloc.fault
    | Alloc.oom p1 => Alloc.oom p1
    | Alloc.ok p1 pool1 =>
      match p1.data with
      | none => Alloc.fault
      | some d =>
        let old_bytes := d.length
        let new_bytes := bytes_required p1.width capacity
        match PoolBuffer.TryResize pool1 d new_bytes with
        | (none, _) => Alloc.oom p1
        | (some d1, pool2) =>
          if new_bytes < old_bytes then Alloc.fault
          else
            match memset d1 old_bytes 0 (new_bytes - old_bytes) with
            | some d2 => Alloc.ok { p1 with data := some d2 } pool2
            | none => Alloc.fault

/-- The method `ArrayBuilder::Reserve` run on a `PrimitiveBuilder`, with a pool
that can refuse. -/
def PrimitiveBuilder.TryReserve (p : PrimitiveBuilder) (pool : List Bool) (elements : Nat) :
    Alloc PrimitiveBuilder :=
  if p.base.length + elements > p.base.capacity then
    p.TryResize pool (NextPower2 (p.base.length + elements))
  else Alloc.ok p pool

/-- The method `PrimitiveBuilder<T>::Append(values, length, valid_bytes)` with a
pool that can refuse: `RETURN_NOT_OK(Reserve(length))`, then the copy and the
bitmap update, which allocate nothing. -/
def PrimitiveBuilder.TryAppend (p : PrimitiveBuilder) (pool : List Bool) (values : List Nat)
    (length : Nat) (valid_bytes : Option (List Nat)) : Alloc PrimitiveBuilder :=
  match p.TryReserve pool length with
  | Alloc.fault => Alloc.fault
  | Alloc.oom p1 => Alloc.oom p1
  | Alloc.ok p1 pool1 =>
    let copied : Option (Option (List Nat)) :=
      if length > 0 then
        match p1.data with
        | none => none
        | some d =>
          match memcpy d (p1.base.length * p1.width) values (bytes_required p1.width length) with
          | some d1 => some (some d1)
          | none => none
      else some p1.data
    match copied with
    | none => Alloc.fault
    | some data1 =>
      match p1.base.UnsafeAppendToBitmapBulk valid_bytes length with
      | some b1 => Alloc.ok { p1 with base := b1, data := data1 } pool1
      | none => Alloc.fault

/-- The builder a call leaves behind, whether it ends normally or with the
allocation error, satisfies `P` (nothing is said of a faulting call). -/
def Alloc.Keeps {σ : Type} (P : σ → Prop) : Alloc σ → Prop
  | Alloc.ok s _ => P s
  | Alloc.oom s => P s
  | Alloc.fault => True

/-- The method `BooleanBuilder::Init(capacity)` with a pool that can refuse. -/
def BooleanBuilder.TryInit (p : BooleanBuilder) (pool : List Bool) (capacity : Nat) :
    Alloc BooleanBuilder :=
  match p.base.TryInit pool capacity with
  | Alloc.fault => Alloc.fault
  | Alloc.oom b1 => Alloc.oom { p with base := b1 }
  | Alloc.ok b1 pool1 =>
    let nbytes := BytesForBits capacity
    match PoolBuffer.TryResize pool1 [] nbytes with
    | (none, _) => Alloc.oom { base := b1, data := some [] }
    | (some d, pool2) =>
      match memset d 0 0 nbytes with
      | some d1 => Alloc.ok { base := b1, data := some d1 } pool2
      | none => Alloc.fault

/-- The method `ArrayBuilder::Resize` run on a `BooleanBuilder`, with a pool that
can refuse. -/
def BooleanBuilder.TryArrayBuilder_Resize (p : BooleanBuilder) (pool : List Bool)
    (new_bits : Nat) : Alloc BooleanBuilder :=
  match p.base.null_bitmap with
  | none => p.TryInit pool new_bits
  | some bm =>
    match p.base.TryResizeBitmap pool bm new_bits with
    | Alloc.fault => Alloc.fault
    | Alloc.oom b1 => Alloc.oom { p with base := b1 }
    | Alloc.ok b1 pool1 => Alloc.ok { p with base := b1 } pool1

/-- The method `BooleanBuilder::Resize(capacity)` with a pool that can refuse. -/
def BooleanBuilder.TryResize (p : BooleanBuilder) (pool : List Bool) (capacity0 : Nat) :
    Alloc BooleanBuilder :=
  let capacity := if capacity0 < kMinBuilderCapacity then kMinBuilderCapacity else capacity0
  if p.base.capacity = 0 then p.TryInit pool capacity
  else
    match p.TryArrayBuilder_Resize pool capacity with
    | Alloc.fault => Alloc.fault
    | Alloc.oom p1 => Alloc.oom p1
    | Alloc.ok p1 pool1 =>
      match p1.data with
      | none => Alloc.fault
      | some d =>
        let old_bytes := d.length
        let new_bytes := BytesForBits capacity
        match PoolBuffer.TryResize pool1 d new_bytes with
        | (none, _) => Alloc.oom p1
        | (some d1, pool2) =>
          if new_bytes < old_bytes then Alloc.fault
          else
            match memset d1 old_bytes 0 (new_bytes - old_bytes) with
            | some d2 => Alloc.ok { p1 with data := some d2 } pool2
            | none => Alloc.fault

/-- The method `ArrayBuilder::Reserve` run on a `BooleanBuilder`, with a pool
that can refuse. -/
def BooleanBuilder.TryReserve (p : BooleanBuilder) (pool : List Bool) (elements : Nat) :
    Alloc BooleanBuilder :=
  if p.base.length + elements > p.base.capacity then
    p.TryResize pool (NextPower2 (p.base.length + elements))
  else Alloc.ok p pool

/-- The method `BooleanBuilder::Append(values, length, valid_bytes)` with a pool
that can refuse: `RETURN_NOT_OK(Reserve(length))`, then the bit loop and the
bitmap update, which allocate nothing. -/
def BooleanBuilder.TryAppend (p : BooleanBuilder) (pool : List Bool) (values : List Nat)
    (length : Nat) (valid_bytes : Option (List Nat)) : Alloc BooleanBuilder :=
  match p.TryReserve pool length with
  | Alloc.fault => Alloc.fault
  | Alloc.oom p1 => Alloc.oom p1
  | Alloc.ok p1 pool1 =>
    match BooleanBuilder.appendLoop values valid_bytes p1.base.length length 0
        (p1.data.getD []) with
    | none => Alloc.fault
    | some d1 =>
      match p1.base.UnsafeAppendToBitmapBulk valid_bytes length with
      | some b1 => Alloc.ok { base := b1, data := p1.data.map (fun _ => d1) } pool1
      | none => Alloc.fault

/-- The method `AdaptiveIntBuilderBase::Init(capacity)` with a pool that can
refuse. -/
def AdaptiveIntBuilder.TryInit (a : AdaptiveIntBuilder) (pool : List Bool) (capacity : Nat) :
    Alloc AdaptiveIntBuilder :=
  match a.base.TryInit pool capacity with
  | Alloc.fault => Alloc.fault
  | Alloc.oom b1 => Alloc.oom { a with base := b1 }
  | Alloc.ok b1 pool1 =>
    let nbytes := capacity * a.int_size
    match PoolBuffer.TryResize pool1 [] nbytes with
    | (none, _) => Alloc.oom { a with base := b1, data := some [] }
    | (some d, pool2) =>
      match memset d 0 0 nbytes with
      | some d1 => Alloc.ok { a with base := b1, data := some d1 } pool2
      | none => Alloc.fault

/-- The method `ArrayBuilder::Resize` run on an adaptive builder, with a pool
that can refuse. -/
def AdaptiveIntBuilder.TryArrayBuilder_Resize (a : AdaptiveIntBuilder) (pool : List Bool)
    (new_bits : Nat) : Alloc AdaptiveIntBuilder :=
  match a.base.null_bitmap with
  | none => a.TryInit pool new_bits
  | some bm =>
    match a.base.TryResizeBitmap pool bm new_bits with
    | Alloc.fault => Alloc.fault
    | Alloc.oom b1 => Alloc.oom { a with base := b1 }
    | Alloc.ok b1 pool1 => Alloc.ok { a with base := b1 } pool1

/-- The method `AdaptiveIntBuilderBase::Resize(capacity)` with a pool that can
refuse. -/
def AdaptiveIntBuilder.TryResize (a : AdaptiveIntBuilder) (pool : List Bool) (capacity0 : Nat) :
    Alloc AdaptiveIntBuilder :=
  let capacity := if capacity0 < kMinBuilderCapacity then kMinBuilderCapacity else capacity0
  if a.base.capacity = 0 then a.TryInit pool capacity
  else
    match a.TryArrayBuilder_Resize pool capacity with
    | Alloc.fault => Alloc.fault
    | Alloc.oom a1 => Alloc.oom a1
    | Alloc.ok a1 pool1 =>
      match a1.data with
      | none => Alloc.fault
      | some d =>
        let old_bytes := d.length
        let new_bytes := capacity * a1.int_size
        match PoolBuffer.TryResize pool1 d new_bytes with
        | (none, _) => Alloc.oom a1
        | (some d1, pool2) =>
          if new_bytes < old_bytes then Alloc.fault
          else
            match memset d1 old_bytes 0 (new_bytes - old_bytes) with
            | some d2 => Alloc.ok { a1 with data := some d2 } pool2
            | none => Alloc.fault

/-- The method `ArrayBuilder::Reserve` run on an adaptive builder, with a pool
that can refuse. -/
def AdaptiveIntBuilder.TryReserve (a : AdaptiveIntBuilder) (pool : List Bool) (elements : Nat) :
    Alloc AdaptiveIntBuilder :=
  if a.base.length + elements > a.base.capacity then
    a.TryResize pool (NextPower2 (a.base.length + elements))
  else Alloc.ok a pool

/-- The method `AdaptiveIntBuilder::ExpandIntSizeInternal<new_type, old_type>()`
with a pool that can refuse: `int_size_` is already the new width when the
resize fails. -/
def AdaptiveIntBuilder.TryExpandIntSizeInternal (a : AdaptiveIntBuilder) (pool : List Bool)
    (new_size old_size : Nat) : Alloc AdaptiveIntBuilder :=
  if old_size ≥ new_size then Alloc.ok a pool
  else
    match a.data with
    | none => Alloc.fault
    | some d =>
      let a1 := { a with int_size := new_size }
      match a1.TryResize pool (d.length / old_size) with
      | Alloc.fault => Alloc.fault
      | Alloc.oom a2 => Alloc.oom a2
      | Alloc.ok a2 pool1 =>
        match a2.data with
        | none => Alloc.fault
        | some d2 =>
          match copyBackward old_size new_size a2.base.length d2 with
          | some d3 => Alloc.ok { a2 with data := some d3 } pool1
          | none => Alloc.fault

/-- The method `AdaptiveIntBuilder::ExpandIntSizeN<new_type>()` with a pool that
can refuse. -/
def AdaptiveIntBuilder.TryExpandIntSizeN (a : AdaptiveIntBuilder) (pool : List Bool)
    (new_size : Nat) : Alloc AdaptiveIntBuilder :=
  if a.int_size = 1 ∨ a.int_size = 2 ∨ a.int_size = 4 ∨ a.int_size = 8 then
    a.TryExpandIntSizeInternal pool new_size a.int_size
  else Alloc.ok a pool

/-- The method `AdaptiveIntBuilder::ExpandIntSize(new_int_size)` with a pool that
can refuse. -/
def AdaptiveIntBuilder.TryExpandIntSize (a : AdaptiveIntBuilder) (pool : List Bool)
    (new_int_size : Nat) : Alloc AdaptiveIntBuilder :=
  if new_int_size = 1 ∨ new_int_size = 2 ∨ new_int_size = 4 ∨ new_int_size = 8 then
    a.TryExpandIntSizeN pool new_int_size
  else Alloc.ok a pool

/-- The first block of `AdaptiveIntBuilder::Append` after `Reserve`, with a pool
that can refuse: `RETURN_NOT_OK(ExpandIntSize(new_int_size))`. -/
def AdaptiveIntBuilder.tryExpandFor (a : AdaptiveIntBuilder) (pool : List Bool)
    (values : List Int) (length : Nat) (valid_bytes : Option (List Nat)) :
    Alloc AdaptiveIntBuilder :=
  if length > 0 ∧ a.int_size < 8 then
    match expandedSizeLoop values valid_bytes length 0 a.int_size with
    | none => Alloc.fault
    | some new_int_size =>
      if new_int_size ≠ a.int_size then a.TryExpandIntSize pool new_int_size
      else Alloc.ok a pool
  else Alloc.ok a pool

/-- The method `AdaptiveIntBuilder::Append(values, length, valid_bytes)` with a
pool that can refuse: the two `RETURN_NOT_OK` exits, then the stores and the
bitmap update, which allocate nothing. -/
def AdaptiveIntBuilder.TryAppend (a : AdaptiveIntBuilder) (pool : List Bool)
    (values : List Int) (length : Nat) (valid_bytes : Option (List Nat)) :
    Alloc AdaptiveIntBuilder :=
  match a.TryReserve pool length with
  | Alloc.fault => Alloc.fault
  | Alloc.oom a1 => Alloc.oom a1
  | Alloc.ok a1 pool1 =>
    match a1.tryExpandFor pool1 values length valid_bytes with
    | Alloc.fault => Alloc.fault
    | Alloc.oom a2 => Alloc.oom a2
    | Alloc.ok a2 pool2 =>
      match a2.storeValues values length with
      | none => Alloc.fault
      | some data1 =>
        match a2.base.UnsafeAppendToBitmapBulk valid_bytes length with
        | some b1 => Alloc.ok { a2 with base := b1, data := data1 } pool2
        | none => Alloc.fault

/-- The method `AdaptiveUIntBuilder::ExpandIntSizeInternal<new_type, old_type>()`
with a pool that can refuse. -/
def AdaptiveUIntBuilder.TryExpandIntSizeInternal (a : AdaptiveIntBuilder) (pool : List Bool)
    (new_size old_size : Nat) : Alloc AdaptiveIntBuilder :=
  if old_size ≥ new_size then Alloc.ok a pool
  else
    match a.data with
    | none => Alloc.fault
    | some d =>
      let a1 := { a with int_size := new_size }
      match a1.TryResize pool (d.length / old_size) with
      | Alloc.fault => Alloc.fault
      | Alloc.oom a2 => Alloc.oom a2
      | Alloc.ok a2 pool1 =>
        match a2.data with
        | none => Alloc.fault
        | some d2 =>
          match copyBackwardU old_size new_size a2.base.length d2 with
          | some d3 => Alloc.ok { a2 with data := some d3 } pool1
          | none => Alloc.fault

/-- The method `AdaptiveUIntBuilder::ExpandIntSizeN<new_type>()` with a pool that
can refuse. -/
def AdaptiveUIntBuilder.TryExpandIntSizeN (a : AdaptiveIntBuilder) (pool : List Bool)
    (new_size : Nat) : Alloc AdaptiveIntBuilder :=
  if a.int_size = 1 ∨ a.int_size = 2 ∨ a.int_size = 4 ∨ a.int_size = 8 then
    AdaptiveUIntBuilder.TryExpandIntSizeInternal a pool new_size a.int_size
  else Alloc.ok a pool

/-- The method `AdaptiveUIntBuilder::ExpandIntSize(new_int_size)` with a pool
that can refuse. -/
def AdaptiveUIntBuilder.TryExpandIntSize (a : AdaptiveIntBuilder) (pool : List Bool)
    (new_int_size : Nat) : Alloc AdaptiveIntBuilder :=
  if new_int_size = 1 ∨ new_int_size = 2 ∨ new_int_size = 4 ∨ new_int_size = 8 then
    AdaptiveUIntBuilder.TryExpandIntSizeN a pool new_int_size
  else Alloc.ok a pool

/-- The first block of `AdaptiveUIntBuilder::Append` after `Reserve`, with a pool
that can refuse. -/
def AdaptiveUIntBuilder.tryExpandFor (a : AdaptiveIntBuilder) (pool : List Bool)
    (values : List Nat) (length : Nat) (valid_bytes : Option (List Nat)) :
    Alloc AdaptiveIntBuilder :=
  if length > 0 ∧ a.int_size < 8 then
    match expandedUIntSizeLoop values valid_bytes length 0 a.int_size with
    | none => Alloc.fault
    | some new_int_size =>
      if new_int_size ≠ a.int_size then AdaptiveUIntBuilder.TryExpandIntSize a pool new_int_size
      else Alloc.ok a pool
  else Alloc.ok a pool

/-- The method `AdaptiveUIntBuilder::Append(values, length, valid_bytes)` with a
pool that can refuse. -/
def AdaptiveUIntBuilder.TryAppend (a : AdaptiveIntBuilder) (pool : List Bool)
    (values : List Nat) (length : Nat) (valid_bytes : Option (List Nat)) :
    Alloc AdaptiveIntBuilder :=
  match a.TryReserve pool length with
  | Alloc.fault => Alloc.fault
  | Alloc.oom a1 => Alloc.oom a1
  | Alloc.ok a1 pool1 =>
    match AdaptiveUIntBuilder.tryExpandFor a1 pool1 values length valid_bytes with
    | Alloc.fault => Alloc.fault
    | Alloc.oom a2 => Alloc.oom a2
    | Alloc.ok a2 pool2 =>
      match AdaptiveUIntBuilder.storeValues a2 values length with
      | none => Alloc.fault
      | some data1 =>
        match a2.base.UnsafeAppendToBitmapBulk valid_bytes length with
        | some b1 => Alloc.ok { a2 with base := b1, data := data1 } pool2
        | none => Alloc.fault

/-- The builder at the allocation error, if the call ends with one. -/
def Alloc.failed {σ : Type} : Alloc σ → Option σ
  | Alloc.oom s => some s
  | _ => none

/-- The builder a call leaves behind when it ends normally (`none` for a call
that ends with the allocation error or faults). -/
def Alloc.state {σ : Type} : Alloc σ → Option σ
  | Alloc.ok s _ => some s
  | _ => none

/-- The outcome of a call that met no refusal and has used up the answers of the
pool: the result of the call as the definitions with a pool that never fails
give it. -/
def Alloc.ofOption {σ : Type} : Option σ → Alloc σ
  | some s => Alloc.ok s []
  | none => Alloc.fault

/-- An adaptive builder after a bulk append of 1 and 2 to a fresh builder:
width 1, capacity 32, two valid elements. -/
def AdaptiveIntBuilder.sample : AdaptiveIntBuilder :=
  { base := { null_bitmap := some [3, 0, 0, 0], null_count := 0, length := 2,
              capacity := 32 },
    data := some ([1, 2] ++ List.replicate 30 0), int_size := 1 }

/-- Modelled from the spec: the width a batch asks for, in the words of the
specification ("for the valid entries only ... the minimal width capable of
representing every still-unwritten value and every already-written value at its
current width"): the maximum of the current width `w` and the minimal signed
widths of the entries that are valid. -/
def widthOfValid (w : Nat) (es : List (Int × Bool)) : Nat :=
  ((es.filter (fun e => e.2)).map (fun e => minimalIntSize e.1)).foldr max w

/-- Modelled from the spec: the width an unsigned batch asks for: the maximum of
the current width `w` and the minimal unsigned widths of the entries that are
valid. -/
def widthOfValidU (w : Nat) (es : List (Nat × Bool)) : Nat :=
  ((es.filter (fun e => e.2)).map (fun e => minimalUIntSize e.1)).foldr max w

/-- An adaptive builder at width 1 that holds three valid elements with the
bytes `0xFF`, `0x02`, `0x80`: -1, 2, -128 for the signed builder and 255, 2, 128
for the unsigned one. -/
def AdaptiveIntBuilder.sampleBytes : AdaptiveIntBuilder :=
  { base := { null_bitmap := some [7, 0, 0, 0], null_count := 0, length := 3,
              capacity := 32 },
    data := some ([255, 2, 128] ++ List.replicate 29 0), int_size := 1 }

/-- Whether a call is `Reserve`, the single `AppendToBitmap(is_valid)` or the
bulk `AppendToBitmap` with an explicit validity array (of `length` bytes). -/
def BuilderOp.isBitmapAppend : BuilderOp → Bool
  | BuilderOp.Reserve _ => true
  | BuilderOp.AppendToBitmap _ => true
  | BuilderOp.AppendToBitmapBulk (some vb) length => decide (vb.length = length)
  | _ => false

/-- Whether a call appends at least one element when it is a bulk call. -/
def BuilderOp.nonEmptyBulk : BuilderOp → Bool
  | BuilderOp.AppendToBitmapBulk _ length => decide (0 < length)
  | _ => true

/-- The state invariant of a base builder together with a bitmap that is zero
from bit `length` on. -/
def ArrayBuilder.ClearBeyond (b : ArrayBuilder) : Prop :=
  b.WF ∧ ∀ j, b.length ≤ j → b.IsValid j = false

/-- The number of occupied slots of a hash table: the slots that do not hold the
empty marker. -/
def occupiedSlots (c : HashConsts) (slots : List Nat) : Nat :=
  slots.length - slots.count c.kHashSlotEmpty

/-- A well-formed dictionary state: the table has `hash_table_size` slots (at
least one), every slot holds the empty marker or a dictionary index, no
dictionary index is the empty marker, every dictionary index is in exactly one
slot, and no value is in the dictionary twice. -/
def DictionaryBuilder.WellFormed {α : Type} (c : HashConsts) (d : DictionaryBuilder α) : Prop :=
  d.hash_slots.length = d.hash_table_size ∧
  0 < d.hash_table_size ∧
  (∀ x, x ∈ d.hash_slots → x = c.kHashSlotEmpty ∨ x < d.dict_builder.length) ∧
  d.dict_builder.length ≤ c.kHashSlotEmpty ∧
  (∀ i, i < d.dict_builder.length → d.hash_slots.count i = 1) ∧
  d.dict_builder.Nodup

instance DictionaryBuilder.decidableWellFormed {α : Type} [DecidableEq α] (c : HashConsts)
    (d : DictionaryBuilder α) : Decidable (d.WellFormed c) := by
  unfold DictionaryBuilder.WellFormed
  infer_instance

/-- A dictionary state that is well-formed for the comparison of the kind `k`:
as `WellFormed`, but instead of "no value twice" no two dictionary entries are
taken for the same value by `SlotDifferent`. For a kind whose `SlotDifferent` is
the inequality of the values the two say the same; for the float kinds this one
also excludes a dictionary that holds `+0.0` and `-0.0`. -/
def DictionaryBuilder.WellFormedFor {α : Type} (c : HashConsts) (k : DictKind α)
    (d : DictionaryBuilder α) : Prop :=
  TableGood c d.dict_builder d.hash_slots d.hash_table_size ∧
  0 < d.hash_table_size ∧
  d.dict_builder.length ≤ c.kHashSlotEmpty ∧
  (∀ i, i < d.dict_builder.length → d.hash_slots.count i = 1) ∧
  ∀ (i j : Nat) (u v : α), d.dict_builder[i]? = some u → d.dict_builder[j]? = some v →
    k.different u v = false → i = j

/-- A call of `Append(value)` or of `AppendNull()` on a dictionary builder. -/
inductive DictOp (α : Type) where
  | Append (value : α)
  | AppendNull

/-- The dictionary builder after one call. -/
def DictionaryBuilder.apply {α : Type} (c : HashConsts) (k : DictKind α)
    (d : DictionaryBuilder α) : DictOp α → Option (DictionaryBuilder α)
  | DictOp.Append value => d.Append c k value
  | DictOp.AppendNull => d.AppendNull

/-- A sequence of `Append` and `AppendNull` calls, in order. -/
def DictionaryBuilder.runOps {α : Type} (c : HashConsts) (k : DictKind α) :
    DictionaryBuilder α → List (DictOp α) → Option (DictionaryBuilder α)
  | d, [] => some d
  | d, op :: ops =>
    match d.apply c k op with
    | some d1 => DictionaryBuilder.runOps c k d1 ops
    | none => none

/-- A dictionary builder of the generic integer kind in mid-use, with a table of
4 slots: the values 2 and 4 (indices 0 and 1) hashed by their value, so that
index 0 is in slot 2 and index 1 in slot 0. -/
def DictionaryBuilder.sample : DictionaryBuilder Nat :=
  { base := { null_bitmap := some [0, 0, 0, 0], null_count := 0, length := 0, capacity := 32 },
    hash_slots := [1, 2147483647, 0, 2147483647], hash_table_size := 4, mod_bitmask := 3,
    dict_builder := [2, 4], values_builder := [some 0, some 1] }

/-- A dictionary builder right after `Init(0)`: the table is filled with the
empty marker, nothing is in the dictionary and the base builder has no
capacity, so that the first `Append` runs `Init` once more through `Reserve`. -/
def DictionaryBuilder.EmptyTable {α : Type} (c : HashConsts) (d : DictionaryBuilder α) : Prop :=
  d.base.length = 0 ∧ d.base.capacity = 0 ∧ d.dict_builder = [] ∧
  d.hash_slots = List.replicate c.kInitialHashTableSize c.kHashSlotEmpty ∧
  d.hash_table_size = c.kInitialHashTableSize ∧
  d.mod_bitmask = c.kInitialHashTableSize - 1

/-- The part of the state invariant of an initialised dictionary builder that
holds whatever `SlotDifferent` is: capacity is reserved, the table is good, the
probe mask is below the table size, the dictionary has fewer entries than the
table has slots and than the empty marker, and at most `dict.length` slots are
occupied. -/
def DictionaryBuilder.LoadInv {α : Type} (c : HashConsts) (d : DictionaryBuilder α) : Prop :=
  d.base.length + 1 ≤ d.base.capacity ∧
  TableGood c d.dict_builder d.hash_slots d.hash_table_size ∧
  d.mod_bitmask + 1 = d.hash_table_size ∧
  d.dict_builder.length < d.hash_table_size ∧
  d.hash_table_size ≤ d.hash_slots.count c.kHashSlotEmpty + d.dict_builder.length ∧
  d.dict_builder.length < c.kHashSlotEmpty

/-- A hash function for examples on float bit patterns: 7 for the pattern of
`-0.0` (`0x80000000`) and the pattern itself otherwise. -/
def zeroHash (bits : Nat) : Nat := if bits = 2147483648 then 7 else bits

/-- Constants for short traces: the marker and the maximum load of
`HashConsts.upstream` with an initial table of 4 slots. -/
def HashConsts.small : HashConsts :=
  { kInitialHashTableSize := 4, kHashSlotEmpty := 2147483647, loadNum := 7, loadDen := 10 }

/-- A float dictionary builder (values held by their bit patterns, hashed with
`zeroHash`) in the state in which `Append` calls `DoubleTableSize`: a table of 4
slots, and the dictionary `-0.0`, `+0.0`, `0x00000007` with the indices 0, 1, 2 in
the slots 3, 0, 1 (the third value starts at slot 3 and passes the two
zeros). -/
def DictionaryBuilder.floatSample : DictionaryBuilder Nat :=
  { base := { null_bitmap := some [0, 0, 0, 0], null_count := 0, length := 0, capacity := 32 },
    hash_slots := [1, 2, 2147483647, 0], hash_table_size := 4, mod_bitmask := 3,
    dict_builder := [2147483648, 0, 7], values_builder := [some 0, some 1] }
/-! ## Validity bitmap: the bulk append with an explicit validity array -/


theorem testBit_kFlippedBitmask (k i : Nat) (hk : k < 8) :
    (kFlippedBitmask k).testBit i = (decide (i < 8) && !decide (k = i)) := by
  unfold kFlippedBitmask
  have h : (255 : Nat) - 2 ^ k = 2 ^ 8 - (2 ^ k + 1) := by omega
  have hlt : 2 ^ k < 2 ^ 8 := Nat.pow_lt_pow_right (by decide) hk
  rw [h, Nat.testBit_two_pow_sub_succ hlt, Nat.testBit_two_pow]

theorem GetBit_set (data : List Nat) (bo v j : Nat) (hbo : bo < data.length) :
    GetBit (data.set bo v) j = if j / 8 = bo then v.testBit (j % 8) else GetBit data j := by
  unfold GetBit
  simp only [List.getD_eq_getElem?_getD, List.getElem?_set]
  by_cases h1 : bo = j / 8
  · subst h1; simp [hbo]
  · have h2 : ¬ j / 8 = bo := fun h => h1 h.symm
    simp [h1, h2]

theorem GetBit_set_or (data : List Nat) (bo bitset k j : Nat) (hk : k < 8) (hbo : bo < data.length) :
    GetBit (data.set bo (bitset ||| kBitmask k)) j =
      if j = bo * 8 + k then true else GetBit (data.set bo bitset) j := by
  rw [GetBit_set _ _ _ _ hbo, GetBit_set _ _ _ _ hbo]
  unfold kBitmask
  by_cases h1 : j / 8 = bo
  · simp only [h1, if_true, Nat.testBit_or, Nat.testBit_two_pow]
    by_cases h2 : k = j % 8
    · have h3 : j = bo * 8 + k := by omega
      rw [if_pos h3]; simp [h2]
    · have h3 : ¬ j = bo * 8 + k := by omega
      rw [if_neg h3]; simp [h2]
  · have h3 : ¬ j = bo * 8 + k := by omega
    simp [h1, h3]

theorem GetBit_set_and (data : List Nat) (bo bitset k j : Nat) (hk : k < 8) (hbo : bo < data.length) :
    GetBit (data.set bo (bitset &&& kFlippedBitmask k)) j =
      if j = bo * 8 + k then false else GetBit (data.set bo bitset) j := by
  rw [GetBit_set _ _ _ _ hbo, GetBit_set _ _ _ _ hbo]
  by_cases h1 : j / 8 = bo
  · simp only [h1, if_true, Nat.testBit_and, testBit_kFlippedBitmask _ _ hk]
    have h8 : j % 8 < 8 := Nat.mod_lt _ (by decide)
    by_cases h2 : k = j % 8
    · have h3 : j = bo * 8 + k := by omega
      rw [if_pos h3]; simp [h2]
    · have h3 : ¬ j = bo * 8 + k := by omega
      rw [if_neg h3]; simp [h2, h8]
  · have h3 : ¬ j = bo * 8 + k := by omega
    simp [h1, h3]

theorem flush_spec (c : BitmapCursor) (h8 : c.bit_offset ≤ 8) (hbo : c.byte_offset < c.data.length)
    (hroom : c.byte_offset * 8 + c.bit_offset < 8 * c.data.length) :
    ∃ c1, c.flush = some c1 ∧ c1.data.length = c.data.length ∧
      c1.byte_offset < c1.data.length ∧ c1.bit_offset < 8 ∧
      c1.byte_offset * 8 + c1.bit_offset = c.byte_offset * 8 + c.bit_offset ∧
      c1.null_count = c.null_count ∧ ∀ j, GetBit c1.commit j = GetBit c.commit j := by
  unfold BitmapCursor.flush
  by_cases h : c.bit_offset = 8
  · have h1 : c.byte_offset + 1 < (c.data.set c.byte_offset c.bitset).length := by
      rw [List.length_set]; omega
    simp only [h, if_true, hbo, List.getElem?_eq_getElem h1]
    refine ⟨_, rfl, ?_, ?_, ?_, ?_, rfl, ?_⟩
    · simp
    · simpa using h1
    · simp
    · simp; omega
    · intro j
      simp only [BitmapCursor.commit]
      rw [GetBit_set _ _ _ _ h1]
      split_ifs with hj
      · unfold GetBit
        rw [hj, List.getD_eq_getElem?_getD, List.getElem?_eq_getElem h1]; rfl
      · rfl
  · refine ⟨c, by simp [h], rfl, hbo, by omega, rfl, rfl, fun _ => rfl⟩

theorem put_spec (c : BitmapCursor) (v : Nat) (h8 : c.bit_offset < 8)
    (hbo : c.byte_offset < c.data.length) :
    (c.put v).data = c.data ∧ (c.put v).byte_offset = c.byte_offset ∧
      (c.put v).bit_offset = c.bit_offset + 1 ∧
      (c.put v).null_count = c.null_count + (if v = 0 then 1 else 0) ∧
      ∀ j, GetBit (c.put v).commit j =
        if j = c.byte_offset * 8 + c.bit_offset then decide (v ≠ 0) else GetBit c.commit j := by
  by_cases hv : v = 0
  · refine ⟨by simp [BitmapCursor.put, hv], by simp [BitmapCursor.put, hv],
      by simp [BitmapCursor.put, hv], by simp [BitmapCursor.put, hv], fun j => ?_⟩
    have := GetBit_set_and c.data c.byte_offset c.bitset c.bit_offset j h8 hbo
    simpa [BitmapCursor.put, BitmapCursor.commit, hv] using this
  · refine ⟨by simp [BitmapCursor.put, hv], by simp [BitmapCursor.put, hv],
      by simp [BitmapCursor.put, hv], by simp [BitmapCursor.put, hv], fun j => ?_⟩
    have := GetBit_set_or c.data c.byte_offset c.bitset c.bit_offset j h8 hbo
    simpa [BitmapCursor.put, BitmapCursor.commit, hv] using this

theorem count_drop_take_succ (vb : List Nat) (i n v : Nat) (h : vb[i]? = some v) :
    ((vb.drop i).take (n + 1)).count 0 =
      (if v = 0 then 1 else 0) + ((vb.drop (i + 1)).take n).count 0 := by
  have hi : i < vb.length := by
    rcases Nat.lt_or_ge i vb.length with h1 | h1
    · exact h1
    · rw [List.getElem?_eq_none h1] at h; cases h
  have hv : vb[i] = v := by
    rw [List.getElem?_eq_getElem hi] at h; exact Option.some.inj h
  rw [List.drop_eq_getElem_cons hi, List.take_succ_cons, List.count_cons, hv]
  by_cases h0 : v = 0
  · simp [h0]; omega
  · simp [h0]

theorem appendBitsLoop_spec (vb : List Nat) : ∀ (n i : Nat) (c : BitmapCursor),
    c.bit_offset ≤ 8 → c.byte_offset < c.data.length →
    c.byte_offset * 8 + c.bit_offset + n ≤ 8 * c.data.length → i + n ≤ vb.length →
    ∃ c1, appendBitsLoop vb n i c = some c1 ∧ c1.data.length = c.data.length ∧
      c1.byte_offset < c1.data.length ∧ c1.bit_offset ≤ 8 ∧
      (0 < n ∨ 0 < c.bit_offset → 0 < c1.bit_offset) ∧
      c1.byte_offset * 8 + c1.bit_offset = c.byte_offset * 8 + c.bit_offset + n ∧
      c1.null_count = c.null_count + ((vb.drop i).take n).count 0 ∧
      ∀ j, GetBit c1.commit j =
        if c.byte_offset * 8 + c.bit_offset ≤ j ∧ j < c.byte_offset * 8 + c.bit_offset + n then
          decide (vb.getD (i + (j - (c.byte_offset * 8 + c.bit_offset))) 0 ≠ 0)
        else GetBit c.commit j := by
  intro n
  induction n with
  | zero =>
    intro i c h8 hbo _ _
    refine ⟨c, rfl, rfl, hbo, h8, fun h => by omega, rfl, by simp, fun j => ?_⟩
    have : ¬ (c.byte_offset * 8 + c.bit_offset ≤ j ∧ j < c.byte_offset * 8 + c.bit_offset + 0) := by
      omega
    rw [if_neg this]
  | succ n ih =>
    intro i c h8 hbo hroom hvb
    obtain ⟨c1, hf, hlen1, hbo1, h81, hpos1, hnc1, hbit1⟩ := flush_spec c h8 hbo (by omega)
    have hi : i < vb.length := by omega
    obtain ⟨hd2, hb2, hbit2, hnc2, hget2⟩ := put_spec c1 vb[i] h81 hbo1
    obtain ⟨c3, hl, hlen3, hbo3, h83, hpos3, hsum3, hnc3, hbit3⟩ :=
      ih (i + 1) (c1.put vb[i]) (by omega) (by rw [hd2, hb2]; exact hbo1)
        (by rw [hd2, hb2, hbit2]; omega) (by omega)
    refine ⟨c3, ?_, ?_, hbo3, h83, fun _ => hpos3 (Or.inr (by omega)), ?_, ?_, fun j => ?_⟩
    · simp only [appendBitsLoop, hf, List.getElem?_eq_getElem hi]; exact hl
    · rw [hlen3, hd2, hlen1]
    · rw [hsum3, hb2, hbit2]; omega
    · rw [hnc3, hnc2, hnc1, count_drop_take_succ vb i n vb[i] (List.getElem?_eq_getElem hi)]
      omega
    · rw [hbit3 j, hb2, hbit2, hget2 j, hbit1 j]
      by_cases hj : j = c1.byte_offset * 8 + c1.bit_offset
      · have e1 : ¬ (c1.byte_offset * 8 + (c1.bit_offset + 1) ≤ j ∧
            j < c1.byte_offset * 8 + (c1.bit_offset + 1) + n) := by omega
        have e2 : c.byte_offset * 8 + c.bit_offset ≤ j ∧
            j < c.byte_offset * 8 + c.bit_offset + (n + 1) := by omega
        rw [if_neg e1, if_pos hj, if_pos e2]
        have e3 : i + (j - (c.byte_offset * 8 + c.bit_offset)) = i := by omega
        rw [e3, List.getD_eq_getElem?_getD, List.getElem?_eq_getElem hi]; rfl
      · by_cases hr : c1.byte_offset * 8 + (c1.bit_offset + 1) ≤ j ∧
            j < c1.byte_offset * 8 + (c1.bit_offset + 1) + n
        · have e2 : c.byte_offset * 8 + c.bit_offset ≤ j ∧
              j < c.byte_offset * 8 + c.bit_offset + (n + 1) := by omega
          rw [if_pos hr, if_pos e2]
          have e3 : i + 1 + (j - (c1.byte_offset * 8 + (c1.bit_offset + 1))) =
              i + (j - (c.byte_offset * 8 + c.bit_offset)) := by omega
          rw [e3]
        · have e2 : ¬ (c.byte_offset * 8 + c.bit_offset ≤ j ∧
              j < c.byte_offset * 8 + c.bit_offset + (n + 1)) := by omega
          rw [if_neg hr, if_neg hj, if_neg e2]

theorem list_set_getElem (l : List Nat) (i : Nat) (h : i < l.length) : l.set i l[i] = l := by
  apply List.ext_getElem?
  intro j
  rw [List.getElem?_set]
  by_cases hij : i = j
  · subst hij; simp [h]
  · simp [hij]

theorem bulkAppend_explicit_core (b : ArrayBuilder) (bm v : List Nat)
    (hbm : b.null_bitmap = some bm) (hcap : b.capacity ≤ 8 * bm.length)
    (hroom : b.length + v.length ≤ b.capacity) (hn : 1 ≤ v.length) :
    ∃ b1 bm1, b.UnsafeAppendToBitmapBulk (some v) v.length = some b1 ∧
      b1.null_bitmap = some bm1 ∧ bm1.length = bm.length ∧
      (∀ j, j < b.length → GetBit bm1 j = GetBit bm j) ∧
      (∀ i, i < v.length → (GetBit bm1 (b.length + i) = true ↔ v.getD i 0 ≠ 0)) ∧
      b1.length = b.length + v.length ∧
      b1.null_count = b.null_count + v.count 0 ∧
      b1.capacity = b.capacity := by
  have hbo : b.length / 8 < bm.length := by omega
  let c0 : BitmapCursor :=
    { data := bm, byte_offset := b.length / 8, bit_offset := b.length % 8,
      bitset := bm[b.length / 8], null_count := b.null_count }
  have hpos0 : c0.byte_offset * 8 + c0.bit_offset = b.length := by
    show b.length / 8 * 8 + b.length % 8 = b.length
    omega
  obtain ⟨c, hl, hlen, hboc, h8, hpos, hsum, hnc, hbit⟩ :=
    appendBitsLoop_spec v v.length 0 c0 (by show b.length % 8 ≤ 8; omega) hbo
      (by rw [hpos0]; show b.length + v.length ≤ 8 * bm.length; omega) (by omega)
  have hne : c.bit_offset ≠ 0 := by
    have := hpos (Or.inl hn); omega
  have hcommit0 : c0.commit = bm := by
    show bm.set (b.length / 8) bm[b.length / 8] = bm
    exact list_set_getElem bm _ hbo
  refine ⟨{ b with null_bitmap := some c.commit, null_count := c.null_count,
                    length := b.length + v.length }, c.commit, ?_, rfl, ?_, ?_, ?_, rfl, ?_, rfl⟩
  · simp only [ArrayBuilder.UnsafeAppendToBitmapBulk, hbm, List.getElem?_eq_getElem hbo]
    rw [show appendBitsLoop v v.length 0 c0 = some c from hl]
    simp only [ne_eq, hne, not_false_eq_true, if_true, hboc, BitmapCursor.commit]
  · rw [BitmapCursor.commit, List.length_set, hlen]
  · intro j hj
    rw [hbit j, hpos0, hcommit0]
    have : ¬ (b.length ≤ j ∧ j < b.length + v.length) := by omega
    rw [if_neg this]
  · intro i hi
    rw [hbit (b.length + i), hpos0]
    have : b.length ≤ b.length + i ∧ b.length + i < b.length + v.length := by omega
    rw [if_pos this]
    have e : 0 + (b.length + i - b.length) = i := by omega
    rw [e]
    simp
  · show c.null_count = b.null_count + v.count 0
    rw [hnc]
    show b.null_count + _ = _
    simp

/-- C4: for a builder whose bitmap holds `capacity` bits and with
`length + n ≤ capacity`, `n ≥ 1`, the bulk `UnsafeAppendToBitmap(v, n)` with an
explicit validity array `v` of `n` bytes returns a builder in which bits
`[0, length)` are unchanged, bit `length + i` (bit `(length + i) % 8` of byte
`(length + i) / 8`) is set exactly when `v[i]` is non-zero, `length` has grown
by `n`, `null_count` by the number of zero entries of `v`, and the bitmap size
and `capacity` are unchanged. -/
theorem UnsafeAppendToBitmapBulk_explicit (b : ArrayBuilder) (bm v : List Nat)
    (hbm : b.null_bitmap = some bm) (hcap : b.capacity ≤ 8 * bm.length)
    (hroom : b.length + v.length ≤ b.capacity) (hn : 1 ≤ v.length) :
    ∃ b1 bm1, b.UnsafeAppendToBitmapBulk (some v) v.length = some b1 ∧
      b1.null_bitmap = some bm1 ∧ bm1.length = bm.length ∧
      (∀ j, j < b.length → GetBit bm1 j = GetBit bm j) ∧
      (∀ i, i < v.length → (GetBit bm1 (b.length + i) = true ↔ v.getD i 0 ≠ 0)) ∧
      b1.length = b.length + v.length ∧
      b1.null_count = b.null_count + v.count 0 ∧
      b1.capacity = b.capacity :=
  bulkAppend_explicit_core b bm v hbm hcap hroom hn

/-- Witness for C4: length 3 (bits 1 0 1), seven more entries, crossing a byte. -/
theorem UnsafeAppendToBitmapBulk_explicit_witness :
    ((⟨some [5, 0], 1, 3, 16⟩ : ArrayBuilder).null_bitmap = some [5, 0] ∧
      (⟨some [5, 0], 1, 3, 16⟩ : ArrayBuilder).capacity ≤ 8 * [5, 0].length ∧
      (⟨some [5, 0], 1, 3, 16⟩ : ArrayBuilder).length + [1, 0, 1, 1, 0, 1, 1].length ≤
        (⟨some [5, 0], 1, 3, 16⟩ : ArrayBuilder).capacity ∧
      1 ≤ [1, 0, 1, 1, 0, 1, 1].length) ∧
    ∃ b1 bm1, (⟨some [5, 0], 1, 3, 16⟩ : ArrayBuilder).UnsafeAppendToBitmapBulk
        (some [1, 0, 1, 1, 0, 1, 1]) [1, 0, 1, 1, 0, 1, 1].length = some b1 ∧
      b1.null_bitmap = some bm1 ∧ bm1.length = [5, 0].length ∧
      (∀ j, j < (⟨some [5, 0], 1, 3, 16⟩ : ArrayBuilder).length → GetBit bm1 j = GetBit [5, 0] j) ∧
      (∀ i, i < [1, 0, 1, 1, 0, 1, 1].length →
        (GetBit bm1 ((⟨some [5, 0], 1, 3, 16⟩ : ArrayBuilder).length + i) = true ↔
          [1, 0, 1, 1, 0, 1, 1].getD i 0 ≠ 0)) ∧
      b1.length = (⟨some [5, 0], 1, 3, 16⟩ : ArrayBuilder).length + [1, 0, 1, 1, 0, 1, 1].length ∧
      b1.null_count =
        (⟨some [5, 0], 1, 3, 16⟩ : ArrayBuilder).null_count + [1, 0, 1, 1, 0, 1, 1].count 0 ∧
      b1.capacity = (⟨some [5, 0], 1, 3, 16⟩ : ArrayBuilder).capacity :=
  ⟨⟨rfl, by decide, by decide, by decide⟩,
    UnsafeAppendToBitmapBulk_explicit ⟨some [5, 0], 1, 3, 16⟩ [5, 0] [1, 0, 1, 1, 0, 1, 1] rfl
      (by decide) (by decide) (by decide)⟩

/-! ## Validity bitmap: the append with the validity array absent -/

/-- C5 (the code at a failing input): a builder of length 9 whose element 0 is
null (bitmap bytes `254, 1`). `UnsafeSetNotNull(1)` sets bits `0 .. 6`, so the
null at bit 0 becomes valid and the new bit 9 stays clear, whereas the bulk
append with the explicit array `[1]` leaves bit 0 clear and sets bit 9. -/
theorem UnsafeSetNotNull_unaligned :
    (⟨some [254, 1, 0, 0], 1, 9, 32⟩ : ArrayBuilder).UnsafeSetNotNull 1 =
        some ⟨some [255, 1, 0, 0], 1, 10, 32⟩ ∧
      (⟨some [254, 1, 0, 0], 1, 9, 32⟩ : ArrayBuilder).UnsafeAppendToBitmapBulk none 1 =
        some ⟨some [255, 1, 0, 0], 1, 10, 32⟩ ∧
      (⟨some [254, 1, 0, 0], 1, 9, 32⟩ : ArrayBuilder).UnsafeAppendToBitmapBulk (some [1]) 1 =
        some ⟨some [254, 3, 0, 0], 1, 10, 32⟩ ∧
      GetBit [255, 1, 0, 0] 9 = false ∧ GetBit [255, 1, 0, 0] 0 = true ∧
      GetBit [254, 1, 0, 0] 0 = false := by
  decide

/-! ## Growth of a primitive builder -/

theorem PoolBuffer_length_Resize (buf : List Nat) (n : Nat) : (PoolBuffer.Resize buf n).length = n := by
  simp [PoolBuffer.Resize]; omega

theorem PoolBuffer_Resize_grow (buf : List Nat) (n : Nat) (h : buf.length ≤ n) :
    PoolBuffer.Resize buf n = buf ++ List.replicate (n - buf.length) 0 := by
  simp [PoolBuffer.Resize, List.take_of_length_le h]

theorem memset_zero_tail (buf : List Nat) (k : Nat) :
    memset (buf ++ List.replicate k 0) buf.length 0 k = some (buf ++ List.replicate k 0) := by
  simp [memset]

theorem nextPower2From_ge : ∀ (fuel p n : Nat), n ≤ p * 2 ^ fuel → n ≤ nextPower2From fuel p n := by
  intro fuel
  induction fuel with
  | zero => intro p n h; simpa [nextPower2From] using h
  | succ f ih =>
    intro p n h
    unfold nextPower2From
    split_ifs with hp
    · exact hp
    · apply ih
      rw [Nat.pow_succ] at h
      calc n ≤ p * (2 ^ f * 2) := h
        _ = 2 * p * 2 ^ f := by ring

theorem NextPower2_ge (n : Nat) : n ≤ NextPower2 n := by
  unfold NextPower2
  apply nextPower2From_ge
  rw [Nat.one_mul]
  exact Nat.le_of_lt (Nat.lt_two_pow n)

theorem GetBit_append_zeros (bm : List Nat) (k j : Nat) :
    GetBit (bm ++ List.replicate k 0) j = GetBit bm j := by
  unfold GetBit
  simp only [List.getD_eq_getElem?_getD, List.getElem?_append, List.getElem?_replicate]
  by_cases h : j / 8 < bm.length
  · simp [h]
  · rw [if_neg h, List.getElem?_eq_none (Nat.le_of_not_lt h)]
    split_ifs <;> simp

theorem CeilByte_div (n : Nat) : CeilByte n / 8 = (n + 7) / 8 := by
  unfold CeilByte; omega

theorem CeilByte_mono {a b : Nat} (h : a ≤ b) : CeilByte a / 8 ≤ CeilByte b / 8 := by
  rw [CeilByte_div, CeilByte_div]; omega

theorem ArrayBuilder_ResizeBitmap_grow (b : ArrayBuilder) (bm : List Nat) (new_bits : Nat)
    (h : bm.length ≤ CeilByte new_bits / 8) :
    b.ResizeBitmap bm new_bits =
      some { b with null_bitmap := some (bm ++ List.replicate (CeilByte new_bits / 8 - bm.length) 0),
                    capacity := new_bits } := by
  unfold ArrayBuilder.ResizeBitmap
  simp only [PoolBuffer_Resize_grow bm _ h]
  split_ifs with h1
  · have e : (bm ++ List.replicate (CeilByte new_bits / 8 - bm.length) 0).length - bm.length =
        CeilByte new_bits / 8 - bm.length := by simp
    rw [e, memset_zero_tail]
  · rfl

theorem ArrayBuilder_Init_eq (b : ArrayBuilder) (capacity : Nat) :
    b.Init capacity =
      some { b with null_bitmap := some (List.replicate (CeilByte capacity / 8) 0),
                    capacity := capacity } := by
  unfold ArrayBuilder.Init
  have e : PoolBuffer.Resize [] (CeilByte capacity / 8) = List.replicate (CeilByte capacity / 8) 0 := by
    simp [PoolBuffer.Resize]
  simp only [e]
  have e2 : memset (List.replicate (CeilByte capacity / 8) 0) 0 0
      (List.replicate (CeilByte capacity / 8) 0).length =
      some (List.replicate (CeilByte capacity / 8) 0) := by
    simp [memset]
  rw [e2]

theorem PrimitiveBuilder_Init_eq (p : PrimitiveBuilder) (capacity : Nat) :
    p.Init capacity =
      some { p with base := { p.base with null_bitmap := some (List.replicate (CeilByte capacity / 8) 0),
                                          capacity := capacity },
                    data := some (List.replicate (bytes_required p.width capacity) 0) } := by
  unfold PrimitiveBuilder.Init
  rw [ArrayBuilder_Init_eq]
  have e : PoolBuffer.Resize [] (bytes_required p.width capacity) =
      List.replicate (bytes_required p.width capacity) 0 := by
    simp [PoolBuffer.Resize]
  simp only [e]
  have e2 : memset (List.replicate (bytes_required p.width capacity) 0) 0 0
      (bytes_required p.width capacity) = some (List.replicate (bytes_required p.width capacity) 0) := by
    simp [memset]
  rw [e2]

theorem bytes_required_mono (w : Nat) {a b : Nat} (h : a ≤ b) :
    bytes_required w a ≤ bytes_required w b := Nat.mul_le_mul_right w h

theorem PrimitiveBuilder_Resize_grow (p : PrimitiveBuilder) (bm d : List Nat) (c : Nat)
    (hc0 : p.base.capacity ≠ 0) (hbm : p.base.null_bitmap = some bm) (hd : p.data = some d)
    (hbl : bm.length = CeilByte p.base.capacity / 8)
    (hdl : d.length = bytes_required p.width p.base.capacity)
    (hk : kMinBuilderCapacity ≤ c) (hle : p.base.capacity ≤ c) :
    p.Resize c =
      some { p with
        base := { p.base with
          null_bitmap := some (bm ++ List.replicate (CeilByte c / 8 - bm.length) 0),
          capacity := c },
        data := some (d ++ List.replicate (bytes_required p.width c - d.length) 0) } := by
  unfold PrimitiveBuilder.Resize
  have e1 : (if c < kMinBuilderCapacity then kMinBuilderCapacity else c) = c := by
    rw [if_neg (by omega)]
  simp only [e1, if_neg hc0]
  unfold PrimitiveBuilder.ArrayBuilder_Resize
  have h1 : bm.length ≤ CeilByte c / 8 := by rw [hbl]; exact CeilByte_mono hle
  have h2 : d.length ≤ bytes_required p.width c := by rw [hdl]; exact bytes_required_mono _ hle
  simp only [hbm, ArrayBuilder_ResizeBitmap_grow _ _ _ h1, hd, PoolBuffer_Resize_grow d _ h2]
  rw [if_neg (by omega)]
  have e := memset_zero_tail d (bytes_required p.width c - d.length)
  rw [e]

theorem take_drop_append_left (d z : List Nat) (off w : Nat) (h : off + w ≤ d.length) :
    ((d ++ z).drop off).take w = (d.drop off).take w := by
  rw [List.drop_append_of_le_length (by omega), List.take_append_of_le_length]
  rw [List.length_drop]; omega

theorem PrimitiveBuilder_Resize_floor (p : PrimitiveBuilder) (c0 : Nat) :
    ∃ c, c0 ≤ c ∧ kMinBuilderCapacity ≤ c ∧ p.Resize c0 = p.Resize c ∧
      (p.base.capacity = 0 → p.Resize c0 = p.Init c) := by
  by_cases h : c0 < kMinBuilderCapacity
  · refine ⟨kMinBuilderCapacity, by omega, le_refl _, ?_, ?_⟩
    · simp [PrimitiveBuilder.Resize, h]
    · intro h0; simp [PrimitiveBuilder.Resize, h, h0]
  · refine ⟨c0, le_refl _, by omega, rfl, ?_⟩
    intro h0; simp [PrimitiveBuilder.Resize, h, h0]

/-- C6: on a primitive builder that satisfies the state invariant, `Reserve(n)`
succeeds, leaves `capacity ≥ length + n`, leaves `length`, `null_count`, the
validity bits `[0, length)` and the values `[0, length)` unchanged, keeps the
invariant, and a second `Reserve(n)` right afterwards returns the same state. -/
theorem PrimitiveBuilder_Reserve_frame (p : PrimitiveBuilder) (n : Nat) (hwf : p.WF) :
    ∃ p1, p.Reserve n = some p1 ∧ p.base.length + n ≤ p1.base.capacity ∧
      p1.base.length = p.base.length ∧ p1.base.null_count = p.base.null_count ∧
      (∀ i, i < p.base.length → p1.base.IsValid i = p.base.IsValid i) ∧
      (∀ i, i < p.base.length → p1.GetValue i = p.GetValue i) ∧
      p1.Reserve n = some p1 ∧ p1.WF ∧ p1.width = p.width := by
  obtain ⟨hlen, hbuf⟩ := hwf
  by_cases hgt : p.base.length + n > p.base.capacity
  · have hne : p.Reserve n = p.Resize (NextPower2 (p.base.length + n)) := by
      simp [PrimitiveBuilder.Reserve, hgt]
    have hge := NextPower2_ge (p.base.length + n)
    obtain ⟨c, hc0, hk, hres, hinit⟩ := PrimitiveBuilder_Resize_floor p (NextPower2 (p.base.length + n))
    have hcap : p.base.length + n ≤ c := le_trans hge hc0
    clear hge hc0
    generalize NextPower2 (p.base.length + n) = c0 at hne hres hinit
    by_cases hz : p.base.capacity = 0
    · -- first allocation: `Init` with the floored capacity
      have hl0 : p.base.length = 0 := by omega
      rw [hne, hinit hz, PrimitiveBuilder_Init_eq]
      refine ⟨_, rfl, hcap, rfl, rfl, ?_, ?_, ?_, ?_, rfl⟩
      · intro i hi; omega
      · intro i hi; omega
      · simp only [PrimitiveBuilder.Reserve]
        rw [if_neg (by simpa using hcap)]
      · exact ⟨le_trans (Nat.le_add_right _ _) hcap, fun _ => ⟨_, _, rfl, rfl, by simp, by simp⟩⟩
    · obtain ⟨bm, d, hbm, hd, hbl, hdl⟩ := hbuf hz
      rw [hne, hres, PrimitiveBuilder_Resize_grow p bm d c hz hbm hd hbl hdl hk (by omega)]
      refine ⟨_, rfl, hcap, rfl, rfl, ?_, ?_, ?_, ?_, rfl⟩
      · intro i _
        simp only [ArrayBuilder.IsValid, hbm, GetBit_append_zeros]
      · intro i hi
        simp only [PrimitiveBuilder.GetValue, hd]
        apply take_drop_append_left
        rw [hdl]; unfold bytes_required
        calc i * p.width + p.width = (i + 1) * p.width := by ring
          _ ≤ p.base.capacity * p.width := Nat.mul_le_mul_right _ (by omega)
      · simp only [PrimitiveBuilder.Reserve]
        rw [if_neg (by simpa using hcap)]
      · refine ⟨le_trans (Nat.le_add_right _ _) hcap, fun _ => ⟨_, _, rfl, rfl, ?_, ?_⟩⟩
        · have h1 : bm.length ≤ CeilByte c / 8 := by
            rw [hbl]; exact CeilByte_mono (by omega)
          simp; omega
        · have h2 : d.length ≤ bytes_required p.width c := by
            rw [hdl]; exact bytes_required_mono _ (by omega)
          simp; omega
  · have hne : p.Reserve n = some p := by simp [PrimitiveBuilder.Reserve, hgt]
    exact ⟨p, hne, by omega, rfl, rfl, fun _ _ => rfl, fun _ _ => rfl, hne, ⟨hlen, hbuf⟩, rfl⟩

/-- Witness for C6: a builder of capacity 8 holding 3 elements, `Reserve(10)`. -/
theorem PrimitiveBuilder_Reserve_frame_witness :
    PrimitiveBuilder.sample.WF ∧
    ∃ p1, PrimitiveBuilder.sample.Reserve 10 = some p1 ∧
      PrimitiveBuilder.sample.base.length + 10 ≤ p1.base.capacity ∧
      p1.base.length = PrimitiveBuilder.sample.base.length ∧
      p1.base.null_count = PrimitiveBuilder.sample.base.null_count ∧
      (∀ i, i < PrimitiveBuilder.sample.base.length →
        p1.base.IsValid i = PrimitiveBuilder.sample.base.IsValid i) ∧
      (∀ i, i < PrimitiveBuilder.sample.base.length →
        p1.GetValue i = PrimitiveBuilder.sample.GetValue i) ∧
      p1.Reserve 10 = some p1 ∧ p1.WF ∧ p1.width = PrimitiveBuilder.sample.width :=
  ⟨⟨by decide, fun _ => ⟨[5], [1, 2, 3, 0, 0, 0, 0, 0], rfl, rfl, by decide, by decide⟩⟩,
    PrimitiveBuilder_Reserve_frame PrimitiveBuilder.sample 10
      ⟨by decide, fun _ => ⟨[5], [1, 2, 3, 0, 0, 0, 0, 0], rfl, rfl, by decide, by decide⟩⟩⟩

/-! ## Decimal, fixed-size binary and list builders at concrete inputs -/

/-- C7 (the code at a failing input): two valid 4-byte decimals appended to a
fresh `DecimalBuilder`. The growth before the second append goes through
`DecimalBuilder::Resize`, which finds no sign bitmap and runs `Init`: the
bitmap is a new zeroed buffer, so validity bit 0 is clear afterwards. -/
theorem DecimalBuilder_Append_twice_drops_validity :
    ((DecimalBuilder.fresh 4).Append [1, 0, 0, 0]).bind (fun d => d.Append [2, 0, 0, 0]) =
      some { fsb := { base := { null_bitmap := some [2], null_count := 0, length := 2,
                                capacity := 2 },
                      byte_width := 4,
                      byte_builder := { bytes := [1, 0, 0, 0, 2, 0, 0, 0], capacity := 8 } },
             sign_bitmap := none } ∧
      GetBit [2] 0 = false ∧ GetBit [2] 1 = true := by
  decide

/-- C8 (the code at a failing input): "foo", null, "ba" and then `Finish`. The
offsets buffer holds the three 4-byte offsets 0, 3, 3 and then the closing
offset 5 as 8 bytes: 20 bytes, not `4 * (3 + 1) = 16`. -/
theorem ListBuilder_Finish_closing_offset_width :
    ((BinaryBuilder.run BinaryBuilder.fresh [some [102, 111, 111], none, some [98, 97]]).bind
        (fun l => l.Finish)).map (fun r => r.1.offsets) =
      some [0, 0, 0, 0, 3, 0, 0, 0, 3, 0, 0, 0, 5, 0, 0, 0, 0, 0, 0, 0] ∧
    (BinaryBuilder.fresh.Finish).map (fun r => r.1.offsets) = some [0, 0, 0, 0, 0, 0, 0, 0] := by
  decide

/-- C9 (the code at a failing input): one record appended, then `Finish`, for a
`FixedSizeBinaryBuilder` of width 2 and for a `DecimalBuilder` of width 4. Both
builders keep `length = 1`, `capacity = 1` and the bitmap that went into the
array; only the byte builder is emptied. -/
theorem FixedSizeBinaryBuilder_Finish_keeps_state :
    ((FixedSizeBinaryBuilder.fresh 2).Append [1, 2]).map (fun f => f.Finish.2) =
      some { base := { null_bitmap := some [1], null_count := 0, length := 1, capacity := 1 },
             byte_width := 2, byte_builder := { bytes := [], capacity := 0 } } ∧
    ((DecimalBuilder.fresh 4).Append [1, 0, 0, 0]).map (fun d => d.Finish.2) =
      some { fsb := { base := { null_bitmap := some [1], null_count := 0, length := 1,
                                capacity := 1 },
                      byte_width := 4, byte_builder := { bytes := [], capacity := 0 } },
             sign_bitmap := none } := by
  decide


/-! ## Bit setting and fixed-width integer encoding -/

theorem SetBit_some (bits : List Nat) (i : Nat) (h : i < 8 * bits.length) :
    ∃ bits1, SetBit bits i = some bits1 ∧ bits1.length = bits.length ∧
      ∀ j, GetBit bits1 j = if j = i then true else GetBit bits j := by
  have hb : i / 8 < bits.length := by omega
  refine ⟨bits.set (i / 8) (bits[i / 8] ||| kBitmask (i % 8)), ?_, by simp, fun j => ?_⟩
  · simp [SetBit, List.getElem?_eq_getElem hb]
  · have h8 : i % 8 < 8 := Nat.mod_lt _ (by decide)
    rw [GetBit_set_or _ _ _ _ _ h8 hb, list_set_getElem _ _ hb]
    have e : i / 8 * 8 + i % 8 = i := by omega
    rw [e]

theorem setBitsLoop_some : ∀ (n i : Nat) (bits : List Nat), (n ≠ 0 → i + n ≤ 8 * bits.length) →
    ∃ bits1, setBitsLoop n i bits = some bits1 ∧ bits1.length = bits.length := by
  intro n
  induction n with
  | zero => intro i bits _; exact ⟨bits, rfl, rfl⟩
  | succ n ih =>
    intro i bits h
    have h1 := h (Nat.succ_ne_zero n)
    obtain ⟨b1, hs, hl, _⟩ := SetBit_some bits i (by omega)
    obtain ⟨b2, hs2, hl2⟩ := ih (i + 1) b1 (fun _ => by rw [hl]; omega)
    exact ⟨b2, by simp [setBitsLoop, hs, hs2], by rw [hl2, hl]⟩

theorem memset_length (buf : List Nat) (off v n : Nat) (r : List Nat)
    (h : memset buf off v n = some r) : r.length = buf.length := by
  unfold memset at h
  split_ifs at h with hle
  cases h
  simp
  omega

theorem memset_some (buf : List Nat) (off v n : Nat) (h : off + n ≤ buf.length) :
    ∃ r, memset buf off v n = some r ∧ r.length = buf.length := by
  have : memset buf off v n = some (buf.take off ++ List.replicate n v ++ buf.drop (off + n)) := by
    simp [memset, h]
  exact ⟨_, this, memset_length _ _ _ _ _ this⟩

theorem UnsafeSetNotNull_some (b : ArrayBuilder) (n : Nat)
    (h : b.length + n ≤ 8 * (b.null_bitmap.getD []).length) :
    ∃ bm3, b.UnsafeSetNotNull n =
        some { b with null_bitmap := b.null_bitmap.map (fun _ => bm3), length := n + b.length } ∧
      bm3.length = (b.null_bitmap.getD []).length := by
  unfold ArrayBuilder.UnsafeSetNotNull
  generalize hbm : b.null_bitmap.getD [] = bm at h
  generalize hpad : (if 8 - b.length % 8 = 8 then 0 else 8 - b.length % 8) = pad
  have hp : (b.length % 8 = 0 ∧ pad = 0) ∨ (b.length % 8 ≠ 0 ∧ pad = 8 - b.length % 8) := by
    split_ifs at hpad with h8
    · left; omega
    · right; omega
  obtain ⟨bm1, h1, hl1⟩ := setBitsLoop_some pad 0 bm (fun _ => by omega)
  obtain ⟨bm2, h2, hl2⟩ := memset_some bm1 ((b.length + pad) / 8) 255 ((n - pad) / 8)
    (by rw [hl1]; omega)
  obtain ⟨bm3, h3, hl3⟩ := setBitsLoop_some (n + b.length - (b.length + pad + (n - pad) / 8 * 8))
    (b.length + pad + (n - pad) / 8 * 8) bm2 (fun _ => by rw [hl2, hl1]; omega)
  refine ⟨bm3, ?_, by rw [hl3, hl2, hl1]⟩
  simp only [hpad, h1, h2, h3]

theorem fromBytesLE_toBytesLE : ∀ (w u : Nat), fromBytesLE (toBytesLE w u) = u % 256 ^ w := by
  intro w
  induction w with
  | zero => intro u; simp [toBytesLE, fromBytesLE, Nat.mod_one]
  | succ w ih =>
    intro u
    simp only [toBytesLE, fromBytesLE, ih]
    rw [Nat.pow_succ, Nat.mul_comm (256 ^ w) 256, Nat.mod_mul]

theorem toBytesLE_length : ∀ (w u : Nat), (toBytesLE w u).length = w := by
  intro w
  induction w with
  | zero => intro u; rfl
  | succ w ih => intro u; simp [toBytesLE, ih]

theorem pow256 (w : Nat) : (256 : Nat) ^ w = 2 ^ (8 * w) := by
  rw [show (256 : Nat) = 2 ^ 8 by norm_num, ← Nat.pow_mul]

theorem toSigned_ofSigned (w : Nat) (hw : 0 < w) (x : Int)
    (hlo : -(2 : Int) ^ (8 * w - 1) ≤ x) (hhi : x < (2 : Int) ^ (8 * w - 1)) :
    toSigned w (ofSigned w x % 256 ^ w) = x := by
  have hpow : (2 : Int) ^ (8 * w) = 2 * 2 ^ (8 * w - 1) := by
    rw [← pow_succ']; congr 1; omega
  have hpos : (0 : Int) < 2 ^ (8 * w - 1) := by positivity
  have hM : (0 : Int) < 2 ^ (8 * w) := by positivity
  have hlt : ofSigned w x < 2 ^ (8 * w) := by
    unfold ofSigned
    have := Int.emod_lt_of_pos x hM
    have h0 := Int.emod_nonneg x (ne_of_gt hM)
    zify
    rw [Int.toNat_of_nonneg h0]
    exact_mod_cast this
  rw [pow256, Nat.mod_eq_of_lt hlt]
  unfold toSigned ofSigned
  have h0 := Int.emod_nonneg x (ne_of_gt hM)
  by_cases hx : 0 ≤ x
  · have e : x % 2 ^ (8 * w) = x := Int.emod_eq_of_lt hx (by omega)
    rw [e]
    have hc : x.toNat < 2 ^ (8 * w - 1) := by
      zify; rw [Int.toNat_of_nonneg hx]; exact_mod_cast hhi
    rw [if_pos hc]
    exact Int.toNat_of_nonneg hx
  · have e : x % 2 ^ (8 * w) = x + 2 ^ (8 * w) := by
      rw [← Int.add_emod_self]
      exact Int.emod_eq_of_lt (by omega) (by omega)
    rw [e]
    have h1 : (0 : Int) ≤ x + 2 ^ (8 * w) := by omega
    have hc : ¬ (x + 2 ^ (8 * w)).toNat < 2 ^ (8 * w - 1) := by
      zify; rw [Int.toNat_of_nonneg h1]; omega
    rw [if_neg hc, Int.toNat_of_nonneg h1]
    ring

/-! ## Appending a batch without validity array to a primitive builder -/

theorem PrimitiveBuilder_Reserve_data (p : PrimitiveBuilder) (n : Nat) (hwf : p.WF) :
    ∃ p1, p.Reserve n = some p1 ∧ p1.WF ∧ p1.width = p.width ∧
      p.base.length + n ≤ p1.base.capacity ∧
      p1.base.length = p.base.length ∧ p1.base.null_count = p.base.null_count ∧
      (p1.data.getD []).take (p.base.length * p.width) =
        (p.data.getD []).take (p.base.length * p.width) := by
  obtain ⟨hlen, hbuf⟩ := hwf
  by_cases hgt : p.base.length + n > p.base.capacity
  · have hne : p.Reserve n = p.Resize (NextPower2 (p.base.length + n)) := by
      simp [PrimitiveBuilder.Reserve, hgt]
    have hge := NextPower2_ge (p.base.length + n)
    obtain ⟨c, hc0, hk, hres, hinit⟩ := PrimitiveBuilder_Resize_floor p (NextPower2 (p.base.length + n))
    have hcap : p.base.length + n ≤ c := le_trans hge hc0
    clear hge hc0
    generalize NextPower2 (p.base.length + n) = c0 at hne hres hinit
    by_cases hz : p.base.capacity = 0
    · have hl0 : p.base.length = 0 := by omega
      rw [hne, hinit hz, PrimitiveBuilder_Init_eq]
      refine ⟨_, rfl, ?_, rfl, hcap, rfl, rfl, ?_⟩
      · exact ⟨le_trans (Nat.le_add_right _ _) hcap, fun _ => ⟨_, _, rfl, rfl, by simp, by simp⟩⟩
      · rw [hl0]; simp
    · obtain ⟨bm, d, hbm, hd, hbl, hdl⟩ := hbuf hz
      rw [hne, hres, PrimitiveBuilder_Resize_grow p bm d c hz hbm hd hbl hdl hk (by omega)]
      refine ⟨_, rfl, ?_, rfl, hcap, rfl, rfl, ?_⟩
      · refine ⟨le_trans (Nat.le_add_right _ _) hcap, fun _ => ⟨_, _, rfl, rfl, ?_, ?_⟩⟩
        · have h1 : bm.length ≤ CeilByte c / 8 := by
            rw [hbl]; exact CeilByte_mono (by omega)
          simp; omega
        · have h2 : d.length ≤ bytes_required p.width c := by
            rw [hdl]; exact bytes_required_mono _ (by omega)
          simp; omega
      · simp only [hd, Option.getD_some]
        apply List.take_append_of_le_length
        rw [hdl]; unfold bytes_required
        exact Nat.mul_le_mul_right _ hlen
  · have hne : p.Reserve n = some p := by simp [PrimitiveBuilder.Reserve, hgt]
    exact ⟨p, hne, ⟨hlen, hbuf⟩, rfl, by omega, rfl, rfl, rfl⟩

theorem GetBit_replicate_zero (k j : Nat) : GetBit (List.replicate k 0) j = false := by
  have := GetBit_append_zeros [] k j
  simp only [List.nil_append] at this
  rw [this]
  simp [GetBit]

theorem BufferBuilder_Resize_bytes (bb : BufferBuilder) (n : Nat) (h : bb.bytes.length ≤ n) :
    (bb.Resize n).bytes = bb.bytes := by
  unfold BufferBuilder.Resize
  split_ifs
  · rfl
  · exact List.take_of_length_le h

/-- Growth of the base builder as `ArrayBuilder::Resize` performs it when the
new capacity is not below the old one. -/
theorem ArrayBuilder_grow (b : ArrayBuilder) (c : Nat)
    (hb : match b.null_bitmap with
      | none => True
      | some bm => bm.length ≤ CeilByte c / 8) :
    ∃ bm1, (match b.null_bitmap with
        | none => b.Init c
        | some bm => b.ResizeBitmap bm c) =
        some { b with null_bitmap := some bm1, capacity := c } ∧
      bm1.length = CeilByte c / 8 ∧ ∀ j, GetBit bm1 j = b.IsValid j := by
  cases hbm : b.null_bitmap with
  | none =>
    refine ⟨List.replicate (CeilByte c / 8) 0, ?_, by simp, fun j => ?_⟩
    · simp only [ArrayBuilder_Init_eq, hbm]
    · simp [ArrayBuilder.IsValid, hbm, GetBit_replicate_zero]
  | some bm =>
    rw [hbm] at hb
    simp only at hb
    refine ⟨bm ++ List.replicate (CeilByte c / 8 - bm.length) 0, ?_, ?_, fun j => ?_⟩
    · simp only [ArrayBuilder_ResizeBitmap_grow b bm c hb, hbm]
    · simp; omega
    · simp [ArrayBuilder.IsValid, hbm, GetBit_append_zeros]

theorem ListBuilder_Reserve_one (l : ListBuilder) (hlen : l.base.length ≤ l.base.capacity)
    (hbm : match l.base.null_bitmap with
      | none => l.base.capacity = 0
      | some bm => bm.length = CeilByte l.base.capacity / 8)
    (hob : l.offset_builder.bytes.length ≤ 8 * (l.base.length + 1)) :
    ∃ l1 bm1, l.Reserve 1 = some l1 ∧ l1.values = l.values ∧ l1.value_builder = l.value_builder ∧
      l1.offset_builder.bytes = l.offset_builder.bytes ∧
      l1.base.length = l.base.length ∧ l1.base.null_count = l.base.null_count ∧
      l.base.length + 1 ≤ l1.base.capacity ∧
      l1.base.null_bitmap = some bm1 ∧ bm1.length = CeilByte l1.base.capacity / 8 ∧
      ∀ j, GetBit bm1 j = l.base.IsValid j := by
  by_cases hgt : l.base.length + 1 > l.base.capacity
  · have hge := NextPower2_ge (l.base.length + 1)
    generalize hc : NextPower2 (l.base.length + 1) = c at hge
    have hres : l.Reserve 1 = l.Resize c := by simp [ListBuilder.Reserve, hgt, hc]
    have hkeep : (l.offset_builder.Resize ((c + 1) * 8)).bytes = l.offset_builder.bytes :=
      BufferBuilder_Resize_bytes _ _ (by omega)
    have hkeep2 : ((l.offset_builder.Resize ((c + 1) * 8)).Resize ((c + 1) * 8)).bytes =
        l.offset_builder.bytes := by
      rw [BufferBuilder_Resize_bytes _ _ (by rw [hkeep]; omega), hkeep]
    obtain ⟨bm1, hgrow, hl1, hbits⟩ := ArrayBuilder_grow l.base c (by
      cases h : l.base.null_bitmap with
      | none => trivial
      | some bm =>
        rw [h] at hbm
        simp only at hbm ⊢
        rw [hbm]; exact CeilByte_mono (by omega))
    cases h : l.base.null_bitmap with
    | none =>
      rw [h] at hgrow
      simp only at hgrow
      refine ⟨{ l with base := { l.base with null_bitmap := some bm1, capacity := c },
                       offset_builder :=
                         (l.offset_builder.Resize ((c + 1) * 8)).Resize ((c + 1) * 8) },
        bm1, ?_, rfl, rfl, hkeep2, rfl, rfl, hge, rfl, hl1, hbits⟩
      rw [hres]
      simp only [ListBuilder.Resize, ListBuilder.ArrayBuilder_Resize, h, ListBuilder.Init, hgrow]
    | some bm =>
      rw [h] at hgrow
      simp only at hgrow
      refine ⟨{ l with base := { l.base with null_bitmap := some bm1, capacity := c },
                       offset_builder := l.offset_builder.Resize ((c + 1) * 8) },
        bm1, ?_, rfl, rfl, hkeep, rfl, rfl, hge, rfl, hl1, hbits⟩
      rw [hres]
      simp only [ListBuilder.Resize, ListBuilder.ArrayBuilder_Resize, h, hgrow]
  · have hne : l.Reserve 1 = some l := by simp [ListBuilder.Reserve, hgt]
    cases h : l.base.null_bitmap with
    | none =>
      rw [h] at hbm
      simp only at hbm
      omega
    | some bm =>
      rw [h] at hbm
      simp only at hbm
      refine ⟨l, bm, hne, rfl, rfl, rfl, rfl, rfl, by omega, h, hbm, fun j => ?_⟩
      simp [ArrayBuilder.IsValid, h]

theorem ListBuilder_Append_spec (l : ListBuilder) (vb : PrimitiveBuilder) (is_valid : Bool)
    (hvb : l.value_builder = some vb)
    (hlen : l.base.length ≤ l.base.capacity)
    (hbm : match l.base.null_bitmap with
      | none => l.base.capacity = 0
      | some bm => bm.length = CeilByte l.base.capacity / 8)
    (hob : l.offset_builder.bytes.length ≤ 8 * (l.base.length + 1)) :
    ∃ l1, l.Append is_valid = some l1 ∧ l1.values = l.values ∧
      l1.value_builder = l.value_builder ∧
      l1.offset_builder.bytes =
        l.offset_builder.bytes ++ toBytesLE 4 (ofSigned 4 (vb.base.length : Int)) ∧
      l1.base.length = l.base.length + 1 ∧ l1.base.length ≤ l1.base.capacity ∧
      (match l1.base.null_bitmap with
        | none => l1.base.capacity = 0
        | some bm => bm.length = CeilByte l1.base.capacity / 8) ∧
      ∀ j, l1.base.IsValid j =
        if j = l.base.length then (is_valid || l.base.IsValid j) else l.base.IsValid j := by
  obtain ⟨l1, bm1, hr, hv1, hvb1, hob1, hlen1, hnc1, hcap1, hbm1, hbl1, hbits1⟩ :=
    ListBuilder_Reserve_one l hlen hbm hob
  cases is_valid with
  | true =>
    obtain ⟨bm2, hs, hl2, hbits2⟩ := SetBit_some bm1 l1.base.length (by
      rw [hbl1, CeilByte_div]; omega)
    refine ⟨{ l1 with base := { l1.base with null_bitmap := some bm2,
                                             length := l1.base.length + 1 },
                      offset_builder := l1.offset_builder.AppendInt 4 (vb.base.length : Int) },
      ?_, hv1, hvb1, ?_, ?_, ?_, ?_, fun j => ?_⟩
    · simp only [ListBuilder.Append, hr, ArrayBuilder.UnsafeAppendToBitmap, if_true, hbm1, hs,
        hvb1, hvb]
    · simp only [BufferBuilder.AppendInt, BufferBuilder.Append, hob1]
    · show l1.base.length + 1 = l.base.length + 1; omega
    · show l1.base.length + 1 ≤ l1.base.capacity; omega
    · show bm2.length = CeilByte l1.base.capacity / 8
      rw [hl2, hbl1]
    · show GetBit bm2 j = _
      rw [hbits2 j, hlen1, hbits1 j]
      split_ifs <;> simp
  | false =>
    refine ⟨{ l1 with base := { l1.base with null_count := l1.base.null_count + 1,
                                             length := l1.base.length + 1 },
                      offset_builder := l1.offset_builder.AppendInt 4 (vb.base.length : Int) },
      ?_, hv1, hvb1, ?_, ?_, ?_, ?_, fun j => ?_⟩
    · simp only [ListBuilder.Append, hr, ArrayBuilder.UnsafeAppendToBitmap, hvb1, hvb]
      simp
    · simp only [BufferBuilder.AppendInt, BufferBuilder.Append, hob1]
    · show l1.base.length + 1 = l.base.length + 1; omega
    · show l1.base.length + 1 ≤ l1.base.capacity; omega
    · simp only [hbm1]; exact hbl1
    · show ArrayBuilder.IsValid _ j = _
      simp only [ArrayBuilder.IsValid, hbm1]
      rw [hbits1 j]
      simp [ArrayBuilder.IsValid]

/-! ## Offsets of a Binary/String builder session -/



theorem readBytes_append_left (a b : List Nat) (off w : Nat) (h : off + w ≤ a.length) :
    readBytes (a ++ b) off w = readBytes a off w := by
  unfold readBytes
  rw [if_pos (by simp; omega), if_pos h, take_drop_append_left a b off w h]

theorem readBytes_append_right (a b : List Nat) :
    readBytes (a ++ b) a.length b.length = some b := by
  unfold readBytes
  rw [if_pos (by simp)]
  simp

theorem loadInt_append_left (w : Nat) (a b : List Nat) (i : Nat) (h : (i + 1) * w ≤ a.length) :
    loadInt w (a ++ b) i = loadInt w a i := by
  unfold loadInt
  rw [readBytes_append_left a b (i * w) w (by
    have : (i + 1) * w = i * w + w := by ring
    omega)]

theorem loadInt_append_new (w : Nat) (hw : 0 < w) (a : List Nat) (n : Nat) (x : Int)
    (ha : a.length = w * n)
    (hlo : -(2 : Int) ^ (8 * w - 1) ≤ x) (hhi : x < (2 : Int) ^ (8 * w - 1)) :
    loadInt w (a ++ toBytesLE w (ofSigned w x)) n = some x := by
  unfold loadInt
  have e : n * w = a.length := by rw [ha, Nat.mul_comm]
  have e2 : readBytes (a ++ toBytesLE w (ofSigned w x)) (n * w) w =
      some (toBytesLE w (ofSigned w x)) := by
    have := readBytes_append_right a (toBytesLE w (ofSigned w x))
    rwa [toBytesLE_length, ← e] at this
  rw [e2]
  simp only [fromBytesLE_toBytesLE, toSigned_ofSigned w hw x hlo hhi]

theorem allBytes_length (ops : List (Option (List Nat))) :
    (BinaryBuilder.allBytes ops).length = BinaryBuilder.totalLength ops := by
  induction ops with
  | nil => rfl
  | cons o os ih =>
    simp only [BinaryBuilder.allBytes, List.length_append, ih, BinaryBuilder.totalLength, List.map_cons, List.sum_cons]
    cases o <;> simp [BinaryBuilder.opLength]

theorem take_drop_take (d : List Nat) (total off len : Nat) (h : off + len ≤ total) :
    ((d.take total).drop off).take len = (d.drop off).take len := by
  rw [List.drop_take, List.take_take, Nat.min_eq_left (by omega)]

theorem getElem?_positionOf {α : Type} [DecidableEq α] (v : α) (l : List α) (h : v ∈ l) :
    l[positionOf v l]? = some v := by
  induction l with
  | nil => simp at h
  | cons a t ih =>
    unfold positionOf
    by_cases hav : a = v
    · rw [if_pos hav]; simp [hav]
    · rw [if_neg hav]
      have ht : v ∈ t := by
        rcases List.mem_cons.mp h with h1 | h1
        · exact absurd h1.symm hav
        · exact h1
      simpa using ih ht

theorem positionOf_append_of_not_mem {α : Type} [DecidableEq α] (v : α) (l1 l2 : List α)
    (h : v ∉ l1) : positionOf v (l1 ++ l2) = l1.length + positionOf v l2 := by
  induction l1 with
  | nil => simp
  | cons a t ih =>
    simp only [List.cons_append, positionOf, List.length_cons]
    have hav : ¬ a = v := fun e => h (by rw [e]; exact List.mem_cons_self _ _)
    have ht : v ∉ t := fun e => h (List.mem_cons_of_mem _ e)
    rw [if_neg hav]
    have := ih ht
    simp only [List.append_eq] at this ⊢
    omega

/-! ## DictionaryBuilder: the linear probe -/

theorem wrapNext_mod (size a : Nat) (hs : 0 < size) : wrapNext size (a % size) = (a + 1) % size := by
  unfold wrapNext
  have hr : a % size < size := Nat.mod_lt _ hs
  have ha : size * (a / size) + a % size = a := Nat.div_add_mod a size
  generalize a / size = q at ha
  generalize a % size = r at ha hr
  subst ha
  by_cases h : r + 1 = size
  · rw [if_pos h]
    have e : size * q + r + 1 = size * (q + 1) := by
      rw [Nat.mul_add, Nat.mul_one]; omega
    rw [e, Nat.mul_mod_right]
  · rw [if_neg h]
    have e : size * q + r + 1 = size * q + (r + 1) := by omega
    rw [e, Nat.mul_add_mod, Nat.mod_eq_of_lt (by omega)]

theorem count_set (l : List Nat) (j x e : Nat) (hj : j < l.length) :
    (l.set j x).count e + (if l[j] = e then 1 else 0) =
      l.count e + (if x = e then 1 else 0) := by
  induction l generalizing j with
  | nil => simp at hj
  | cons a t ih =>
    cases j with
    | zero =>
      simp only [List.set_cons_zero, List.count_cons, List.getElem_cons_zero, beq_iff_eq]
      omega
    | succ j =>
      have hj1 : j < t.length := by simpa using hj
      have := ih j hj1
      simp only [List.set_cons_succ, List.count_cons, List.getElem_cons_succ]
      omega

theorem probeAt_stop {α : Type} (c : HashConsts) (k : DictKind α) (dict : List α)
    (slots : List Nat) (v : α) (j x : Nat) (hx : slots[j]? = some x)
    (hstop : x = c.kHashSlotEmpty ∨ ∃ u, dict[x]? = some u ∧ k.different u v = false) :
    probeAt c k dict slots v j = ProbeStep.stop j x := by
  unfold probeAt
  rw [hx]
  simp only
  by_cases he : x = c.kHashSlotEmpty
  · rw [if_pos he]
  · rw [if_neg he]
    rcases hstop with h | ⟨u, hu, hd⟩
    · exact absurd h he
    · simp only [SlotDifferent, GetDictionaryValue, hu, hd]

theorem probeAt_next {α : Type} (c : HashConsts) (k : DictKind α) (dict : List α)
    (slots : List Nat) (v : α) (j : Nat) (h : ContinuesAt c k dict slots v j) :
    probeAt c k dict slots v j = ProbeStep.next := by
  obtain ⟨y, u, hy, hye, hu, hd⟩ := h
  unfold probeAt
  rw [hy]
  simp only [if_neg hye, SlotDifferent, GetDictionaryValue, hu, hd]

theorem probe_run {α : Type} (c : HashConsts) (k : DictKind α) (dict : List α) (slots : List Nat)
    (size : Nat) (v : α) (hs : 0 < size) :
    ∀ (K fuel a x : Nat), K ≤ fuel →
      (∀ m, m < K → ContinuesAt c k dict slots v ((a + m) % size)) →
      slots[(a + K) % size]? = some x →
      (x = c.kHashSlotEmpty ∨ ∃ u, dict[x]? = some u ∧ k.different u v = false) →
      probe c k dict slots size v fuel (a % size) = some ((a + K) % size, x) := by
  intro K
  induction K with
  | zero =>
    intro fuel a x _ _ hx hstop
    rw [Nat.add_zero] at hx ⊢
    have h := probeAt_stop c k dict slots v (a % size) x hx hstop
    cases fuel with
    | zero => simp only [probe, h]
    | succ fuel => simp only [probe, h]
  | succ K ih =>
    intro fuel a x hK hcont hx hstop
    have h0 := hcont 0 (Nat.succ_pos K)
    rw [Nat.add_zero] at h0
    have h := probeAt_next c k dict slots v (a % size) h0
    cases fuel with
    | zero => omega
    | succ fuel =>
      simp only [probe, h]
      rw [wrapNext_mod size a hs]
      have e : a + (K + 1) = a + 1 + K := by omega
      rw [e] at hx ⊢
      apply ih fuel (a + 1) x (by omega) _ hx hstop
      intro m hm
      have := hcont (m + 1) (by omega)
      have e2 : a + (m + 1) = a + 1 + m := by omega
      rwa [e2] at this

theorem stops_or_continues {α : Type} (c : HashConsts) (k : DictKind α) (dict : List α)
    (slots : List Nat) (size : Nat) (v : α) (hg : TableGood c dict slots size) (s : Nat)
    (hs : s < size) :
    StopsAt c k dict slots v s ∨ ContinuesAt c k dict slots v s := by
  obtain ⟨hlen, hidx⟩ := hg
  have hlt : s < slots.length := by omega
  have hget : slots[s]? = some slots[s] := List.getElem?_eq_getElem hlt
  by_cases he : slots[s] = c.kHashSlotEmpty
  · exact Or.inl ⟨_, hget, Or.inl he⟩
  · have hx := hidx s _ hget he
    have hu : dict[slots[s]]? = some dict[slots[s]] := List.getElem?_eq_getElem hx
    cases hd : k.different dict[slots[s]] v with
    | false => exact Or.inl ⟨_, hget, Or.inr ⟨_, hu, hd⟩⟩
    | true => exact Or.inr ⟨_, _, hget, he, hu, hd⟩

theorem first_stop {α : Type} (c : HashConsts) (k : DictKind α) (dict : List α)
    (slots : List Nat) (size : Nat) (v : α) (hg : TableGood c dict slots size) (hs : 0 < size)
    (a B : Nat) (hB : StopsAt c k dict slots v ((a + B) % size)) :
    ∃ K, K ≤ B ∧ StopsAt c k dict slots v ((a + K) % size) ∧
      ∀ m, m < K → ContinuesAt c k dict slots v ((a + m) % size) := by
  classical
  have hex : ∃ K, StopsAt c k dict slots v ((a + K) % size) := ⟨B, hB⟩
  refine ⟨Nat.find hex, Nat.find_min' hex hB, Nat.find_spec hex, fun m hm => ?_⟩
  have hns := Nat.find_min hex hm
  rcases stops_or_continues c k dict slots size v hg ((a + m) % size) (Nat.mod_lt _ hs) with h | h
  · exact absurd h hns
  · exact h

theorem offset_to (size a s : Nat) (hs : s < size) :
    ∃ n, n < size ∧ (a + n) % size = s := by
  refine ⟨(s + size - a % size) % size, Nat.mod_lt _ (by omega), ?_⟩
  have hr : a % size < size := Nat.mod_lt _ (by omega)
  have e : a % size + (s + size - a % size) = s + size := by omega
  calc (a + (s + size - a % size) % size) % size
      = (a % size + (s + size - a % size) % size % size) % size := Nat.add_mod _ _ _
    _ = (a % size + (s + size - a % size) % size) % size := by rw [Nat.mod_mod]
    _ = (a % size + (s + size - a % size)) % size := Nat.add_mod_mod _ _ _
    _ = (s + size) % size := by rw [e]
    _ = s := by rw [Nat.add_mod_right, Nat.mod_eq_of_lt hs]

/-! ## DictionaryBuilder: storing an index at the probed slot -/

theorem ContinuesAt_Occupied {α : Type} (c : HashConsts) (k : DictKind α) (dict : List α)
    (slots : List Nat) (v : α) (s : Nat) (h : ContinuesAt c k dict slots v s) :
    Occupied c slots s := by
  obtain ⟨x, _, hx, hne, _, _⟩ := h
  exact ⟨x, hx, hne⟩

theorem set_keeps_occupied (c : HashConsts) (slots : List Nat) (j idx s x : Nat)
    (hj : slots[j]? = some c.kHashSlotEmpty ∨ slots[j]? = some idx)
    (hx : slots[s]? = some x) (hne : x ≠ c.kHashSlotEmpty) :
    (slots.set j idx)[s]? = some x := by
  rw [List.getElem?_set]
  by_cases hjs : j = s
  · subst hjs
    rcases hj with h | h
    · rw [h] at hx; exact absurd (Option.some.inj hx).symm hne
    · rw [h] at hx
      have hlt : j < slots.length := by
        rcases Nat.lt_or_ge j slots.length with h1 | h1
        · exact h1
        · rw [List.getElem?_eq_none h1] at h; cases h
      simp [hlt, (Option.some.inj hx)]
  · rw [if_neg hjs]; exact hx

theorem ProbePath_set (c : HashConsts) (slots : List Nat) (size j idx start i : Nat)
    (hj : slots[j]? = some c.kHashSlotEmpty ∨ slots[j]? = some idx)
    (hi : i ≠ c.kHashSlotEmpty) (h : ProbePath c slots size start i) :
    ProbePath c (slots.set j idx) size start i := by
  obtain ⟨n, hn, hslot, hocc⟩ := h
  refine ⟨n, hn, set_keeps_occupied c slots j idx _ i hj hslot hi, fun m hm => ?_⟩
  obtain ⟨x, hx, hxe⟩ := hocc m hm
  exact ⟨x, set_keeps_occupied c slots j idx _ x hj hx hxe, hxe⟩

theorem table_insert {α : Type} (c : HashConsts) (k : DictKind α) (dict : List α)
    (slots : List Nat) (size : Nat) (v : α) (idx start : Nat)
    (hg : TableGood c dict slots size) (hs : 0 < size) (hstart : start < size)
    (hidx : idx ≠ c.kHashSlotEmpty)
    (huniq : ∀ (x : Nat) (u : α), dict[x]? = some u → k.different u v = false → x = idx)
    (hempty : ∃ s, s < size ∧ slots[s]? = some c.kHashSlotEmpty) :
    ∃ j x, probe c k dict slots size v size start = some (j, x) ∧ j < slots.length ∧
      slots[j]? = some x ∧ (x = c.kHashSlotEmpty ∨ x = idx) ∧
      (slots.set j idx).length = size ∧
      (∀ (s y : Nat), (slots.set j idx)[s]? = some y → y ≠ c.kHashSlotEmpty →
        y < dict.length ∨ y = idx) ∧
      ProbePath c (slots.set j idx) size start idx ∧
      (∀ start2 i, i ≠ c.kHashSlotEmpty → ProbePath c slots size start2 i →
        ProbePath c (slots.set j idx) size start2 i) ∧
      slots.count c.kHashSlotEmpty ≤ (slots.set j idx).count c.kHashSlotEmpty + 1 ∧
      (x = c.kHashSlotEmpty →
        (slots.set j idx).count c.kHashSlotEmpty + 1 = slots.count c.kHashSlotEmpty) := by
  obtain ⟨se, hse, hsee⟩ := hempty
  obtain ⟨n, hn, hoff⟩ := offset_to size start se hse
  have hstopn : StopsAt c k dict slots v ((start + n) % size) := by
    rw [hoff]; exact ⟨_, hsee, Or.inl rfl⟩
  obtain ⟨K, hK, ⟨x, hx, hxs⟩, hcont⟩ := first_stop c k dict slots size v hg hs start n hstopn
  have hx' : x = c.kHashSlotEmpty ∨ x = idx := by
    rcases hxs with h | ⟨u, hu, hd⟩
    · exact Or.inl h
    · exact Or.inr (huniq x u hu hd)
  have hrun := probe_run c k dict slots size v hs K size start x (by omega) hcont hx hxs
  rw [Nat.mod_eq_of_lt hstart] at hrun
  have hjlt : (start + K) % size < slots.length := by
    rw [hg.1]; exact Nat.mod_lt _ hs
  have hj : slots[(start + K) % size]? = some c.kHashSlotEmpty ∨
      slots[(start + K) % size]? = some idx := by
    rcases hx' with h | h
    · left; rw [hx, h]
    · right; rw [hx, h]
  refine ⟨(start + K) % size, x, hrun, hjlt, hx, hx', by rw [List.length_set]; exact hg.1,
    ?_, ?_, ?_, ?_, ?_⟩
  · intro s y hy hye
    rw [List.getElem?_set] at hy
    by_cases hjs : (start + K) % size = s
    · rw [if_pos hjs, if_pos hjlt] at hy
      exact Or.inr (Option.some.inj hy).symm
    · rw [if_neg hjs] at hy
      exact Or.inl (hg.2 s y hy hye)
  · refine ⟨K, by omega, ?_, fun m hm => ?_⟩
    · rw [List.getElem?_set, if_pos rfl, if_pos hjlt]
    · obtain ⟨y, hy, hye⟩ := ContinuesAt_Occupied c k dict slots v _ (hcont m hm)
      exact ⟨y, set_keeps_occupied c slots _ idx _ y hj hy hye, hye⟩
  · intro start2 i hi hp
    exact ProbePath_set c slots size _ idx start2 i hj hi hp
  · have := count_set slots ((start + K) % size) idx c.kHashSlotEmpty hjlt
    rw [if_neg hidx] at this
    split_ifs at this <;> omega
  · intro hxe
    have := count_set slots ((start + K) % size) idx c.kHashSlotEmpty hjlt
    rw [if_neg hidx] at this
    have hval : slots[(start + K) % size] = c.kHashSlotEmpty := by
      have h2 := List.getElem?_eq_getElem hjlt
      rw [hx, hxe] at h2
      exact (Option.some.inj h2).symm
    rw [if_pos hval] at this
    omega

theorem exists_empty_slot (c : HashConsts) (slots : List Nat) (size : Nat)
    (hlen : slots.length = size) (hcount : 0 < slots.count c.kHashSlotEmpty) :
    ∃ s, s < size ∧ slots[s]? = some c.kHashSlotEmpty := by
  have hmem : c.kHashSlotEmpty ∈ slots := List.count_pos_iff.mp hcount
  obtain ⟨s, hs, hget⟩ := List.getElem_of_mem hmem
  exact ⟨s, by omega, by rw [List.getElem?_eq_getElem hs, hget]⟩

/-! ## DictionaryBuilder: the rehash loop -/

theorem nodup_index_unique {α : Type} (dict : List α) (hn : dict.Nodup) (i j : Nat) (v : α)
    (hi : dict[i]? = some v) (hj : dict[j]? = some v) : i = j := by
  have hil : i < dict.length := by
    rcases Nat.lt_or_ge i dict.length with h1 | h1
    · exact h1
    · rw [List.getElem?_eq_none h1] at hi; cases hi
  exact List.getElem?_inj hil hn (by rw [hi, hj])

theorem getElem?_lt {α : Type} (l : List α) (i : Nat) (v : α) (h : l[i]? = some v) :
    i < l.length := by
  rcases Nat.lt_or_ge i l.length with h1 | h1
  · exact h1
  · rw [List.getElem?_eq_none h1] at h; cases h

theorem mask_lt (h size : Nat) (hs : 0 < size) : h &&& (size - 1) < size := by
  have := @Nat.and_le_right h (size - 1)
  omega

theorem rehashLoop_spec {α : Type} (c : HashConsts) (k : DictKind α) (dict : List α)
    (new_size : Nat) (hk : ∀ a b, k.different a b = true ↔ a ≠ b) (hnd : dict.Nodup)
    (hlt : dict.length ≤ c.kHashSlotEmpty) (hs : 0 < new_size) :
    ∀ (rest pre N : List Nat),
      (∀ x, x ∈ rest → x ≠ c.kHashSlotEmpty → x < dict.length) →
      pre.length + rest.length < new_size →
      N.length = new_size →
      (∀ (s x : Nat), N[s]? = some x → x ≠ c.kHashSlotEmpty → x < dict.length) →
      (∀ (i : Nat) (v : α), i ∈ pre → dict[i]? = some v →
        ProbePath c N new_size (k.HashValue v &&& (new_size - 1)) i) →
      new_size + pre.count c.kHashSlotEmpty ≤ N.count c.kHashSlotEmpty + pre.length →
      ∃ N1, rehashLoop c k dict new_size rest N = some N1 ∧ N1.length = new_size ∧
        (∀ (s x : Nat), N1[s]? = some x → x ≠ c.kHashSlotEmpty → x < dict.length) ∧
        (∀ (i : Nat) (v : α), i ∈ pre ++ rest → dict[i]? = some v →
          ProbePath c N1 new_size (k.HashValue v &&& (new_size - 1)) i) ∧
        new_size + (pre ++ rest).count c.kHashSlotEmpty ≤
          N1.count c.kHashSlotEmpty + (pre ++ rest).length := by
  intro rest
  induction rest with
  | nil =>
    intro pre N _ _ hlen hgood hpath hcount
    exact ⟨N, rfl, hlen, hgood, by simpa using hpath, by simpa using hcount⟩
  | cons idx rest ih =>
    intro pre N hrest hroom hlen hgood hpath hcount
    have hsplit : pre ++ idx :: rest = (pre ++ [idx]) ++ rest := by simp
    have hrest' : ∀ x, x ∈ rest → x ≠ c.kHashSlotEmpty → x < dict.length :=
      fun x hx => hrest x (List.mem_cons_of_mem _ hx)
    have hroom' : (pre ++ [idx]).length + rest.length < new_size := by
      simp only [List.length_append, List.length_cons, List.length_nil] at hroom ⊢; omega
    by_cases he : idx = c.kHashSlotEmpty
    · obtain ⟨N1, hr, h1, h2, h3, h4⟩ := ih (pre ++ [idx]) N hrest' hroom' hlen hgood
        (by
          intro i v hi hv
          rcases List.mem_append.mp hi with h | h
          · exact hpath i v h hv
          · have : i = idx := by simpa using h
            have := getElem?_lt dict i v hv
            omega)
        (by
          rw [List.count_append, List.length_append, he]
          simp only [List.count_cons_self, List.count_nil, List.length_cons, List.length_nil]
          omega)
      refine ⟨N1, ?_, h1, h2, ?_, ?_⟩
      · simp only [rehashLoop, if_pos he]; exact hr
      · rw [hsplit]; exact h3
      · rw [hsplit]; exact h4
    · have hidx : idx < dict.length := hrest idx (List.mem_cons_self _ _) he
      have hv : dict[idx]? = some dict[idx] := List.getElem?_eq_getElem hidx
      have hcpos : 0 < N.count c.kHashSlotEmpty := by
        simp only [List.length_cons] at hroom; omega
      obtain ⟨j, x, hprobe, hj, _, _, hlen', hgood', hpidx, hpold, hcnt, _⟩ :=
        table_insert c k dict N new_size dict[idx] idx (k.HashValue dict[idx] &&& (new_size - 1))
          ⟨hlen, hgood⟩ hs (mask_lt _ _ hs) he
          (by
            intro y u hu hd
            have huv : u = dict[idx] := by
              by_contra hne
              have := (hk u dict[idx]).mpr hne
              rw [hd] at this; cases this
            rw [huv] at hu
            exact nodup_index_unique dict hnd y idx _ hu hv)
          (exists_empty_slot c N new_size hlen hcpos)
      obtain ⟨N1, hr, h1, h2, h3, h4⟩ := ih (pre ++ [idx]) (N.set j idx) hrest' hroom' hlen'
        (by
          intro s y hy hye
          rcases hgood' s y hy hye with h | h
          · exact h
          · rw [h]; exact hidx)
        (by
          intro i v hi hiv
          rcases List.mem_append.mp hi with h | h
          · have hil := getElem?_lt dict i v hiv
            exact hpold _ i (by omega) (hpath i v h hiv)
          · have hii : i = idx := by simpa using h
            subst hii
            rw [hv] at hiv
            rw [← Option.some.inj hiv]
            exact hpidx)
        (by
          rw [List.count_append, List.length_append]
          simp only [List.count_cons, List.count_nil, List.length_cons, List.length_nil,
            beq_iff_eq, if_neg he]
          omega)
      refine ⟨N1, ?_, h1, h2, ?_, ?_⟩
      · simp only [rehashLoop, if_neg he, GetDictionaryValue, hv, hprobe, hj, if_true]; exact hr
      · rw [hsplit]; exact h3
      · rw [hsplit]; exact h4

/-! ## DictionaryBuilder: doubling the table and finding a present value -/

theorem different_false_eq {α : Type} (k : DictKind α) (hk : ∀ a b, k.different a b = true ↔ a ≠ b)
    (u v : α) (hd : k.different u v = false) : u = v := by
  by_contra hne
  have := (hk u v).mpr hne
  rw [hd] at this; cases this

theorem DoubleTableSize_spec {α : Type} (c : HashConsts) (k : DictKind α)
    (d : DictionaryBuilder α) (hk : ∀ a b, k.different a b = true ↔ a ≠ b)
    (hg : TableGood c d.dict_builder d.hash_slots d.hash_table_size)
    (hs : 0 < d.hash_table_size) (hnd : d.dict_builder.Nodup)
    (hcount : d.hash_table_size ≤ d.hash_slots.count c.kHashSlotEmpty + d.dict_builder.length)
    (hlt : d.dict_builder.length ≤ c.kHashSlotEmpty)
    (hin : ∀ (i : Nat) (v : α), d.dict_builder[i]? = some v → i ∈ d.hash_slots) :
    ∃ N1, d.DoubleTableSize c k =
        some { d with hash_slots := N1, hash_table_size := d.hash_table_size * 2,
                      mod_bitmask := d.hash_table_size * 2 - 1 } ∧
      TableGood c d.dict_builder N1 (d.hash_table_size * 2) ∧
      d.hash_table_size * 2 ≤ N1.count c.kHashSlotEmpty + d.dict_builder.length ∧
      ∀ (i : Nat) (v : α), d.dict_builder[i]? = some v →
        ProbePath c N1 (d.hash_table_size * 2)
          (k.HashValue v &&& (d.hash_table_size * 2 - 1)) i := by
  obtain ⟨hlen, hidx⟩ := hg
  have htake : d.hash_slots.take d.hash_table_size = d.hash_slots :=
    List.take_of_length_le (by omega)
  obtain ⟨N1, hr, h1, h2, h3, h4⟩ :=
    rehashLoop_spec c k d.dict_builder (d.hash_table_size * 2) hk hnd hlt (by omega)
      d.hash_slots [] (List.replicate (d.hash_table_size * 2) c.kHashSlotEmpty)
      (by
        intro x hx hxe
        obtain ⟨s, hs1, hget⟩ := List.getElem_of_mem hx
        exact hidx s x (by rw [List.getElem?_eq_getElem hs1, hget]) hxe)
      (by simp only [List.length_nil]; omega)
      (by simp)
      (by
        intro s x hx hxe
        rw [List.getElem?_replicate] at hx
        split_ifs at hx
        exact absurd (Option.some.inj hx).symm hxe)
      (by intro i v hi; simp at hi)
      (by simp)
  rw [List.nil_append] at h3 h4
  refine ⟨N1, ?_, ⟨h1, h2⟩, ?_, fun i v hv => h3 i v (hin i v hv) hv⟩
  · unfold DictionaryBuilder.DoubleTableSize
    simp only [htake, hr]
    rw [if_neg (by omega)]
  · omega

theorem probe_found {α : Type} (c : HashConsts) (k : DictKind α) (dict : List α)
    (slots : List Nat) (size : Nat) (v : α) (i start : Nat)
    (hk : ∀ a b, k.different a b = true ↔ a ≠ b)
    (hg : TableGood c dict slots size) (hs : 0 < size) (hstart : start < size)
    (hnd : dict.Nodup) (hi : dict[i]? = some v)
    (hp : ProbePath c slots size start i) :
    ∃ j, probe c k dict slots size v size start = some (j, i) := by
  obtain ⟨n, hn, hslot, hocc⟩ := hp
  have hvv : k.different v v = false := by
    cases h : k.different v v with
    | false => rfl
    | true => exact absurd rfl ((hk v v).mp h)
  have hstopn : StopsAt c k dict slots v ((start + n) % size) :=
    ⟨i, hslot, Or.inr ⟨v, hi, hvv⟩⟩
  obtain ⟨K, hK, ⟨x, hx, hxs⟩, hcont⟩ := first_stop c k dict slots size v hg hs start n hstopn
  have hxi : x = i := by
    rcases hxs with h | ⟨u, hu, hd⟩
    · rcases Nat.lt_or_ge K n with h1 | h1
      · obtain ⟨y, hy, hye⟩ := hocc K h1
        rw [hx] at hy
        have hxy : x = y := Option.some.inj hy
        exact absurd (hxy.symm.trans h) hye
      · have : K = n := by omega
        subst this
        rw [hx] at hslot
        exact Option.some.inj hslot
    · have := different_false_eq k hk u v hd
      rw [this] at hu
      exact nodup_index_unique dict hnd x i v hu hi
  have hrun := probe_run c k dict slots size v hs K size start x (by omega) hcont hx hxs
  rw [Nat.mod_eq_of_lt hstart, hxi] at hrun
  exact ⟨_, hrun⟩

theorem load_ok (c : HashConsts) (hload : c.loadNum < c.loadDen) (len size : Nat)
    (h : ¬ (len * c.loadDen > size * c.loadNum)) (hs : 0 < size) : len < size := by
  by_contra hge
  have h1 : size ≤ len := by omega
  have h2 : size * c.loadNum < size * c.loadDen := Nat.mul_lt_mul_of_pos_left hload hs
  have h3 : size * c.loadDen ≤ len * c.loadDen := Nat.mul_le_mul_right _ h1
  omega

theorem ProbePath_mem (c : HashConsts) (slots : List Nat) (size start i : Nat)
    (h : ProbePath c slots size start i) : i ∈ slots := by
  obtain ⟨n, _, hslot, _⟩ := h
  exact List.mem_iff_getElem?.mpr ⟨_, hslot⟩

theorem DictionaryBuilder_Append_spec {α : Type} [DecidableEq α] (c : HashConsts)
    (k : DictKind α) (d : DictionaryBuilder α) (v : α)
    (hk : ∀ a b, k.different a b = true ↔ a ≠ b) (hload : c.loadNum < c.loadDen)
    (hinv : DictionaryBuilder.Inv c k d)
    (hroom : d.dict_builder.length + 1 < c.kHashSlotEmpty) :
    ∃ d1, d.Append c k v = some d1 ∧ DictionaryBuilder.Inv c k d1 ∧
      d1.dict_builder = insertNew d.dict_builder v ∧
      d1.values_builder =
        d.values_builder ++ [some (positionOf v (insertNew d.dict_builder v))] := by
  obtain ⟨hcap, hg, hmask, hnd, hlen, hcount, hlt, hpaths⟩ := hinv
  have hs : 0 < d.hash_table_size := by omega
  have hres : d.Reserve c 1 = some d := by
    simp only [DictionaryBuilder.Reserve]
    rw [if_neg (by omega)]
  have hm : d.mod_bitmask = d.hash_table_size - 1 := by omega
  have hstart : k.HashValue v &&& d.mod_bitmask < d.hash_table_size := by
    rw [hm]; exact mask_lt _ _ hs
  by_cases hmem : v ∈ d.dict_builder
  · -- the value is present: the probe stops at the slot that holds its index
    obtain ⟨i, hi⟩ := List.mem_iff_getElem?.mp hmem
    have hil := getElem?_lt _ i v hi
    obtain ⟨j, hprobe⟩ := probe_found c k d.dict_builder d.hash_slots d.hash_table_size v i
      (k.HashValue v &&& d.mod_bitmask) hk hg hs hstart hnd hi (hpaths i v hi)
    have hie : i ≠ c.kHashSlotEmpty := by omega
    have hidx : positionOf v d.dict_builder = i :=
      nodup_index_unique _ hnd _ _ v (getElem?_positionOf v _ hmem) hi
    refine ⟨{ d with values_builder := d.values_builder ++ [some i] }, ?_,
      ⟨hcap, hg, hmask, hnd, hlen, hcount, hlt, hpaths⟩, ?_, ?_⟩
    · simp only [DictionaryBuilder.Append, hres, hprobe, if_neg hie]
    · simp [insertNew, hmem]
    · simp [insertNew, hmem, hidx]
  · -- the value is new: the probe stops at an empty slot
    have hidxe : d.dict_builder.length ≠ c.kHashSlotEmpty := by omega
    obtain ⟨j, x, hprobe, hj, hjx, hx, hlen', hgood', hpidx, hpold, _, hcnt⟩ :=
      table_insert c k d.dict_builder d.hash_slots d.hash_table_size v d.dict_builder.length
        (k.HashValue v &&& d.mod_bitmask) hg hs hstart hidxe
        (by
          intro y u hu hd
          have := different_false_eq k hk u v hd
          rw [this] at hu
          exact absurd (List.mem_iff_getElem?.mpr ⟨y, hu⟩) hmem)
        (exists_empty_slot c _ _ hg.1 (by omega))
    have hxe : x = c.kHashSlotEmpty := by
      rcases hx with h | h
      · exact h
      · by_contra hne
        have := hg.2 j x hjx hne
        omega
    have hcnt' := hcnt hxe
    -- the state after the insertion, before the load check
    have hg2 : TableGood c (d.dict_builder ++ [v])
        (d.hash_slots.set j d.dict_builder.length) d.hash_table_size := by
      refine ⟨hlen', fun s y hy hye => ?_⟩
      rw [List.length_append, List.length_singleton]
      rcases hgood' s y hy hye with h | h <;> omega
    have hnd2 : (d.dict_builder ++ [v]).Nodup := by
      rw [← List.concat_eq_append]
      exact List.Nodup.concat hmem hnd
    have hpaths2 : ∀ (i : Nat) (u : α), (d.dict_builder ++ [v])[i]? = some u →
        ProbePath c (d.hash_slots.set j d.dict_builder.length) d.hash_table_size
          (k.HashValue u &&& d.mod_bitmask) i := by
      intro i u hu
      rw [List.getElem?_append] at hu
      by_cases hil : i < d.dict_builder.length
      · rw [if_pos hil] at hu
        exact hpold _ i (by omega) (hpaths i u hu)
      · rw [if_neg hil] at hu
        have hi0 : i - d.dict_builder.length = 0 := by
          have := getElem?_lt _ _ _ hu
          simp only [List.length_singleton] at this
          omega
        rw [hi0] at hu
        have huv : v = u := by simpa using hu
        have hii : i = d.dict_builder.length := by omega
        rw [← huv, hii]
        exact hpidx
    have hcount2 : d.hash_table_size ≤
        (d.hash_slots.set j d.dict_builder.length).count c.kHashSlotEmpty +
          (d.dict_builder ++ [v]).length := by
      rw [List.length_append, List.length_singleton]; omega
    have hins : insertNew d.dict_builder v = d.dict_builder ++ [v] := by
      simp [insertNew, hmem]
    have hidx : positionOf v (d.dict_builder ++ [v]) = d.dict_builder.length := by
      rw [positionOf_append_of_not_mem v _ _ hmem]; simp [positionOf]
    have hlen2 : (d.dict_builder ++ [v]).length = d.dict_builder.length + 1 := by simp
    by_cases hgrow : (d.dict_builder ++ [v]).length * c.loadDen > d.hash_table_size * c.loadNum
    · obtain ⟨N1, hdbl, hg3, hcount3, hpaths3⟩ :=
        DoubleTableSize_spec c k
          { d with hash_slots := d.hash_slots.set j d.dict_builder.length,
                   dict_builder := d.dict_builder ++ [v] }
          hk hg2 hs hnd2 hcount2 (by rw [hlen2]; omega)
          (fun i u hu => ProbePath_mem c _ _ _ i (hpaths2 i u hu))
      refine ⟨{ d with hash_slots := N1, hash_table_size := d.hash_table_size * 2,
                       mod_bitmask := d.hash_table_size * 2 - 1,
                       dict_builder := d.dict_builder ++ [v],
                       values_builder := d.values_builder ++ [some d.dict_builder.length] },
        ?_, ⟨hcap, hg3, ?_, hnd2, ?_, hcount3, ?_, hpaths3⟩, hins.symm, ?_⟩
      · simp only [DictionaryBuilder.Append, hres, hprobe, hxe, if_true, hj, hgrow, hdbl]
      · show d.hash_table_size * 2 - 1 + 1 = d.hash_table_size * 2; omega
      · show (d.dict_builder ++ [v]).length < d.hash_table_size * 2; rw [hlen2]; omega
      · show (d.dict_builder ++ [v]).length < c.kHashSlotEmpty; rw [hlen2]; omega
      · rw [hins, hidx]
    · have hlt2 := load_ok c hload _ _ hgrow hs
      refine ⟨{ d with hash_slots := d.hash_slots.set j d.dict_builder.length,
                       dict_builder := d.dict_builder ++ [v],
                       values_builder := d.values_builder ++ [some d.dict_builder.length] },
        ?_, ⟨hcap, hg2, hmask, hnd2, hlt2, hcount2, ?_, hpaths2⟩, hins.symm, ?_⟩
      · simp only [DictionaryBuilder.Append, hres, hprobe, hxe, if_true, hj, hgrow, if_false]
      · show (d.dict_builder ++ [v]).length < c.kHashSlotEmpty; rw [hlen2]; omega
      · rw [hins, hidx]

/-! ## DictionaryBuilder: runs of Append -/

theorem insertNew_length {α : Type} [DecidableEq α] (acc : List α) (v : α) :
    (insertNew acc v).length ≤ acc.length + 1 := by
  unfold insertNew; split_ifs <;> simp

theorem NextPower2_one : NextPower2 1 = 1 := by decide

/-- C10 (the code at a failing input): with the upstream constants and the
byte-sum hash, append "a" and `Finish`. The builder that `Finish` leaves has an
empty dictionary while slot 97 of the hash table still holds index 0, and its
capacity is still reserved, so the table is not rebuilt; appending "a" again
probes slot 97 and reads dictionary entry 0 of the empty dictionary builder,
which is no result, whereas a fresh builder yields dictionary a, indices 0. -/
theorem DictionaryBuilder_Finish_keeps_table :
    ((DictionaryBuilder.appendAll HashConsts.upstream (binaryKind byteSum)
        (DictionaryBuilder.fresh (List Nat)) [[97]]).map
      (fun d => (d.Finish.2.dict_builder, d.Finish.2.hash_slots[97]?,
        d.Finish.2.base.capacity))) = some ([], some 0, 32) ∧
    ((DictionaryBuilder.appendAll HashConsts.upstream (binaryKind byteSum)
        (DictionaryBuilder.fresh (List Nat)) [[97]]).bind
      (fun d => d.Finish.2.Append HashConsts.upstream (binaryKind byteSum) [97])) = none ∧
    ((DictionaryBuilder.appendAll HashConsts.upstream (binaryKind byteSum)
        (DictionaryBuilder.fresh (List Nat)) [[97]]).map
      (fun d => d.Finish.1)) = some ([[97]], [some 0]) := by
  set_option maxRecDepth 100000 in decide

/-! ## Stores and loads of fixed-width integers in a byte buffer -/

theorem take_of_take_eq (a b : List Nat) (m k : Nat) (h : a.take m = b.take m) (hk : k ≤ m) :
    a.take k = b.take k := by
  have h1 : (a.take m).take k = (b.take m).take k := by rw [h]
  rwa [List.take_take, List.take_take, Nat.min_eq_left hk] at h1

theorem drop_of_drop_eq (a b : List Nat) (m k : Nat) (h : a.drop m = b.drop m) (hk : m ≤ k) :
    a.drop k = b.drop k := by
  have h1 : (a.drop m).drop (k - m) = (b.drop m).drop (k - m) := by rw [h]
  rw [List.drop_drop, List.drop_drop] at h1
  have e : m + (k - m) = k := by omega
  rwa [e] at h1

theorem readBytes_eq_of_take (buf buf1 : List Nat) (off w m : Nat)
    (hlen : buf1.length = buf.length) (h : buf1.take m = buf.take m) (hm : off + w ≤ m) :
    readBytes buf1 off w = readBytes buf off w := by
  unfold readBytes
  rw [hlen]
  have e : (buf1.drop off).take w = (buf.drop off).take w := by
    rw [← take_drop_take buf1 m off w hm, ← take_drop_take buf m off w hm, h]
  rw [e]

theorem readBytes_eq_of_drop (buf buf1 : List Nat) (off w m : Nat)
    (hlen : buf1.length = buf.length) (h : buf1.drop m = buf.drop m) (hm : m ≤ off) :
    readBytes buf1 off w = readBytes buf off w := by
  unfold readBytes
  rw [hlen, drop_of_drop_eq buf1 buf m off h hm]

theorem writeBytes_spec (buf bs : List Nat) (off : Nat) (h : off + bs.length ≤ buf.length) :
    ∃ buf1, writeBytes buf off bs = some buf1 ∧ buf1.length = buf.length ∧
      buf1.take off = buf.take off ∧
      buf1.drop (off + bs.length) = buf.drop (off + bs.length) ∧
      readBytes buf1 off bs.length = some bs := by
  refine ⟨buf.take off ++ bs ++ buf.drop (off + bs.length), by simp [writeBytes, h], ?_, ?_, ?_, ?_⟩
  · simp only [List.length_append, List.length_take, List.length_drop]; omega
  · rw [List.append_assoc, List.take_append_of_le_length (by simp; omega)]
    simp only [List.take_take, Nat.min_self]
  · have hl : (buf.take off ++ bs).length = off + bs.length := by
      simp only [List.length_append, List.length_take]; omega
    rw [← hl, List.drop_left]
  · unfold readBytes
    rw [if_pos (by simp only [List.length_append, List.length_take, List.length_drop]; omega)]
    have hl : (buf.take off).length = off := by simp only [List.length_take]; omega
    rw [List.append_assoc, List.drop_append_eq_append_drop, hl, Nat.sub_self, List.drop_zero,
      List.drop_eq_nil_of_le (by omega), List.nil_append, List.take_left]

theorem storeInt_spec (w : Nat) (hw : 0 < w) (buf : List Nat) (i : Nat) (x : Int)
    (h : (i + 1) * w ≤ buf.length) :
    ∃ buf1, storeInt w buf i x = some buf1 ∧ buf1.length = buf.length ∧
      buf1.take (i * w) = buf.take (i * w) ∧
      buf1.drop ((i + 1) * w) = buf.drop ((i + 1) * w) ∧
      (fitsIn w x → loadInt w buf1 i = some x) := by
  have hl := toBytesLE_length w (ofSigned w x)
  have e : (i + 1) * w = i * w + w := by ring
  obtain ⟨buf1, h1, h2, h3, h4, h5⟩ :=
    writeBytes_spec buf (toBytesLE w (ofSigned w x)) (i * w) (by rw [hl]; omega)
  rw [hl] at h4 h5
  refine ⟨buf1, h1, h2, h3, by rw [e]; exact h4, fun hfit => ?_⟩
  unfold loadInt
  rw [h5]
  simp only [fromBytesLE_toBytesLE]
  rw [toSigned_ofSigned w hw x hfit.1 hfit.2]

theorem loadInt_eq_of_take (w : Nat) (buf buf1 : List Nat) (i m : Nat)
    (hlen : buf1.length = buf.length) (h : buf1.take m = buf.take m) (hm : (i + 1) * w ≤ m) :
    loadInt w buf1 i = loadInt w buf i := by
  unfold loadInt
  rw [readBytes_eq_of_take buf buf1 (i * w) w m hlen h (by
    have e : (i + 1) * w = i * w + w := by ring
    omega)]

theorem loadInt_eq_of_drop (w : Nat) (buf buf1 : List Nat) (i m : Nat)
    (hlen : buf1.length = buf.length) (h : buf1.drop m = buf.drop m) (hm : m ≤ i * w) :
    loadInt w buf1 i = loadInt w buf i := by
  unfold loadInt
  rw [readBytes_eq_of_drop buf buf1 (i * w) w m hlen h hm]

theorem loadInt_some (w : Nat) (buf : List Nat) (i : Nat) (h : (i + 1) * w ≤ buf.length) :
    ∃ x, loadInt w buf i = some x := by
  unfold loadInt readBytes
  have e : (i + 1) * w = i * w + w := by ring
  rw [if_pos (by omega)]
  exact ⟨_, rfl⟩

theorem copyBackward_spec (old new : Nat) (hold : 0 < old) (hle : old ≤ new) :
    ∀ (n : Nat) (data : List Nat), n * new ≤ data.length →
      ∃ data1, copyBackward old new n data = some data1 ∧ data1.length = data.length ∧
        data1.drop (n * new) = data.drop (n * new) ∧
        ∀ (i : Nat) (x : Int), i < n → loadInt old data i = some x → fitsIn new x →
          loadInt new data1 i = some x := by
  intro n
  induction n with
  | zero =>
    intro data _
    exact ⟨data, rfl, rfl, rfl, fun i x hi => absurd hi (Nat.not_lt_zero i)⟩
  | succ n ih =>
    intro data hlen
    have hnew : 0 < new := by omega
    have h1 : (n + 1) * old ≤ (n + 1) * new := Nat.mul_le_mul_left _ hle
    have h2 : n * old ≤ n * new := Nat.mul_le_mul_left _ hle
    have e1 : (n + 1) * new = n * new + new := by ring
    obtain ⟨x0, hx0⟩ := loadInt_some old data n (by omega)
    obtain ⟨d1, hs, hl1, ht1, hd1, hload1⟩ := storeInt_spec new hnew data n x0 hlen
    obtain ⟨d2, hc, hl2, hd2, hload2⟩ := ih d1 (by rw [hl1]; omega)
    refine ⟨d2, by simp only [copyBackward, hx0, hs, hc], by rw [hl2, hl1], ?_, ?_⟩
    · rw [drop_of_drop_eq d2 d1 (n * new) ((n + 1) * new) hd2 (by omega), hd1]
    · intro i x hi hx hfit
      by_cases hin : i < n
      · apply hload2 i x hin _ hfit
        rw [loadInt_eq_of_take old data d1 i (n * new) hl1 ht1 (by
          have : (i + 1) * old ≤ n * old := Nat.mul_le_mul_right _ (by omega)
          omega)]
        exact hx
      · have hie : i = n := by omega
        subst hie
        rw [hx0] at hx
        have hxx : x0 = x := Option.some.inj hx
        rw [loadInt_eq_of_drop new d1 d2 i (i * new) hl2 hd2 (le_refl _)]
        rw [← hxx] at hfit ⊢
        exact hload1 hfit

theorem storeAll_spec (w : Nat) (hw : 0 < w) :
    ∀ (xs : List Int) (data : List Nat) (i : Nat), (i + xs.length) * w ≤ data.length →
      ∃ data1, storeAll w data i xs = some data1 ∧ data1.length = data.length ∧
        data1.take (i * w) = data.take (i * w) ∧
        ∀ (j : Nat) (x : Int), xs[j]? = some x → fitsIn w x → loadInt w data1 (i + j) = some x := by
  intro xs
  induction xs with
  | nil =>
    intro data i _
    exact ⟨data, rfl, rfl, rfl, fun j x hj => by simp at hj⟩
  | cons x0 xs ih =>
    intro data i hlen
    simp only [List.length_cons] at hlen
    have e1 : (i + (xs.length + 1)) * w = (i + 1) * w + xs.length * w := by ring
    have e2 : (i + 1) * w = i * w + w := by ring
    obtain ⟨d1, hs, hl1, ht1, _, hload1⟩ := storeInt_spec w hw data i x0 (by
      have : 0 ≤ xs.length * w := Nat.zero_le _
      omega)
    obtain ⟨d2, hc, hl2, ht2, hload2⟩ := ih d1 (i + 1) (by
      rw [hl1]
      have : (i + 1 + xs.length) * w = (i + 1) * w + xs.length * w := by ring
      omega)
    refine ⟨d2, by simp only [storeAll, hs, hc], by rw [hl2, hl1], ?_, ?_⟩
    · rw [take_of_take_eq d2 d1 ((i + 1) * w) (i * w) ht2 (by omega), ht1]
    · intro j x hj hfit
      cases j with
      | zero =>
        have hxx : x0 = x := by simpa using hj
        rw [Nat.add_zero, loadInt_eq_of_take w d1 d2 i ((i + 1) * w) hl2 ht2 (le_refl _)]
        rw [← hxx] at hfit ⊢
        exact hload1 hfit
      | succ j =>
        have hj' : xs[j]? = some x := by simpa using hj
        have := hload2 j x hj' hfit
        have e : i + (j + 1) = i + 1 + j := by omega
        rw [e]; exact this

/-! ## AdaptiveIntBuilder: growth and width expansion -/

theorem AdaptiveIntBuilder_Init_eq (a : AdaptiveIntBuilder) (capacity : Nat) :
    a.Init capacity =
      some { a with base := { a.base with null_bitmap := some (List.replicate (CeilByte capacity / 8) 0),
                                          capacity := capacity },
                    data := some (List.replicate (capacity * a.int_size) 0) } := by
  unfold AdaptiveIntBuilder.Init
  rw [ArrayBuilder_Init_eq]
  have e : PoolBuffer.Resize [] (capacity * a.int_size) =
      List.replicate (capacity * a.int_size) 0 := by
    simp [PoolBuffer.Resize]
  simp only [e]
  have e2 : memset (List.replicate (capacity * a.int_size) 0) 0 0 (capacity * a.int_size) =
      some (List.replicate (capacity * a.int_size) 0) := by
    simp [memset]
  rw [e2]

theorem AdaptiveIntBuilder_Resize_grow (a : AdaptiveIntBuilder) (bm d : List Nat) (c : Nat)
    (hc0 : a.base.capacity ≠ 0) (hbm : a.base.null_bitmap = some bm) (hd : a.data = some d)
    (hbl : bm.length ≤ CeilByte c / 8) (hdl : d.length ≤ c * a.int_size)
    (hk : kMinBuilderCapacity ≤ c) :
    a.Resize c =
      some { a with
        base := { a.base with
          null_bitmap := some (bm ++ List.replicate (CeilByte c / 8 - bm.length) 0),
          capacity := c },
        data := some (d ++ List.replicate (c * a.int_size - d.length) 0) } := by
  unfold AdaptiveIntBuilder.Resize
  have e1 : (if c < kMinBuilderCapacity then kMinBuilderCapacity else c) = c := by
    rw [if_neg (by omega)]
  simp only [e1, if_neg hc0]
  unfold AdaptiveIntBuilder.ArrayBuilder_Resize
  simp only [hbm, ArrayBuilder_ResizeBitmap_grow _ _ _ hbl, hd, PoolBuffer_Resize_grow d _ hdl]
  rw [if_neg (by omega)]
  have e := memset_zero_tail d (c * a.int_size - d.length)
  rw [e]

theorem AdaptiveIntBuilder_Resize_floor (a : AdaptiveIntBuilder) (c0 : Nat) :
    ∃ c, c0 ≤ c ∧ kMinBuilderCapacity ≤ c ∧ a.Resize c0 = a.Resize c ∧
      (a.base.capacity = 0 → a.Resize c0 = a.Init c) := by
  by_cases h : c0 < kMinBuilderCapacity
  · refine ⟨kMinBuilderCapacity, by omega, le_refl _, ?_, ?_⟩
    · simp [AdaptiveIntBuilder.Resize, h]
    · intro h0; simp [AdaptiveIntBuilder.Resize, h, h0]
  · refine ⟨c0, le_refl _, by omega, rfl, ?_⟩
    intro h0; simp [AdaptiveIntBuilder.Resize, h, h0]

theorem AdaptiveIntBuilder_Reserve_spec (a : AdaptiveIntBuilder) (n : Nat) (hwf : a.WF) :
    ∃ a1, a.Reserve n = some a1 ∧ a1.WF ∧ a1.int_size = a.int_size ∧
      a.base.length + n ≤ a1.base.capacity ∧ a1.base.length = a.base.length ∧
      ∀ i, i < a.base.length →
        loadInt a.int_size (a1.data.getD []) i = loadInt a.int_size (a.data.getD []) i := by
  obtain ⟨hlen, hbuf⟩ := hwf
  by_cases hgt : a.base.length + n > a.base.capacity
  · have hne : a.Reserve n = a.Resize (NextPower2 (a.base.length + n)) := by
      simp [AdaptiveIntBuilder.Reserve, hgt]
    have hge := NextPower2_ge (a.base.length + n)
    obtain ⟨c, hc0, hk, hres, hinit⟩ :=
      AdaptiveIntBuilder_Resize_floor a (NextPower2 (a.base.length + n))
    have hcap : a.base.length + n ≤ c := le_trans hge hc0
    clear hge hc0
    generalize NextPower2 (a.base.length + n) = c0 at hne hres hinit
    by_cases hz : a.base.capacity = 0
    · have hl0 : a.base.length = 0 := by omega
      rw [hne, hinit hz, AdaptiveIntBuilder_Init_eq]
      refine ⟨_, rfl, ?_, rfl, hcap, rfl, fun i hi => by omega⟩
      exact ⟨le_trans (Nat.le_add_right _ _) hcap, fun _ => ⟨_, _, rfl, rfl, by simp, by simp⟩⟩
    · obtain ⟨bm, d, hbm, hd, hbl, hdl⟩ := hbuf hz
      have h1 : bm.length ≤ CeilByte c / 8 := by
        rw [hbl]; exact CeilByte_mono (by omega)
      have h2 : d.length ≤ c * a.int_size := by
        rw [hdl]; exact Nat.mul_le_mul_right _ (by omega)
      rw [hne, hres, AdaptiveIntBuilder_Resize_grow a bm d c hz hbm hd h1 h2 hk]
      refine ⟨_, rfl, ?_, rfl, hcap, rfl, fun i hi => ?_⟩
      · refine ⟨le_trans (Nat.le_add_right _ _) hcap, fun _ => ⟨_, _, rfl, rfl, ?_, ?_⟩⟩
        · simp; omega
        · simp; omega
      · simp only [hd, Option.getD_some]
        apply loadInt_append_left
        rw [hdl]
        exact Nat.mul_le_mul_right _ (by omega)
  · have hne : a.Reserve n = some a := by simp [AdaptiveIntBuilder.Reserve, hgt]
    exact ⟨a, hne, ⟨hlen, hbuf⟩, rfl, by omega, rfl, fun _ _ => rfl⟩

theorem fitsIn_mono (w w1 : Nat) (x : Int) (h : w ≤ w1) (hf : fitsIn w x) : fitsIn w1 x := by
  unfold fitsIn at hf ⊢
  have hp : (2 : Int) ^ (8 * w - 1) ≤ 2 ^ (8 * w1 - 1) :=
    pow_le_pow_right₀ (by norm_num) (by omega)
  constructor <;> omega

theorem isIntSize_pos (w : Nat) (h : isIntSize w) : 0 < w := by
  unfold isIntSize at h; omega

theorem AdaptiveIntBuilder_ExpandIntSize_spec (a : AdaptiveIntBuilder) (new_size : Nat)
    (hwf : a.WF) (hc0 : a.base.capacity ≠ 0) (hold : isIntSize a.int_size)
    (hnew : isIntSize new_size) (hlt : a.int_size < new_size) :
    ∃ a1, a.ExpandIntSize new_size = some a1 ∧ a1.WF ∧ a1.int_size = new_size ∧
      a.base.capacity ≤ a1.base.capacity ∧ a1.base.length = a.base.length ∧
      ∀ (i : Nat) (x : Int), i < a.base.length →
        loadInt a.int_size (a.data.getD []) i = some x → fitsIn new_size x →
        loadInt new_size (a1.data.getD []) i = some x := by
  obtain ⟨hlen, hbuf⟩ := hwf
  obtain ⟨bm, d, hbm, hd, hbl, hdl⟩ := hbuf hc0
  have hopos := isIntSize_pos _ hold
  have hdiv : d.length / a.int_size = a.base.capacity := by
    rw [hdl]; exact Nat.mul_div_cancel _ hopos
  obtain ⟨c, hcc, hk, hres, _⟩ :=
    AdaptiveIntBuilder_Resize_floor { a with int_size := new_size } a.base.capacity
  have h1 : bm.length ≤ CeilByte c / 8 := by
    rw [hbl]; exact CeilByte_mono hcc
  have h2 : d.length ≤ c * new_size := by
    rw [hdl]
    exact Nat.mul_le_mul hcc (Nat.le_of_lt hlt)
  have hgrow := AdaptiveIntBuilder_Resize_grow { a with int_size := new_size } bm d c hc0 hbm hd
    h1 h2 hk
  obtain ⟨d3, hcopy, hl3, _, hload3⟩ :=
    copyBackward_spec a.int_size new_size hopos (Nat.le_of_lt hlt) a.base.length
      (d ++ List.replicate (c * new_size - d.length) 0) (by
        rw [List.length_append, List.length_replicate]
        have : a.base.length * new_size ≤ c * new_size :=
          Nat.mul_le_mul_right _ (le_trans hlen hcc)
        omega)
  refine ⟨{ a with int_size := new_size,
                   base := { a.base with
                     null_bitmap := some (bm ++ List.replicate (CeilByte c / 8 - bm.length) 0),
                     capacity := c },
                   data := some d3 }, ?_, ?_, rfl, hcc, rfl, ?_⟩
  · simp only [AdaptiveIntBuilder.ExpandIntSize, AdaptiveIntBuilder.ExpandIntSizeN]
    have hnew1 : new_size = 1 ∨ new_size = 2 ∨ new_size = 4 ∨ new_size = 8 := hnew
    have hold1 : a.int_size = 1 ∨ a.int_size = 2 ∨ a.int_size = 4 ∨ a.int_size = 8 := hold
    rw [if_pos hnew1, if_pos hold1]
    simp only [AdaptiveIntBuilder.ExpandIntSizeInternal]
    rw [if_neg (by omega)]
    simp only [hd] at hres hgrow
    simp only [hd, hdiv, hres, hgrow, hcopy]
  · refine ⟨le_trans hlen hcc, fun _ => ⟨_, d3, rfl, rfl, ?_, ?_⟩⟩
    · simp; omega
    · rw [hl3, List.length_append, List.length_replicate]
      show _ = c * new_size
      omega
  · intro i x hi hx hfit
    simp only [Option.getD_some]
    rw [hd, Option.getD_some] at hx
    apply hload3 i x hi _ hfit
    rw [loadInt_append_left a.int_size d _ i (by
      rw [hdl]; exact Nat.mul_le_mul_right _ (by omega))]
    exact hx

/-! ## AdaptiveIntBuilder: the width of a batch, and the validity append of any batch -/

theorem minimalIntSize_isIntSize (x : Int) : isIntSize (minimalIntSize x) := by
  unfold minimalIntSize isIntSize
  split_ifs <;> simp

theorem minimalIntSize_fits (x : Int) (h : -(2 : Int) ^ 63 ≤ x ∧ x < 2 ^ 63) :
    fitsIn (minimalIntSize x) x := by
  unfold minimalIntSize
  split_ifs with h1 h2 h3
  · exact h1
  · exact h2
  · exact h3
  · exact h

theorem expanded_int_size_spec (x : Int) (s : Nat) (hs : isIntSize s)
    (h : -(2 : Int) ^ 63 ≤ x ∧ x < 2 ^ 63) :
    isIntSize (expanded_int_size x s) ∧ s ≤ expanded_int_size x s ∧
      fitsIn (expanded_int_size x s) x := by
  unfold expanded_int_size
  refine ⟨?_, Nat.le_max_left _ _, fitsIn_mono _ _ x (Nat.le_max_right _ _) (minimalIntSize_fits x h)⟩
  rcases Nat.le_total s (minimalIntSize x) with h1 | h1
  · rw [Nat.max_eq_right h1]; exact minimalIntSize_isIntSize x
  · rw [Nat.max_eq_left h1]; exact hs

theorem expandedSizeLoop_spec (values : List Int) (valid_bytes : Option (List Nat))
    (hval : ∀ x, x ∈ values → -(2 : Int) ^ 63 ≤ x ∧ x < 2 ^ 63) :
    ∀ (n i s : Nat), isIntSize s → i + n ≤ values.length →
      (∀ vb, valid_bytes = some vb → i + n ≤ vb.length) →
      ∃ r, expandedSizeLoop values valid_bytes n i s = some r ∧ isIntSize r ∧ s ≤ r ∧
        ∀ (j : Nat) (x : Int), i ≤ j → j < i + n → values[j]? = some x →
          validAt valid_bytes j = true → fitsIn r x := by
  intro n
  induction n with
  | zero =>
    intro i s hs _ _
    exact ⟨s, rfl, hs, le_refl _, fun j x h1 h2 => by omega⟩
  | succ n ih =>
    intro i s hs hlen hvb
    have hi : i < values.length := by omega
    have hget : values[i]? = some values[i] := List.getElem?_eq_getElem hi
    have hrange := hval values[i] (List.getElem_mem hi)
    obtain ⟨hs1, hle1, hfit1⟩ := expanded_int_size_spec values[i] s hs hrange
    obtain ⟨r1, hr1, hsz1, hge1, hall1⟩ := ih (i + 1) (expanded_int_size values[i] s) hs1
      (by omega) (fun vb h => by have := hvb vb h; omega)
    obtain ⟨r0, hr0, hsz0, hge0, hall0⟩ := ih (i + 1) s hs
      (by omega) (fun vb h => by have := hvb vb h; omega)
    cases hv : valid_bytes with
    | none =>
      subst hv
      refine ⟨r1, ?_, hsz1, le_trans hle1 hge1, fun j x h1 h2 hx hvj => ?_⟩
      · simp only [expandedSizeLoop, hget]; exact hr1
      · by_cases hji : j = i
        · subst hji
          rw [hget] at hx
          rw [← Option.some.inj hx]
          exact fitsIn_mono _ _ _ hge1 hfit1
        · exact hall1 j x (by omega) (by omega) hx hvj
    | some vb =>
      subst hv
      have hvi : i < vb.length := by have := hvb vb rfl; omega
      have hgv : vb[i]? = some vb[i] := List.getElem?_eq_getElem hvi
      by_cases hb : vb[i] ≠ 0
      · refine ⟨r1, ?_, hsz1, le_trans hle1 hge1, fun j x h1 h2 hx hvj => ?_⟩
        · simp only [expandedSizeLoop, hgv, hb, hget, decide_True, ne_eq, not_false_eq_true]
          exact hr1
        · by_cases hji : j = i
          · subst hji
            rw [hget] at hx
            rw [← Option.some.inj hx]
            exact fitsIn_mono _ _ _ hge1 hfit1
          · exact hall1 j x (by omega) (by omega) hx hvj
      · refine ⟨r0, ?_, hsz0, hge0, fun j x h1 h2 hx hvj => ?_⟩
        · simp only [expandedSizeLoop, hgv, hb, decide_False]
          exact hr0
        · by_cases hji : j = i
          · subst hji
            exfalso
            simp only [validAt, List.getD_eq_getElem?_getD, hgv, Option.getD_some,
              decide_eq_true_eq] at hvj
            exact hb hvj
          · exact hall0 j x (by omega) (by omega) hx hvj

theorem UnsafeAppendToBitmapBulk_some (b : ArrayBuilder) (valid_bytes : Option (List Nat))
    (n : Nat) (hroom : b.length + n ≤ b.capacity)
    (hcap : b.capacity ≤ 8 * (b.null_bitmap.getD []).length)
    (hvb : match valid_bytes with
      | none => True
      | some vb => vb.length = n ∧ 0 < n) :
    ∃ b1, b.UnsafeAppendToBitmapBulk valid_bytes n = some b1 ∧ b1.length = b.length + n ∧
      b1.capacity = b.capacity ∧ b1.null_bitmap.isSome = b.null_bitmap.isSome ∧
      (b1.null_bitmap.getD []).length = (b.null_bitmap.getD []).length := by
  cases valid_bytes with
  | none =>
    obtain ⟨bm3, hs, hl3⟩ := UnsafeSetNotNull_some b n (by omega)
    refine ⟨_, hs, by show n + b.length = b.length + n; omega, rfl, ?_, ?_⟩
    · cases b.null_bitmap <;> rfl
    · show ((b.null_bitmap.map fun _ => bm3).getD []).length = _
      cases hb : b.null_bitmap with
      | none => rfl
      | some bm => rw [hb] at hl3; simpa using hl3
  | some vb =>
    simp only at hvb
    obtain ⟨hvl, hn⟩ := hvb
    cases hb : b.null_bitmap with
    | none =>
      rw [hb] at hcap
      simp only [Option.getD_none, List.length_nil] at hcap
      omega
    | some bm =>
      rw [hb] at hcap
      simp only [Option.getD_some] at hcap
      obtain ⟨b1, bm1, h1, h2, h3, _, _, h4, _, h5⟩ :=
        bulkAppend_explicit_core b bm vb hb hcap (by omega) (by omega)
      rw [hvl] at h1 h4
      refine ⟨b1, h1, h4, h5, by rw [h2]; rfl, by rw [h2]; simpa using h3⟩

/-! ## AdaptiveIntBuilder: the blocks of Append -/

theorem entriesFrom_get (vb : Option (List Nat)) :
    ∀ (xs : List Int) (i j : Nat),
      (entriesFrom vb i xs)[j]? = (xs[j]?).map (fun x => (x, validAt vb (i + j))) := by
  intro xs
  induction xs with
  | nil => intro i j; simp [entriesFrom]
  | cons x xs ih =>
    intro i j
    cases j with
    | zero => simp [entriesFrom]
    | succ j =>
      simp only [entriesFrom, List.getElem?_cons_succ, ih]
      have e : i + 1 + j = i + (j + 1) := by omega
      rw [e]

theorem entriesFrom_length (vb : Option (List Nat)) :
    ∀ (xs : List Int) (i : Nat), (entriesFrom vb i xs).length = xs.length := by
  intro xs
  induction xs with
  | nil => intro i; rfl
  | cons x xs ih => intro i; simp [entriesFrom, ih]

theorem entries_get (b : IntBatch) (j : Nat) (x : Int) (h : b.entries[j]? = some (x, true)) :
    b.values[j]? = some x ∧ validAt b.valid_bytes j = true := by
  unfold IntBatch.entries at h
  rw [entriesFrom_get] at h
  cases hv : b.values[j]? with
  | none => rw [hv] at h; simp at h
  | some y =>
    rw [hv] at h
    simp only [Option.map_some', Option.some.injEq, Prod.mk.injEq, Nat.zero_add] at h
    exact ⟨by rw [h.1], h.2⟩

theorem WF_adaptive_room (a : AdaptiveIntBuilder) (hwf : a.WF) :
    a.base.capacity ≤ 8 * (a.base.null_bitmap.getD []).length := by
  by_cases hz : a.base.capacity = 0
  · omega
  · obtain ⟨bm, d, hbm, _, hbl, _⟩ := hwf.2 hz
    rw [hbm, Option.getD_some, hbl, CeilByte_div]
    omega

theorem AdaptiveIntBuilder_expandFor_spec (a : AdaptiveIntBuilder) (values : List Int)
    (valid_bytes : Option (List Nat)) (hwf : a.WF) (hsz : isIntSize a.int_size)
    (hroom : a.base.length + values.length ≤ a.base.capacity)
    (hval : ∀ x, x ∈ values → -(2 : Int) ^ 63 ≤ x ∧ x < 2 ^ 63)
    (hvb : ∀ vb, valid_bytes = some vb → vb.length = values.length) :
    ∃ a1, a.expandFor values values.length valid_bytes = some a1 ∧ a1.WF ∧
      isIntSize a1.int_size ∧ a.int_size ≤ a1.int_size ∧ a1.base.length = a.base.length ∧
      a.base.capacity ≤ a1.base.capacity ∧
      (∀ (i : Nat) (x : Int), i < a.base.length →
        loadInt a.int_size (a.data.getD []) i = some x → fitsIn a1.int_size x →
        loadInt a1.int_size (a1.data.getD []) i = some x) ∧
      (∀ (j : Nat) (x : Int), values[j]? = some x → validAt valid_bytes j = true →
        fitsIn a1.int_size x) := by
  have hsame : ∃ a1, some a = some a1 ∧ a1.WF ∧ isIntSize a1.int_size ∧
      a.int_size ≤ a1.int_size ∧ a1.base.length = a.base.length ∧
      a.base.capacity ≤ a1.base.capacity ∧
      (∀ (i : Nat) (x : Int), i < a.base.length →
        loadInt a.int_size (a.data.getD []) i = some x → fitsIn a1.int_size x →
        loadInt a1.int_size (a1.data.getD []) i = some x) :=
    ⟨a, rfl, hwf, hsz, le_refl _, rfl, le_refl _, fun _ _ _ h _ => h⟩
  by_cases hrun : values.length > 0 ∧ a.int_size < 8
  · obtain ⟨r, hr, hrs, hge, hfits⟩ := expandedSizeLoop_spec values valid_bytes hval
      values.length 0 a.int_size hsz (by omega) (fun vb h => by rw [hvb vb h]; omega)
    have hfits' : ∀ (j : Nat) (x : Int), values[j]? = some x → validAt valid_bytes j = true →
        fitsIn r x := by
      intro j x hx hv
      exact hfits j x (Nat.zero_le _) (by
        have := getElem?_lt values j x hx
        omega) hx hv
    by_cases hne : r ≠ a.int_size
    · obtain ⟨a1, he, hwf1, hs1, hc1, hl1, hload1⟩ :=
        AdaptiveIntBuilder_ExpandIntSize_spec a r hwf (by omega) hsz hrs (by omega)
      refine ⟨a1, ?_, hwf1, by rw [hs1]; exact hrs, by rw [hs1]; exact hge, hl1, hc1, ?_, ?_⟩
      · have hne' : ¬ r = a.int_size := hne
        simp only [AdaptiveIntBuilder.expandFor, hrun, hr]
        simpa [hne'] using he
      · intro i x hi hx hf
        rw [hs1] at hf ⊢
        exact hload1 i x hi hx hf
      · intro j x hx hv
        rw [hs1]; exact hfits' j x hx hv
    · have hre : r = a.int_size := by
        by_contra h; exact hne h
      obtain ⟨a1, h1, h2, h3, h4, h5, h6, h7⟩ := hsame
      have ha : a1 = a := (Option.some.inj h1).symm
      refine ⟨a1, ?_, h2, h3, h4, h5, h6, h7, ?_⟩
      · simp only [AdaptiveIntBuilder.expandFor, hrun, hr, hre]
        simpa using h1
      · intro j x hx hv
        rw [ha, ← hre]; exact hfits' j x hx hv
  · obtain ⟨a1, h1, h2, h3, h4, h5, h6, h7⟩ := hsame
    have ha : a1 = a := (Option.some.inj h1).symm
    refine ⟨a1, ?_, h2, h3, h4, h5, h6, h7, ?_⟩
    · simp only [AdaptiveIntBuilder.expandFor, hrun]
      simpa using h1
    · intro j x hx hv
      rw [ha]
      have hj := getElem?_lt values j x hx
      have h8 : a.int_size = 8 := by
        unfold isIntSize at hsz
        have : ¬ a.int_size < 8 := fun h => hrun ⟨by omega, h⟩
        omega
      rw [h8]
      exact hval x (List.mem_iff_getElem?.mpr ⟨j, hx⟩)

theorem AdaptiveIntBuilder_storeValues_spec (a : AdaptiveIntBuilder) (values : List Int)
    (hwf : a.WF) (hsz : isIntSize a.int_size)
    (hroom : a.base.length + values.length ≤ a.base.capacity) :
    ∃ data1, a.storeValues values values.length = some data1 ∧
      (a.base.capacity ≠ 0 → ∃ d1, data1 = some d1 ∧ d1.length = a.base.capacity * a.int_size) ∧
      (∀ (i : Nat) (x : Int), i < a.base.length →
        loadInt a.int_size (a.data.getD []) i = some x →
        loadInt a.int_size (data1.getD []) i = some x) ∧
      (∀ (j : Nat) (x : Int), values[j]? = some x → fitsIn a.int_size x →
        loadInt a.int_size (data1.getD []) (a.base.length + j) = some x) := by
  have hsz1 : a.int_size = 1 ∨ a.int_size = 2 ∨ a.int_size = 4 ∨ a.int_size = 8 := hsz
  have hw := isIntSize_pos _ hsz
  have htake : values.take values.length = values := List.take_length values
  by_cases hz : a.base.capacity = 0
  · have hn : values.length = 0 := by omega
    have hnil : values = [] := List.length_eq_zero.mp hn
    refine ⟨a.data, ?_, fun h => absurd hz h, fun _ _ _ h => h, ?_⟩
    · unfold AdaptiveIntBuilder.storeValues
      rw [if_neg (by omega), if_pos hsz1, htake, hnil]
      cases a.data with
      | none => simp
      | some d => simp [storeAll]
    · intro j x hx; rw [hnil] at hx; simp at hx
  · obtain ⟨bm, d, hbm, hd, hbl, hdl⟩ := hwf.2 hz
    obtain ⟨d1, hs, hl1, ht1, hload1⟩ := storeAll_spec a.int_size hw values d a.base.length (by
      rw [hdl]; exact Nat.mul_le_mul_right _ hroom)
    refine ⟨some d1, ?_, fun _ => ⟨d1, rfl, by rw [hl1, hdl]⟩, ?_, ?_⟩
    · unfold AdaptiveIntBuilder.storeValues
      rw [if_neg (by omega), if_pos hsz1, htake, hd]
      simp only [hs]
    · intro i x hi hx
      rw [hd] at hx
      simp only [Option.getD_some] at hx ⊢
      rw [loadInt_eq_of_take a.int_size d d1 i (a.base.length * a.int_size) hl1 ht1
        (Nat.mul_le_mul_right _ (by omega))]
      exact hx
    · intro j x hx hf
      simp only [Option.getD_some]
      exact hload1 j x hx hf

/-! ## AdaptiveIntBuilder: sessions of bulk appends -/

theorem AdaptiveIntBuilder_Append_Inv (a : AdaptiveIntBuilder) (es : List (Int × Bool))
    (b : IntBatch) (hinv : a.Inv es) (hb : b.WellFormed) :
    ∃ a1, a.Append b.values b.values.length b.valid_bytes = some a1 ∧
      a1.Inv (es ++ b.entries) := by
  obtain ⟨hwf, hsz, hlen, hload⟩ := hinv
  obtain ⟨hval, hvbwf⟩ := hb
  have hvb : ∀ vb, b.valid_bytes = some vb → vb.length = b.values.length := by
    intro vb h; rw [h] at hvbwf; exact hvbwf.1
  -- Reserve
  obtain ⟨a1, hr, hwf1, hs1, hcap1, hl1, hload1⟩ :=
    AdaptiveIntBuilder_Reserve_spec a b.values.length hwf
  -- width expansion
  obtain ⟨a2, he, hwf2, hsz2, hge2, hl2, hcap2, hload2, hfit2⟩ :=
    AdaptiveIntBuilder_expandFor_spec a1 b.values b.valid_bytes hwf1 (by rw [hs1]; exact hsz)
      (by omega) hval hvb
  -- stores
  obtain ⟨data3, hst, hd3, hload3, hnew3⟩ :=
    AdaptiveIntBuilder_storeValues_spec a2 b.values hwf2 hsz2 (by omega)
  -- validity
  obtain ⟨b4, hbulk, hl4, hc4, hsome4, hbl4⟩ :=
    UnsafeAppendToBitmapBulk_some a2.base b.valid_bytes b.values.length (by omega)
      (WF_adaptive_room a2 hwf2) (by
        cases hv : b.valid_bytes with
        | none => trivial
        | some vb => rw [hv] at hvbwf; exact hvbwf)
  refine ⟨{ a2 with base := b4, data := data3 }, ?_, ?_, hsz2, ?_, ?_⟩
  · simp only [AdaptiveIntBuilder.Append, hr, he, hst, hbulk]
  · refine ⟨by show b4.length ≤ b4.capacity; omega, fun hc => ?_⟩
    have hc2 : a2.base.capacity ≠ 0 := by rw [← hc4]; exact hc
    obtain ⟨bm, d, hbm, _, hbl, _⟩ := hwf2.2 hc2
    obtain ⟨d1, hd1, hdl1⟩ := hd3 hc2
    rw [hbm] at hsome4 hbl4
    cases hb4 : b4.null_bitmap with
    | none => rw [hb4] at hsome4; simp at hsome4
    | some bm4 =>
      rw [hb4] at hbl4
      simp only [Option.getD_some] at hbl4
      exact ⟨bm4, d1, rfl, hd1, by rw [hbl4, hbl, hc4], by rw [hdl1, hc4]⟩
  · show b4.length = (es ++ b.entries).length
    rw [hl4, hl2, hl1, hlen, List.length_append]
    unfold IntBatch.entries
    rw [entriesFrom_length]
  · intro p x hp
    show loadInt a2.int_size (data3.getD []) p = some x ∧ fitsIn a2.int_size x
    rw [List.getElem?_append] at hp
    by_cases hpl : p < es.length
    · rw [if_pos hpl] at hp
      obtain ⟨hx, hf⟩ := hload p x hp
      have hf2 : fitsIn a2.int_size x := fitsIn_mono _ _ x (by rw [← hs1]; exact hge2) hf
      refine ⟨?_, hf2⟩
      apply hload3 p x (by omega)
      apply hload2 p x (by omega) _ hf2
      rw [hs1, hload1 p (by omega)]
      exact hx
    · rw [if_neg hpl] at hp
      obtain ⟨hx, hv⟩ := entries_get b _ x hp
      have hf2 := hfit2 _ x hx hv
      refine ⟨?_, hf2⟩
      have := hnew3 _ x hx hf2
      have e : a2.base.length + (p - es.length) = p := by omega
      rwa [e] at this

theorem AdaptiveIntBuilder_run_Inv : ∀ (batches : List IntBatch) (a : AdaptiveIntBuilder)
    (es : List (Int × Bool)), a.Inv es → (∀ b, b ∈ batches → b.WellFormed) →
    ∃ a1, AdaptiveIntBuilder.run a batches = some a1 ∧ a1.Inv (es ++ sessionEntries batches) := by
  intro batches
  induction batches with
  | nil =>
    intro a es hinv _
    exact ⟨a, rfl, by simpa [sessionEntries] using hinv⟩
  | cons b bs ih =>
    intro a es hinv hwf
    obtain ⟨a1, happ, hinv1⟩ :=
      AdaptiveIntBuilder_Append_Inv a es b hinv (hwf b (List.mem_cons_self _ _))
    obtain ⟨a2, hrun, hinv2⟩ := ih a1 (es ++ b.entries) hinv1
      (fun b1 h => hwf b1 (List.mem_cons_of_mem _ h))
    refine ⟨a2, by simp only [AdaptiveIntBuilder.run, happ, hrun], ?_⟩
    simpa [sessionEntries, List.append_assoc] using hinv2

theorem AdaptiveIntBuilder_Inv_fresh : AdaptiveIntBuilder.fresh.Inv [] := by
  refine ⟨⟨le_refl _, fun h => absurd rfl h⟩, Or.inl rfl, rfl, fun p x h => ?_⟩
  simp at h

/-- C2: for every session of well-formed batches (every value an `int64_t`, a
validity array of one byte per value and only on a non-empty batch) appended
with `AdaptiveIntBuilder::Append` to a fresh builder, the session runs to a
builder whose width is one of 1, 2, 4, 8, whose length is the number of
appended entries, and in which every position whose entry was appended as
valid reads back, at the final width with sign extension, exactly the value
appended there. -/
theorem AdaptiveIntBuilder_run_spec (batches : List IntBatch)
    (hwf : ∀ b, b ∈ batches → b.WellFormed) :
    ∃ a, AdaptiveIntBuilder.run AdaptiveIntBuilder.fresh batches = some a ∧
      isIntSize a.int_size ∧ a.base.length = (sessionEntries batches).length ∧
      ∀ (p : Nat) (x : Int), (sessionEntries batches)[p]? = some (x, true) →
        loadInt a.int_size (a.data.getD []) p = some x := by
  obtain ⟨a, hrun, hinv⟩ :=
    AdaptiveIntBuilder_run_Inv batches AdaptiveIntBuilder.fresh [] AdaptiveIntBuilder_Inv_fresh hwf
  rw [List.nil_append] at hinv
  obtain ⟨_, hsz, hlen, hload⟩ := hinv
  exact ⟨a, hrun, hsz, hlen, fun p x h => (hload p x h).1⟩

/-- The session of the spec's example: 1, 1000, 70000, 5000000000, one value
per batch, no validity array. -/
theorem sampleSession_wellFormed :
    ∀ b, b ∈ [IntBatch.mk [1] none, IntBatch.mk [1000] none, IntBatch.mk [70000] none,
      IntBatch.mk [5000000000] none] → b.WellFormed := by
  decide

/-- Witness for C2: appending 1, 1000, 70000, 5000000000 in order ends at width
8 and all four values are read back. -/
theorem AdaptiveIntBuilder_run_spec_witness :
    (∀ b, b ∈ [IntBatch.mk [1] none, IntBatch.mk [1000] none, IntBatch.mk [70000] none,
      IntBatch.mk [5000000000] none] → b.WellFormed) ∧
    (∃ a, AdaptiveIntBuilder.run AdaptiveIntBuilder.fresh
        [IntBatch.mk [1] none, IntBatch.mk [1000] none, IntBatch.mk [70000] none,
          IntBatch.mk [5000000000] none] = some a ∧
      isIntSize a.int_size ∧
      a.base.length = (sessionEntries [IntBatch.mk [1] none, IntBatch.mk [1000] none,
        IntBatch.mk [70000] none, IntBatch.mk [5000000000] none]).length ∧
      ∀ (p : Nat) (x : Int), (sessionEntries [IntBatch.mk [1] none, IntBatch.mk [1000] none,
          IntBatch.mk [70000] none, IntBatch.mk [5000000000] none])[p]? = some (x, true) →
        loadInt a.int_size (a.data.getD []) p = some x) ∧
    (AdaptiveIntBuilder.run AdaptiveIntBuilder.fresh
        [IntBatch.mk [1] none, IntBatch.mk [1000] none, IntBatch.mk [70000] none,
          IntBatch.mk [5000000000] none]).map
      (fun a => (a.int_size, (List.range 4).map (fun i => loadInt a.int_size (a.data.getD []) i))) =
      some (8, [some 1, some 1000, some 70000, some 5000000000]) :=
  ⟨sampleSession_wellFormed,
    AdaptiveIntBuilder_run_spec _ sampleSession_wellFormed,
    by set_option maxRecDepth 100000 in decide⟩

/-! ## Counters of the base builder's operations -/

theorem ArrayBuilder_Resize_some (b : ArrayBuilder) (c : Nat) :
    ∃ bm1, b.Resize c = some { b with null_bitmap := some bm1, capacity := c } ∧
      bm1.length = CeilByte c / 8 := by
  unfold ArrayBuilder.Resize
  cases hbm : b.null_bitmap with
  | none =>
    simp only []
    exact ⟨_, ArrayBuilder_Init_eq b c, by simp⟩
  | some bm =>
    simp only [ArrayBuilder.ResizeBitmap]
    split
    · rename_i hlt
      obtain ⟨r, hr, hrl⟩ := memset_some (PoolBuffer.Resize bm (CeilByte c / 8)) bm.length 0
        ((PoolBuffer.Resize bm (CeilByte c / 8)).length - bm.length)
        (by rw [PoolBuffer_length_Resize] at *; omega)
      rw [hr]
      exact ⟨r, rfl, by rw [hrl, PoolBuffer_length_Resize]⟩
    · exact ⟨_, rfl, PoolBuffer_length_Resize _ _⟩

theorem ArrayBuilder_Reserve_counters (b b1 : ArrayBuilder) (n : Nat) (h : b.Reserve n = some b1) :
    b1.length = b.length ∧ b1.null_count = b.null_count ∧ b.length + n ≤ b1.capacity ∧
      b.capacity ≤ b1.capacity := by
  unfold ArrayBuilder.Reserve at h
  split at h
  · obtain ⟨bm1, hr, _⟩ := ArrayBuilder_Resize_some b (NextPower2 (b.length + n))
    rw [hr] at h
    cases h
    have := NextPower2_ge (b.length + n)
    exact ⟨rfl, rfl, this, by simp only []; omega⟩
  · cases h
    exact ⟨rfl, rfl, by omega, le_refl _⟩

theorem UnsafeAppendToBitmap_counters (b b1 : ArrayBuilder) (v : Bool)
    (h : b.UnsafeAppendToBitmap v = some b1) :
    b1.length = b.length + 1 ∧ b1.capacity = b.capacity ∧
      b1.null_count = b.null_count + (if v then 0 else 1) := by
  unfold ArrayBuilder.UnsafeAppendToBitmap at h
  cases v with
  | true =>
    simp only [if_true] at h
    split at h
    · split at h
      · cases h; exact ⟨rfl, rfl, rfl⟩
      · cases h
    · cases h
  | false =>
    simp only [Bool.false_eq_true, if_false] at h
    cases h; exact ⟨rfl, rfl, rfl⟩

theorem flush_null_count (c c1 : BitmapCursor) (h : c.flush = some c1) :
    c1.null_count = c.null_count := by
  unfold BitmapCursor.flush at h
  split at h
  · split at h
    · simp only [] at h
      split at h
      · cases h; rfl
      · cases h
    · cases h
  · cases h; rfl

theorem put_null_count (c : BitmapCursor) (v : Nat) :
    (c.put v).null_count = c.null_count + (if v = 0 then 1 else 0) := by
  unfold BitmapCursor.put
  by_cases hv : v = 0 <;> simp [hv]

theorem appendBitsLoop_null_count (vb : List Nat) : ∀ (n i : Nat) (c c1 : BitmapCursor),
    appendBitsLoop vb n i c = some c1 →
    c1.null_count = c.null_count + ((vb.drop i).take n).count 0 := by
  intro n
  induction n with
  | zero => intro i c c1 h; simp only [appendBitsLoop] at h; cases h; simp
  | succ n ih =>
    intro i c c1 h
    simp only [appendBitsLoop] at h
    split at h
    · cases h
    · rename_i c2 hf
      split at h
      · cases h
      · rename_i v hv
        have := ih (i + 1) (c2.put v) c1 h
        rw [this, put_null_count, flush_null_count c c2 hf, count_drop_take_succ vb i n v hv]
        omega

theorem UnsafeSetNotNull_counters (b b1 : ArrayBuilder) (n : Nat)
    (h : b.UnsafeSetNotNull n = some b1) :
    b1.length = b.length + n ∧ b1.capacity = b.capacity ∧ b1.null_count = b.null_count := by
  unfold ArrayBuilder.UnsafeSetNotNull at h
  simp only [] at h
  split at h
  · cases h
  · split at h
    · cases h
    · split at h
      · cases h
      · cases h; exact ⟨Nat.add_comm _ _, rfl, rfl⟩

theorem UnsafeAppendToBitmapBulk_counters (b b1 : ArrayBuilder) (vb : Option (List Nat)) (n : Nat)
    (h : b.UnsafeAppendToBitmapBulk vb n = some b1) :
    b1.length = b.length + n ∧ b1.capacity = b.capacity ∧
      b1.null_count = b.null_count + zeroEntries vb n := by
  unfold ArrayBuilder.UnsafeAppendToBitmapBulk at h
  cases vb with
  | none =>
    simp only [] at h
    obtain ⟨h1, h2, h3⟩ := UnsafeSetNotNull_counters b b1 n h
    exact ⟨h1, h2, by simp [h3, zeroEntries]⟩
  | some v =>
    simp only [] at h
    split at h
    · cases h
    · split at h
      · cases h
      · split at h
        · cases h
        · rename_i c hc
          have hn := appendBitsLoop_null_count v n 0 _ c hc
          simp only [List.drop_zero] at hn
          split at h
          · split at h
            · cases h; exact ⟨rfl, rfl, hn⟩
            · cases h
          · cases h; exact ⟨rfl, rfl, hn⟩

theorem zeroEntries_le (vb : Option (List Nat)) (n : Nat) : zeroEntries vb n ≤ n := by
  unfold zeroEntries
  cases vb with
  | none => exact Nat.zero_le _
  | some v =>
    simp only []
    exact le_trans (List.count_le_length _ _) (by rw [List.length_take]; exact Nat.min_le_left _ _)

/-! ## Advance, adaptive Finish and the null count -/

/-- C17: `ArrayBuilder::Advance(k)` returns `Status::Invalid` exactly when
`length + k > capacity`; in that case the builder is left as it was, and
otherwise the status is OK, `length` has grown by exactly `k`, and the bitmap,
`null_count` and `capacity` are the ones before the call. -/
theorem ArrayBuilder_Advance_spec (b : ArrayBuilder) (k : Nat) :
    ((b.Advance k).1 = Status.Invalid ↔ b.length + k > b.capacity) ∧
    (if b.length + k > b.capacity then b.Advance k = (Status.Invalid, b)
     else b.Advance k =
       (Status.OK, { null_bitmap := b.null_bitmap, null_count := b.null_count,
                     length := b.length + k, capacity := b.capacity })) := by
  unfold ArrayBuilder.Advance
  split <;> simp_all

/-- C11: `AdaptiveIntBuilder::Finish` leaves `int_size_` as it was. After a cycle
that ended at width 8 (the value 5000000000), appending the single value 1 and
finishing again gives an 8-byte array holding `[1, 0, 0, 0, 0, 0, 0, 0]`, while
the same append on a freshly constructed builder gives a 1-byte array holding
`[1]`. -/
theorem AdaptiveIntBuilder_Finish_keeps_int_size :
    ((AdaptiveIntBuilder.fresh.cycle [5000000000]).bind (fun r => r.2.cycle [1])).map
        (fun r => (r.1.width, r.1.data)) = some (8, some [1, 0, 0, 0, 0, 0, 0, 0]) ∧
    (AdaptiveIntBuilder.fresh.cycle [1]).map (fun r => (r.1.width, r.1.data)) =
      some (1, some [1]) ∧
    (AdaptiveIntBuilder.fresh.cycle [5000000000]).map (fun r => r.2) =
      some { base := ArrayBuilder.fresh, data := none, int_size := 8 } ∧
    AdaptiveIntBuilder.fresh.int_size = 1 := by
  set_option maxRecDepth 100000 in decide

/-- C14: `null_count` drifts from the number of clear bits. After
`AppendToBitmap(false)` and `SetNotNull(1)` on an empty builder the bitmap is
`[127]` with `length = 2`: no bit of `[0, 2)` is clear, yet `null_count = 1`.
After `SetNotNull(9)` and `SetNotNull(1)` the bitmap is `[255, 1]` with
`length = 10`: bit 9 is clear, yet `null_count = 0`. -/
theorem SetNotNull_null_count_drift :
    ArrayBuilder.fresh.runOps [BuilderOp.AppendToBitmap false, BuilderOp.SetNotNull 1] =
      some ⟨some [127], 1, 2, 2⟩ ∧
    countClear [127] 2 = 0 ∧
    ArrayBuilder.fresh.runOps [BuilderOp.SetNotNull 9, BuilderOp.SetNotNull 1] =
      some ⟨some [255, 1], 0, 10, 16⟩ ∧
    countClear [255, 1] 10 = 1 := by
  set_option maxRecDepth 100000 in decide

/-! ## The counter invariant of the base builder -/

theorem ArrayBuilder_apply_counters (b b1 : ArrayBuilder) (op : BuilderOp)
    (hinv : b.null_count ≤ b.length ∧ b.length ≤ b.capacity)
    (hcov : op.coversLength b = true) (h : b.apply op = some b1) :
    b1.null_count ≤ b1.length ∧ b1.length ≤ b1.capacity := by
  obtain ⟨hn, hl⟩ := hinv
  cases op with
  | Init c =>
    simp only [ArrayBuilder.apply, ArrayBuilder_Init_eq] at h
    simp only [BuilderOp.coversLength, decide_eq_true_eq] at hcov
    cases h; exact ⟨hn, hcov⟩
  | Resize c =>
    simp only [ArrayBuilder.apply] at h
    simp only [BuilderOp.coversLength, decide_eq_true_eq] at hcov
    obtain ⟨bm1, hr, _⟩ := ArrayBuilder_Resize_some b c
    rw [hr] at h
    cases h; exact ⟨hn, hcov⟩
  | Reserve n =>
    simp only [ArrayBuilder.apply] at h
    obtain ⟨h1, h2, h3, _⟩ := ArrayBuilder_Reserve_counters b b1 n h
    omega
  | Advance k =>
    simp only [ArrayBuilder.apply, ArrayBuilder.Advance] at h
    split at h
    · cases h; exact ⟨hn, hl⟩
    · cases h; simp only []; omega
  | AppendToBitmap v =>
    simp only [ArrayBuilder.apply, ArrayBuilder.AppendToBitmap] at h
    split at h
    · cases h
    · rename_i b2 hg
      obtain ⟨h1, h2, h3⟩ := UnsafeAppendToBitmap_counters b2 b1 v h
      split at hg
      · rename_i heq
        obtain ⟨bm1, hr, _⟩ := ArrayBuilder_Resize_some b (NextPower2 (b.capacity + 1))
        rw [hr] at hg
        cases hg
        have := NextPower2_ge (b.capacity + 1)
        simp only [] at h1 h2 h3
        split at h3 <;> omega
      · cases hg
        split at h3 <;> omega
  | AppendToBitmapBulk vb n =>
    simp only [ArrayBuilder.apply, ArrayBuilder.AppendToBitmapBulk] at h
    split at h
    · cases h
    · rename_i b2 hr
      obtain ⟨h1, h2, h3, _⟩ := ArrayBuilder_Reserve_counters b b2 n hr
      obtain ⟨h4, h5, h6⟩ := UnsafeAppendToBitmapBulk_counters b2 b1 vb n h
      have hc := zeroEntries_le vb n
      omega
  | SetNotNull n =>
    simp only [ArrayBuilder.apply, ArrayBuilder.SetNotNull] at h
    split at h
    · cases h
    · rename_i b2 hr
      obtain ⟨h1, h2, h3, _⟩ := ArrayBuilder_Reserve_counters b b2 n hr
      obtain ⟨h4, h5, h6⟩ := UnsafeSetNotNull_counters b2 b1 n h
      omega

theorem ArrayBuilder_runOps_inv : ∀ (ops : List BuilderOp) (b b1 : ArrayBuilder),
    (b.null_count ≤ b.length ∧ b.length ≤ b.capacity) →
    b.coveredOps ops = true → b.runOps ops = some b1 →
    b1.null_count ≤ b1.length ∧ b1.length ≤ b1.capacity := by
  intro ops
  induction ops with
  | nil => intro b b1 hinv _ h; simp only [ArrayBuilder.runOps] at h; cases h; exact hinv
  | cons op ops ih =>
    intro b b1 hinv hcov h
    simp only [ArrayBuilder.runOps] at h
    simp only [ArrayBuilder.coveredOps, Bool.and_eq_true] at hcov
    split at h
    · rename_i b2 hb2
      rw [hb2] at hcov
      exact ih b2 b1 (ArrayBuilder_apply_counters b b2 op hinv hcov.1 hb2) hcov.2 h
    · cases h

/-- C15 (the code where the invariant breaks): two `AppendToBitmap(true)` calls
on an empty builder and then `Resize(1)` leave `length = 2` above
`capacity = 1`; so does `Init(0)` after one append. -/
theorem ArrayBuilder_Resize_below_length :
    ArrayBuilder.fresh.runOps
        [BuilderOp.AppendToBitmap true, BuilderOp.AppendToBitmap true, BuilderOp.Resize 1] =
      some ⟨some [3], 0, 2, 1⟩ ∧
    (⟨some [3], 0, 2, 1⟩ : ArrayBuilder).capacity < (⟨some [3], 0, 2, 1⟩ : ArrayBuilder).length ∧
    ArrayBuilder.fresh.runOps [BuilderOp.AppendToBitmap true, BuilderOp.Init 0] =
      some ⟨some [], 0, 1, 0⟩ := by
  set_option maxRecDepth 100000 in decide

/-- C15 (the invariant as the code keeps it): in every state reached from an
empty builder by a sequence of `Init`, `Resize`, `Reserve`, `Advance`,
`AppendToBitmap` (single and bulk) and `SetNotNull` calls in which every `Init`
and `Resize` is given a capacity at or above the length at the time of the
call, `null_count ≤ length ≤ capacity`. -/
theorem ArrayBuilder_runOps_counters (ops : List BuilderOp) (b : ArrayBuilder)
    (hrun : ArrayBuilder.fresh.runOps ops = some b)
    (hcov : ArrayBuilder.fresh.coveredOps ops = true) :
    b.null_count ≤ b.length ∧ b.length ≤ b.capacity :=
  ArrayBuilder_runOps_inv ops ArrayBuilder.fresh b ⟨le_refl _, le_refl _⟩ hcov hrun

/-- Witness for C15: a session that uses every operation, with a refused
`Advance` and a shrinking `Resize` that still covers the length. -/
theorem ArrayBuilder_runOps_counters_witness :
    (ArrayBuilder.fresh.runOps
        [BuilderOp.Init 4, BuilderOp.AppendToBitmap false, BuilderOp.Reserve 20,
          BuilderOp.Advance 40, BuilderOp.Advance 2,
          BuilderOp.AppendToBitmapBulk (some [1, 0, 1]) 3, BuilderOp.SetNotNull 2,
          BuilderOp.AppendToBitmapBulk none 4, BuilderOp.Resize 12] =
        some ⟨some [43, 15], 2, 12, 12⟩ ∧
      ArrayBuilder.fresh.coveredOps
        [BuilderOp.Init 4, BuilderOp.AppendToBitmap false, BuilderOp.Reserve 20,
          BuilderOp.Advance 40, BuilderOp.Advance 2,
          BuilderOp.AppendToBitmapBulk (some [1, 0, 1]) 3, BuilderOp.SetNotNull 2,
          BuilderOp.AppendToBitmapBulk none 4, BuilderOp.Resize 12] = true) ∧
    (⟨some [43, 15], 2, 12, 12⟩ : ArrayBuilder).null_count ≤
      (⟨some [43, 15], 2, 12, 12⟩ : ArrayBuilder).length ∧
    (⟨some [43, 15], 2, 12, 12⟩ : ArrayBuilder).length ≤
      (⟨some [43, 15], 2, 12, 12⟩ : ArrayBuilder).capacity :=
  ⟨by set_option maxRecDepth 100000 in decide,
    ArrayBuilder_runOps_counters
      [BuilderOp.Init 4, BuilderOp.AppendToBitmap false, BuilderOp.Reserve 20,
        BuilderOp.Advance 40, BuilderOp.Advance 2,
        BuilderOp.AppendToBitmapBulk (some [1, 0, 1]) 3, BuilderOp.SetNotNull 2,
        BuilderOp.AppendToBitmapBulk none 4, BuilderOp.Resize 12]
      ⟨some [43, 15], 2, 12, 12⟩ (by set_option maxRecDepth 100000 in decide)
      (by set_option maxRecDepth 100000 in decide)⟩

/-! ## Growth to a power of two -/

theorem nextPower2From_pow : ∀ (fuel a n : Nat), n ≤ 2 ^ a * 2 ^ fuel →
    (a = 0 ∨ 2 ^ (a - 1) < n) →
    ∃ k, nextPower2From fuel (2 ^ a) n = 2 ^ k ∧ n ≤ 2 ^ k ∧ (k = 0 ∨ 2 ^ (k - 1) < n) := by
  intro fuel
  induction fuel with
  | zero =>
    intro a n h ha
    exact ⟨a, rfl, by simpa using h, ha⟩
  | succ fuel ih =>
    intro a n h ha
    simp only [nextPower2From]
    by_cases hle : n ≤ 2 ^ a
    · rw [if_pos hle]; exact ⟨a, rfl, hle, ha⟩
    · rw [if_neg hle]
      have e : 2 * 2 ^ a = 2 ^ (a + 1) := by rw [pow_succ]; ring
      rw [e]
      apply ih (a + 1) n
      · rw [pow_succ] at h; rw [pow_succ]; nlinarith [h]
      · right; simp only [Nat.add_sub_cancel]; omega

theorem NextPower2_least (n : Nat) :
    ∃ k, NextPower2 n = 2 ^ k ∧ n ≤ 2 ^ k ∧ ∀ j, n ≤ 2 ^ j → 2 ^ k ≤ 2 ^ j := by
  have h := nextPower2From_pow n 0 n (by simpa using (Nat.lt_two_pow n).le) (Or.inl rfl)
  simp only [pow_zero] at h
  obtain ⟨k, hk, hge, hmin⟩ := h
  refine ⟨k, hk, hge, fun j hj => ?_⟩
  apply Nat.pow_le_pow_right (by decide)
  rcases hmin with h0 | hlt
  · omega
  · have : 2 ^ (k - 1) < 2 ^ j := lt_of_lt_of_le hlt hj
    have := (Nat.pow_lt_pow_iff_right (by decide : 1 < 2)).mp this
    omega

theorem ArrayBuilder_ResizeBitmap_some (b : ArrayBuilder) (bm : List Nat) (c : Nat) :
    ∃ bm1, b.ResizeBitmap bm c = some { b with null_bitmap := some bm1, capacity := c } ∧
      bm1.length = CeilByte c / 8 := by
  simp only [ArrayBuilder.ResizeBitmap]
  split
  · rename_i hlt
    obtain ⟨r, hr, hrl⟩ := memset_some (PoolBuffer.Resize bm (CeilByte c / 8)) bm.length 0
      ((PoolBuffer.Resize bm (CeilByte c / 8)).length - bm.length)
      (by rw [PoolBuffer_length_Resize] at *; omega)
    rw [hr]
    exact ⟨r, rfl, by rw [hrl, PoolBuffer_length_Resize]⟩
  · exact ⟨_, rfl, PoolBuffer_length_Resize _ _⟩

theorem ListBuilder_Resize_some (l : ListBuilder) (c : Nat) :
    ∃ l1, l.Resize c = some l1 ∧ l1.base.capacity = c ∧ l1.base.length = l.base.length ∧
      l1.base.null_count = l.base.null_count := by
  simp only [ListBuilder.Resize, ListBuilder.ArrayBuilder_Resize]
  cases hbm : l.base.null_bitmap with
  | none =>
    simp only [ListBuilder.Init, ArrayBuilder_Init_eq]
    exact ⟨_, rfl, rfl, rfl, rfl⟩
  | some bm =>
    obtain ⟨bm1, hr, _⟩ := ArrayBuilder_ResizeBitmap_some l.base bm c
    simp only [hr]
    exact ⟨_, rfl, rfl, rfl, rfl⟩

theorem FixedSizeBinaryBuilder_Resize_some (f : FixedSizeBinaryBuilder) (c : Nat) :
    ∃ f1, f.Resize c = some f1 ∧ f1.base.capacity = c ∧ f1.base.length = f.base.length ∧
      f1.base.null_count = f.base.null_count ∧ f1.byte_width = f.byte_width ∧
      f1.base.null_bitmap.isSome = true := by
  simp only [FixedSizeBinaryBuilder.Resize, FixedSizeBinaryBuilder.ArrayBuilder_Resize]
  cases hbm : f.base.null_bitmap with
  | none =>
    simp only [FixedSizeBinaryBuilder.Init, ArrayBuilder_Init_eq]
    exact ⟨_, rfl, rfl, rfl, rfl, rfl, rfl⟩
  | some bm =>
    obtain ⟨bm1, hr, _⟩ := ArrayBuilder_ResizeBitmap_some f.base bm c
    simp only [hr]
    exact ⟨_, rfl, rfl, rfl, rfl, rfl, rfl⟩

theorem ArrayBuilder_AppendToBitmap_some (b : ArrayBuilder) (v : Bool) (hwf : b.WF) :
    ∃ b1, b.AppendToBitmap v = some b1 ∧ b1.length = b.length + 1 ∧
      b1.null_count = b.null_count + (if v then 0 else 1) ∧
      b1.capacity = (if b.length = b.capacity then NextPower2 (b.capacity + 1) else b.capacity) := by
  obtain ⟨hle, hbm⟩ := hwf
  have key : ∀ (b2 : ArrayBuilder) (bm : List Nat), b2.null_bitmap = some bm →
      bm.length = CeilByte b2.capacity / 8 → b2.length < b2.capacity →
      ∃ b1, b2.UnsafeAppendToBitmap v = some b1 ∧ b1.length = b2.length + 1 ∧
        b1.null_count = b2.null_count + (if v then 0 else 1) ∧ b1.capacity = b2.capacity := by
    intro b2 bm h2 hlen hlt
    cases v with
    | false =>
      have e : b2.UnsafeAppendToBitmap false =
          some { b2 with null_count := b2.null_count + 1, length := b2.length + 1 } := by
        simp [ArrayBuilder.UnsafeAppendToBitmap]
      exact ⟨_, e, rfl, by simp, rfl⟩
    | true =>
      have hroom : b2.length < 8 * bm.length := by
        rw [hlen, CeilByte_div]; omega
      obtain ⟨bm1, hs, _⟩ := SetBit_some bm b2.length hroom
      have e : b2.UnsafeAppendToBitmap true =
          some { b2 with null_bitmap := some bm1, length := b2.length + 1 } := by
        simp [ArrayBuilder.UnsafeAppendToBitmap, h2, hs]
      exact ⟨_, e, rfl, by simp, rfl⟩
  simp only [ArrayBuilder.AppendToBitmap]
  by_cases heq : b.length = b.capacity
  · simp only [if_pos heq]
    have hge := NextPower2_ge (b.capacity + 1)
    generalize NextPower2 (b.capacity + 1) = c0 at hge ⊢
    obtain ⟨bm1, hr, hl1⟩ := ArrayBuilder_Resize_some b c0
    rw [hr]
    have hlt : b.length < c0 := by omega
    obtain ⟨b1, h1, h2, h3, h4⟩ :=
      key { b with null_bitmap := some bm1, capacity := c0 } bm1 rfl hl1 hlt
    exact ⟨b1, h1, h2, h3, h4⟩
  · simp only [if_neg heq]
    cases hb : b.null_bitmap with
    | none => rw [hb] at hbm; simp only [] at hbm; omega
    | some bm =>
      rw [hb] at hbm
      obtain ⟨b1, h1, h2, h3, h4⟩ := key b bm hb hbm (by omega)
      exact ⟨b1, h1, h2, h3, h4⟩

theorem DecimalBuilder_Init_some (d : DecimalBuilder) (c : Nat) :
    ∃ d1, d.Init c = some d1 ∧ d1.fsb.base.capacity = c ∧
      d1.fsb.base.length = d.fsb.base.length ∧ d1.fsb.base.null_count = d.fsb.base.null_count ∧
      d1.fsb.byte_width = d.fsb.byte_width ∧ d1.fsb.base.null_bitmap.isSome = true := by
  simp only [DecimalBuilder.Init, FixedSizeBinaryBuilder.Init, ArrayBuilder_Init_eq]
  by_cases h16 : d.fsb.byte_width = 16
  · simp only [h16, if_true]
    obtain ⟨r, hr, _⟩ := memset_some
      (PoolBuffer.Resize [] (List.replicate (CeilByte c / 8) 0).length) 0 0
      (PoolBuffer.Resize [] (List.replicate (CeilByte c / 8) 0).length).length (by omega)
    rw [hr]
    exact ⟨_, rfl, rfl, rfl, rfl, rfl, rfl⟩
  · simp only [h16, if_false]
    exact ⟨_, rfl, rfl, rfl, rfl, rfl, rfl⟩

theorem DecimalBuilder_Resize_some (d : DecimalBuilder) (c : Nat) :
    ∃ d1, d.Resize c = some d1 ∧ d1.fsb.base.capacity = c ∧
      d1.fsb.base.length = d.fsb.base.length ∧ d1.fsb.base.null_count = d.fsb.base.null_count := by
  simp only [DecimalBuilder.Resize]
  cases hsb : d.sign_bitmap with
  | none =>
    obtain ⟨d1, h1, h2, h3, h4, _⟩ := DecimalBuilder_Init_some d c
    exact ⟨d1, h1, h2, h3, h4⟩
  | some sb =>
    simp only []
    have hres : ∃ d1, d.FixedSizeBinaryBuilder_Resize c = some d1 ∧ d1.fsb.base.capacity = c ∧
        d1.fsb.base.length = d.fsb.base.length ∧
        d1.fsb.base.null_count = d.fsb.base.null_count ∧
        d1.fsb.base.null_bitmap.isSome = true := by
      simp only [DecimalBuilder.FixedSizeBinaryBuilder_Resize, DecimalBuilder.ArrayBuilder_Resize]
      cases hbm : d.fsb.base.null_bitmap with
      | none =>
        simp only []
        obtain ⟨d1, h1, h2, h3, h4, _, h6⟩ := DecimalBuilder_Init_some
          { d with fsb := { d.fsb with
              byte_builder := d.fsb.byte_builder.Resize (c * d.fsb.byte_width) } } c
        exact ⟨d1, h1, h2, h3, h4, h6⟩
      | some bm =>
        simp only []
        obtain ⟨bm1, hr, _⟩ := ArrayBuilder_ResizeBitmap_some d.fsb.base bm c
        rw [hr]
        exact ⟨_, rfl, rfl, rfl, rfl, rfl⟩
    obtain ⟨d1, h1, h2, h3, h4, h5⟩ := hres
    rw [h1]
    simp only []
    by_cases h16 : d1.fsb.byte_width = 16
    · simp only [h16, if_true]
      cases hbm1 : d1.fsb.base.null_bitmap with
      | none => rw [hbm1] at h5; cases h5
      | some bm1 =>
        simp only []
        split
        · rename_i hlt
          simp only [memset]
          rw [if_pos (by omega)]
          exact ⟨_, rfl, h2, h3, h4⟩
        · exact ⟨_, rfl, h2, h3, h4⟩
    · simp only [h16, if_false]
      exact ⟨d1, rfl, h2, h3, h4⟩

/-! ## Reserve and the power-of-two capacities -/

/-- C18: on the base builder, and on the list, fixed-size binary and decimal
builders (whose `Resize` sets no floor), `Reserve(n)` returns the builder as it is when
`length + n ≤ capacity`, and otherwise succeeds with a capacity that is a power
of two, at least `length + n`, and the least such power (length and null count
are kept). `AppendToBitmap(is_valid)` on a well-formed base builder succeeds; it
keeps the capacity when `length < capacity` and otherwise grows it to the least
power of two at or above `capacity + 1`. -/
theorem Reserve_capacity_power_of_two (b : ArrayBuilder) (l : ListBuilder)
    (f : FixedSizeBinaryBuilder) (d : DecimalBuilder) (n : Nat) (v : Bool) :
    (if b.length + n ≤ b.capacity then b.Reserve n = some b
     else ∃ b1 k, b.Reserve n = some b1 ∧ b1.capacity = 2 ^ k ∧ b.length + n ≤ 2 ^ k ∧
       (∀ j, b.length + n ≤ 2 ^ j → 2 ^ k ≤ 2 ^ j) ∧
       b1.length = b.length ∧ b1.null_count = b.null_count) ∧
    (if l.base.length + n ≤ l.base.capacity then l.Reserve n = some l
     else ∃ l1 k, l.Reserve n = some l1 ∧ l1.base.capacity = 2 ^ k ∧
       l.base.length + n ≤ 2 ^ k ∧ (∀ j, l.base.length + n ≤ 2 ^ j → 2 ^ k ≤ 2 ^ j) ∧
       l1.base.length = l.base.length ∧ l1.base.null_count = l.base.null_count) ∧
    (if f.base.length + n ≤ f.base.capacity then f.Reserve n = some f
     else ∃ f1 k, f.Reserve n = some f1 ∧ f1.base.capacity = 2 ^ k ∧
       f.base.length + n ≤ 2 ^ k ∧ (∀ j, f.base.length + n ≤ 2 ^ j → 2 ^ k ≤ 2 ^ j) ∧
       f1.base.length = f.base.length ∧ f1.base.null_count = f.base.null_count) ∧
    (if d.fsb.base.length + n ≤ d.fsb.base.capacity then d.Reserve n = some d
     else ∃ d1 k, d.Reserve n = some d1 ∧ d1.fsb.base.capacity = 2 ^ k ∧
       d.fsb.base.length + n ≤ 2 ^ k ∧ (∀ j, d.fsb.base.length + n ≤ 2 ^ j → 2 ^ k ≤ 2 ^ j) ∧
       d1.fsb.base.length = d.fsb.base.length ∧
       d1.fsb.base.null_count = d.fsb.base.null_count) ∧
    (b.WF → ∃ b1, b.AppendToBitmap v = some b1 ∧
      if b.length = b.capacity then
        ∃ k, b1.capacity = 2 ^ k ∧ b.capacity + 1 ≤ 2 ^ k ∧
          ∀ j, b.capacity + 1 ≤ 2 ^ j → 2 ^ k ≤ 2 ^ j
      else b1.capacity = b.capacity) := by
  refine ⟨?_, ?_, ?_, ?_, ?_⟩
  · by_cases h : b.length + n ≤ b.capacity
    · rw [if_pos h]
      simp only [ArrayBuilder.Reserve]
      rw [if_neg (by omega)]
    · rw [if_neg h]
      obtain ⟨k, hk, hge, hmin⟩ := NextPower2_least (b.length + n)
      simp only [ArrayBuilder.Reserve]
      rw [if_pos (by omega), hk]
      obtain ⟨bm1, hr, _⟩ := ArrayBuilder_Resize_some b (2 ^ k)
      exact ⟨_, k, hr, rfl, hge, hmin, rfl, rfl⟩
  · by_cases h : l.base.length + n ≤ l.base.capacity
    · rw [if_pos h]
      simp only [ListBuilder.Reserve]
      rw [if_neg (by omega)]
    · rw [if_neg h]
      obtain ⟨k, hk, hge, hmin⟩ := NextPower2_least (l.base.length + n)
      simp only [ListBuilder.Reserve]
      rw [if_pos (by omega), hk]
      obtain ⟨l1, hr, hc, hl, hnc⟩ := ListBuilder_Resize_some l (2 ^ k)
      exact ⟨l1, k, hr, hc, hge, hmin, hl, hnc⟩
  · by_cases h : f.base.length + n ≤ f.base.capacity
    · rw [if_pos h]
      simp only [FixedSizeBinaryBuilder.Reserve]
      rw [if_neg (by omega)]
    · rw [if_neg h]
      obtain ⟨k, hk, hge, hmin⟩ := NextPower2_least (f.base.length + n)
      simp only [FixedSizeBinaryBuilder.Reserve]
      rw [if_pos (by omega), hk]
      obtain ⟨f1, hr, hc, hl, hnc, _⟩ := FixedSizeBinaryBuilder_Resize_some f (2 ^ k)
      exact ⟨f1, k, hr, hc, hge, hmin, hl, hnc⟩
  · by_cases h : d.fsb.base.length + n ≤ d.fsb.base.capacity
    · rw [if_pos h]
      simp only [DecimalBuilder.Reserve]
      rw [if_neg (by omega)]
    · rw [if_neg h]
      obtain ⟨k, hk, hge, hmin⟩ := NextPower2_least (d.fsb.base.length + n)
      simp only [DecimalBuilder.Reserve]
      rw [if_pos (by omega), hk]
      obtain ⟨d1, hr, hc, hl, hnc⟩ := DecimalBuilder_Resize_some d (2 ^ k)
      exact ⟨d1, k, hr, hc, hge, hmin, hl, hnc⟩
  · intro hwf
    obtain ⟨b1, h1, _, _, hc⟩ := ArrayBuilder_AppendToBitmap_some b v hwf
    refine ⟨b1, h1, ?_⟩
    by_cases heq : b.length = b.capacity
    · rw [if_pos heq] at hc
      rw [if_pos heq]
      obtain ⟨k, hk, hge, hmin⟩ := NextPower2_least (b.capacity + 1)
      exact ⟨k, by rw [hc, hk], hge, hmin⟩
    · rw [if_neg heq] at hc
      rw [if_neg heq]
      exact hc

/-- Witness for C18: a full base builder of capacity 8 (bitmap `[255]`). A
ninth element makes `AppendToBitmap(true)` grow the capacity to 16, and
`Reserve(9)` sets it to 32, the least power of two at or above `8 + 9`. -/
theorem Reserve_capacity_power_of_two_witness :
    (⟨some [255], 0, 8, 8⟩ : ArrayBuilder).WF ∧
    (⟨some [255], 0, 8, 8⟩ : ArrayBuilder).AppendToBitmap true =
      some ⟨some [255, 1], 0, 9, 16⟩ ∧
    (⟨some [255], 0, 8, 8⟩ : ArrayBuilder).Reserve 9 = some ⟨some [255, 0, 0, 0], 0, 8, 32⟩ ∧
    (∃ b1, (⟨some [255], 0, 8, 8⟩ : ArrayBuilder).AppendToBitmap true = some b1 ∧
      if (⟨some [255], 0, 8, 8⟩ : ArrayBuilder).length =
          (⟨some [255], 0, 8, 8⟩ : ArrayBuilder).capacity then
        ∃ k, b1.capacity = 2 ^ k ∧ (⟨some [255], 0, 8, 8⟩ : ArrayBuilder).capacity + 1 ≤ 2 ^ k ∧
          ∀ j, (⟨some [255], 0, 8, 8⟩ : ArrayBuilder).capacity + 1 ≤ 2 ^ j → 2 ^ k ≤ 2 ^ j
      else b1.capacity = (⟨some [255], 0, 8, 8⟩ : ArrayBuilder).capacity) :=
  ⟨by decide, by decide, by decide,
    (Reserve_capacity_power_of_two ⟨some [255], 0, 8, 8⟩ BinaryBuilder.fresh
      (FixedSizeBinaryBuilder.fresh 1) (DecimalBuilder.fresh 4) 9 true).2.2.2.2 (by decide)⟩

/-! ## The capacity floor of the typed builders -/

theorem BooleanBuilder_Init_some (p : BooleanBuilder) (capacity : Nat) :
    ∃ p1, p.Init capacity = some p1 ∧ p1.base.capacity = capacity ∧
      p1.base.length = p.base.length := by
  unfold BooleanBuilder.Init
  rw [ArrayBuilder_Init_eq]
  simp only []
  obtain ⟨r, hr, _⟩ := memset_some (PoolBuffer.Resize [] (BytesForBits capacity)) 0 0
    (BytesForBits capacity) (by rw [PoolBuffer_length_Resize]; omega)
  rw [hr]
  exact ⟨_, rfl, rfl, rfl⟩

/-- The floored capacity that the `Resize` of the primitive, adaptive, boolean
and dictionary builders computes first. -/
theorem floor_spec (c0 : Nat) :
    kMinBuilderCapacity ≤ (if c0 < kMinBuilderCapacity then kMinBuilderCapacity else c0) ∧
      c0 ≤ (if c0 < kMinBuilderCapacity then kMinBuilderCapacity else c0) := by
  split <;> omega

/-- C19 (builders without the floor): on an empty binary (list) builder,
fixed-size binary builder and decimal builder, `Reserve(1)` succeeds and leaves
capacity 1, below the floor of 32. -/
theorem Reserve_without_floor :
    (BinaryBuilder.fresh.Reserve 1).map (fun l => l.base.capacity) = some 1 ∧
    ((FixedSizeBinaryBuilder.fresh 4).Reserve 1).map (fun f => f.base.capacity) = some 1 ∧
    ((DecimalBuilder.fresh 4).Reserve 1).map (fun d => d.fsb.base.capacity) = some 1 ∧
    ((DecimalBuilder.fresh 16).Reserve 1).map (fun d => d.fsb.base.capacity) = some 1 ∧
    1 < kMinBuilderCapacity := by
  decide

/-- C19 (the floor by builder kind): for `n ≥ 1`, the first `Reserve(n)` on an
empty primitive, adaptive integer, boolean or dictionary builder succeeds with
a capacity of at least `kMinBuilderCapacity` (and at least `n`); on an empty
list (binary, string), fixed-size binary or decimal builder it succeeds with
capacity exactly `NextPower2(n)`, with no floor. -/
theorem Reserve_floor_by_kind (α : Type) (c : HashConsts) (w n : Nat) (hn : 1 ≤ n)
    (value_builder : Option PrimitiveBuilder) (values : Option PrimitiveArray) :
    (∃ p, (PrimitiveBuilder.fresh w).Reserve n = some p ∧
      kMinBuilderCapacity ≤ p.base.capacity ∧ n ≤ p.base.capacity) ∧
    (∃ a, AdaptiveIntBuilder.fresh.Reserve n = some a ∧
      kMinBuilderCapacity ≤ a.base.capacity ∧ n ≤ a.base.capacity) ∧
    (∃ p, BooleanBuilder.fresh.Reserve n = some p ∧
      kMinBuilderCapacity ≤ p.base.capacity ∧ n ≤ p.base.capacity) ∧
    (∃ d, (DictionaryBuilder.fresh α).Reserve c n = some d ∧
      kMinBuilderCapacity ≤ d.base.capacity ∧ n ≤ d.base.capacity) ∧
    (∃ l, (ListBuilder.fresh value_builder values).Reserve n = some l ∧
      l.base.capacity = NextPower2 n) ∧
    (∃ f, (FixedSizeBinaryBuilder.fresh w).Reserve n = some f ∧
      f.base.capacity = NextPower2 n) ∧
    (∃ d, (DecimalBuilder.fresh w).Reserve n = some d ∧
      d.fsb.base.capacity = NextPower2 n) := by
  have hge := NextPower2_ge n
  have e0 : 0 + n = n := Nat.zero_add n
  refine ⟨?_, ?_, ?_, ?_, ?_, ?_, ?_⟩
  · have h1 : (PrimitiveBuilder.fresh w).base.length + n > (PrimitiveBuilder.fresh w).base.capacity := by
      show 0 + n > 0
      omega
    have h2 : (PrimitiveBuilder.fresh w).base.length + n = n := e0
    have h3 : (PrimitiveBuilder.fresh w).base.capacity = 0 := rfl
    unfold PrimitiveBuilder.Reserve
    rw [if_pos h1, h2]
    generalize NextPower2 n = c0 at hge ⊢
    obtain ⟨f1, f2⟩ := floor_spec c0
    simp only [PrimitiveBuilder.Resize]
    rw [if_pos h3, PrimitiveBuilder_Init_eq]
    exact ⟨_, rfl, f1, le_trans hge f2⟩
  · have h1 : AdaptiveIntBuilder.fresh.base.length + n > AdaptiveIntBuilder.fresh.base.capacity := by
      show 0 + n > 0
      omega
    have h2 : AdaptiveIntBuilder.fresh.base.length + n = n := e0
    have h3 : AdaptiveIntBuilder.fresh.base.capacity = 0 := rfl
    unfold AdaptiveIntBuilder.Reserve
    rw [if_pos h1, h2]
    generalize NextPower2 n = c0 at hge ⊢
    obtain ⟨f1, f2⟩ := floor_spec c0
    simp only [AdaptiveIntBuilder.Resize]
    rw [if_pos h3, AdaptiveIntBuilder_Init_eq]
    exact ⟨_, rfl, f1, le_trans hge f2⟩
  · have h1 : BooleanBuilder.fresh.base.length + n > BooleanBuilder.fresh.base.capacity := by
      show 0 + n > 0
      omega
    have h2 : BooleanBuilder.fresh.base.length + n = n := e0
    have h3 : BooleanBuilder.fresh.base.capacity = 0 := rfl
    unfold BooleanBuilder.Reserve
    rw [if_pos h1, h2]
    generalize NextPower2 n = c0 at hge ⊢
    obtain ⟨f1, f2⟩ := floor_spec c0
    simp only [BooleanBuilder.Resize]
    rw [if_pos h3]
    obtain ⟨p1, hp, hc, _⟩ := BooleanBuilder_Init_some BooleanBuilder.fresh
      (if c0 < kMinBuilderCapacity then kMinBuilderCapacity else c0)
    exact ⟨p1, hp, by rw [hc]; exact f1, by rw [hc]; exact le_trans hge f2⟩
  · have h1 : (DictionaryBuilder.fresh α).base.length + n >
        (DictionaryBuilder.fresh α).base.capacity := by
      show 0 + n > 0
      omega
    have h2 : (DictionaryBuilder.fresh α).base.length + n = n := e0
    have h3 : (DictionaryBuilder.fresh α).base.capacity = 0 := rfl
    unfold DictionaryBuilder.Reserve
    rw [if_pos h1, h2]
    generalize NextPower2 n = c0 at hge ⊢
    obtain ⟨f1, f2⟩ := floor_spec c0
    simp only [DictionaryBuilder.Resize]
    rw [if_pos h3]
    simp only [DictionaryBuilder.Init, ArrayBuilder_Init_eq]
    exact ⟨_, rfl, f1, le_trans hge f2⟩
  · have h1 : (ListBuilder.fresh value_builder values).base.length + n >
        (ListBuilder.fresh value_builder values).base.capacity := by
      show 0 + n > 0
      omega
    have h2 : (ListBuilder.fresh value_builder values).base.length + n = n := e0
    unfold ListBuilder.Reserve
    rw [if_pos h1, h2]
    generalize NextPower2 n = c0
    obtain ⟨l1, hr, hc, _⟩ := ListBuilder_Resize_some (ListBuilder.fresh value_builder values) c0
    exact ⟨l1, hr, hc⟩
  · have h1 : (FixedSizeBinaryBuilder.fresh w).base.length + n >
        (FixedSizeBinaryBuilder.fresh w).base.capacity := by
      show 0 + n > 0
      omega
    have h2 : (FixedSizeBinaryBuilder.fresh w).base.length + n = n := e0
    unfold FixedSizeBinaryBuilder.Reserve
    rw [if_pos h1, h2]
    generalize NextPower2 n = c0
    obtain ⟨f1, hr, hc, _⟩ := FixedSizeBinaryBuilder_Resize_some (FixedSizeBinaryBuilder.fresh w) c0
    exact ⟨f1, hr, hc⟩
  · have h1 : (DecimalBuilder.fresh w).fsb.base.length + n >
        (DecimalBuilder.fresh w).fsb.base.capacity := by
      show 0 + n > 0
      omega
    have h2 : (DecimalBuilder.fresh w).fsb.base.length + n = n := e0
    unfold DecimalBuilder.Reserve
    rw [if_pos h1, h2]
    generalize NextPower2 n = c0
    obtain ⟨d1, hr, hc, _⟩ := DecimalBuilder_Resize_some (DecimalBuilder.fresh w) c0
    exact ⟨d1, hr, hc⟩

/-- Witness for C19: `Reserve(1)` on empty builders: capacity 32 for an `int32`
primitive builder, capacity 1 for a binary builder. -/
theorem Reserve_floor_by_kind_witness :
    ((PrimitiveBuilder.fresh 4).Reserve 1).map (fun p => p.base.capacity) = some 32 ∧
    ((ListBuilder.fresh (some (PrimitiveBuilder.fresh 1)) none).Reserve 1).map
      (fun l => l.base.capacity) = some 1 ∧
    (∃ p, (PrimitiveBuilder.fresh 4).Reserve 1 = some p ∧
      kMinBuilderCapacity ≤ p.base.capacity ∧ 1 ≤ p.base.capacity) :=
  ⟨by set_option maxRecDepth 100000 in decide, by decide,
    (Reserve_floor_by_kind (List Nat) HashConsts.upstream 4 1 (by decide)
      (some (PrimitiveBuilder.fresh 1)) none).1⟩

/-! ## Buffer lengths under the unchecked appends -/

theorem SetBit_length (bits bits1 : List Nat) (i : Nat) (h : SetBit bits i = some bits1) :
    bits1.length = bits.length := by
  unfold SetBit at h
  split at h
  · cases h; simp
  · cases h

theorem setBitsLoop_length : ∀ (n i : Nat) (bits bits1 : List Nat),
    setBitsLoop n i bits = some bits1 → bits1.length = bits.length := by
  intro n
  induction n with
  | zero => intro i bits bits1 h; simp only [setBitsLoop] at h; cases h; rfl
  | succ n ih =>
    intro i bits bits1 h
    simp only [setBitsLoop] at h
    split at h
    · rename_i b2 hb
      rw [ih (i + 1) b2 bits1 h, SetBit_length bits b2 i hb]
    · cases h

theorem UnsafeSetNotNull_bitmap (b b1 : ArrayBuilder) (n : Nat)
    (h : b.UnsafeSetNotNull n = some b1) :
    (b1.null_bitmap.getD []).length = (b.null_bitmap.getD []).length ∧
      b1.null_bitmap.isSome = b.null_bitmap.isSome := by
  unfold ArrayBuilder.UnsafeSetNotNull at h
  simp only [] at h
  split at h
  · cases h
  · rename_i bm1 h1
    split at h
    · cases h
    · rename_i bm2 h2
      split at h
      · cases h
      · rename_i bm3 h3
        cases h
        have e1 := setBitsLoop_length _ _ _ _ h1
        have e2 := memset_length _ _ _ _ _ h2
        have e3 := setBitsLoop_length _ _ _ _ h3
        cases hb : b.null_bitmap with
        | none =>
          rw [hb] at e1
          simp only [Option.getD_none, List.length_nil] at e1
          simp only [Option.map_none', Option.getD_none, List.length_nil, and_self]
        | some bm =>
          rw [hb] at e1
          simp only [Option.getD_some] at e1
          simp only [Option.map_some', Option.getD_some, Option.isSome_some, and_true]
          omega

theorem flush_data_length (c c1 : BitmapCursor) (h : c.flush = some c1) :
    c1.data.length = c.data.length := by
  unfold BitmapCursor.flush at h
  split at h
  · split at h
    · simp only [] at h
      split at h
      · cases h; simp
      · cases h
    · cases h
  · cases h; rfl

theorem put_data (c : BitmapCursor) (v : Nat) : (c.put v).data = c.data := by
  unfold BitmapCursor.put
  by_cases hv : v = 0 <;> simp [hv]

theorem appendBitsLoop_data_length (vb : List Nat) : ∀ (n i : Nat) (c c1 : BitmapCursor),
    appendBitsLoop vb n i c = some c1 → c1.data.length = c.data.length := by
  intro n
  induction n with
  | zero => intro i c c1 h; simp only [appendBitsLoop] at h; cases h; rfl
  | succ n ih =>
    intro i c c1 h
    simp only [appendBitsLoop] at h
    split at h
    · cases h
    · rename_i c2 hf
      split at h
      · cases h
      · rename_i v hv
        rw [ih (i + 1) (c2.put v) c1 h, put_data, flush_data_length c c2 hf]

theorem UnsafeAppendToBitmapBulk_bitmap (b b1 : ArrayBuilder) (vb : Option (List Nat)) (n : Nat)
    (h : b.UnsafeAppendToBitmapBulk vb n = some b1) :
    (b1.null_bitmap.getD []).length = (b.null_bitmap.getD []).length ∧
      b1.null_bitmap.isSome = b.null_bitmap.isSome := by
  unfold ArrayBuilder.UnsafeAppendToBitmapBulk at h
  cases vb with
  | none => exact UnsafeSetNotNull_bitmap b b1 n h
  | some v =>
    simp only [] at h
    split at h
    · cases h
    · rename_i bm hbm
      split at h
      · cases h
      · split at h
        · cases h
        · rename_i c hc
          have hl := appendBitsLoop_data_length v n 0 _ c hc
          simp only [] at hl
          split at h
          · split at h
            · cases h
              simp only [Option.getD_some, List.length_set, Option.isSome_some, hbm, hl, and_self]
            · cases h
          · cases h
            simp only [Option.getD_some, Option.isSome_some, hbm, hl, and_self]

theorem memcpy_spec (dst src r : List Nat) (off n : Nat) (h : memcpy dst off src n = some r) :
    off + n ≤ dst.length ∧ n ≤ src.length ∧ r.length = dst.length ∧
      r.take (off + n) = dst.take off ++ src.take n := by
  unfold memcpy at h
  split at h
  · rename_i hc
    cases h
    refine ⟨hc.1, hc.2, ?_, ?_⟩
    · simp only [List.length_append, List.length_take, List.length_drop]; omega
    · rw [List.take_append_of_le_length (by simp only [List.length_append, List.length_take]; omega)]
      rw [List.take_of_length_le (by simp only [List.length_append, List.length_take]; omega)]
  · cases h

/-! ## A bulk append to a primitive builder -/

theorem PrimitiveBuilder_Append_core (p p2 : PrimitiveBuilder) (values : List Nat) (n : Nat)
    (vb : Option (List Nat)) (hwf : p.WF) (h : p.Append values n vb = some p2) :
    ∃ p1, p.Reserve n = some p1 ∧ p1.base.UnsafeAppendToBitmapBulk vb n = some p2.base ∧
      p2.WF ∧ p2.width = p.width ∧ p2.base.length = p.base.length + n ∧
      p2.base.null_count = p.base.null_count + zeroEntries vb n ∧
      (0 < n → n * p.width ≤ values.length) ∧
      (p2.data.getD []).take ((p.base.length + n) * p.width) =
        (p.data.getD []).take (p.base.length * p.width) ++ values.take (n * p.width) := by
  obtain ⟨p1, hr, hwf1, hw1, hcap1, hlen1, hnc1, hdata1⟩ := PrimitiveBuilder_Reserve_data p n hwf
  refine ⟨p1, hr, ?_⟩
  simp only [PrimitiveBuilder.Append, hr] at h
  -- the bitmap part, shared by both cases
  have hbase : ∀ (b1 : ArrayBuilder) (data1 : Option (List Nat)),
      p1.base.UnsafeAppendToBitmapBulk vb n = some b1 →
      (p1.base.capacity ≠ 0 → ∃ d, data1 = some d ∧
        d.length = bytes_required p1.width p1.base.capacity) →
      ({ p1 with base := b1, data := data1 } : PrimitiveBuilder).WF ∧
        b1.length = p.base.length + n ∧
        b1.null_count = p.base.null_count + zeroEntries vb n := by
    intro b1 data1 hb hd
    obtain ⟨c1, c2, c3⟩ := UnsafeAppendToBitmapBulk_counters p1.base b1 vb n hb
    obtain ⟨m1, m2⟩ := UnsafeAppendToBitmapBulk_bitmap p1.base b1 vb n hb
    refine ⟨⟨by show b1.length ≤ b1.capacity; omega, fun hc => ?_⟩, by omega, by omega⟩
    have hc1 : p1.base.capacity ≠ 0 := by
      intro h0; apply hc; show b1.capacity = 0; omega
    obtain ⟨bm, d0, hbm, _, hbl, _⟩ := hwf1.2 hc1
    obtain ⟨d, hd1, hdl⟩ := hd hc1
    rw [hbm] at m1 m2
    cases hb1 : b1.null_bitmap with
    | none => rw [hb1] at m2; simp at m2
    | some bm1 =>
      rw [hb1] at m1
      simp only [Option.getD_some] at m1
      refine ⟨bm1, d, rfl, hd1, ?_, ?_⟩
      · show bm1.length = CeilByte b1.capacity / 8
        rw [m1, hbl, c2]
      · show d.length = bytes_required p1.width b1.capacity
        rw [hdl, c2]
  by_cases hn : n > 0
  · simp only [hn, if_true] at h
    have hc0 : p1.base.capacity ≠ 0 := by omega
    obtain ⟨bm, d, hbm, hd, hbl, hdl⟩ := hwf1.2 hc0
    simp only [hd] at h
    split at h
    · cases h
    · rename_i data1 hcopy
      split at hcopy
      · rename_i d1 hm
        cases hcopy
        split at h
        · rename_i b1 hb
          cases h
          obtain ⟨m1, m2, m3, m4⟩ := memcpy_spec _ _ _ _ _ hm
          obtain ⟨w1, w2, w3⟩ := hbase b1 (some d1) hb (fun _ => ⟨d1, rfl, by rw [m3, hdl]⟩)
          refine ⟨hb, w1, hw1, w2, w3, fun _ => ?_, ?_⟩
          · unfold bytes_required at m2; rw [hw1] at m2; exact m2
          · simp only [Option.getD_some]
            rw [hd, Option.getD_some] at hdata1
            unfold bytes_required at m4
            rw [hlen1, hw1] at m4
            rw [← hdata1, ← m4]
            congr 1
            ring
        · cases h
      · cases hcopy
  · have hn0 : n = 0 := by omega
    subst hn0
    simp only [Nat.lt_irrefl, gt_iff_lt, if_false] at h
    split at h
    · rename_i b1 hb
      cases h
      obtain ⟨w1, w2, w3⟩ := hbase b1 p1.data hb (fun hc => by
        obtain ⟨bm, d, _, hd, _, hdl⟩ := hwf1.2 hc
        exact ⟨d, hd, hdl⟩)
      refine ⟨hb, w1, hw1, w2, w3, fun h0 => absurd h0 (Nat.lt_irrefl 0), ?_⟩
      simp only [Nat.add_zero, Nat.zero_mul, List.take_zero, List.append_nil]
      exact hdata1
    · cases h

/-! ## Sessions and Finish of a primitive builder -/

theorem PrimitiveBuilder_WF_fresh (w : Nat) : (PrimitiveBuilder.fresh w).WF :=
  ⟨le_refl _, fun h => absurd rfl h⟩

theorem PrimitiveBuilder_apply_WF (p p1 : PrimitiveBuilder) (op : PrimitiveOp) (hwf : p.WF)
    (h : p.apply op = some p1) : p1.WF ∧ p1.width = p.width := by
  cases op with
  | Reserve n =>
    simp only [PrimitiveBuilder.apply] at h
    obtain ⟨p2, hr, hwf2, hw2, _⟩ := PrimitiveBuilder_Reserve_data p n hwf
    rw [hr] at h
    cases h
    exact ⟨hwf2, hw2⟩
  | Append b =>
    simp only [PrimitiveBuilder.apply] at h
    obtain ⟨_, _, _, hwf2, hw2, _⟩ := PrimitiveBuilder_Append_core p p1 _ _ _ hwf h
    exact ⟨hwf2, hw2⟩

theorem PrimitiveBuilder_runOps_WF : ∀ (ops : List PrimitiveOp) (p p1 : PrimitiveBuilder),
    p.WF → p.runOps ops = some p1 → p1.WF ∧ p1.width = p.width := by
  intro ops
  induction ops with
  | nil => intro p p1 hwf h; simp only [PrimitiveBuilder.runOps] at h; cases h; exact ⟨hwf, rfl⟩
  | cons op ops ih =>
    intro p p1 hwf h
    simp only [PrimitiveBuilder.runOps] at h
    split at h
    · rename_i p2 hp2
      obtain ⟨hwf2, hw2⟩ := PrimitiveBuilder_apply_WF p p2 op hwf hp2
      obtain ⟨hwf1, hw1⟩ := ih p2 p1 hwf2 h
      exact ⟨hwf1, by rw [hw1, hw2]⟩
    · cases h

theorem PrimitiveBuilder_run_counters : ∀ (batches : List PrimitiveBatch)
    (p p1 : PrimitiveBuilder), p.WF → p.run batches = some p1 →
    p1.WF ∧ p1.width = p.width ∧
      p1.base.length = p.base.length + (batches.map (fun b => b.length)).sum ∧
      p1.base.null_count = p.base.null_count + (batches.map PrimitiveBatch.nulls).sum := by
  intro batches
  induction batches with
  | nil =>
    intro p p1 hwf h
    simp only [PrimitiveBuilder.run] at h
    cases h
    exact ⟨hwf, rfl, by simp, by simp⟩
  | cons b bs ih =>
    intro p p1 hwf h
    simp only [PrimitiveBuilder.run] at h
    split at h
    · rename_i p2 hp2
      obtain ⟨_, _, _, hwf2, hw2, hl2, hn2, _⟩ := PrimitiveBuilder_Append_core p p2 _ _ _ hwf hp2
      obtain ⟨hwf1, hw1, hl1, hn1⟩ := ih p2 p1 hwf2 h
      refine ⟨hwf1, by rw [hw1, hw2], ?_, ?_⟩
      · rw [hl1, hl2]; simp only [List.map_cons, List.sum_cons]; omega
      · rw [hn1, hn2]; simp only [List.map_cons, List.sum_cons, PrimitiveBatch.nulls]; omega
    · cases h

theorem PrimitiveBuilder_Finish_some (p : PrimitiveBuilder) (hwf : p.WF) :
    ∃ data1, p.Finish =
        some ({ length := p.base.length, data := data1, null_bitmap := p.base.null_bitmap,
                null_count := p.base.null_count, width := p.width },
              PrimitiveBuilder.fresh p.width) ∧
      (0 < bytes_required p.width p.base.length →
        ∃ d, p.data = some d ∧ bytes_required p.width p.base.length ≤ d.length ∧
          data1 = some (d.take (bytes_required p.width p.base.length))) ∧
      (bytes_required p.width p.base.length = 0 → data1 = p.data) := by
  obtain ⟨hlen, hbuf⟩ := hwf
  by_cases hb : 0 < bytes_required p.width p.base.length
  · have hl : 0 < p.base.length := by
      unfold bytes_required at hb
      exact Nat.pos_of_mul_pos_right hb
    obtain ⟨bm, d, hbm, hd, hbl, hdl⟩ := hbuf (by omega)
    have hle : bytes_required p.width p.base.length ≤ d.length := by
      rw [hdl]; exact bytes_required_mono _ hlen
    refine ⟨some (d.take (bytes_required p.width p.base.length)), ?_,
      fun _ => ⟨d, hd, hle, rfl⟩, fun h0 => by omega⟩
    simp only [PrimitiveBuilder.Finish, hd]
    by_cases hlt : bytes_required p.width p.base.length < d.length
    · have e : PoolBuffer.Resize d (bytes_required p.width p.base.length) =
          d.take (bytes_required p.width p.base.length) := by
        unfold PoolBuffer.Resize
        rw [Nat.sub_eq_zero_of_le hle]
        simp
      simp only [hb, hlt, and_self, if_true, e]
      rfl
    · have e : d.take (bytes_required p.width p.base.length) = d :=
        List.take_of_length_le (by omega)
      simp only [hb, hlt, and_false, if_false, e]
      rfl
  · have h0 : bytes_required p.width p.base.length = 0 := by omega
    refine ⟨p.data, ?_, fun h => absurd h hb, fun _ => rfl⟩
    simp only [PrimitiveBuilder.Finish, h0, Nat.lt_irrefl, gt_iff_lt, false_and, if_false]
    cases p.data <;> rfl

/-! ## Finish returns a primitive builder to the empty state -/

theorem PrimitiveBuilder_sample_WF : PrimitiveBuilder.sample.WF :=
  ⟨by decide, fun _ => ⟨[5], [1, 2, 3, 0, 0, 0, 0, 0], rfl, rfl, by decide, by decide⟩⟩

/-- C12: on a well-formed primitive builder `Finish` succeeds and leaves
`length = capacity = null_count = 0` with no value buffer and no bitmap; and
for every sequence of append batches, running it on the builder `Finish` left
and finishing again produces the same array (values, validity, null count,
length) as running it on a freshly constructed builder of the same type. -/
theorem PrimitiveBuilder_Finish_resets (p : PrimitiveBuilder) (batches : List PrimitiveBatch)
    (hwf : p.WF) :
    ∃ arr p1, p.Finish = some (arr, p1) ∧
      p1.base.length = 0 ∧ p1.base.capacity = 0 ∧ p1.base.null_count = 0 ∧
      p1.data = none ∧ p1.base.null_bitmap = none ∧
      ((p1.run batches).bind PrimitiveBuilder.Finish).map Prod.fst =
        (((PrimitiveBuilder.fresh p.width).run batches).bind PrimitiveBuilder.Finish).map
          Prod.fst := by
  obtain ⟨data1, hf, _⟩ := PrimitiveBuilder_Finish_some p hwf
  exact ⟨_, _, hf, rfl, rfl, rfl, rfl, rfl, rfl⟩

/-- Witness for C12: the sample builder (three one-byte elements, one null) is
finished, then two batches are appended and finished; the second array is the
one a fresh builder gives. -/
theorem PrimitiveBuilder_Finish_resets_witness :
    PrimitiveBuilder.sample.WF ∧
    (PrimitiveBuilder.sample.Finish).map Prod.snd = some (PrimitiveBuilder.fresh 1) ∧
    (((PrimitiveBuilder.fresh 1).run [⟨[7, 8], 2, some [1, 0]⟩, ⟨[9], 1, some [1]⟩]).bind
        PrimitiveBuilder.Finish).map Prod.fst =
      some { length := 3, data := some [7, 8, 9], null_bitmap := some [5, 0, 0, 0],
             null_count := 1, width := 1 } ∧
    ∃ arr p1, PrimitiveBuilder.sample.Finish = some (arr, p1) ∧
      p1.base.length = 0 ∧ p1.base.capacity = 0 ∧ p1.base.null_count = 0 ∧
      p1.data = none ∧ p1.base.null_bitmap = none ∧
      ((p1.run [⟨[7, 8], 2, some [1, 0]⟩, ⟨[9], 1, some [1]⟩]).bind PrimitiveBuilder.Finish).map
          Prod.fst =
        (((PrimitiveBuilder.fresh PrimitiveBuilder.sample.width).run
          [⟨[7, 8], 2, some [1, 0]⟩, ⟨[9], 1, some [1]⟩]).bind PrimitiveBuilder.Finish).map
          Prod.fst :=
  ⟨PrimitiveBuilder_sample_WF, by decide,
    by set_option maxRecDepth 100000 in decide,
    PrimitiveBuilder_Finish_resets PrimitiveBuilder.sample
      [⟨[7, 8], 2, some [1, 0]⟩, ⟨[9], 1, some [1]⟩] PrimitiveBuilder_sample_WF⟩

/-! ## What Finish hands to the array -/

/-- C13 (an untrimmed buffer): after `Reserve(1)` on a fresh `int32` builder,
`Finish` hands the array a value buffer of 128 bytes for `length = 0`, where
the bytes required are 0. The same happens after an append of zero elements. -/
theorem PrimitiveBuilder_Finish_untrimmed :
    (((PrimitiveBuilder.fresh 4).runOps [PrimitiveOp.Reserve 1]).bind PrimitiveBuilder.Finish).map
        (fun r => (r.1.length, r.1.data.map List.length)) = some (0, some 128) ∧
    (((PrimitiveBuilder.fresh 4).runOps
        [PrimitiveOp.Reserve 1, PrimitiveOp.Append ⟨[], 0, none⟩]).bind
        PrimitiveBuilder.Finish).map
        (fun r => (r.1.length, r.1.data.map List.length)) = some (0, some 128) ∧
    bytes_required 4 0 = 0 := by
  set_option maxRecDepth 100000 in decide

/-- C13 (the buffer `Finish` hands over): in every state reached from a fresh
primitive builder by `Reserve` and `Append` calls, `Finish` succeeds and passes
on `length`; when the bytes required for `length` elements are more than 0,
the value buffer handed to the array is the first that many bytes of the
builder's buffer, so it has exactly that size; when they are 0 the buffer (or
its absence) is handed over as it is; and the buffer handed over is never
longer than the builder's. -/
theorem PrimitiveBuilder_Finish_buffer (w : Nat) (ops : List PrimitiveOp) (p : PrimitiveBuilder)
    (hrun : (PrimitiveBuilder.fresh w).runOps ops = some p) :
    ∃ arr p1, p.Finish = some (arr, p1) ∧ arr.length = p.base.length ∧
      (0 < bytes_required w p.base.length →
        ∃ d, arr.data = some d ∧ d.length = bytes_required w p.base.length ∧
          d = (p.data.getD []).take (bytes_required w p.base.length)) ∧
      (bytes_required w p.base.length = 0 → arr.data = p.data) ∧
      (arr.data.getD []).length ≤ (p.data.getD []).length := by
  obtain ⟨hwf, hw⟩ := PrimitiveBuilder_runOps_WF ops _ p (PrimitiveBuilder_WF_fresh w) hrun
  have hw1 : p.width = w := hw
  obtain ⟨data1, hf, hpos, hzero⟩ := PrimitiveBuilder_Finish_some p hwf
  rw [hw1] at hpos hzero
  refine ⟨_, _, hf, rfl, ?_, ?_, ?_⟩
  · intro hb
    obtain ⟨d, hd, hle, hd1⟩ := hpos hb
    refine ⟨_, hd1, ?_, ?_⟩
    · rw [List.length_take]; omega
    · rw [hd]; rfl
  · intro h0
    exact hzero h0
  · show (data1.getD []).length ≤ _
    by_cases hb : 0 < bytes_required w p.base.length
    · obtain ⟨d, hd, hle, hd1⟩ := hpos hb
      rw [hd1, hd]
      simp only [Option.getD_some, List.length_take]
      omega
    · rw [hzero (by omega)]

/-- Witness for C13: `Reserve(40)` and one append of two `int16` values. The
builder holds a 128-byte buffer; `Finish` hands over its first 4 bytes. -/
theorem PrimitiveBuilder_Finish_buffer_witness :
    (PrimitiveBuilder.fresh 2).runOps
        [PrimitiveOp.Reserve 40, PrimitiveOp.Append ⟨[1, 0, 2, 0], 2, some [1, 1]⟩] =
      some { base := { null_bitmap := some [3, 0, 0, 0, 0, 0, 0, 0], null_count := 0, length := 2,
                       capacity := 64 },
             data := some ([1, 0, 2, 0] ++ List.replicate 124 0), width := 2 } ∧
    ∃ arr p1,
      ({ base := { null_bitmap := some [3, 0, 0, 0, 0, 0, 0, 0], null_count := 0, length := 2,
                   capacity := 64 },
         data := some ([1, 0, 2, 0] ++ List.replicate 124 0), width := 2 } :
        PrimitiveBuilder).Finish = some (arr, p1) ∧
      arr.length = 2 ∧
      (0 < bytes_required 2 2 →
        ∃ d, arr.data = some d ∧ d.length = bytes_required 2 2 ∧
          d = ((some ([1, 0, 2, 0] ++ List.replicate 124 0) : Option (List Nat)).getD []).take
            (bytes_required 2 2)) ∧
      (bytes_required 2 2 = 0 → arr.data = some ([1, 0, 2, 0] ++ List.replicate 124 0)) ∧
      (arr.data.getD []).length ≤
        ((some ([1, 0, 2, 0] ++ List.replicate 124 0) : Option (List Nat)).getD []).length :=
  ⟨by set_option maxRecDepth 100000 in decide,
    PrimitiveBuilder_Finish_buffer 2
      [PrimitiveOp.Reserve 40, PrimitiveOp.Append ⟨[1, 0, 2, 0], 2, some [1, 1]⟩] _
      (by set_option maxRecDepth 100000 in decide)⟩

/-- C16: for every sequence of bulk appends that all succeed on a fresh
primitive builder, `Finish` succeeds and hands the array a `length` equal to
the sum of the batch sizes and a `null_count` equal to the number of zero
entries in the explicit validity arrays. -/
theorem PrimitiveBuilder_run_Finish_counts (w : Nat) (batches : List PrimitiveBatch)
    (p : PrimitiveBuilder) (hrun : (PrimitiveBuilder.fresh w).run batches = some p) :
    ∃ arr p1, p.Finish = some (arr, p1) ∧
      arr.length = (batches.map (fun b => b.length)).sum ∧
      arr.null_count = (batches.map PrimitiveBatch.nulls).sum := by
  obtain ⟨hwf, _, hl, hn⟩ :=
    PrimitiveBuilder_run_counters batches _ p (PrimitiveBuilder_WF_fresh w) hrun
  obtain ⟨data1, hf, _⟩ := PrimitiveBuilder_Finish_some p hwf
  refine ⟨_, _, hf, ?_, ?_⟩
  · show p.base.length = _
    rw [hl]; exact Nat.zero_add _
  · show p.base.null_count = _
    rw [hn]; exact Nat.zero_add _

/-- Witness for C16: three batches of one-byte values (3 with validity
`[1, 0, 1]`, 9 without validity, 2 with validity `[0, 0]`): length 14, three
nulls. -/
theorem PrimitiveBuilder_run_Finish_counts_witness :
    (PrimitiveBuilder.fresh 1).run
        [⟨[1, 2, 3], 3, some [1, 0, 1]⟩, ⟨[4, 5, 6, 7, 8, 9, 10, 11, 12], 9, none⟩,
          ⟨[13, 14], 2, some [0, 0]⟩] =
      some { base := { null_bitmap := some [31, 15, 0, 0], null_count := 3, length := 14,
                       capacity := 32 },
             data := some ([1, 2, 3, 4, 5, 6, 7, 8, 9, 10, 11, 12, 13, 14] ++ List.replicate 18 0),
             width := 1 } ∧
    ∃ arr p1,
      ({ base := { null_bitmap := some [31, 15, 0, 0], null_count := 3, length := 14,
                   capacity := 32 },
         data := some ([1, 2, 3, 4, 5, 6, 7, 8, 9, 10, 11, 12, 13, 14] ++ List.replicate 18 0),
         width := 1 } : PrimitiveBuilder).Finish = some (arr, p1) ∧
      arr.length =
        (([⟨[1, 2, 3], 3, some [1, 0, 1]⟩, ⟨[4, 5, 6, 7, 8, 9, 10, 11, 12], 9, none⟩,
          ⟨[13, 14], 2, some [0, 0]⟩] : List PrimitiveBatch).map (fun b => b.length)).sum ∧
      arr.null_count =
        (([⟨[1, 2, 3], 3, some [1, 0, 1]⟩, ⟨[4, 5, 6, 7, 8, 9, 10, 11, 12], 9, none⟩,
          ⟨[13, 14], 2, some [0, 0]⟩] : List PrimitiveBatch).map PrimitiveBatch.nulls).sum :=
  ⟨by set_option maxRecDepth 100000 in decide,
    PrimitiveBuilder_run_Finish_counts 1
      [⟨[1, 2, 3], 3, some [1, 0, 1]⟩, ⟨[4, 5, 6, 7, 8, 9, 10, 11, 12], 9, none⟩,
        ⟨[13, 14], 2, some [0, 0]⟩] _ (by set_option maxRecDepth 100000 in decide)⟩

/-! ## Values after a bulk append -/

theorem PrimitiveBuilder_GetValue_eq (p : PrimitiveBuilder) (i : Nat) :
    p.GetValue i = ((p.data.getD []).drop (i * p.width)).take p.width := by
  unfold PrimitiveBuilder.GetValue
  cases p.data <;> simp

theorem WF_data_room (p : PrimitiveBuilder) (hwf : p.WF) :
    p.base.length * p.width ≤ (p.data.getD []).length := by
  by_cases hz : p.base.capacity = 0
  · have : p.base.length = 0 := by have := hwf.1; omega
    rw [this]; simp
  · obtain ⟨bm, d, _, hd, _, hdl⟩ := hwf.2 hz
    rw [hd, Option.getD_some, hdl]
    exact bytes_required_mono _ hwf.1

/-- C20: on a well-formed primitive builder, a successful
`Append(values, n, valid_bytes)` leaves every value at an index below the old
length as it was, makes the value at index `old length + i` equal to element
`i` of the input for every `i < n` (whatever its validity), and its effect on
the base builder is that of `Reserve(n)` followed by the bulk validity append
`UnsafeAppendToBitmap(valid_bytes, n)`, so that `length` grows by `n`. -/
theorem PrimitiveBuilder_Append_values (p p2 : PrimitiveBuilder) (values : List Nat) (n : Nat)
    (valid_bytes : Option (List Nat)) (hwf : p.WF)
    (h : p.Append values n valid_bytes = some p2) :
    (∀ i, i < p.base.length → p2.GetValue i = p.GetValue i) ∧
    (∀ i, i < n → p2.GetValue (p.base.length + i) = elementAt p.width values i) ∧
    (∃ p1, p.Reserve n = some p1 ∧
      p1.base.UnsafeAppendToBitmapBulk valid_bytes n = some p2.base) ∧
    p2.base.length = p.base.length + n ∧ p2.width = p.width := by
  obtain ⟨p1, hr, hb, hwf2, hw2, hl2, _, _, hdata⟩ :=
    PrimitiveBuilder_Append_core p p2 values n valid_bytes hwf h
  have hroom := WF_data_room p hwf
  refine ⟨fun i hi => ?_, fun i hi => ?_, ⟨p1, hr, hb⟩, hl2, hw2⟩
  · rw [PrimitiveBuilder_GetValue_eq, PrimitiveBuilder_GetValue_eq, hw2]
    have h1 : i * p.width + p.width ≤ p.base.length * p.width := by
      calc i * p.width + p.width = (i + 1) * p.width := by ring
        _ ≤ p.base.length * p.width := Nat.mul_le_mul_right _ hi
    have h2 : p.base.length * p.width ≤ (p.base.length + n) * p.width :=
      Nat.mul_le_mul_right _ (by omega)
    rw [← take_drop_take (p2.data.getD []) ((p.base.length + n) * p.width) _ _ (by omega), hdata,
      take_drop_append_left _ _ _ _ (by rw [List.length_take]; omega),
      take_drop_take _ _ _ _ h1]
  · rw [PrimitiveBuilder_GetValue_eq, hw2]
    have h1 : (p.base.length + i) * p.width + p.width ≤ (p.base.length + n) * p.width := by
      calc (p.base.length + i) * p.width + p.width = (p.base.length + i + 1) * p.width := by ring
        _ ≤ (p.base.length + n) * p.width := Nat.mul_le_mul_right _ (by omega)
    have h2 : i * p.width + p.width ≤ n * p.width := by
      calc i * p.width + p.width = (i + 1) * p.width := by ring
        _ ≤ n * p.width := Nat.mul_le_mul_right _ hi
    have h3 : ((p.data.getD []).take (p.base.length * p.width)).length =
        p.base.length * p.width := by
      rw [List.length_take]; omega
    have h4 : (p.base.length + i) * p.width = p.base.length * p.width + i * p.width := by ring
    rw [← take_drop_take (p2.data.getD []) ((p.base.length + n) * p.width) _ _ h1, hdata, h4]
    generalize (p.data.getD []).take (p.base.length * p.width) = front at h3
    rw [← h3, List.drop_append, take_drop_take _ _ _ _ h2]
    rfl

/-- Witness for C20: two one-byte values, the first one null, appended to the
sample builder (three elements, capacity 8). -/
theorem PrimitiveBuilder_Append_values_witness :
    (PrimitiveBuilder.sample.WF ∧
      PrimitiveBuilder.sample.Append [9, 8] 2 (some [0, 1]) =
        some { base := { null_bitmap := some [21], null_count := 2, length := 5, capacity := 8 },
               data := some [1, 2, 3, 9, 8, 0, 0, 0], width := 1 }) ∧
    (∀ i, i < PrimitiveBuilder.sample.base.length →
      ({ base := { null_bitmap := some [21], null_count := 2, length := 5, capacity := 8 },
         data := some [1, 2, 3, 9, 8, 0, 0, 0], width := 1 } : PrimitiveBuilder).GetValue i =
        PrimitiveBuilder.sample.GetValue i) ∧
    (∀ i, i < 2 →
      ({ base := { null_bitmap := some [21], null_count := 2, length := 5, capacity := 8 },
         data := some [1, 2, 3, 9, 8, 0, 0, 0], width := 1 } : PrimitiveBuilder).GetValue
          (PrimitiveBuilder.sample.base.length + i) =
        elementAt PrimitiveBuilder.sample.width [9, 8] i) ∧
    (∃ p1, PrimitiveBuilder.sample.Reserve 2 = some p1 ∧
      p1.base.UnsafeAppendToBitmapBulk (some [0, 1]) 2 =
        some ({ base := { null_bitmap := some [21], null_count := 2, length := 5, capacity := 8 },
                data := some [1, 2, 3, 9, 8, 0, 0, 0], width := 1 } : PrimitiveBuilder).base) ∧
    ({ base := { null_bitmap := some [21], null_count := 2, length := 5, capacity := 8 },
       data := some [1, 2, 3, 9, 8, 0, 0, 0], width := 1 } : PrimitiveBuilder).base.length =
      PrimitiveBuilder.sample.base.length + 2 ∧
    ({ base := { null_bitmap := some [21], null_count := 2, length := 5, capacity := 8 },
       data := some [1, 2, 3, 9, 8, 0, 0, 0], width := 1 } : PrimitiveBuilder).width =
      PrimitiveBuilder.sample.width :=
  ⟨⟨PrimitiveBuilder_sample_WF, by decide⟩,
    PrimitiveBuilder_Append_values PrimitiveBuilder.sample _ [9, 8] 2 (some [0, 1])
      PrimitiveBuilder_sample_WF (by decide)⟩

/-! ## MakeBuilder, AppendNull and floating-point dictionary values -/

theorem hasBuilderCase_iff (id : TypeKind) : hasBuilderCase id = decide (id ∈ supportedKinds) := by
  cases id <;> decide

mutual
theorem MakeBuilder_eq : ∀ (t : DataType),
    MakeBuilder t = if t.supported then some t.mirror else none
  | DataType.scalar id => by
    simp only [MakeBuilder, DataType.supported, DataType.mirror, hasBuilderCase_iff]
  | DataType.list value_type => by
    simp only [MakeBuilder, DataType.supported, DataType.mirror, MakeBuilder_eq value_type]
    cases value_type.supported <;> rfl
  | DataType.struct children => by
    simp only [MakeBuilder, DataType.supported, DataType.mirror, MakeBuilders_eq children]
    cases DataType.allSupported children <;> rfl
theorem MakeBuilders_eq : ∀ (ts : List DataType),
    MakeBuilders ts = if DataType.allSupported ts then some (DataType.mirrorAll ts) else none
  | [] => by simp [MakeBuilders, DataType.allSupported, DataType.mirrorAll]
  | field :: fields => by
    simp only [MakeBuilders, DataType.allSupported, DataType.mirrorAll, MakeBuilder_eq field,
      MakeBuilders_eq fields]
    cases field.supported <;> cases DataType.allSupported fields <;> rfl
end

theorem mirrorAll_eq_map : ∀ (ts : List DataType),
    DataType.mirrorAll ts = ts.map DataType.mirror
  | [] => rfl
  | t :: ts => by simp [DataType.mirrorAll, mirrorAll_eq_map ts]

theorem allSupported_eq_all : ∀ (ts : List DataType),
    DataType.allSupported ts = ts.all DataType.supported
  | [] => rfl
  | t :: ts => by simp [DataType.allSupported, allSupported_eq_all ts]


/-- C29: `MakeBuilder` returns the not-implemented error exactly when the type,
or some type nested in it through list value types and struct field types, has
a kind outside the supported set; otherwise it succeeds with the builder tree
that mirrors the type: a list builder over the builder of the value type, a
struct builder with one child builder per field, in field order. -/
theorem MakeBuilder_mirrors (t : DataType) :
    (MakeBuilder t = none ↔ t.supported = false) ∧
    (MakeBuilder t = if t.supported then some t.mirror else none) ∧
    (∀ value_type : DataType,
      (DataType.list value_type).supported = value_type.supported ∧
      (DataType.list value_type).mirror = BuilderTree.list value_type.mirror) ∧
    (∀ fields : List DataType,
      (DataType.struct fields).supported = fields.all DataType.supported ∧
      (DataType.struct fields).mirror = BuilderTree.struct (fields.map DataType.mirror)) := by
  refine ⟨?_, MakeBuilder_eq t, fun v => ⟨by simp [DataType.supported], by simp [DataType.mirror]⟩,
    fun fs => ⟨by simp [DataType.supported, allSupported_eq_all],
      by simp [DataType.mirror, mirrorAll_eq_map]⟩⟩
  rw [MakeBuilder_eq t]
  cases t.supported <;> simp

/-- C26: `DictionaryBuilder::AppendNull` succeeds, appends one null to the
index builder, and leaves the dictionary builder, every hash slot, the table
size, the probe mask and the base builder as they were. -/
theorem DictionaryBuilder_AppendNull_frame {α : Type} (d : DictionaryBuilder α) :
    ∃ d1, d.AppendNull = some d1 ∧ d1.values_builder = d.values_builder ++ [none] ∧
      d1.dict_builder = d.dict_builder ∧ d1.dict_builder.length = d.dict_builder.length ∧
      d1.hash_slots = d.hash_slots ∧ d1.hash_table_size = d.hash_table_size ∧
      d1.mod_bitmask = d.mod_bitmask ∧ d1.base = d.base :=
  ⟨_, rfl, rfl, rfl, rfl, rfl, rfl, rfl, rfl⟩

/-- C27: `SlotDifferent` of the generic dictionary builder is `other != value`,
which on floats is not a comparison of bit patterns. Appending the NaN pattern
`0x7FC00000` twice to a `DictionaryBuilder<FloatType>` creates two dictionary
entries (indices 0 and 1), because a NaN is different from itself. With a hash
that sends `+0.0` (`0x00000000`) and `-0.0` (`0x80000000`) to the same slot, the
second one resolves to the entry of the first, because the two zeros are not
different. -/
theorem DictionaryBuilder_float_compare :
    ((DictionaryBuilder.fresh Nat).appendAll HashConsts.upstream (floatKind (fun bits => bits))
        [2143289344, 2143289344]).map (fun d => (d.dict_builder, d.values_builder)) =
      some ([2143289344, 2143289344], [some 0, some 1]) ∧
    ((DictionaryBuilder.fresh Nat).appendAll HashConsts.upstream (floatKind (fun bits => bits))
        [0, 2147483648]).map (fun d => (d.dict_builder, d.values_builder)) =
      some ([0], [some 0, some 0]) ∧
    ((DictionaryBuilder.fresh Nat).appendAll HashConsts.upstream (scalarKind (fun bits => bits))
        [2143289344, 2143289344, 0, 2147483648]).map
        (fun d => (d.dict_builder, d.values_builder)) =
      some ([2143289344, 0, 2147483648], [some 0, some 0, some 1, some 2]) := by
  set_option maxRecDepth 1000000 in decide

/-! ## Setting and clearing single bits -/

theorem ClearBit_some (bits : List Nat) (i : Nat) (h : i < 8 * bits.length) :
    ∃ bits1, ClearBit bits i = some bits1 ∧ bits1.length = bits.length ∧
      ∀ j, GetBit bits1 j = if j = i then false else GetBit bits j := by
  have hb : i / 8 < bits.length := by omega
  refine ⟨bits.set (i / 8) (bits[i / 8] &&& kFlippedBitmask (i % 8)), ?_, by simp, fun j => ?_⟩
  · simp [ClearBit, List.getElem?_eq_getElem hb]
  · have h8 : i % 8 < 8 := Nat.mod_lt _ (by decide)
    rw [GetBit_set_and _ _ _ _ _ h8 hb, list_set_getElem _ _ hb]
    have e : i / 8 * 8 + i % 8 = i := by omega
    rw [e]

theorem SetBit_room (bits bits1 : List Nat) (i : Nat) (h : SetBit bits i = some bits1) :
    i < 8 * bits.length := by
  unfold SetBit at h
  split at h
  · rename_i b hb
    have := (List.getElem?_eq_some_iff.mp hb).1
    omega
  · cases h

theorem ClearBit_room (bits bits1 : List Nat) (i : Nat) (h : ClearBit bits i = some bits1) :
    i < 8 * bits.length := by
  unfold ClearBit at h
  split at h
  · rename_i b hb
    have := (List.getElem?_eq_some_iff.mp hb).1
    omega
  · cases h

theorem SetBitTo_get (bits bits1 : List Nat) (i : Nat) (v : Bool)
    (h : SetBitTo bits i v = some bits1) :
    bits1.length = bits.length ∧ i < 8 * bits.length ∧
      ∀ j, GetBit bits1 j = if j = i then v else GetBit bits j := by
  unfold SetBitTo at h
  cases v with
  | true =>
    simp only [if_true] at h
    have hr := SetBit_room bits bits1 i h
    obtain ⟨b1, h1, hl, hg⟩ := SetBit_some bits i hr
    rw [h1] at h
    cases h
    exact ⟨hl, hr, hg⟩
  | false =>
    simp only [Bool.false_eq_true, if_false] at h
    have hr := ClearBit_room bits bits1 i h
    obtain ⟨b1, h1, hl, hg⟩ := ClearBit_some bits i hr
    rw [h1] at h
    cases h
    exact ⟨hl, hr, hg⟩

theorem SetBitTo_some (bits : List Nat) (i : Nat) (v : Bool) (h : i < 8 * bits.length) :
    ∃ bits1, SetBitTo bits i v = some bits1 ∧ bits1.length = bits.length ∧
      ∀ j, GetBit bits1 j = if j = i then v else GetBit bits j := by
  cases v with
  | true =>
    obtain ⟨b1, h1, hl, hg⟩ := SetBit_some bits i h
    exact ⟨b1, by simp [SetBitTo, h1], hl, hg⟩
  | false =>
    obtain ⟨b1, h1, hl, hg⟩ := ClearBit_some bits i h
    exact ⟨b1, by simp [SetBitTo, h1], hl, hg⟩

/-! ## BooleanBuilder: growth and the append loop -/

theorem BooleanBuilder_Init_eq (p : BooleanBuilder) (capacity : Nat) :
    p.Init capacity =
      some { base := { p.base with null_bitmap := some (List.replicate (CeilByte capacity / 8) 0),
                                   capacity := capacity },
             data := some (List.replicate (BytesForBits capacity) 0) } := by
  unfold BooleanBuilder.Init
  rw [ArrayBuilder_Init_eq]
  have e : PoolBuffer.Resize [] (BytesForBits capacity) =
      List.replicate (BytesForBits capacity) 0 := by
    simp [PoolBuffer.Resize]
  simp only [e]
  have e2 : memset (List.replicate (BytesForBits capacity) 0) 0 0 (BytesForBits capacity) =
      some (List.replicate (BytesForBits capacity) 0) := by
    simp [memset]
  rw [e2]

theorem BytesForBits_mono {a b : Nat} (h : a ≤ b) : BytesForBits a ≤ BytesForBits b :=
  CeilByte_mono h

theorem BooleanBuilder_Resize_grow (p : BooleanBuilder) (bm d : List Nat) (c : Nat)
    (hc0 : p.base.capacity ≠ 0) (hbm : p.base.null_bitmap = some bm) (hd : p.data = some d)
    (hbl : bm.length = CeilByte p.base.capacity / 8)
    (hdl : d.length = BytesForBits p.base.capacity)
    (hk : kMinBuilderCapacity ≤ c) (hle : p.base.capacity ≤ c) :
    p.Resize c =
      some { base := { p.base with
               null_bitmap := some (bm ++ List.replicate (CeilByte c / 8 - bm.length) 0),
               capacity := c },
             data := some (d ++ List.replicate (BytesForBits c - d.length) 0) } := by
  unfold BooleanBuilder.Resize
  have e1 : (if c < kMinBuilderCapacity then kMinBuilderCapacity else c) = c := by
    rw [if_neg (by omega)]
  simp only [e1, if_neg hc0]
  unfold BooleanBuilder.ArrayBuilder_Resize
  have h1 : bm.length ≤ CeilByte c / 8 := by rw [hbl]; exact CeilByte_mono hle
  have h2 : d.length ≤ BytesForBits c := by rw [hdl]; exact BytesForBits_mono hle
  simp only [hbm, ArrayBuilder_ResizeBitmap_grow _ _ _ h1, hd, PoolBuffer_Resize_grow d _ h2]
  rw [if_neg (by omega)]
  have e := memset_zero_tail d (BytesForBits c - d.length)
  rw [e]

theorem BooleanBuilder_Resize_floor (p : BooleanBuilder) (c0 : Nat) :
    ∃ c, c0 ≤ c ∧ kMinBuilderCapacity ≤ c ∧ p.Resize c0 = p.Resize c ∧
      (p.base.capacity = 0 → p.Resize c0 = p.Init c) := by
  by_cases h : c0 < kMinBuilderCapacity
  · refine ⟨kMinBuilderCapacity, by omega, le_refl _, ?_, ?_⟩
    · simp [BooleanBuilder.Resize, h]
    · intro h0; simp [BooleanBuilder.Resize, h, h0]
  · refine ⟨c0, le_refl _, by omega, rfl, ?_⟩
    intro h0; simp [BooleanBuilder.Resize, h, h0]

theorem BooleanBuilder_Reserve_frame (p : BooleanBuilder) (n : Nat) (hwf : p.WF) :
    ∃ p1, p.Reserve n = some p1 ∧ p1.WF ∧ p.base.length + n ≤ p1.base.capacity ∧
      p1.base.length = p.base.length ∧ p1.base.null_count = p.base.null_count ∧
      ∀ j, j < p.base.length → p1.valueBit j = p.valueBit j := by
  obtain ⟨hlen, hbuf⟩ := hwf
  by_cases hgt : p.base.length + n > p.base.capacity
  · have hne : p.Reserve n = p.Resize (NextPower2 (p.base.length + n)) := by
      simp [BooleanBuilder.Reserve, hgt]
    have hge := NextPower2_ge (p.base.length + n)
    obtain ⟨c, hc0, hk, hres, hinit⟩ := BooleanBuilder_Resize_floor p (NextPower2 (p.base.length + n))
    have hcap : p.base.length + n ≤ c := le_trans hge hc0
    clear hge hc0
    generalize NextPower2 (p.base.length + n) = c0 at hne hres hinit
    by_cases hz : p.base.capacity = 0
    · have hl0 : p.base.length = 0 := by omega
      rw [hne, hinit hz, BooleanBuilder_Init_eq]
      refine ⟨_, rfl, ?_, hcap, rfl, rfl, ?_⟩
      · exact ⟨le_trans (Nat.le_add_right _ _) hcap, fun _ => ⟨_, _, rfl, rfl, by simp, by simp⟩⟩
      · intro j hj; omega
    · obtain ⟨bm, d, hbm, hd, hbl, hdl⟩ := hbuf hz
      rw [hne, hres, BooleanBuilder_Resize_grow p bm d c hz hbm hd hbl hdl hk (by omega)]
      refine ⟨_, rfl, ?_, hcap, rfl, rfl, ?_⟩
      · refine ⟨le_trans (Nat.le_add_right _ _) hcap, fun _ => ⟨_, _, rfl, rfl, ?_, ?_⟩⟩
        · have h1 : bm.length ≤ CeilByte c / 8 := by
            rw [hbl]; exact CeilByte_mono (by omega)
          simp; omega
        · have h2 : d.length ≤ BytesForBits c := by
            rw [hdl]; exact BytesForBits_mono (by omega)
          simp; omega
      · intro j _
        simp only [BooleanBuilder.valueBit, hd, Option.getD_some]
        exact GetBit_append_zeros _ _ _
  · have hne : p.Reserve n = some p := by simp [BooleanBuilder.Reserve, hgt]
    exact ⟨p, hne, ⟨hlen, hbuf⟩, by omega, rfl, rfl, fun _ _ => rfl⟩

theorem BooleanBuilder_appendLoop_spec (values : List Nat) (valid_bytes : Option (List Nat))
    (len : Nat) : ∀ (n i : Nat) (data data1 : List Nat),
    BooleanBuilder.appendLoop values valid_bytes len n i data = some data1 →
    data1.length = data.length ∧
      (∀ j, (j < len + i ∨ len + i + n ≤ j) → GetBit data1 j = GetBit data j) ∧
      (∀ k, i ≤ k → k < i + n → validAt valid_bytes k = false →
        GetBit data1 (len + k) = GetBit data (len + k)) ∧
      (∀ k, i ≤ k → k < i + n → validAt valid_bytes k = true →
        ∃ v, values[k]? = some v ∧ GetBit data1 (len + k) = decide (v > 0)) := by
  intro n
  induction n with
  | zero =>
    intro i data data1 h
    simp only [BooleanBuilder.appendLoop] at h
    cases h
    exact ⟨rfl, fun _ _ => rfl, fun k h1 h2 => by omega, fun k h1 h2 => by omega⟩
  | succ n ih =>
    intro i data data1 h
    simp only [BooleanBuilder.appendLoop] at h
    split at h
    · cases h
    · -- skipped entry
      rename_i hskip
      have hinv : validAt valid_bytes i = false := by
        cases valid_bytes with
        | none => simp at hskip
        | some vb =>
          simp only [] at hskip
          split at hskip
          · rename_i b hb
            simp only [Option.some.injEq, decide_eq_true_eq] at hskip
            simp [validAt, List.getD_eq_getElem?_getD, hb, hskip]
          · cases hskip
      obtain ⟨hl, hout, hinval, hval⟩ := ih (i + 1) data data1 h
      refine ⟨hl, fun j hj => hout j (by omega), fun k h1 h2 hv => ?_, fun k h1 h2 hv => ?_⟩
      · by_cases hk : k = i
        · subst hk; exact hout _ (by omega)
        · exact hinval k (by omega) (by omega) hv
      · by_cases hk : k = i
        · subst hk; rw [hinv] at hv; cases hv
        · exact hval k (by omega) (by omega) hv
    · -- written entry
      rename_i hskip
      have hvalid : validAt valid_bytes i = true := by
        cases valid_bytes with
        | none => rfl
        | some vb =>
          simp only [] at hskip
          split at hskip
          · rename_i b hb
            simp only [Option.some.injEq, decide_eq_false_iff_not] at hskip
            simp [validAt, List.getD_eq_getElem?_getD, hb, hskip]
          · cases hskip
      split at h
      · cases h
      · rename_i v hv
        split at h
        · rename_i d2 hset
          have hset2 : SetBitTo data (len + i) (decide (v > 0)) = some d2 := by
            unfold SetBitTo
            by_cases hpos : v > 0
            · simpa [hpos] using hset
            · simpa [hpos] using hset
          obtain ⟨hl2, _, hg2⟩ := SetBitTo_get data d2 (len + i) _ hset2
          obtain ⟨hl, hout, hinval, hval⟩ := ih (i + 1) d2 data1 h
          refine ⟨by rw [hl, hl2], fun j hj => ?_, fun k h1 h2 hvk => ?_, fun k h1 h2 hvk => ?_⟩
          · rw [hout j (by omega), hg2 j, if_neg (by omega)]
          · by_cases hk : k = i
            · subst hk; rw [hvalid] at hvk; cases hvk
            · rw [hinval k (by omega) (by omega) hvk, hg2, if_neg (by omega)]
          · by_cases hk : k = i
            · subst hk
              refine ⟨v, hv, ?_⟩
              rw [hout _ (by omega), hg2, if_pos rfl]
            · exact hval k (by omega) (by omega) hvk
        · cases h

/-! ## Value bits after a boolean bulk append -/

/-- C21: on a well-formed boolean builder, a successful
`Append(values, n, valid_bytes)` makes value bit `old length + i` equal to
`values[i] > 0` for every `i < n` whose validity byte is non-zero or whose
validity array is absent, leaves value bit `old length + i` as `Reserve(n)` left
it for every `i < n` whose validity byte is zero, and leaves the value bits
below the old length unchanged; `length` grows by `n`. -/
theorem BooleanBuilder_Append_bits (p p2 : BooleanBuilder) (values : List Nat) (n : Nat)
    (valid_bytes : Option (List Nat)) (hwf : p.WF)
    (h : p.Append values n valid_bytes = some p2) :
    (∀ i, i < n → validAt valid_bytes i = true →
      ∃ v, values[i]? = some v ∧ p2.valueBit (p.base.length + i) = decide (v > 0)) ∧
    (∃ p1, p.Reserve n = some p1 ∧
      ∀ i, i < n → validAt valid_bytes i = false →
        p2.valueBit (p.base.length + i) = p1.valueBit (p.base.length + i)) ∧
    (∀ j, j < p.base.length → p2.valueBit j = p.valueBit j) ∧
    p2.base.length = p.base.length + n := by
  obtain ⟨p1, hr, hwf1, hcap1, hlen1, _, hbits1⟩ := BooleanBuilder_Reserve_frame p n hwf
  simp only [BooleanBuilder.Append, hr] at h
  split at h
  · cases h
  · rename_i d1 hloop
    split at h
    · rename_i b1 hb
      cases h
      obtain ⟨hl, hout, hinval, hval⟩ :=
        BooleanBuilder_appendLoop_spec values valid_bytes p1.base.length n 0 _ d1 hloop
      obtain ⟨c1, _, _⟩ := UnsafeAppendToBitmapBulk_counters p1.base b1 valid_bytes n hb
      have hd : ∀ j, GetBit ((p1.data.map (fun _ => d1)).getD []) j = GetBit d1 j := by
        intro j
        cases hp : p1.data with
        | none =>
          rw [hp] at hl
          simp only [Option.getD_none, List.length_nil] at hl
          have : d1 = [] := List.eq_nil_of_length_eq_zero hl
          simp [this]
        | some d => simp
      rw [hlen1] at hout hinval hval
      refine ⟨fun i hi hv => ?_, ⟨p1, hr, fun i hi hv => ?_⟩, fun j hj => ?_, by
        show b1.length = _; omega⟩
      · obtain ⟨v, hv1, hv2⟩ := hval i (Nat.zero_le _) (by omega) hv
        exact ⟨v, hv1, by simp only [BooleanBuilder.valueBit, hd]; exact hv2⟩
      · simp only [BooleanBuilder.valueBit, hd]
        exact hinval i (Nat.zero_le _) (by omega) hv
      · rw [← hbits1 j hj]
        simp only [BooleanBuilder.valueBit, hd]
        exact hout j (Or.inl (by omega))
    · cases h

/-- The boolean builder after `Append({1, 0, 7, 0, 1}, 5, {1, 1, 0, 1, 1})` on a
fresh builder. -/
theorem BooleanBuilder_sample_WF :
    ({ base := { null_bitmap := some [27, 0, 0, 0], null_count := 1, length := 5,
                 capacity := 32 },
       data := some [17, 0, 0, 0] } : BooleanBuilder).WF :=
  ⟨by decide, fun _ => ⟨[27, 0, 0, 0], [17, 0, 0, 0], rfl, rfl, by decide, by decide⟩⟩

/-- Witness for C21: six more values, the second one null, appended to a builder
that holds five. -/
theorem BooleanBuilder_Append_bits_witness :
    (BooleanBuilder.fresh.Append [1, 0, 7, 0, 1] 5 (some [1, 1, 0, 1, 1]) =
        some { base := { null_bitmap := some [27, 0, 0, 0], null_count := 1, length := 5,
                         capacity := 32 },
               data := some [17, 0, 0, 0] } ∧
      ({ base := { null_bitmap := some [27, 0, 0, 0], null_count := 1, length := 5,
                   capacity := 32 },
         data := some [17, 0, 0, 0] } : BooleanBuilder).Append [1, 1, 1, 0, 1, 1] 6
          (some [1, 0, 1, 1, 1, 1]) =
        some { base := { null_bitmap := some [187, 7, 0, 0], null_count := 2, length := 11,
                         capacity := 32 },
               data := some [177, 6, 0, 0] }) ∧
    (∀ i, i < 6 → validAt (some [1, 0, 1, 1, 1, 1]) i = true →
      ∃ v, [1, 1, 1, 0, 1, 1][i]? = some v ∧
        ({ base := { null_bitmap := some [187, 7, 0, 0], null_count := 2, length := 11,
                     capacity := 32 },
           data := some [177, 6, 0, 0] } : BooleanBuilder).valueBit (5 + i) = decide (v > 0)) ∧
    (∃ p1, ({ base := { null_bitmap := some [27, 0, 0, 0], null_count := 1, length := 5,
                        capacity := 32 },
              data := some [17, 0, 0, 0] } : BooleanBuilder).Reserve 6 = some p1 ∧
      ∀ i, i < 6 → validAt (some [1, 0, 1, 1, 1, 1]) i = false →
        ({ base := { null_bitmap := some [187, 7, 0, 0], null_count := 2, length := 11,
                     capacity := 32 },
           data := some [177, 6, 0, 0] } : BooleanBuilder).valueBit (5 + i) =
          p1.valueBit (5 + i)) ∧
    (∀ j, j < 5 →
      ({ base := { null_bitmap := some [187, 7, 0, 0], null_count := 2, length := 11,
                   capacity := 32 },
         data := some [177, 6, 0, 0] } : BooleanBuilder).valueBit j =
        ({ base := { null_bitmap := some [27, 0, 0, 0], null_count := 1, length := 5,
                     capacity := 32 },
           data := some [17, 0, 0, 0] } : BooleanBuilder).valueBit j) ∧
    ({ base := { null_bitmap := some [187, 7, 0, 0], null_count := 2, length := 11,
                 capacity := 32 },
       data := some [177, 6, 0, 0] } : BooleanBuilder).base.length = 5 + 6 :=
  ⟨by set_option maxRecDepth 100000 in decide,
    BooleanBuilder_Append_bits
      { base := { null_bitmap := some [27, 0, 0, 0], null_count := 1, length := 5,
                  capacity := 32 },
        data := some [17, 0, 0, 0] }
      { base := { null_bitmap := some [187, 7, 0, 0], null_count := 2, length := 11,
                  capacity := 32 },
        data := some [177, 6, 0, 0] }
      [1, 1, 1, 0, 1, 1] 6 (some [1, 0, 1, 1, 1, 1]) BooleanBuilder_sample_WF
      (by set_option maxRecDepth 100000 in decide)⟩

/-! ## Records of a fixed-size binary builder -/

theorem concatRecords_append (w : Nat) : ∀ (a b : List (Option (List Nat))),
    concatRecords w (a ++ b) = concatRecords w a ++ concatRecords w b
  | [], b => rfl
  | r :: a, b => by
    simp [concatRecords, concatRecords_append w a b]

theorem concatRecords_length (w : Nat) : ∀ (rs : List (Option (List Nat))),
    (∀ r, r ∈ rs → (recordBytes w r).length = w) → (concatRecords w rs).length = rs.length * w
  | [], _ => by simp [concatRecords]
  | r :: rs, h => by
    simp only [concatRecords, List.length_append, List.length_cons]
    rw [h r (List.mem_cons_self _ _),
      concatRecords_length w rs (fun r1 h1 => h r1 (List.mem_cons_of_mem _ h1))]
    ring

theorem concatRecords_slice (w : Nat) : ∀ (rs : List (Option (List Nat))) (i : Nat)
    (r : Option (List Nat)), (∀ r, r ∈ rs → (recordBytes w r).length = w) →
    rs[i]? = some r → elementAt w (concatRecords w rs) i = recordBytes w r
  | [], i, r, _, h => by simp at h
  | r0 :: rs, 0, r, hs, h => by
    simp only [List.getElem?_cons_zero, Option.some.injEq] at h
    subst h
    have hl := hs r0 (List.mem_cons_self _ _)
    simp only [elementAt, concatRecords, Nat.zero_mul, List.drop_zero]
    rw [List.take_append_of_le_length (by omega), List.take_of_length_le (by omega)]
  | r0 :: rs, i + 1, r, hs, h => by
    simp only [List.getElem?_cons_succ] at h
    have hl := hs r0 (List.mem_cons_self _ _)
    have ih := concatRecords_slice w rs i r (fun r1 h1 => hs r1 (List.mem_cons_of_mem _ h1)) h
    simp only [elementAt, concatRecords] at ih ⊢
    have e : (i + 1) * w = (recordBytes w r0).length + i * w := by rw [hl]; ring
    rw [e, List.drop_append]
    exact ih

theorem elementAt_length (w : Nat) (data : List Nat) (i : Nat) (h : (i + 1) * w ≤ data.length) :
    (elementAt w data i).length = w := by
  simp only [elementAt, List.length_take, List.length_drop]
  have : (i + 1) * w = i * w + w := by ring
  omega

theorem bulkRecords_spec (w : Nat) (data : List Nat) : ∀ (n i : Nat),
    (i + n) * w ≤ data.length →
    (bulkRecords w data n i).length = n ∧
      (∀ r, r ∈ bulkRecords w data n i → (recordBytes w r).length = w) ∧
      concatRecords w (bulkRecords w data n i) = (data.drop (i * w)).take (n * w)
  | 0, i, _ => by simp [bulkRecords, concatRecords]
  | n + 1, i, h => by
    have h1 : (i + 1 + n) * w ≤ data.length := by
      have : i + 1 + n = i + (n + 1) := by omega
      rw [this]; exact h
    have h2 : (i + 1) * w ≤ data.length :=
      le_trans (Nat.mul_le_mul_right w (by omega)) h
    obtain ⟨ih1, ih2, ih3⟩ := bulkRecords_spec w data n (i + 1) h1
    refine ⟨by simp [bulkRecords, ih1], ?_, ?_⟩
    · intro r hr
      simp only [bulkRecords, List.mem_cons] at hr
      rcases hr with hr | hr
      · subst hr; exact elementAt_length w data i h2
      · exact ih2 r hr
    · simp only [bulkRecords, concatRecords, ih3, recordBytes, Option.getD_some, elementAt]
      have e1 : (n + 1) * w = w + n * w := by ring
      have e2 : (i + 1) * w = i * w + w := by ring
      rw [e1, e2, List.take_add, List.drop_drop]

theorem FixedSizeBinaryBuilder_Reserve_bytes (f f1 : FixedSizeBinaryBuilder) (n : Nat)
    (hb : f.byte_builder.bytes.length = f.base.length * f.byte_width)
    (h : f.Reserve n = some f1) :
    f1.byte_builder.bytes = f.byte_builder.bytes ∧ f1.base.length = f.base.length ∧
      f1.byte_width = f.byte_width := by
  unfold FixedSizeBinaryBuilder.Reserve at h
  split at h
  · have hge := NextPower2_ge (f.base.length + n)
    generalize NextPower2 (f.base.length + n) = c at h hge
    have hle : f.byte_builder.bytes.length ≤ c * f.byte_width := by
      rw [hb]; exact Nat.mul_le_mul_right _ (by omega)
    have e1 := BufferBuilder_Resize_bytes f.byte_builder (c * f.byte_width) hle
    simp only [FixedSizeBinaryBuilder.Resize, FixedSizeBinaryBuilder.ArrayBuilder_Resize] at h
    split at h
    · simp only [FixedSizeBinaryBuilder.Init, ArrayBuilder_Init_eq] at h
      cases h
      refine ⟨?_, rfl, rfl⟩
      simp only []
      rw [BufferBuilder_Resize_bytes _ _ (by rw [e1]; exact hle), e1]
    · rename_i bm hbm
      obtain ⟨bm1, hr, _⟩ := ArrayBuilder_ResizeBitmap_some f.base bm c
      simp only [hr] at h
      cases h
      exact ⟨e1, rfl, rfl⟩
  · cases h
    exact ⟨rfl, rfl, rfl⟩

/-! ## The value buffer of a fixed-size binary builder -/

theorem FixedSizeBinaryBuilder_apply_records (w : Nat) (f f1 : FixedSizeBinaryBuilder)
    (recs : List (Option (List Nat))) (op : FixedSizeBinaryOp)
    (hinv : f.byte_width = w ∧ f.base.length = recs.length ∧
      f.byte_builder.bytes = concatRecords w recs ∧
      ∀ r, r ∈ recs → (recordBytes w r).length = w)
    (hs : op.sized w = true) (h : f.apply op = some f1) :
    f1.byte_width = w ∧ f1.base.length = (recs ++ op.records w).length ∧
      f1.byte_builder.bytes = concatRecords w (recs ++ op.records w) ∧
      ∀ r, r ∈ recs ++ op.records w → (recordBytes w r).length = w := by
  obtain ⟨hw, hl, hb, hsz⟩ := hinv
  have hbl : f.byte_builder.bytes.length = f.base.length * f.byte_width := by
    rw [hb, concatRecords_length w recs hsz, hl, hw]
  cases op with
  | Append value =>
    simp only [FixedSizeBinaryOp.sized, decide_eq_true_eq] at hs
    simp only [FixedSizeBinaryBuilder.apply, FixedSizeBinaryBuilder.Append] at h
    split at h
    · cases h
    · rename_i f2 hr
      obtain ⟨e1, e2, e3⟩ := FixedSizeBinaryBuilder_Reserve_bytes f f2 1 hbl hr
      split at h
      · cases h
      · rename_i b1 hb1
        obtain ⟨c1, _, _⟩ := UnsafeAppendToBitmap_counters f2.base b1 true hb1
        cases h
        refine ⟨by rw [← hw, ← e3], ?_, ?_, ?_⟩
        · show b1.length = _
          simp only [FixedSizeBinaryOp.records, List.length_append, List.length_singleton]
          omega
        · show (f2.byte_builder.Append (value.take f2.byte_width)).bytes = _
          simp only [BufferBuilder.Append, e1, hb, concatRecords_append, FixedSizeBinaryOp.records,
            concatRecords, recordBytes, Option.getD_some, List.append_nil]
          rw [e3, hw, List.take_of_length_le (by omega)]
        · intro r hr
          simp only [FixedSizeBinaryOp.records, List.mem_append, List.mem_singleton] at hr
          rcases hr with hr | hr
          · exact hsz r hr
          · subst hr; simpa [recordBytes] using hs
  | AppendNull =>
    simp only [FixedSizeBinaryBuilder.apply, FixedSizeBinaryBuilder.AppendNull] at h
    split at h
    · cases h
    · rename_i f2 hr
      obtain ⟨e1, e2, e3⟩ := FixedSizeBinaryBuilder_Reserve_bytes f f2 1 hbl hr
      split at h
      · cases h
      · rename_i b1 hb1
        obtain ⟨c1, _, _⟩ := UnsafeAppendToBitmap_counters f2.base b1 false hb1
        cases h
        refine ⟨by rw [← hw, ← e3], ?_, ?_, ?_⟩
        · show b1.length = _
          simp only [FixedSizeBinaryOp.records, List.length_append, List.length_singleton]
          omega
        · show (f2.byte_builder.Advance f2.byte_width).bytes = _
          simp only [BufferBuilder.Advance, BufferBuilder.Append, e1, hb, concatRecords_append,
            FixedSizeBinaryOp.records, concatRecords, recordBytes, Option.getD_none,
            List.append_nil]
          rw [e3, hw]
        · intro r hr
          simp only [FixedSizeBinaryOp.records, List.mem_append, List.mem_singleton] at hr
          rcases hr with hr | hr
          · exact hsz r hr
          · subst hr; simp [recordBytes]
  | AppendBulk data n vb =>
    simp only [FixedSizeBinaryBuilder.apply, FixedSizeBinaryBuilder.AppendBulk] at h
    split at h
    · cases h
    · rename_i f2 hr
      obtain ⟨e1, e2, e3⟩ := FixedSizeBinaryBuilder_Reserve_bytes f f2 n hbl hr
      split at h
      · cases h
      · rename_i b1 hb1
        obtain ⟨c1, _, _⟩ := UnsafeAppendToBitmapBulk_counters f2.base b1 vb n hb1
        split at h
        · cases h
        · rename_i hdata
          cases h
          have hd : (0 + n) * w ≤ data.length := by
            rw [Nat.zero_add, ← hw, ← e3]; omega
          obtain ⟨b1l, b2, b3⟩ := bulkRecords_spec w data n 0 hd
          refine ⟨by rw [← hw, ← e3], ?_, ?_, ?_⟩
          · show b1.length = _
            simp only [FixedSizeBinaryOp.records, List.length_append, b1l]
            omega
          · show (f2.byte_builder.Append (data.take (n * f2.byte_width))).bytes = _
            simp only [BufferBuilder.Append, e1, hb, concatRecords_append,
              FixedSizeBinaryOp.records, b3, Nat.zero_mul, List.drop_zero]
            rw [e3, hw]
          · intro r hr
            simp only [FixedSizeBinaryOp.records, List.mem_append] at hr
            rcases hr with hr | hr
            · exact hsz r hr
            · exact b2 r hr

theorem FixedSizeBinaryBuilder_runOps_records (w : Nat) : ∀ (ops : List FixedSizeBinaryOp)
    (f f1 : FixedSizeBinaryBuilder) (recs : List (Option (List Nat))),
    (f.byte_width = w ∧ f.base.length = recs.length ∧
      f.byte_builder.bytes = concatRecords w recs ∧
      ∀ r, r ∈ recs → (recordBytes w r).length = w) →
    (∀ op, op ∈ ops → op.sized w = true) → f.runOps ops = some f1 →
    f1.byte_width = w ∧ f1.base.length = (recs ++ sessionRecords w ops).length ∧
      f1.byte_builder.bytes = concatRecords w (recs ++ sessionRecords w ops) ∧
      ∀ r, r ∈ recs ++ sessionRecords w ops → (recordBytes w r).length = w := by
  intro ops
  induction ops with
  | nil =>
    intro f f1 recs hinv _ h
    simp only [FixedSizeBinaryBuilder.runOps] at h
    cases h
    simpa [sessionRecords] using hinv
  | cons op ops ih =>
    intro f f1 recs hinv hs h
    simp only [FixedSizeBinaryBuilder.runOps] at h
    split at h
    · rename_i f2 hf2
      have h2 := FixedSizeBinaryBuilder_apply_records w f f2 recs op hinv
        (hs op (List.mem_cons_self _ _)) hf2
      have h3 := ih f2 f1 (recs ++ op.records w) h2
        (fun o ho => hs o (List.mem_cons_of_mem _ ho)) h
      simpa [sessionRecords, List.append_assoc] using h3
    · cases h

/-- C25: in every state reached from a fresh fixed-size binary builder of byte
width `w` by `Append(record)` (each record holding `w` bytes), `AppendNull` and
bulk `Append` calls, `length` is the number of records appended, the value byte
buffer holds exactly `length * w` bytes, and the bytes `[i * w, (i + 1) * w)` are
the `i`-th appended record whenever it was appended as a value (singly or as an
element of a bulk input). -/
theorem FixedSizeBinaryBuilder_records (w : Nat) (ops : List FixedSizeBinaryOp)
    (f : FixedSizeBinaryBuilder)
    (hsized : ∀ op, op ∈ ops → op.sized w = true)
    (hrun : (FixedSizeBinaryBuilder.fresh w).runOps ops = some f) :
    f.base.length = (sessionRecords w ops).length ∧
    f.byte_builder.bytes.length = f.base.length * w ∧
    ∀ (i : Nat) (record : List Nat), (sessionRecords w ops)[i]? = some (some record) →
      elementAt w f.byte_builder.bytes i = record := by
  obtain ⟨_, hl, hb, hsz⟩ := FixedSizeBinaryBuilder_runOps_records w ops
    (FixedSizeBinaryBuilder.fresh w) f [] ⟨rfl, rfl, rfl, fun r hr => by simp at hr⟩ hsized hrun
  rw [List.nil_append] at hl hb hsz
  refine ⟨hl, ?_, fun i record hi => ?_⟩
  · rw [hb, concatRecords_length w _ hsz, hl]
  · rw [hb, concatRecords_slice w _ i (some record) hsz hi]
    rfl

/-- Witness for C25: a value, a null, a bulk input of three records with the
middle one null, and another value, at byte width 2. -/
theorem FixedSizeBinaryBuilder_records_witness :
    ((∀ op, op ∈ [FixedSizeBinaryOp.Append [1, 2], FixedSizeBinaryOp.AppendNull,
        FixedSizeBinaryOp.AppendBulk [3, 4, 5, 6, 7, 8] 3 (some [1, 0, 1]),
        FixedSizeBinaryOp.Append [9, 10]] → op.sized 2 = true) ∧
      (FixedSizeBinaryBuilder.fresh 2).runOps
        [FixedSizeBinaryOp.Append [1, 2], FixedSizeBinaryOp.AppendNull,
          FixedSizeBinaryOp.AppendBulk [3, 4, 5, 6, 7, 8] 3 (some [1, 0, 1]),
          FixedSizeBinaryOp.Append [9, 10]] =
        some { base := { null_bitmap := some [53], null_count := 2, length := 6, capacity := 8 },
               byte_width := 2,
               byte_builder := { bytes := [1, 2, 0, 0, 3, 4, 5, 6, 7, 8, 9, 10],
                                 capacity := 16 } }) ∧
    (6 = (sessionRecords 2 [FixedSizeBinaryOp.Append [1, 2], FixedSizeBinaryOp.AppendNull,
        FixedSizeBinaryOp.AppendBulk [3, 4, 5, 6, 7, 8] 3 (some [1, 0, 1]),
        FixedSizeBinaryOp.Append [9, 10]]).length ∧
      [1, 2, 0, 0, 3, 4, 5, 6, 7, 8, 9, 10].length = 6 * 2 ∧
      ∀ (i : Nat) (record : List Nat),
        (sessionRecords 2 [FixedSizeBinaryOp.Append [1, 2], FixedSizeBinaryOp.AppendNull,
          FixedSizeBinaryOp.AppendBulk [3, 4, 5, 6, 7, 8] 3 (some [1, 0, 1]),
          FixedSizeBinaryOp.Append [9, 10]])[i]? = some (some record) →
        elementAt 2 [1, 2, 0, 0, 3, 4, 5, 6, 7, 8, 9, 10] i = record) :=
  ⟨⟨by decide, by decide⟩,
    FixedSizeBinaryBuilder_records 2
      [FixedSizeBinaryOp.Append [1, 2], FixedSizeBinaryOp.AppendNull,
        FixedSizeBinaryOp.AppendBulk [3, 4, 5, 6, 7, 8] 3 (some [1, 0, 1]),
        FixedSizeBinaryOp.Append [9, 10]]
      { base := { null_bitmap := some [53], null_count := 2, length := 6, capacity := 8 },
        byte_width := 2,
        byte_builder := { bytes := [1, 2, 0, 0, 3, 4, 5, 6, 7, 8, 9, 10], capacity := 16 } }
      (by decide) (by decide)⟩

/-! ## The sign bitmap of wide decimals -/

theorem DecimalBuilder_Init16 (d : DecimalBuilder) (c : Nat) (h16 : d.fsb.byte_width = 16) :
    d.Init c =
      some { fsb := { d.fsb with
               base := { d.fsb.base with
                 null_bitmap := some (List.replicate (CeilByte c / 8) 0), capacity := c },
               byte_builder := d.fsb.byte_builder.Resize (c * d.fsb.byte_width) },
             sign_bitmap := some (List.replicate (CeilByte c / 8) 0) } := by
  simp only [DecimalBuilder.Init, FixedSizeBinaryBuilder.Init, ArrayBuilder_Init_eq, h16, if_true]
  have e : PoolBuffer.Resize [] (List.replicate (CeilByte c / 8) 0).length =
      List.replicate (CeilByte c / 8) 0 := by
    simp [PoolBuffer.Resize]
  simp only [e]
  have e2 : memset (List.replicate (CeilByte c / 8) 0) 0 0
      (List.replicate (CeilByte c / 8) 0).length = some (List.replicate (CeilByte c / 8) 0) := by
    simp [memset]
  rw [e2]

theorem DecimalBuilder_Resize16 (d : DecimalBuilder) (bm sb : List Nat) (c : Nat)
    (h16 : d.fsb.byte_width = 16) (hbm : d.fsb.base.null_bitmap = some bm)
    (hsb : d.sign_bitmap = some sb) (hsl : sb.length = bm.length)
    (hle : bm.length ≤ CeilByte c / 8) :
    d.Resize c =
      some { fsb := { d.fsb with
               base := { d.fsb.base with
                 null_bitmap := some (bm ++ List.replicate (CeilByte c / 8 - bm.length) 0),
                 capacity := c },
               byte_builder := d.fsb.byte_builder.Resize (c * d.fsb.byte_width) },
             sign_bitmap := some (sb ++ List.replicate (CeilByte c / 8 - bm.length) 0) } := by
  have hl : (bm ++ List.replicate (CeilByte c / 8 - bm.length) 0).length = CeilByte c / 8 := by
    simp only [List.length_append, List.length_replicate]; omega
  have hg : PoolBuffer.Resize sb (CeilByte c / 8) =
      sb ++ List.replicate (CeilByte c / 8 - bm.length) 0 := by
    rw [PoolBuffer_Resize_grow sb _ (by omega), hsl]
  simp only [DecimalBuilder.Resize, hsb, hbm, DecimalBuilder.FixedSizeBinaryBuilder_Resize,
    DecimalBuilder.ArrayBuilder_Resize, ArrayBuilder_ResizeBitmap_grow _ _ _ hle, h16, if_true,
    hl, hg]
  by_cases hlt : bm.length < (sb ++ List.replicate (CeilByte c / 8 - bm.length) 0).length
  · rw [if_pos hlt]
    have e := memset_zero_tail sb (CeilByte c / 8 - bm.length)
    rw [hsl] at e
    have e3 : (sb ++ List.replicate (CeilByte c / 8 - bm.length) 0).length - bm.length =
        CeilByte c / 8 - bm.length := by
      simp only [List.length_append, List.length_replicate]; omega
    rw [e3, e]
  · rw [if_neg hlt]

theorem DecimalBuilder_Reserve16 (d : DecimalBuilder) (signs : List Bool)
    (hinv : d.Inv16 signs) :
    ∃ d1 bm sb, d.Reserve 1 = some d1 ∧ d1.fsb.byte_width = 16 ∧
      d1.fsb.base.length = d.fsb.base.length ∧
      d1.fsb.base.null_count = d.fsb.base.null_count ∧
      d.fsb.base.length + 1 ≤ d1.fsb.base.capacity ∧
      d1.fsb.base.null_bitmap = some bm ∧ d1.sign_bitmap = some sb ∧
      bm.length = CeilByte d1.fsb.base.capacity / 8 ∧ sb.length = bm.length ∧
      ∀ i, i < d.fsb.base.length → GetBit bm i = true ∧ GetBit sb i = signs.getD i false := by
  obtain ⟨h16, hlen, hle, hbuf⟩ := hinv
  by_cases hgt : d.fsb.base.length + 1 > d.fsb.base.capacity
  · have hne : d.Reserve 1 = d.Resize (NextPower2 (d.fsb.base.length + 1)) := by
      simp [DecimalBuilder.Reserve, hgt]
    have hge := NextPower2_ge (d.fsb.base.length + 1)
    generalize NextPower2 (d.fsb.base.length + 1) = c at hne hge
    rcases hbuf with ⟨hc0, hbm, hsb⟩ | ⟨bm, sb, hbm, hsb, hbl, hsl, hbits⟩
    · have e : d.Resize c = d.Init c := by simp [DecimalBuilder.Resize, hsb]
      rw [hne, e, DecimalBuilder_Init16 d c h16]
      refine ⟨_, _, _, rfl, h16, rfl, rfl, hge, rfl, rfl, by simp, rfl, fun i hi => ?_⟩
      omega
    · have hle2 : bm.length ≤ CeilByte c / 8 := by
        rw [hbl]; exact CeilByte_mono (by omega)
      rw [hne, DecimalBuilder_Resize16 d bm sb c h16 hbm hsb hsl hle2]
      refine ⟨_, _, _, rfl, h16, rfl, rfl, hge, rfl, rfl, ?_, ?_, fun i hi => ?_⟩
      · simp only [List.length_append, List.length_replicate]; omega
      · simp only [List.length_append, List.length_replicate]; omega
      · rw [GetBit_append_zeros, GetBit_append_zeros]
        exact hbits i hi
  · have hne : d.Reserve 1 = some d := by simp [DecimalBuilder.Reserve, hgt]
    rcases hbuf with ⟨hc0, hbm, hsb⟩ | ⟨bm, sb, hbm, hsb, hbl, hsl, hbits⟩
    · omega
    · exact ⟨d, bm, sb, hne, h16, rfl, rfl, by omega, hbm, hsb, hbl, hsl, hbits⟩

theorem DecimalBuilder_Append128_Inv (d : DecimalBuilder) (signs : List Bool)
    (bytes : List Nat) (is_negative : Bool) (hinv : d.Inv16 signs) :
    ∃ d1, d.Append128 bytes is_negative = some d1 ∧ d1.Inv16 (signs ++ [is_negative]) := by
  have hlen := hinv.2.1
  obtain ⟨d1, bm, sb, hr, h16, hl1, _, hcap1, hbm1, hsb1, hbl1, hsl1, hbits1⟩ :=
    DecimalBuilder_Reserve16 d signs hinv
  have hr2 : d1.Reserve 1 = some d1 := by
    simp only [DecimalBuilder.Reserve]
    rw [if_neg (by omega)]
  have hroom : d1.fsb.base.length < 8 * bm.length := by
    rw [hbl1, CeilByte_div]; omega
  obtain ⟨bm2, hs2, hl2, hg2⟩ := SetBit_some bm d1.fsb.base.length hroom
  obtain ⟨sb2, hs3, hl3, hg3⟩ := SetBitTo_some sb d1.fsb.base.length is_negative
    (by rw [hsl1]; exact hroom)
  refine ⟨{ fsb := { d1.fsb with
              base := { d1.fsb.base with null_bitmap := some bm2,
                                         length := d1.fsb.base.length + 1 },
              byte_builder := d1.fsb.byte_builder.Append (bytes.take d1.fsb.byte_width) },
            sign_bitmap := some sb2 }, ?_, ?_⟩
  · simp only [DecimalBuilder.Append128, hr, DecimalBuilder.FixedSizeBinaryBuilder_Append, hr2,
      ArrayBuilder.UnsafeAppendToBitmap, if_true, hbm1, hs2, hsb1, Nat.add_sub_cancel, hs3]
  · refine ⟨h16, ?_, ?_, Or.inr ⟨bm2, sb2, rfl, rfl, ?_, ?_, fun i hi => ?_⟩⟩
    · show d1.fsb.base.length + 1 = _
      simp only [List.length_append, List.length_singleton]; omega
    · show d1.fsb.base.length + 1 ≤ d1.fsb.base.capacity
      omega
    · show bm2.length = CeilByte d1.fsb.base.capacity / 8
      rw [hl2, hbl1]
    · rw [hl3, hl2, hsl1]
    · have hi2 : i < d1.fsb.base.length + 1 := hi
      rw [hg2, hg3]
      by_cases hi3 : i = d1.fsb.base.length
      · rw [if_pos hi3, if_pos hi3]
        refine ⟨rfl, ?_⟩
        have : i = signs.length := by omega
        subst this
        simp
      · rw [if_neg hi3, if_neg hi3]
        have hi4 : i < d.fsb.base.length := by omega
        obtain ⟨b1, b2⟩ := hbits1 i hi4
        refine ⟨b1, ?_⟩
        rw [b2]
        have : i < signs.length := by omega
        simp [List.getD_eq_getElem?_getD, List.getElem?_append_left this]

theorem DecimalBuilder_run128_Inv : ∀ (vs : List (List Nat × Bool)) (d : DecimalBuilder)
    (signs : List Bool), d.Inv16 signs →
    ∃ d1, d.run128 vs = some d1 ∧ d1.Inv16 (signs ++ vs.map Prod.snd) := by
  intro vs
  induction vs with
  | nil => intro d signs h; exact ⟨d, rfl, by simpa using h⟩
  | cons v vs ih =>
    intro d signs h
    obtain ⟨d1, h1, hinv1⟩ := DecimalBuilder_Append128_Inv d signs v.1 v.2 h
    obtain ⟨d2, h2, hinv2⟩ := ih d1 (signs ++ [v.2]) hinv1
    refine ⟨d2, by simp only [DecimalBuilder.run128, h1, h2], ?_⟩
    simpa [List.append_assoc] using hinv2

theorem DecimalBuilder_fresh_Reserve16 (k : Nat) :
    ∃ d0, (DecimalBuilder.fresh 16).Reserve k = some d0 ∧ d0.Inv16 [] ∧
      (0 < k → d0.sign_bitmap.isSome = true) := by
  by_cases hk : 0 < k
  · have h1 : (DecimalBuilder.fresh 16).fsb.base.length + k >
        (DecimalBuilder.fresh 16).fsb.base.capacity := by
      show 0 + k > 0
      omega
    have e : ∀ c, (DecimalBuilder.fresh 16).Resize c = (DecimalBuilder.fresh 16).Init c := by
      intro c; rfl
    unfold DecimalBuilder.Reserve
    rw [if_pos h1]
    generalize NextPower2 ((DecimalBuilder.fresh 16).fsb.base.length + k) = c
    rw [e, DecimalBuilder_Init16 _ c rfl]
    exact ⟨_, rfl, ⟨rfl, rfl, Nat.zero_le _, Or.inr ⟨_, _, rfl, rfl, by simp, rfl,
      fun i hi => absurd hi (Nat.not_lt_zero i)⟩⟩, fun _ => rfl⟩
  · have hk0 : k = 0 := by omega
    subst hk0
    exact ⟨DecimalBuilder.fresh 16, rfl, ⟨rfl, rfl, le_refl _, Or.inl ⟨rfl, rfl, rfl⟩⟩,
      fun h => absurd h (Nat.lt_irrefl 0)⟩

/-- C28: on a fresh decimal builder of byte width 16, after an initial
`Reserve(k)` (`k = 0` for none), every sequence of `Decimal128` appends
succeeds, whatever number of growths it goes through, and leaves one element
per value; for every `i < length` the sign bitmap bit `i` is set exactly when
the `i`-th value is negative, and the null bitmap bit `i` is set whatever the
sign. -/
theorem DecimalBuilder_sign_bitmap (k : Nat) (vs : List (List Nat × Bool)) :
    ∃ d0 d, (DecimalBuilder.fresh 16).Reserve k = some d0 ∧ d0.run128 vs = some d ∧
      d.fsb.base.length = vs.length ∧
      (vs ≠ [] → ∃ bm sb, d.fsb.base.null_bitmap = some bm ∧ d.sign_bitmap = some sb ∧
        ∀ i, i < vs.length →
          GetBit bm i = true ∧ (GetBit sb i = true ↔ (vs.map Prod.snd).getD i false = true)) := by
  obtain ⟨d0, hres, hinv0, _⟩ := DecimalBuilder_fresh_Reserve16 k
  obtain ⟨d, hrun, h16, hlen, hle, hbuf⟩ := DecimalBuilder_run128_Inv vs d0 [] hinv0
  rw [List.nil_append] at hlen hbuf
  rw [List.length_map] at hlen
  refine ⟨d0, d, hres, hrun, hlen, fun hne => ?_⟩
  have hpos : 0 < vs.length := by
    cases vs with
    | nil => exact absurd rfl hne
    | cons v vs => simp
  rcases hbuf with ⟨hc0, _, _⟩ | ⟨bm, sb, hbm, hsb, _, _, hbits⟩
  · omega
  · refine ⟨bm, sb, hbm, hsb, fun i hi => ?_⟩
    obtain ⟨b1, b2⟩ := hbits i (by omega)
    exact ⟨b1, by rw [b2]⟩

/-- Witness for C28: ten values appended without an initial reserve, every third
one negative; the capacity grows 1, 2, 4, 8, 16. -/
theorem DecimalBuilder_sign_bitmap_witness :
    ((DecimalBuilder.fresh 16).run128
        ((List.range 10).map (fun i => (List.replicate 16 i, i % 3 == 0)))).map
      (fun d => (d.fsb.base.null_bitmap, d.sign_bitmap, d.fsb.base.length,
        d.fsb.base.capacity)) = some (some [255, 3], some [73, 2], 10, 16) ∧
    ∃ d0 d, (DecimalBuilder.fresh 16).Reserve 0 = some d0 ∧
      d0.run128 ((List.range 10).map (fun i => (List.replicate 16 i, i % 3 == 0))) = some d ∧
      d.fsb.base.length = ((List.range 10).map (fun i => (List.replicate 16 i, i % 3 == 0))).length ∧
      (((List.range 10).map (fun i => (List.replicate 16 i, i % 3 == 0))) ≠ [] →
        ∃ bm sb, d.fsb.base.null_bitmap = some bm ∧ d.sign_bitmap = some sb ∧
          ∀ i, i < ((List.range 10).map (fun i => (List.replicate 16 i, i % 3 == 0))).length →
            GetBit bm i = true ∧
              (GetBit sb i = true ↔
                (((List.range 10).map (fun i => (List.replicate 16 i, i % 3 == 0))).map
                  Prod.snd).getD i false = true)) :=
  ⟨by set_option maxRecDepth 100000 in decide,
    DecimalBuilder_sign_bitmap 0 ((List.range 10).map (fun i => (List.replicate 16 i, i % 3 == 0)))⟩

/-! ## Offsets recorded by a list builder -/

theorem offsetBytes_append : ∀ (a b : List Int),
    offsetBytes (a ++ b) = offsetBytes a ++ offsetBytes b
  | [], b => rfl
  | x :: a, b => by simp [offsetBytes, offsetBytes_append a b]

theorem offsetBytes_length : ∀ (a : List Int), (offsetBytes a).length = 4 * a.length
  | [] => rfl
  | x :: a => by
    simp only [offsetBytes, List.length_append, toBytesLE_length, offsetBytes_length a,
      List.length_cons]
    ring

theorem loadInt_offsetBytes : ∀ (a : List Int) (i : Nat) (x : Int), a[i]? = some x →
    -(2 : Int) ^ 31 ≤ x → x < 2 ^ 31 → loadInt 4 (offsetBytes a) i = some x := by
  intro a
  induction a using List.reverseRecOn with
  | nil => intro i x h; simp at h
  | append_singleton a y ih =>
    intro i x h hlo hhi
    rw [offsetBytes_append]
    by_cases hi : i < a.length
    · rw [List.getElem?_append_left hi] at h
      rw [loadInt_append_left 4 _ _ i (by rw [offsetBytes_length]; omega)]
      exact ih i x h hlo hhi
    · have hlen : i < (a ++ [y]).length := (List.getElem?_eq_some_iff.mp h).1
      simp only [List.length_append, List.length_singleton] at hlen
      have hia : i = a.length := by omega
      subst hia
      simp only [List.getElem?_concat_length, Option.some.injEq] at h
      subst h
      simp only [offsetBytes, List.append_nil]
      exact loadInt_append_new 4 (by decide) _ a.length y (offsetBytes_length a) hlo hhi

theorem ListBuilder_apply_Recorded (l l1 : ListBuilder) (ks : List Nat) (op : ListOp)
    (hinv : l.Recorded ks) (hb : op.isBulk = false) (h : l.apply op = some l1) :
    ∃ ks1, l1.Recorded ks1 ∧ ∃ tail, ks1 = ks ++ tail := by
  obtain ⟨⟨vb, hvb, hwf, hks⟩, hsorted, hbytes, hlen, hcap, hbm⟩ := hinv
  cases op with
  | Append is_valid =>
    simp only [ListBuilder.apply] at h
    have hob : l.offset_builder.bytes.length ≤ 8 * (l.base.length + 1) := by
      rw [hbytes, offsetBytes_length, List.length_map, hlen]; omega
    obtain ⟨l2, h2, _, hvb2, hb2, hl2, hc2, hbm2, _⟩ :=
      ListBuilder_Append_spec l vb is_valid hvb hcap hbm hob
    rw [h2] at h
    cases h
    refine ⟨ks ++ [vb.base.length], ⟨⟨vb, by rw [hvb2, hvb], hwf, fun k hk => ?_⟩, ?_, ?_, ?_,
      hc2, hbm2⟩, [vb.base.length], rfl⟩
    · simp only [List.mem_append, List.mem_singleton] at hk
      rcases hk with hk | hk
      · exact hks k hk
      · omega
    · rw [List.pairwise_append]
      exact ⟨hsorted, List.pairwise_singleton _ _, fun a ha b hb => by
        simp only [List.mem_singleton] at hb; subst hb; exact hks a ha⟩
    · rw [hb2, hbytes, List.map_append, offsetBytes_append]
      simp [offsetBytes]
    · rw [hl2, hlen]; simp
  | Child batch =>
    simp only [ListBuilder.apply, hvb] at h
    split at h
    · rename_i vb1 hvb1
      cases h
      obtain ⟨_, _, _, hwf1, _, hl1, _⟩ := PrimitiveBuilder_Append_core vb vb1 _ _ _ hwf hvb1
      exact ⟨ks, ⟨⟨vb1, rfl, hwf1, fun k hk => by have := hks k hk; omega⟩, hsorted, hbytes, hlen,
        hcap, hbm⟩, [], by simp⟩
    · cases h
  | AppendBulk offsets n vbs => simp [ListOp.isBulk] at hb

theorem ListBuilder_runOps_Recorded : ∀ (ops : List ListOp) (l l1 : ListBuilder) (ks : List Nat),
    l.Recorded ks → (∀ op, op ∈ ops → op.isBulk = false) → l.runOps ops = some l1 →
    ∃ ks1, l1.Recorded ks1 := by
  intro ops
  induction ops with
  | nil =>
    intro l l1 ks hinv _ h
    simp only [ListBuilder.runOps] at h
    cases h
    exact ⟨ks, hinv⟩
  | cons op ops ih =>
    intro l l1 ks hinv hb h
    simp only [ListBuilder.runOps] at h
    split at h
    · rename_i l2 hl2
      obtain ⟨ks2, hinv2, _⟩ :=
        ListBuilder_apply_Recorded l l2 ks op hinv (hb op (List.mem_cons_self _ _)) hl2
      exact ih l2 l1 ks2 hinv2 (fun o ho => hb o (List.mem_cons_of_mem _ ho)) h
    · cases h

/-! ## Monotone offsets of a list builder -/

/-- C24 (offsets that decrease): a bulk append copies the caller's offsets as
they are; after `Append({5, 3}, 2, nullptr)` on a fresh list builder the
recorded offsets are 5, 3. A bulk append of the offset 0 after a boundary
recorded at child length 3 leaves 3, 0. -/
theorem ListBuilder_bulk_offsets_unchecked :
    ((ListBuilder.fresh (some (PrimitiveBuilder.fresh 1)) none).runOps
        [ListOp.AppendBulk [5, 3] 2 none]).map (fun l => (l.base.length, l.offsets 2)) =
      some (2, [some 5, some 3]) ∧
    ((ListBuilder.fresh (some (PrimitiveBuilder.fresh 1)) none).runOps
        [ListOp.Child ⟨[1, 2, 3], 3, none⟩, ListOp.Append true,
          ListOp.AppendBulk [0] 1 none]).map (fun l => (l.base.length, l.offsets 2)) =
      some (2, [some 3, some 0]) := by
  set_option maxRecDepth 100000 in decide

/-- C24 (offsets of boundary appends): in every state reached from a fresh list
builder over a primitive child builder by single boundary appends
`Append(is_valid)` interleaved with bulk appends to the child, with the child's
length below `2^31` (the range of the 32-bit offsets), the recorded offsets
`0 .. length - 1` are all readable and never decrease. -/
theorem ListBuilder_offsets_monotone (w : Nat) (values : Option PrimitiveArray)
    (ops : List ListOp) (l : ListBuilder)
    (hb : ∀ op, op ∈ ops → op.isBulk = false)
    (hrun : (ListBuilder.fresh (some (PrimitiveBuilder.fresh w)) values).runOps ops = some l)
    (hfit : ∀ vb, l.value_builder = some vb → vb.base.length < 2 ^ 31) :
    ∀ i j, i ≤ j → j < l.base.length →
      ∃ x y, loadInt 4 l.offset_builder.bytes i = some x ∧
        loadInt 4 l.offset_builder.bytes j = some y ∧ x ≤ y := by
  have h0 : (ListBuilder.fresh (some (PrimitiveBuilder.fresh w)) values).Recorded [] :=
    ⟨⟨PrimitiveBuilder.fresh w, rfl, PrimitiveBuilder_WF_fresh w, fun k hk => by simp at hk⟩,
      List.Pairwise.nil, rfl, rfl, le_refl _, rfl⟩
  obtain ⟨ks, ⟨vb, hvb, _, hks⟩, hsorted, hbytes, hlen, _, _⟩ :=
    ListBuilder_runOps_Recorded ops _ l [] h0 hb hrun
  have hlt := hfit vb hvb
  intro i j hij hj
  rw [hlen] at hj
  have hi : i < ks.length := by omega
  have hload : ∀ m (hm : m < ks.length),
      loadInt 4 l.offset_builder.bytes m = some (ks[m] : Int) := by
    intro m hm
    rw [hbytes]
    apply loadInt_offsetBytes
    · simp [List.getElem?_map, List.getElem?_eq_getElem hm]
    · have : (0 : Int) ≤ (ks[m] : Int) := Int.ofNat_nonneg _
      have : -(2 : Int) ^ 31 ≤ 0 := by norm_num
      omega
    · have h1 := hks ks[m] (List.getElem_mem _)
      have h2 : ks[m] < 2 ^ 31 := by omega
      exact_mod_cast h2
  refine ⟨_, _, hload i hi, hload j hj, ?_⟩
  by_cases he : i = j
  · subst he; exact le_refl _
  · have := (List.pairwise_iff_getElem.mp hsorted) i j hi hj (by omega)
    exact_mod_cast this

/-- Witness for C24: four boundary appends around two appends to a byte child
record the offsets 0, 3, 3, 5. -/
theorem ListBuilder_offsets_monotone_witness :
    ((∀ op, op ∈ ([ListOp.Append true, ListOp.Child ⟨[1, 2, 3], 3, none⟩, ListOp.Append false,
        ListOp.Append true, ListOp.Child ⟨[4, 5], 2, none⟩, ListOp.Append true] : List ListOp) → op.isBulk = false) ∧
      (ListBuilder.fresh (some (PrimitiveBuilder.fresh 1)) none).runOps
        [ListOp.Append true, ListOp.Child ⟨[1, 2, 3], 3, none⟩, ListOp.Append false,
        ListOp.Append true, ListOp.Child ⟨[4, 5], 2, none⟩, ListOp.Append true] = some ListBuilder.sample ∧
      (∀ vb, ListBuilder.sample.value_builder = some vb → vb.base.length < 2 ^ 31) ∧
      ListBuilder.sample.offsets 4 = [some 0, some 3, some 3, some 5]) ∧
    ∀ i j, i ≤ j → j < ListBuilder.sample.base.length →
      ∃ x y, loadInt 4 ListBuilder.sample.offset_builder.bytes i = some x ∧
        loadInt 4 ListBuilder.sample.offset_builder.bytes j = some y ∧ x ≤ y :=
  ⟨⟨by decide, by set_option maxRecDepth 100000 in decide,
      fun vb h => by cases h; decide, by decide⟩,
    ListBuilder_offsets_monotone 1 none
      [ListOp.Append true, ListOp.Child ⟨[1, 2, 3], 3, none⟩, ListOp.Append false,
        ListOp.Append true, ListOp.Child ⟨[4, 5], 2, none⟩, ListOp.Append true] ListBuilder.sample
      (by decide) (by set_option maxRecDepth 100000 in decide)
      (fun vb h => by cases h; decide)⟩

/-! ## Counters under a pool that can refuse: the primitive builder -/

theorem ArrayBuilder_TryInit_keeps (b : ArrayBuilder) (pool : List Bool) (c : Nat) :
    (b.TryInit pool c).Keeps
      (fun s => s.length = b.length ∧ s.null_count = b.null_count) := by
  unfold ArrayBuilder.TryInit
  simp only []
  generalize PoolBuffer.TryResize pool [] (CeilByte c / 8) = r
  rcases r with ⟨_ | bm, pool1⟩
  · exact ⟨rfl, rfl⟩
  · simp only []
    cases memset bm 0 0 bm.length with
    | none => trivial
    | some bm1 => exact ⟨rfl, rfl⟩

theorem ArrayBuilder_TryResizeBitmap_keeps (b : ArrayBuilder) (pool : List Bool) (bm : List Nat)
    (c : Nat) :
    (b.TryResizeBitmap pool bm c).Keeps
      (fun s => s.length = b.length ∧ s.null_count = b.null_count) := by
  unfold ArrayBuilder.TryResizeBitmap
  simp only []
  generalize PoolBuffer.TryResize pool bm (CeilByte c / 8) = r
  rcases r with ⟨_ | bm1, pool1⟩
  · exact ⟨rfl, rfl⟩
  · simp only []
    split
    · cases memset bm1 bm.length 0 (bm1.length - bm.length) with
      | none => trivial
      | some bm2 => exact ⟨rfl, rfl⟩
    · exact ⟨rfl, rfl⟩

theorem PrimitiveBuilder_TryInit_keeps (p : PrimitiveBuilder) (pool : List Bool) (c : Nat) :
    (p.TryInit pool c).Keeps
      (fun s => s.base.length = p.base.length ∧ s.base.null_count = p.base.null_count) := by
  unfold PrimitiveBuilder.TryInit
  have h := ArrayBuilder_TryInit_keeps p.base pool c
  cases hr : p.base.TryInit pool c with
  | fault => trivial
  | oom b1 => rw [hr] at h; exact h
  | ok b1 pool1 =>
    rw [hr] at h
    simp only []
    generalize PoolBuffer.TryResize pool1 [] (bytes_required p.width c) = r
    rcases r with ⟨_ | d, pool2⟩
    · exact h
    · simp only []
      cases memset d 0 0 (bytes_required p.width c) with
      | none => trivial
      | some d1 => exact h

theorem PrimitiveBuilder_TryResize_keeps (p : PrimitiveBuilder) (pool : List Bool) (c0 : Nat) :
    (p.TryResize pool c0).Keeps
      (fun s => s.base.length = p.base.length ∧ s.base.null_count = p.base.null_count) := by
  unfold PrimitiveBuilder.TryResize
  simp only []
  generalize (if c0 < kMinBuilderCapacity then kMinBuilderCapacity else c0) = c
  split
  · exact PrimitiveBuilder_TryInit_keeps p pool c
  · have h : (p.TryArrayBuilder_Resize pool c).Keeps
        (fun s => s.base.length = p.base.length ∧ s.base.null_count = p.base.null_count) := by
      unfold PrimitiveBuilder.TryArrayBuilder_Resize
      cases hbm : p.base.null_bitmap with
      | none => exact PrimitiveBuilder_TryInit_keeps p pool c
      | some bm =>
        simp only []
        have h2 := ArrayBuilder_TryResizeBitmap_keeps p.base pool bm c
        cases hr : p.base.TryResizeBitmap pool bm c with
        | fault => trivial
        | oom b1 => rw [hr] at h2; exact h2
        | ok b1 pool1 => rw [hr] at h2; exact h2
    cases hr : p.TryArrayBuilder_Resize pool c with
    | fault => trivial
    | oom p1 => rw [hr] at h; exact h
    | ok p1 pool1 =>
      rw [hr] at h
      simp only []
      cases p1.data with
      | none => trivial
      | some d =>
        simp only []
        generalize PoolBuffer.TryResize pool1 d (bytes_required p1.width c) = r
        rcases r with ⟨_ | d1, pool2⟩
        · exact h
        · simp only []
          split
          · trivial
          · cases memset d1 d.length 0 (bytes_required p1.width c - d.length) with
            | none => trivial
            | some d2 => exact h

theorem PrimitiveBuilder_TryAppend_oom (p s : PrimitiveBuilder) (pool : List Bool)
    (values : List Nat) (n : Nat) (vb : Option (List Nat))
    (h : p.TryAppend pool values n vb = Alloc.oom s) :
    s.base.length = p.base.length ∧ s.base.null_count = p.base.null_count := by
  unfold PrimitiveBuilder.TryAppend at h
  have hk : (p.TryReserve pool n).Keeps
      (fun s => s.base.length = p.base.length ∧ s.base.null_count = p.base.null_count) := by
    unfold PrimitiveBuilder.TryReserve
    split
    · exact PrimitiveBuilder_TryResize_keeps p pool _
    · exact ⟨rfl, rfl⟩
  cases hr : p.TryReserve pool n with
  | fault => rw [hr] at h; cases h
  | oom p1 => rw [hr] at h hk; cases h; exact hk
  | ok p1 pool1 =>
    rw [hr] at h
    simp only [] at h
    split at h
    · cases h
    · split at h
      · cases h
      · cases h

/-! ## Counters under a pool that can refuse: the boolean and adaptive builders -/

theorem BooleanBuilder_TryInit_keeps (p : BooleanBuilder) (pool : List Bool) (c : Nat) :
    (p.TryInit pool c).Keeps
      (fun s => s.base.length = p.base.length ∧ s.base.null_count = p.base.null_count) := by
  unfold BooleanBuilder.TryInit
  have h := ArrayBuilder_TryInit_keeps p.base pool c
  cases hr : p.base.TryInit pool c with
  | fault => trivial
  | oom b1 => rw [hr] at h; exact h
  | ok b1 pool1 =>
    rw [hr] at h
    simp only []
    generalize PoolBuffer.TryResize pool1 [] (BytesForBits c) = r
    rcases r with ⟨_ | d, pool2⟩
    · exact h
    · simp only []
      cases memset d 0 0 (BytesForBits c) with
      | none => trivial
      | some d1 => exact h

theorem BooleanBuilder_TryResize_keeps (p : BooleanBuilder) (pool : List Bool) (c0 : Nat) :
    (p.TryResize pool c0).Keeps
      (fun s => s.base.length = p.base.length ∧ s.base.null_count = p.base.null_count) := by
  unfold BooleanBuilder.TryResize
  simp only []
  generalize (if c0 < kMinBuilderCapacity then kMinBuilderCapacity else c0) = c
  split
  · exact BooleanBuilder_TryInit_keeps p pool c
  · have h : (p.TryArrayBuilder_Resize pool c).Keeps
        (fun s => s.base.length = p.base.length ∧ s.base.null_count = p.base.null_count) := by
      unfold BooleanBuilder.TryArrayBuilder_Resize
      cases hbm : p.base.null_bitmap with
      | none => exact BooleanBuilder_TryInit_keeps p pool c
      | some bm =>
        simp only []
        have h2 := ArrayBuilder_TryResizeBitmap_keeps p.base pool bm c
        cases hr : p.base.TryResizeBitmap pool bm c with
        | fault => trivial
        | oom b1 => rw [hr] at h2; exact h2
        | ok b1 pool1 => rw [hr] at h2; exact h2
    cases hr : p.TryArrayBuilder_Resize pool c with
    | fault => trivial
    | oom p1 => rw [hr] at h; exact h
    | ok p1 pool1 =>
      rw [hr] at h
      simp only []
      cases p1.data with
      | none => trivial
      | some d =>
        simp only []
        generalize PoolBuffer.TryResize pool1 d (BytesForBits c) = r
        rcases r with ⟨_ | d1, pool2⟩
        · exact h
        · simp only []
          split
          · trivial
          · cases memset d1 d.length 0 (BytesForBits c - d.length) with
            | none => trivial
            | some d2 => exact h

theorem BooleanBuilder_TryAppend_oom (p s : BooleanBuilder) (pool : List Bool)
    (values : List Nat) (n : Nat) (vb : Option (List Nat))
    (h : p.TryAppend pool values n vb = Alloc.oom s) :
    s.base.length = p.base.length ∧ s.base.null_count = p.base.null_count := by
  unfold BooleanBuilder.TryAppend at h
  have hk : (p.TryReserve pool n).Keeps
      (fun s => s.base.length = p.base.length ∧ s.base.null_count = p.base.null_count) := by
    unfold BooleanBuilder.TryReserve
    split
    · exact BooleanBuilder_TryResize_keeps p pool _
    · exact ⟨rfl, rfl⟩
  cases hr : p.TryReserve pool n with
  | fault => rw [hr] at h; cases h
  | oom p1 => rw [hr] at h hk; cases h; exact hk
  | ok p1 pool1 =>
    rw [hr] at h
    simp only [] at h
    split at h
    · cases h
    · split at h
      · cases h
      · cases h

theorem AdaptiveIntBuilder_TryInit_keeps (a : AdaptiveIntBuilder) (pool : List Bool) (c : Nat) :
    (a.TryInit pool c).Keeps
      (fun s => s.base.length = a.base.length ∧ s.base.null_count = a.base.null_count) := by
  unfold AdaptiveIntBuilder.TryInit
  have h := ArrayBuilder_TryInit_keeps a.base pool c
  cases hr : a.base.TryInit pool c with
  | fault => trivial
  | oom b1 => rw [hr] at h; exact h
  | ok b1 pool1 =>
    rw [hr] at h
    simp only []
    generalize PoolBuffer.TryResize pool1 [] (c * a.int_size) = r
    rcases r with ⟨_ | d, pool2⟩
    · exact h
    · simp only []
      cases memset d 0 0 (c * a.int_size) with
      | none => trivial
      | some d1 => exact h

theorem AdaptiveIntBuilder_TryResize_keeps (a : AdaptiveIntBuilder) (pool : List Bool)
    (c0 : Nat) :
    (a.TryResize pool c0).Keeps
      (fun s => s.base.length = a.base.length ∧ s.base.null_count = a.base.null_count) := by
  unfold AdaptiveIntBuilder.TryResize
  simp only []
  generalize (if c0 < kMinBuilderCapacity then kMinBuilderCapacity else c0) = c
  split
  · exact AdaptiveIntBuilder_TryInit_keeps a pool c
  · have h : (a.TryArrayBuilder_Resize pool c).Keeps
        (fun s => s.base.length = a.base.length ∧ s.base.null_count = a.base.null_count) := by
      unfold AdaptiveIntBuilder.TryArrayBuilder_Resize
      cases hbm : a.base.null_bitmap with
      | none => exact AdaptiveIntBuilder_TryInit_keeps a pool c
      | some bm =>
        simp only []
        have h2 := ArrayBuilder_TryResizeBitmap_keeps a.base pool bm c
        cases hr : a.base.TryResizeBitmap pool bm c with
        | fault => trivial
        | oom b1 => rw [hr] at h2; exact h2
        | ok b1 pool1 => rw [hr] at h2; exact h2
    cases hr : a.TryArrayBuilder_Resize pool c with
    | fault => trivial
    | oom a1 => rw [hr] at h; exact h
    | ok a1 pool1 =>
      rw [hr] at h
      simp only []
      cases a1.data with
      | none => trivial
      | some d =>
        simp only []
        generalize PoolBuffer.TryResize pool1 d (c * a1.int_size) = r
        rcases r with ⟨_ | d1, pool2⟩
        · exact h
        · simp only []
          split
          · trivial
          · cases memset d1 d.length 0 (c * a1.int_size - d.length) with
            | none => trivial
            | some d2 => exact h

theorem AdaptiveIntBuilder_TryReserve_keeps (a : AdaptiveIntBuilder) (pool : List Bool)
    (n : Nat) :
    (a.TryReserve pool n).Keeps
      (fun s => s.base.length = a.base.length ∧ s.base.null_count = a.base.null_count) := by
  unfold AdaptiveIntBuilder.TryReserve
  split
  · exact AdaptiveIntBuilder_TryResize_keeps a pool _
  · exact ⟨rfl, rfl⟩

theorem AdaptiveIntBuilder_TryExpandIntSize_keeps (a : AdaptiveIntBuilder) (pool : List Bool)
    (w : Nat) :
    (a.TryExpandIntSize pool w).Keeps
      (fun s => s.base.length = a.base.length ∧ s.base.null_count = a.base.null_count) := by
  unfold AdaptiveIntBuilder.TryExpandIntSize
  split
  · unfold AdaptiveIntBuilder.TryExpandIntSizeN
    split
    · unfold AdaptiveIntBuilder.TryExpandIntSizeInternal
      split
      · exact ⟨rfl, rfl⟩
      · cases a.data with
        | none => trivial
        | some d =>
          simp only []
          have h := AdaptiveIntBuilder_TryResize_keeps { base := a.base, data := some d, int_size := w } pool
            (d.length / a.int_size)
          cases hr : AdaptiveIntBuilder.TryResize { base := a.base, data := some d, int_size := w } pool
              (d.length / a.int_size) with
          | fault => trivial
          | oom a2 => rw [hr] at h; exact h
          | ok a2 pool1 =>
            rw [hr] at h
            simp only []
            cases a2.data with
            | none => trivial
            | some d2 =>
              simp only []
              cases copyBackward a.int_size w a2.base.length d2 with
              | none => trivial
              | some d3 => exact h
    · exact ⟨rfl, rfl⟩
  · exact ⟨rfl, rfl⟩

theorem AdaptiveIntBuilder_TryAppend_oom (a s : AdaptiveIntBuilder) (pool : List Bool)
    (values : List Int) (n : Nat) (vb : Option (List Nat))
    (h : a.TryAppend pool values n vb = Alloc.oom s) :
    s.base.length = a.base.length ∧ s.base.null_count = a.base.null_count := by
  unfold AdaptiveIntBuilder.TryAppend at h
  have hk := AdaptiveIntBuilder_TryReserve_keeps a pool n
  cases hr : a.TryReserve pool n with
  | fault => rw [hr] at h; cases h
  | oom a1 => rw [hr] at h hk; cases h; exact hk
  | ok a1 pool1 =>
    rw [hr] at h hk
    simp only [] at h
    have hk2 : (a1.tryExpandFor pool1 values n vb).Keeps
        (fun s => s.base.length = a1.base.length ∧ s.base.null_count = a1.base.null_count) := by
      unfold AdaptiveIntBuilder.tryExpandFor
      split
      · cases expandedSizeLoop values vb n 0 a1.int_size with
        | none => trivial
        | some w =>
          simp only []
          split
          · exact AdaptiveIntBuilder_TryExpandIntSize_keeps a1 pool1 w
          · exact ⟨rfl, rfl⟩
      · exact ⟨rfl, rfl⟩
    cases hr2 : a1.tryExpandFor pool1 values n vb with
    | fault => rw [hr2] at h; cases h
    | oom a2 =>
      rw [hr2] at h hk2; cases h
      exact ⟨hk2.1.trans hk.1, hk2.2.trans hk.2⟩
    | ok a2 pool2 =>
      rw [hr2] at h
      simp only [] at h
      split at h
      · cases h
      · split at h
        · cases h
        · cases h

theorem AdaptiveUIntBuilder_TryExpandIntSize_keeps (a : AdaptiveIntBuilder) (pool : List Bool)
    (w : Nat) :
    (AdaptiveUIntBuilder.TryExpandIntSize a pool w).Keeps
      (fun s => s.base.length = a.base.length ∧ s.base.null_count = a.base.null_count) := by
  unfold AdaptiveUIntBuilder.TryExpandIntSize
  split
  · unfold AdaptiveUIntBuilder.TryExpandIntSizeN
    split
    · unfold AdaptiveUIntBuilder.TryExpandIntSizeInternal
      split
      · exact ⟨rfl, rfl⟩
      · cases a.data with
        | none => trivial
        | some d =>
          simp only []
          have h := AdaptiveIntBuilder_TryResize_keeps { base := a.base, data := some d, int_size := w } pool
            (d.length / a.int_size)
          cases hr : AdaptiveIntBuilder.TryResize { base := a.base, data := some d, int_size := w } pool
              (d.length / a.int_size) with
          | fault => trivial
          | oom a2 => rw [hr] at h; exact h
          | ok a2 pool1 =>
            rw [hr] at h
            simp only []
            cases a2.data with
            | none => trivial
            | some d2 =>
              simp only []
              cases copyBackwardU a.int_size w a2.base.length d2 with
              | none => trivial
              | some d3 => exact h
    · exact ⟨rfl, rfl⟩
  · exact ⟨rfl, rfl⟩

theorem AdaptiveUIntBuilder_TryAppend_oom (a s : AdaptiveIntBuilder) (pool : List Bool)
    (values : List Nat) (n : Nat) (vb : Option (List Nat))
    (h : AdaptiveUIntBuilder.TryAppend a pool values n vb = Alloc.oom s) :
    s.base.length = a.base.length ∧ s.base.null_count = a.base.null_count := by
  unfold AdaptiveUIntBuilder.TryAppend at h
  have hk := AdaptiveIntBuilder_TryReserve_keeps a pool n
  cases hr : a.TryReserve pool n with
  | fault => rw [hr] at h; cases h
  | oom a1 => rw [hr] at h hk; cases h; exact hk
  | ok a1 pool1 =>
    rw [hr] at h hk
    simp only [] at h
    have hk2 : (AdaptiveUIntBuilder.tryExpandFor a1 pool1 values n vb).Keeps
        (fun s => s.base.length = a1.base.length ∧ s.base.null_count = a1.base.null_count) := by
      unfold AdaptiveUIntBuilder.tryExpandFor
      split
      · cases expandedUIntSizeLoop values vb n 0 a1.int_size with
        | none => trivial
        | some w =>
          simp only []
          split
          · exact AdaptiveUIntBuilder_TryExpandIntSize_keeps a1 pool1 w
          · exact ⟨rfl, rfl⟩
      · exact ⟨rfl, rfl⟩
    cases hr2 : AdaptiveUIntBuilder.tryExpandFor a1 pool1 values n vb with
    | fault => rw [hr2] at h; cases h
    | oom a2 =>
      rw [hr2] at h hk2; cases h
      exact ⟨hk2.1.trans hk.1, hk2.2.trans hk.2⟩
    | ok a2 pool2 =>
      rw [hr2] at h
      simp only [] at h
      split at h
      · cases h
      · split at h
        · cases h
        · cases h

/-! ## A pool that never refuses gives the calls of the builders -/

theorem ArrayBuilder_TryInit_nil (b : ArrayBuilder) (c : Nat) :
    b.TryInit [] c = Alloc.ofOption (b.Init c) := by
  unfold ArrayBuilder.TryInit ArrayBuilder.Init
  simp only [PoolBuffer.TryResize]
  cases memset (PoolBuffer.Resize [] (CeilByte c / 8)) 0 0
    (PoolBuffer.Resize [] (CeilByte c / 8)).length <;> rfl

theorem ArrayBuilder_TryResizeBitmap_nil (b : ArrayBuilder) (bm : List Nat) (c : Nat) :
    b.TryResizeBitmap [] bm c = Alloc.ofOption (b.ResizeBitmap bm c) := by
  unfold ArrayBuilder.TryResizeBitmap ArrayBuilder.ResizeBitmap
  simp only [PoolBuffer.TryResize]
  split
  · cases memset (PoolBuffer.Resize bm (CeilByte c / 8)) bm.length 0
      ((PoolBuffer.Resize bm (CeilByte c / 8)).length - bm.length) <;> rfl
  · rfl

theorem PrimitiveBuilder_TryInit_nil (p : PrimitiveBuilder) (c : Nat) :
    p.TryInit [] c = Alloc.ofOption (p.Init c) := by
  unfold PrimitiveBuilder.TryInit PrimitiveBuilder.Init
  rw [ArrayBuilder_TryInit_nil]
  cases p.base.Init c with
  | none => rfl
  | some b1 =>
    simp only [Alloc.ofOption, PoolBuffer.TryResize]
    cases memset (PoolBuffer.Resize [] (bytes_required p.width c)) 0 0
      (bytes_required p.width c) <;> rfl

theorem PrimitiveBuilder_TryResize_nil (p : PrimitiveBuilder) (c : Nat) :
    p.TryResize [] c = Alloc.ofOption (p.Resize c) := by
  unfold PrimitiveBuilder.TryResize PrimitiveBuilder.Resize
  simp only []
  generalize (if c < kMinBuilderCapacity then kMinBuilderCapacity else c) = c1
  split
  · exact PrimitiveBuilder_TryInit_nil p c1
  · have h : p.TryArrayBuilder_Resize [] c1 = Alloc.ofOption (p.ArrayBuilder_Resize c1) := by
      unfold PrimitiveBuilder.TryArrayBuilder_Resize PrimitiveBuilder.ArrayBuilder_Resize
      cases p.base.null_bitmap with
      | none => exact PrimitiveBuilder_TryInit_nil p c1
      | some bm =>
        simp only []
        rw [ArrayBuilder_TryResizeBitmap_nil]
        cases p.base.ResizeBitmap bm c1 <;> rfl
    rw [h]
    cases p.ArrayBuilder_Resize c1 with
    | none => rfl
    | some p1 =>
      simp only [Alloc.ofOption]
      cases p1.data with
      | none => rfl
      | some d =>
        simp only [PoolBuffer.TryResize]
        split
        · rfl
        · cases memset (PoolBuffer.Resize d (bytes_required p1.width c1)) d.length 0
            (bytes_required p1.width c1 - d.length) <;> rfl

theorem PrimitiveBuilder_TryAppend_nil (p : PrimitiveBuilder) (values : List Nat) (n : Nat)
    (vb : Option (List Nat)) :
    p.TryAppend [] values n vb = Alloc.ofOption (p.Append values n vb) := by
  unfold PrimitiveBuilder.TryAppend PrimitiveBuilder.Append
  have h : p.TryReserve [] n = Alloc.ofOption (p.Reserve n) := by
    unfold PrimitiveBuilder.TryReserve PrimitiveBuilder.Reserve
    split
    · exact PrimitiveBuilder_TryResize_nil p _
    · rfl
  rw [h]
  cases p.Reserve n with
  | none => rfl
  | some p1 =>
    simp only [Alloc.ofOption]
    split
    · rfl
    · cases p1.base.UnsafeAppendToBitmapBulk vb n <;> rfl

theorem BooleanBuilder_TryInit_nil (p : BooleanBuilder) (c : Nat) :
    p.TryInit [] c = Alloc.ofOption (p.Init c) := by
  unfold BooleanBuilder.TryInit BooleanBuilder.Init
  rw [ArrayBuilder_TryInit_nil]
  cases p.base.Init c with
  | none => rfl
  | some b1 =>
    simp only [Alloc.ofOption, PoolBuffer.TryResize]
    cases memset (PoolBuffer.Resize [] (BytesForBits c)) 0 0 (BytesForBits c) <;> rfl

theorem BooleanBuilder_TryResize_nil (p : BooleanBuilder) (c : Nat) :
    p.TryResize [] c = Alloc.ofOption (p.Resize c) := by
  unfold BooleanBuilder.TryResize BooleanBuilder.Resize
  simp only []
  generalize (if c < kMinBuilderCapacity then kMinBuilderCapacity else c) = c1
  split
  · exact BooleanBuilder_TryInit_nil p c1
  · have h : p.TryArrayBuilder_Resize [] c1 = Alloc.ofOption (p.ArrayBuilder_Resize c1) := by
      unfold BooleanBuilder.TryArrayBuilder_Resize BooleanBuilder.ArrayBuilder_Resize
      cases p.base.null_bitmap with
      | none => exact BooleanBuilder_TryInit_nil p c1
      | some bm =>
        simp only []
        rw [ArrayBuilder_TryResizeBitmap_nil]
        cases p.base.ResizeBitmap bm c1 <;> rfl
    rw [h]
    cases p.ArrayBuilder_Resize c1 with
    | none => rfl
    | some p1 =>
      simp only [Alloc.ofOption]
      cases p1.data with
      | none => rfl
      | some d =>
        simp only [PoolBuffer.TryResize]
        split
        · rfl
        · cases memset (PoolBuffer.Resize d (BytesForBits c1)) d.length 0
            (BytesForBits c1 - d.length) <;> rfl

theorem BooleanBuilder_TryAppend_nil (p : BooleanBuilder) (values : List Nat) (n : Nat)
    (vb : Option (List Nat)) :
    p.TryAppend [] values n vb = Alloc.ofOption (p.Append values n vb) := by
  unfold BooleanBuilder.TryAppend BooleanBuilder.Append
  have h : p.TryReserve [] n = Alloc.ofOption (p.Reserve n) := by
    unfold BooleanBuilder.TryReserve BooleanBuilder.Reserve
    split
    · exact BooleanBuilder_TryResize_nil p _
    · rfl
  rw [h]
  cases p.Reserve n with
  | none => rfl
  | some p1 =>
    simp only [Alloc.ofOption]
    cases BooleanBuilder.appendLoop values vb p1.base.length n 0 (p1.data.getD []) with
    | none => rfl
    | some d1 =>
      simp only []
      cases p1.base.UnsafeAppendToBitmapBulk vb n <;> rfl

theorem AdaptiveIntBuilder_TryInit_nil (a : AdaptiveIntBuilder) (c : Nat) :
    a.TryInit [] c = Alloc.ofOption (a.Init c) := by
  unfold AdaptiveIntBuilder.TryInit AdaptiveIntBuilder.Init
  rw [ArrayBuilder_TryInit_nil]
  cases a.base.Init c with
  | none => rfl
  | some b1 =>
    simp only [Alloc.ofOption, PoolBuffer.TryResize]
    cases memset (PoolBuffer.Resize [] (c * a.int_size)) 0 0 (c * a.int_size) <;> rfl

theorem AdaptiveIntBuilder_TryResize_nil (a : AdaptiveIntBuilder) (c : Nat) :
    a.TryResize [] c = Alloc.ofOption (a.Resize c) := by
  unfold AdaptiveIntBuilder.TryResize AdaptiveIntBuilder.Resize
  simp only []
  generalize (if c < kMinBuilderCapacity then kMinBuilderCapacity else c) = c1
  split
  · exact AdaptiveIntBuilder_TryInit_nil a c1
  · have h : a.TryArrayBuilder_Resize [] c1 = Alloc.ofOption (a.ArrayBuilder_Resize c1) := by
      unfold AdaptiveIntBuilder.TryArrayBuilder_Resize AdaptiveIntBuilder.ArrayBuilder_Resize
      cases a.base.null_bitmap with
      | none => exact AdaptiveIntBuilder_TryInit_nil a c1
      | some bm =>
        simp only []
        rw [ArrayBuilder_TryResizeBitmap_nil]
        cases a.base.ResizeBitmap bm c1 <;> rfl
    rw [h]
    cases a.ArrayBuilder_Resize c1 with
    | none => rfl
    | some a1 =>
      simp only [Alloc.ofOption]
      cases a1.data with
      | none => rfl
      | some d =>
        simp only [PoolBuffer.TryResize]
        split
        · rfl
        · cases memset (PoolBuffer.Resize d (c1 * a1.int_size)) d.length 0
            (c1 * a1.int_size - d.length) <;> rfl

theorem AdaptiveIntBuilder_TryReserve_nil (a : AdaptiveIntBuilder) (n : Nat) :
    a.TryReserve [] n = Alloc.ofOption (a.Reserve n) := by
  unfold AdaptiveIntBuilder.TryReserve AdaptiveIntBuilder.Reserve
  split
  · exact AdaptiveIntBuilder_TryResize_nil a _
  · rfl

theorem AdaptiveIntBuilder_TryExpandIntSize_nil (a : AdaptiveIntBuilder) (w : Nat) :
    a.TryExpandIntSize [] w = Alloc.ofOption (a.ExpandIntSize w) := by
  unfold AdaptiveIntBuilder.TryExpandIntSize AdaptiveIntBuilder.ExpandIntSize
  split
  · unfold AdaptiveIntBuilder.TryExpandIntSizeN AdaptiveIntBuilder.ExpandIntSizeN
    split
    · unfold AdaptiveIntBuilder.TryExpandIntSizeInternal AdaptiveIntBuilder.ExpandIntSizeInternal
      split
      · rfl
      · cases a.data with
        | none => rfl
        | some d =>
          simp only []
          rw [AdaptiveIntBuilder_TryResize_nil]
          cases AdaptiveIntBuilder.Resize { base := a.base, data := some d, int_size := w }
              (d.length / a.int_size) with
          | none => rfl
          | some a2 =>
            simp only [Alloc.ofOption]
            cases a2.data with
            | none => rfl
            | some d2 =>
              simp only []
              cases copyBackward a.int_size w a2.base.length d2 <;> rfl
    · rfl
  · rfl

theorem AdaptiveIntBuilder_TryAppend_nil (a : AdaptiveIntBuilder) (values : List Int) (n : Nat)
    (vb : Option (List Nat)) :
    a.TryAppend [] values n vb = Alloc.ofOption (a.Append values n vb) := by
  unfold AdaptiveIntBuilder.TryAppend AdaptiveIntBuilder.Append
  rw [AdaptiveIntBuilder_TryReserve_nil]
  cases a.Reserve n with
  | none => rfl
  | some a1 =>
    simp only [Alloc.ofOption]
    have h : a1.tryExpandFor [] values n vb = Alloc.ofOption (a1.expandFor values n vb) := by
      unfold AdaptiveIntBuilder.tryExpandFor AdaptiveIntBuilder.expandFor
      split
      · cases expandedSizeLoop values vb n 0 a1.int_size with
        | none => rfl
        | some w =>
          simp only []
          split
          · exact AdaptiveIntBuilder_TryExpandIntSize_nil a1 w
          · rfl
      · rfl
    rw [h]
    cases a1.expandFor values n vb with
    | none => rfl
    | some a2 =>
      simp only [Alloc.ofOption]
      cases a2.storeValues values n with
      | none => rfl
      | some data1 =>
        simp only []
        cases a2.base.UnsafeAppendToBitmapBulk vb n <;> rfl

theorem AdaptiveUIntBuilder_TryExpandIntSize_nil (a : AdaptiveIntBuilder) (w : Nat) :
    AdaptiveUIntBuilder.TryExpandIntSize a [] w
      = Alloc.ofOption (AdaptiveUIntBuilder.ExpandIntSize a w) := by
  unfold AdaptiveUIntBuilder.TryExpandIntSize AdaptiveUIntBuilder.ExpandIntSize
  split
  · unfold AdaptiveUIntBuilder.TryExpandIntSizeN AdaptiveUIntBuilder.ExpandIntSizeN
    split
    · unfold AdaptiveUIntBuilder.TryExpandIntSizeInternal
        AdaptiveUIntBuilder.ExpandIntSizeInternal
      split
      · rfl
      · cases a.data with
        | none => rfl
        | some d =>
          simp only []
          rw [AdaptiveIntBuilder_TryResize_nil]
          cases AdaptiveIntBuilder.Resize { base := a.base, data := some d, int_size := w }
              (d.length / a.int_size) with
          | none => rfl
          | some a2 =>
            simp only [Alloc.ofOption]
            cases a2.data with
            | none => rfl
            | some d2 =>
              simp only []
              cases copyBackwardU a.int_size w a2.base.length d2 <;> rfl
    · rfl
  · rfl

theorem AdaptiveUIntBuilder_TryAppend_nil (a : AdaptiveIntBuilder) (values : List Nat) (n : Nat)
    (vb : Option (List Nat)) :
    AdaptiveUIntBuilder.TryAppend a [] values n vb
      = Alloc.ofOption (AdaptiveUIntBuilder.Append a values n vb) := by
  unfold AdaptiveUIntBuilder.TryAppend AdaptiveUIntBuilder.Append
  rw [AdaptiveIntBuilder_TryReserve_nil]
  cases a.Reserve n with
  | none => rfl
  | some a1 =>
    simp only [Alloc.ofOption]
    have h : AdaptiveUIntBuilder.tryExpandFor a1 [] values n vb
        = Alloc.ofOption (AdaptiveUIntBuilder.expandFor a1 values n vb) := by
      unfold AdaptiveUIntBuilder.tryExpandFor AdaptiveUIntBuilder.expandFor
      split
      · cases expandedUIntSizeLoop values vb n 0 a1.int_size with
        | none => rfl
        | some w =>
          simp only []
          split
          · exact AdaptiveUIntBuilder_TryExpandIntSize_nil a1 w
          · rfl
      · rfl
    rw [h]
    cases AdaptiveUIntBuilder.expandFor a1 values n vb with
    | none => rfl
    | some a2 =>
      simp only [Alloc.ofOption]
      cases AdaptiveUIntBuilder.storeValues a2 values n with
      | none => rfl
      | some data1 =>
        simp only []
        cases a2.base.UnsafeAppendToBitmapBulk vb n <;> rfl

/-! ## Allocation errors leave the counters alone -/

theorem Alloc_ofOption_state {σ : Type} (o : Option σ) : (Alloc.ofOption o).state = o := by
  cases o <;> rfl

/-- C30: with a memory pool that can refuse any resize, a bulk `Append` of a
`PrimitiveBuilder`, of a `BooleanBuilder`, of the signed and of the unsigned
adaptive integer builder that ends with the allocation error leaves
`length_` and `null_count_` as they were before the call, whichever resize was
refused (the bitmap or the value buffer, in `Reserve` or in the width
expansion). With a pool that never refuses, these calls are the `Append` of each
builder. -/
theorem Append_allocation_error_keeps_counters :
    (∀ (p s : PrimitiveBuilder) (pool : List Bool) (values : List Nat) (n : Nat)
        (vb : Option (List Nat)), p.TryAppend pool values n vb = Alloc.oom s →
        s.base.length = p.base.length ∧ s.base.null_count = p.base.null_count) ∧
    (∀ (p s : BooleanBuilder) (pool : List Bool) (values : List Nat) (n : Nat)
        (vb : Option (List Nat)), p.TryAppend pool values n vb = Alloc.oom s →
        s.base.length = p.base.length ∧ s.base.null_count = p.base.null_count) ∧
    (∀ (a s : AdaptiveIntBuilder) (pool : List Bool) (values : List Int) (n : Nat)
        (vb : Option (List Nat)), a.TryAppend pool values n vb = Alloc.oom s →
        s.base.length = a.base.length ∧ s.base.null_count = a.base.null_count) ∧
    (∀ (a s : AdaptiveIntBuilder) (pool : List Bool) (values : List Nat) (n : Nat)
        (vb : Option (List Nat)), AdaptiveUIntBuilder.TryAppend a pool values n vb = Alloc.oom s →
        s.base.length = a.base.length ∧ s.base.null_count = a.base.null_count) ∧
    (∀ (p : PrimitiveBuilder) (values : List Nat) (n : Nat) (vb : Option (List Nat)),
        (p.TryAppend [] values n vb).state = p.Append values n vb) ∧
    (∀ (p : BooleanBuilder) (values : List Nat) (n : Nat) (vb : Option (List Nat)),
        (p.TryAppend [] values n vb).state = p.Append values n vb) ∧
    (∀ (a : AdaptiveIntBuilder) (values : List Int) (n : Nat) (vb : Option (List Nat)),
        (a.TryAppend [] values n vb).state = a.Append values n vb) ∧
    (∀ (a : AdaptiveIntBuilder) (values : List Nat) (n : Nat) (vb : Option (List Nat)),
        (AdaptiveUIntBuilder.TryAppend a [] values n vb).state
          = AdaptiveUIntBuilder.Append a values n vb) :=
  ⟨fun p s pool values n vb h => PrimitiveBuilder_TryAppend_oom p s pool values n vb h,
   fun p s pool values n vb h => BooleanBuilder_TryAppend_oom p s pool values n vb h,
   fun a s pool values n vb h => AdaptiveIntBuilder_TryAppend_oom a s pool values n vb h,
   fun a s pool values n vb h => AdaptiveUIntBuilder_TryAppend_oom a s pool values n vb h,
   fun p values n vb => by rw [PrimitiveBuilder_TryAppend_nil, Alloc_ofOption_state],
   fun p values n vb => by rw [BooleanBuilder_TryAppend_nil, Alloc_ofOption_state],
   fun a values n vb => by rw [AdaptiveIntBuilder_TryAppend_nil, Alloc_ofOption_state],
   fun a values n vb => by rw [AdaptiveUIntBuilder_TryAppend_nil, Alloc_ofOption_state]⟩

set_option maxRecDepth 100000 in
/-- C30 on concrete calls. A signed adaptive builder that holds 1 and 2 at width
1 is given 300 and 5; the pool grants the bitmap resize of the expansion and
refuses the resize of the value buffer: the call ends with the allocation error,
`int_size_` is already 2 and the value buffer still has its 32 bytes, and
`length_` and `null_count_` are those of the builder before the call. A fresh
`PrimitiveBuilder` whose first resize is refused keeps both counters at 0. -/
theorem Append_allocation_error_keeps_counters_witness :
    AdaptiveIntBuilder.sample.TryAppend [true, false] [300, 5] 2 none
      = Alloc.oom { AdaptiveIntBuilder.sample with int_size := 2 } ∧
    (({ AdaptiveIntBuilder.sample with int_size := 2 } : AdaptiveIntBuilder).base.length
        = AdaptiveIntBuilder.sample.base.length ∧
      ({ AdaptiveIntBuilder.sample with int_size := 2 } : AdaptiveIntBuilder).base.null_count
        = AdaptiveIntBuilder.sample.base.null_count) ∧
    AdaptiveIntBuilder.fresh.Append [1, 2] 2 none = some AdaptiveIntBuilder.sample ∧
    (PrimitiveBuilder.fresh 4).TryAppend [false] [7, 0, 0, 0] 1 none
      = Alloc.oom { base := { null_bitmap := some [], null_count := 0, length := 0,
                              capacity := 0 },
                    data := none, width := 4 } :=
  ⟨by decide,
   Append_allocation_error_keeps_counters.2.2.1 AdaptiveIntBuilder.sample
     { AdaptiveIntBuilder.sample with int_size := 2 } [true, false] [300, 5] 2 none (by decide),
   by decide, by decide⟩

/-! ## Adaptive builders: the width after a bulk append -/

theorem foldr_max_acc (l : List Nat) (s m : Nat) :
    l.foldr max (max s m) = max m (l.foldr max s) := by
  induction l with
  | nil => simp only [List.foldr_nil]; exact Nat.max_comm s m
  | cons x l ih =>
    simp only [List.foldr_cons, ih]
    omega

theorem foldr_max_ge (l : List Nat) (s : Nat) : s ≤ l.foldr max s := by
  induction l with
  | nil => exact le_refl _
  | cons x l ih => simp only [List.foldr_cons]; omega

theorem foldr_max_isIntSize (l : List Nat) (s : Nat) (hs : isIntSize s)
    (hl : ∀ x, x ∈ l → isIntSize x) : isIntSize (l.foldr max s) := by
  induction l with
  | nil => exact hs
  | cons x l ih =>
    simp only [List.foldr_cons]
    have h1 := ih (fun y hy => hl y (List.mem_cons_of_mem _ hy))
    have h2 := hl x (List.mem_cons_self _ _)
    rcases Nat.le_total x (l.foldr max s) with h | h
    · rw [Nat.max_eq_right h]; exact h1
    · rw [Nat.max_eq_left h]; exact h2

theorem widthOfValid_cons_true (w : Nat) (x : Int) (es : List (Int × Bool)) :
    widthOfValid (expanded_int_size x w) es = widthOfValid w ((x, true) :: es) := by
  unfold widthOfValid expanded_int_size
  simp only [List.filter_cons_of_pos, List.map_cons, List.foldr_cons]
  exact foldr_max_acc _ _ _

theorem widthOfValid_cons_false (w : Nat) (x : Int) (es : List (Int × Bool)) :
    widthOfValid w ((x, false) :: es) = widthOfValid w es := by
  unfold widthOfValid
  simp

theorem widthOfValid_ge (w : Nat) (es : List (Int × Bool)) : w ≤ widthOfValid w es :=
  foldr_max_ge _ _

theorem widthOfValid_isIntSize (w : Nat) (es : List (Int × Bool)) (hw : isIntSize w) :
    isIntSize (widthOfValid w es) := by
  apply foldr_max_isIntSize _ _ hw
  intro x hx
  simp only [List.mem_map] at hx
  obtain ⟨e, _, he⟩ := hx
  rw [← he]; exact minimalIntSize_isIntSize e.1

theorem widthOfValid_eight (es : List (Int × Bool)) : widthOfValid 8 es = 8 := by
  have h1 := widthOfValid_isIntSize 8 es (by unfold isIntSize; omega)
  have h2 := widthOfValid_ge 8 es
  unfold isIntSize at h1; omega

theorem drop_take_succ {α : Type} (l : List α) (i n : Nat) (h : i < l.length) :
    (l.drop i).take (n + 1) = l[i] :: (l.drop (i + 1)).take n := by
  rw [List.drop_eq_getElem_cons h, List.take_succ_cons]

theorem expandedSizeLoop_width (values : List Int) (valid_bytes : Option (List Nat)) :
    ∀ (n i s r : Nat), i + n ≤ values.length →
      expandedSizeLoop values valid_bytes n i s = some r →
      r = widthOfValid s (entriesFrom valid_bytes i ((values.drop i).take n)) := by
  intro n
  induction n with
  | zero =>
    intro i s r _ h
    simp only [expandedSizeLoop] at h
    simp only [List.take_zero, entriesFrom, widthOfValid, List.filter_nil, List.map_nil,
      List.foldr_nil]
    exact (Option.some.inj h).symm
  | succ n ih =>
    intro i s r hlen h
    have hi : i < values.length := by omega
    have hget : values[i]? = some values[i] := List.getElem?_eq_getElem hi
    rw [drop_take_succ values i n hi]
    simp only [entriesFrom]
    cases hv : valid_bytes with
    | none =>
      subst hv
      simp only [expandedSizeLoop, hget] at h
      have := ih (i + 1) _ r (by omega) h
      rw [this]
      exact widthOfValid_cons_true _ _ _
    | some vb =>
      subst hv
      cases hgv : vb[i]? with
      | none => simp only [expandedSizeLoop, hgv] at h; cases h
      | some b =>
        by_cases hb : b ≠ 0
        · simp only [expandedSizeLoop, hgv, hb, hget, decide_True, ne_eq,
            not_false_eq_true] at h
          have := ih (i + 1) _ r (by omega) h
          rw [this]
          have hva : validAt (some vb) i = true := by
            simp only [validAt, List.getD_eq_getElem?_getD, hgv, Option.getD_some,
              decide_eq_true_eq]
            exact hb
          rw [hva]
          exact widthOfValid_cons_true _ _ _
        · simp only [expandedSizeLoop, hgv, hb, decide_False] at h
          have := ih (i + 1) _ r (by omega) h
          rw [this]
          have hva : validAt (some vb) i = false := by
            simp only [validAt, List.getD_eq_getElem?_getD, hgv, Option.getD_some,
              decide_eq_false_iff_not]
            exact hb
          rw [hva, widthOfValid_cons_false]

theorem AdaptiveIntBuilder_Init_int_size (a a1 : AdaptiveIntBuilder) (c : Nat)
    (h : a.Init c = some a1) : a1.int_size = a.int_size := by
  unfold AdaptiveIntBuilder.Init at h
  cases hb : a.base.Init c with
  | none => rw [hb] at h; cases h
  | some b1 =>
    rw [hb] at h
    simp only [] at h
    split at h
    · cases h; rfl
    · cases h

theorem AdaptiveIntBuilder_Resize_int_size (a a1 : AdaptiveIntBuilder) (c0 : Nat)
    (h : a.Resize c0 = some a1) : a1.int_size = a.int_size := by
  unfold AdaptiveIntBuilder.Resize at h
  simp only [] at h
  generalize (if c0 < kMinBuilderCapacity then kMinBuilderCapacity else c0) = c at h
  split at h
  · exact AdaptiveIntBuilder_Init_int_size a a1 c h
  · cases hr : a.ArrayBuilder_Resize c with
    | none => rw [hr] at h; cases h
    | some a2 =>
      rw [hr] at h
      have h2 : a2.int_size = a.int_size := by
        unfold AdaptiveIntBuilder.ArrayBuilder_Resize at hr
        cases hbm : a.base.null_bitmap with
        | none => rw [hbm] at hr; exact AdaptiveIntBuilder_Init_int_size a a2 c hr
        | some bm =>
          rw [hbm] at hr
          simp only [] at hr
          split at hr
          · cases hr; rfl
          · cases hr
      simp only [] at h
      cases hd : a2.data with
      | none => rw [hd] at h; cases h
      | some d =>
        rw [hd] at h
        simp only [] at h
        split at h
        · cases h
        · split at h
          · cases h; exact h2
          · cases h

theorem AdaptiveIntBuilder_Reserve_int_size (a a1 : AdaptiveIntBuilder) (n : Nat)
    (h : a.Reserve n = some a1) : a1.int_size = a.int_size := by
  unfold AdaptiveIntBuilder.Reserve at h
  split at h
  · exact AdaptiveIntBuilder_Resize_int_size a a1 _ h
  · cases h; rfl

theorem AdaptiveIntBuilder_ExpandIntSize_int_size (a a1 : AdaptiveIntBuilder) (w : Nat)
    (hs : isIntSize a.int_size) (hw : isIntSize w) (hlt : a.int_size < w)
    (h : a.ExpandIntSize w = some a1) : a1.int_size = w := by
  have hw1 : w = 1 ∨ w = 2 ∨ w = 4 ∨ w = 8 := hw
  have hs1 : a.int_size = 1 ∨ a.int_size = 2 ∨ a.int_size = 4 ∨ a.int_size = 8 := hs
  unfold AdaptiveIntBuilder.ExpandIntSize at h
  rw [if_pos hw1] at h
  unfold AdaptiveIntBuilder.ExpandIntSizeN at h
  rw [if_pos hs1] at h
  unfold AdaptiveIntBuilder.ExpandIntSizeInternal at h
  rw [if_neg (by omega)] at h
  cases hd : a.data with
  | none => rw [hd] at h; cases h
  | some d =>
    rw [hd] at h
    simp only [] at h
    cases hr : AdaptiveIntBuilder.Resize { base := a.base, data := some d, int_size := w }
        (d.length / a.int_size) with
    | none => rw [hr] at h; cases h
    | some a2 =>
      rw [hr] at h
      have h2 := AdaptiveIntBuilder_Resize_int_size _ a2 _ hr
      simp only [] at h
      cases hd2 : a2.data with
      | none => rw [hd2] at h; cases h
      | some d2 =>
        rw [hd2] at h
        simp only [] at h
        split at h
        · cases h; exact h2
        · cases h

theorem AdaptiveIntBuilder_Append_int_size (a a1 : AdaptiveIntBuilder) (values : List Int)
    (n : Nat) (vb : Option (List Nat)) (hs : isIntSize a.int_size)
    (h : a.Append values n vb = some a1) :
    a1.int_size = widthOfValid a.int_size (entriesFrom vb 0 (values.take n)) := by
  unfold AdaptiveIntBuilder.Append at h
  cases hr : a.Reserve n with
  | none => rw [hr] at h; cases h
  | some a2 =>
    rw [hr] at h
    have hi2 := AdaptiveIntBuilder_Reserve_int_size a a2 n hr
    simp only [] at h
    cases he : a2.expandFor values n vb with
    | none => rw [he] at h; cases h
    | some a3 =>
      rw [he] at h
      simp only [] at h
      cases hst : a3.storeValues values n with
      | none => rw [hst] at h; cases h
      | some data1 =>
        rw [hst] at h
        simp only [] at h
        cases hbm : a3.base.UnsafeAppendToBitmapBulk vb n with
        | none => rw [hbm] at h; cases h
        | some b1 =>
          rw [hbm] at h
          cases h
          show a3.int_size = _
          have hlen : n ≤ values.length := by
            unfold AdaptiveIntBuilder.storeValues at hst
            by_contra hc
            rw [if_pos (by omega)] at hst
            cases hst
          rw [← hi2]
          have hs2 : isIntSize a2.int_size := by rw [hi2]; exact hs
          unfold AdaptiveIntBuilder.expandFor at he
          by_cases hrun : n > 0 ∧ a2.int_size < 8
          · rw [if_pos hrun] at he
            cases hl : expandedSizeLoop values vb n 0 a2.int_size with
            | none => rw [hl] at he; cases he
            | some r =>
              rw [hl] at he
              simp only [] at he
              have hr2 := expandedSizeLoop_width values vb n 0 a2.int_size r (by omega) hl
              rw [List.drop_zero] at hr2
              by_cases hne : r ≠ a2.int_size
              · rw [if_pos hne] at he
                have hge := widthOfValid_ge a2.int_size (entriesFrom vb 0 (values.take n))
                have hsz := widthOfValid_isIntSize a2.int_size
                  (entriesFrom vb 0 (values.take n)) hs2
                rw [← hr2] at hge hsz
                rw [AdaptiveIntBuilder_ExpandIntSize_int_size a2 a3 r hs2 hsz (by omega) he]
                exact hr2
              · rw [if_neg hne] at he
                cases he
                have : r = a2.int_size := by
                  by_contra hc; exact hne hc
                rw [← hr2, this]
          · rw [if_neg hrun] at he
            cases he
            by_cases hn : n = 0
            · subst hn
              simp [entriesFrom, widthOfValid]
            · have h8 : a2.int_size = 8 := by
                unfold isIntSize at hs2
                have : ¬ a2.int_size < 8 := fun hc => hrun ⟨by omega, hc⟩
                omega
              rw [h8, widthOfValid_eight]

/-! ## AdaptiveUIntBuilder: the width after a bulk append -/

theorem minimalUIntSize_isIntSize (x : Nat) : isIntSize (minimalUIntSize x) := by
  unfold minimalUIntSize isIntSize
  split_ifs <;> simp

theorem widthOfValidU_cons_true (w : Nat) (x : Nat) (es : List (Nat × Bool)) :
    widthOfValidU (expanded_uint_size x w) es = widthOfValidU w ((x, true) :: es) := by
  unfold widthOfValidU expanded_uint_size
  simp only [List.filter_cons_of_pos, List.map_cons, List.foldr_cons]
  exact foldr_max_acc _ _ _

theorem widthOfValidU_cons_false (w : Nat) (x : Nat) (es : List (Nat × Bool)) :
    widthOfValidU w ((x, false) :: es) = widthOfValidU w es := by
  unfold widthOfValidU
  simp

theorem widthOfValidU_ge (w : Nat) (es : List (Nat × Bool)) : w ≤ widthOfValidU w es :=
  foldr_max_ge _ _

theorem widthOfValidU_isIntSize (w : Nat) (es : List (Nat × Bool)) (hw : isIntSize w) :
    isIntSize (widthOfValidU w es) := by
  apply foldr_max_isIntSize _ _ hw
  intro x hx
  simp only [List.mem_map] at hx
  obtain ⟨e, _, he⟩ := hx
  rw [← he]; exact minimalUIntSize_isIntSize e.1

theorem widthOfValidU_eight (es : List (Nat × Bool)) : widthOfValidU 8 es = 8 := by
  have h1 := widthOfValidU_isIntSize 8 es (by unfold isIntSize; omega)
  have h2 := widthOfValidU_ge 8 es
  unfold isIntSize at h1; omega

theorem expandedUIntSizeLoop_width (values : List Nat) (valid_bytes : Option (List Nat)) :
    ∀ (n i s r : Nat), i + n ≤ values.length →
      expandedUIntSizeLoop values valid_bytes n i s = some r →
      r = widthOfValidU s (uentriesFrom valid_bytes i ((values.drop i).take n)) := by
  intro n
  induction n with
  | zero =>
    intro i s r _ h
    simp only [expandedUIntSizeLoop] at h
    simp only [List.take_zero, uentriesFrom, widthOfValidU, List.filter_nil, List.map_nil,
      List.foldr_nil]
    exact (Option.some.inj h).symm
  | succ n ih =>
    intro i s r hlen h
    have hi : i < values.length := by omega
    have hget : values[i]? = some values[i] := List.getElem?_eq_getElem hi
    rw [drop_take_succ values i n hi]
    simp only [uentriesFrom]
    cases hv : valid_bytes with
    | none =>
      subst hv
      simp only [expandedUIntSizeLoop, hget] at h
      have := ih (i + 1) _ r (by omega) h
      rw [this]
      exact widthOfValidU_cons_true _ _ _
    | some vb =>
      subst hv
      cases hgv : vb[i]? with
      | none => simp only [expandedUIntSizeLoop, hgv] at h; cases h
      | some b =>
        by_cases hb : b ≠ 0
        · simp only [expandedUIntSizeLoop, hgv, hb, hget, decide_True, ne_eq,
            not_false_eq_true] at h
          have := ih (i + 1) _ r (by omega) h
          rw [this]
          have hva : validAt (some vb) i = true := by
            simp only [validAt, List.getD_eq_getElem?_getD, hgv, Option.getD_some,
              decide_eq_true_eq]
            exact hb
          rw [hva]
          exact widthOfValidU_cons_true _ _ _
        · simp only [expandedUIntSizeLoop, hgv, hb, decide_False] at h
          have := ih (i + 1) _ r (by omega) h
          rw [this]
          have hva : validAt (some vb) i = false := by
            simp only [validAt, List.getD_eq_getElem?_getD, hgv, Option.getD_some,
              decide_eq_false_iff_not]
            exact hb
          rw [hva, widthOfValidU_cons_false]

theorem AdaptiveUIntBuilder_ExpandIntSize_int_size (a a1 : AdaptiveIntBuilder) (w : Nat)
    (hs : isIntSize a.int_size) (hw : isIntSize w) (hlt : a.int_size < w)
    (h : AdaptiveUIntBuilder.ExpandIntSize a w = some a1) : a1.int_size = w := by
  have hw1 : w = 1 ∨ w = 2 ∨ w = 4 ∨ w = 8 := hw
  have hs1 : a.int_size = 1 ∨ a.int_size = 2 ∨ a.int_size = 4 ∨ a.int_size = 8 := hs
  unfold AdaptiveUIntBuilder.ExpandIntSize at h
  rw [if_pos hw1] at h
  unfold AdaptiveUIntBuilder.ExpandIntSizeN at h
  rw [if_pos hs1] at h
  unfold AdaptiveUIntBuilder.ExpandIntSizeInternal at h
  rw [if_neg (by omega)] at h
  cases hd : a.data with
  | none => rw [hd] at h; cases h
  | some d =>
    rw [hd] at h
    simp only [] at h
    cases hr : AdaptiveIntBuilder.Resize { base := a.base, data := some d, int_size := w }
        (d.length / a.int_size) with
    | none => rw [hr] at h; cases h
    | some a2 =>
      rw [hr] at h
      have h2 := AdaptiveIntBuilder_Resize_int_size _ a2 _ hr
      simp only [] at h
      cases hd2 : a2.data with
      | none => rw [hd2] at h; cases h
      | some d2 =>
        rw [hd2] at h
        simp only [] at h
        split at h
        · cases h; exact h2
        · cases h

theorem AdaptiveUIntBuilder_Append_int_size (a a1 : AdaptiveIntBuilder) (values : List Nat)
    (n : Nat) (vb : Option (List Nat)) (hs : isIntSize a.int_size)
    (h : AdaptiveUIntBuilder.Append a values n vb = some a1) :
    a1.int_size = widthOfValidU a.int_size (uentriesFrom vb 0 (values.take n)) := by
  unfold AdaptiveUIntBuilder.Append at h
  cases hr : a.Reserve n with
  | none => rw [hr] at h; cases h
  | some a2 =>
    rw [hr] at h
    have hi2 := AdaptiveIntBuilder_Reserve_int_size a a2 n hr
    simp only [] at h
    cases he : AdaptiveUIntBuilder.expandFor a2 values n vb with
    | none => rw [he] at h; cases h
    | some a3 =>
      rw [he] at h
      simp only [] at h
      cases hst : AdaptiveUIntBuilder.storeValues a3 values n with
      | none => rw [hst] at h; cases h
      | some data1 =>
        rw [hst] at h
        simp only [] at h
        cases hbm : a3.base.UnsafeAppendToBitmapBulk vb n with
        | none => rw [hbm] at h; cases h
        | some b1 =>
          rw [hbm] at h
          cases h
          show a3.int_size = _
          have hlen : n ≤ values.length := by
            unfold AdaptiveUIntBuilder.storeValues at hst
            by_contra hc
            rw [if_pos (by omega)] at hst
            cases hst
          rw [← hi2]
          have hs2 : isIntSize a2.int_size := by rw [hi2]; exact hs
          unfold AdaptiveUIntBuilder.expandFor at he
          by_cases hrun : n > 0 ∧ a2.int_size < 8
          · rw [if_pos hrun] at he
            cases hl : expandedUIntSizeLoop values vb n 0 a2.int_size with
            | none => rw [hl] at he; cases he
            | some r =>
              rw [hl] at he
              simp only [] at he
              have hr2 := expandedUIntSizeLoop_width values vb n 0 a2.int_size r (by omega) hl
              rw [List.drop_zero] at hr2
              by_cases hne : r ≠ a2.int_size
              · rw [if_pos hne] at he
                have hge := widthOfValidU_ge a2.int_size (uentriesFrom vb 0 (values.take n))
                have hsz := widthOfValidU_isIntSize a2.int_size
                  (uentriesFrom vb 0 (values.take n)) hs2
                rw [← hr2] at hge hsz
                rw [AdaptiveUIntBuilder_ExpandIntSize_int_size a2 a3 r hs2 hsz (by omega) he]
                exact hr2
              · rw [if_neg hne] at he
                cases he
                have : r = a2.int_size := by
                  by_contra hc; exact hne hc
                rw [← hr2, this]
          · rw [if_neg hrun] at he
            cases he
            by_cases hn : n = 0
            · subst hn
              simp [uentriesFrom, widthOfValidU]
            · have h8 : a2.int_size = 8 := by
                unfold isIntSize at hs2
                have : ¬ a2.int_size < 8 := fun hc => hrun ⟨by omega, hc⟩
                omega
              rw [h8, widthOfValidU_eight]

/-! ## Minimal widths -/

theorem minimalIntSize_least (x : Int) (w : Nat) (hw : isIntSize w) (hf : fitsIn w x) :
    minimalIntSize x ≤ w := by
  unfold minimalIntSize
  unfold fitsIn at hf
  rcases hw with h | h | h | h <;> subst h <;> norm_num at hf <;> split_ifs <;> omega

theorem minimalUIntSize_fits (x : Nat) (h : x < 2 ^ 64) : fitsInU (minimalUIntSize x) x := by
  unfold minimalUIntSize fitsInU
  split_ifs with h1 h2 h3
  · exact h1
  · exact h2
  · exact h3
  · exact h

theorem minimalUIntSize_least (x : Nat) (w : Nat) (hw : isIntSize w) (hf : fitsInU w x) :
    minimalUIntSize x ≤ w := by
  unfold minimalUIntSize
  unfold fitsInU at hf
  rcases hw with h | h | h | h <;> subst h <;> norm_num at hf <;> split_ifs <;> omega

theorem widthOfValid_all_invalid (w : Nat) (es : List (Int × Bool))
    (h : ∀ e, e ∈ es → e.2 = false) : widthOfValid w es = w := by
  unfold widthOfValid
  have : es.filter (fun e => e.2) = [] := by
    rw [List.filter_eq_nil_iff]
    intro e he
    rw [h e he]; simp
  rw [this]; rfl

theorem widthOfValidU_all_invalid (w : Nat) (es : List (Nat × Bool))
    (h : ∀ e, e ∈ es → e.2 = false) : widthOfValidU w es = w := by
  unfold widthOfValidU
  have : es.filter (fun e => e.2) = [] := by
    rw [List.filter_eq_nil_iff]
    intro e he
    rw [h e he]; simp
  rw [this]; rfl

/-! ## Adaptive builders: the width is that of the valid entries -/

/-- C22: for the signed and for the unsigned adaptive builder at a width of 1,
2, 4 or 8, after a successful bulk `Append` the width `int_size_` is the maximum
of the width before and the minimal widths of the entries of the batch that are
valid: it is again one of 1, 2, 4, 8, it is not below the width before, and a
batch whose entries are all invalid leaves it as it was. The minimal width of a
value is the least of 1, 2, 4, 8 whose signed (unsigned) range holds it. A valid
200 appended to a fresh builder gives width 2 to the signed and width 1 to the
unsigned builder. -/
theorem AdaptiveIntBuilder_Append_width :
    (∀ (a a1 : AdaptiveIntBuilder) (values : List Int) (n : Nat) (vb : Option (List Nat)),
        isIntSize a.int_size → a.Append values n vb = some a1 →
        a1.int_size = widthOfValid a.int_size (entriesFrom vb 0 (values.take n)) ∧
        isIntSize a1.int_size ∧ a.int_size ≤ a1.int_size ∧
        ((∀ e, e ∈ entriesFrom vb 0 (values.take n) → e.2 = false) →
          a1.int_size = a.int_size)) ∧
    (∀ (a a1 : AdaptiveIntBuilder) (values : List Nat) (n : Nat) (vb : Option (List Nat)),
        isIntSize a.int_size → AdaptiveUIntBuilder.Append a values n vb = some a1 →
        a1.int_size = widthOfValidU a.int_size (uentriesFrom vb 0 (values.take n)) ∧
        isIntSize a1.int_size ∧ a.int_size ≤ a1.int_size ∧
        ((∀ e, e ∈ uentriesFrom vb 0 (values.take n) → e.2 = false) →
          a1.int_size = a.int_size)) ∧
    (∀ (x : Int), -(2 : Int) ^ 63 ≤ x ∧ x < 2 ^ 63 →
        isIntSize (minimalIntSize x) ∧ fitsIn (minimalIntSize x) x ∧
        ∀ w, isIntSize w → fitsIn w x → minimalIntSize x ≤ w) ∧
    (∀ (x : Nat), x < 2 ^ 64 →
        isIntSize (minimalUIntSize x) ∧ fitsInU (minimalUIntSize x) x ∧
        ∀ w, isIntSize w → fitsInU w x → minimalUIntSize x ≤ w) ∧
    (AdaptiveIntBuilder.fresh.Append [200] 1 none).map (fun a => a.int_size) = some 2 ∧
    (AdaptiveUIntBuilder.Append AdaptiveIntBuilder.fresh [200] 1 none).map
      (fun a => a.int_size) = some 1 := by
  refine ⟨?_, ?_, ?_, ?_, ?_, ?_⟩
  · intro a a1 values n vb hs h
    have e := AdaptiveIntBuilder_Append_int_size a a1 values n vb hs h
    refine ⟨e, ?_, ?_, fun hall => ?_⟩
    · rw [e]; exact widthOfValid_isIntSize _ _ hs
    · rw [e]; exact widthOfValid_ge _ _
    · rw [e]; exact widthOfValid_all_invalid _ _ hall
  · intro a a1 values n vb hs h
    have e := AdaptiveUIntBuilder_Append_int_size a a1 values n vb hs h
    refine ⟨e, ?_, ?_, fun hall => ?_⟩
    · rw [e]; exact widthOfValidU_isIntSize _ _ hs
    · rw [e]; exact widthOfValidU_ge _ _
    · rw [e]; exact widthOfValidU_all_invalid _ _ hall
  · intro x hx
    exact ⟨minimalIntSize_isIntSize x, minimalIntSize_fits x hx,
      fun w hw hf => minimalIntSize_least x w hw hf⟩
  · intro x hx
    exact ⟨minimalUIntSize_isIntSize x, minimalUIntSize_fits x hx,
      fun w hw hf => minimalUIntSize_least x w hw hf⟩
  · decide
  · decide

set_option maxRecDepth 100000 in
/-- C22 on concrete calls: a builder that holds 1 and 2 at width 1 is given 200,
70000 and 5 with 70000 marked invalid. The signed builder goes to width 2, the
unsigned builder stays at width 1; the invalid 70000, which needs 4 bytes, does
not count. -/
theorem AdaptiveIntBuilder_Append_width_witness :
    AdaptiveIntBuilder.sample.Append [200, 70000, 5] 3 (some [1, 0, 1])
      = some
        { base := { null_bitmap := some [23, 0, 0, 0], null_count := 1, length := 5,
                    capacity := 32 },
          data := some ([1, 0, 2, 0, 200, 0, 112, 17, 5, 0] ++ List.replicate 54 0),
          int_size := 2 } ∧
    (2 : Nat) = widthOfValid AdaptiveIntBuilder.sample.int_size
      (entriesFrom (some [1, 0, 1]) 0 (([200, 70000, 5] : List Int).take 3)) ∧
    AdaptiveUIntBuilder.Append AdaptiveIntBuilder.sample [200, 70000, 5] 3 (some [1, 0, 1])
      = some
        { base := { null_bitmap := some [23, 0, 0, 0], null_count := 1, length := 5,
                    capacity := 32 },
          data := some ([1, 2, 200, 112, 5] ++ List.replicate 27 0),
          int_size := 1 } ∧
    (1 : Nat) = widthOfValidU AdaptiveIntBuilder.sample.int_size
      (uentriesFrom (some [1, 0, 1]) 0 (([200, 70000, 5] : List Nat).take 3)) :=
  ⟨by decide,
   (AdaptiveIntBuilder_Append_width.1 AdaptiveIntBuilder.sample
     { base := { null_bitmap := some [23, 0, 0, 0], null_count := 1, length := 5,
                 capacity := 32 },
       data := some ([1, 0, 2, 0, 200, 0, 112, 17, 5, 0] ++ List.replicate 54 0),
       int_size := 2 }
     [200, 70000, 5] 3 (some [1, 0, 1]) (Or.inl rfl) (by decide)).1,
   by decide,
   (AdaptiveIntBuilder_Append_width.2.1 AdaptiveIntBuilder.sample
     { base := { null_bitmap := some [23, 0, 0, 0], null_count := 1, length := 5,
                 capacity := 32 },
       data := some ([1, 2, 200, 112, 5] ++ List.replicate 27 0),
       int_size := 1 }
     [200, 70000, 5] 3 (some [1, 0, 1]) (Or.inl rfl) (by decide)).1⟩

/-! ## AdaptiveUIntBuilder: stores, loads and sessions of bulk appends -/

theorem storeUInt_spec (w : Nat) (buf : List Nat) (i : Nat) (x : Nat)
    (h : (i + 1) * w ≤ buf.length) :
    ∃ buf1, storeUInt w buf i x = some buf1 ∧ buf1.length = buf.length ∧
      buf1.take (i * w) = buf.take (i * w) ∧
      buf1.drop ((i + 1) * w) = buf.drop ((i + 1) * w) ∧
      (fitsInU w x → loadUInt w buf1 i = some x) := by
  have hl := toBytesLE_length w x
  have e : (i + 1) * w = i * w + w := by ring
  obtain ⟨buf1, h1, h2, h3, h4, h5⟩ :=
    writeBytes_spec buf (toBytesLE w x) (i * w) (by rw [hl]; omega)
  rw [hl] at h4 h5
  refine ⟨buf1, h1, h2, h3, by rw [e]; exact h4, fun hfit => ?_⟩
  unfold loadUInt
  rw [h5]
  simp only [fromBytesLE_toBytesLE]
  unfold fitsInU at hfit
  rw [pow256, Nat.mod_eq_of_lt hfit]

theorem loadUInt_eq_of_take (w : Nat) (buf buf1 : List Nat) (i m : Nat)
    (hlen : buf1.length = buf.length) (h : buf1.take m = buf.take m) (hm : (i + 1) * w ≤ m) :
    loadUInt w buf1 i = loadUInt w buf i := by
  unfold loadUInt
  rw [readBytes_eq_of_take buf buf1 (i * w) w m hlen h (by
    have e : (i + 1) * w = i * w + w := by ring
    omega)]

theorem loadUInt_eq_of_drop (w : Nat) (buf buf1 : List Nat) (i m : Nat)
    (hlen : buf1.length = buf.length) (h : buf1.drop m = buf.drop m) (hm : m ≤ i * w) :
    loadUInt w buf1 i = loadUInt w buf i := by
  unfold loadUInt
  rw [readBytes_eq_of_drop buf buf1 (i * w) w m hlen h hm]

theorem loadUInt_some (w : Nat) (buf : List Nat) (i : Nat) (h : (i + 1) * w ≤ buf.length) :
    ∃ x, loadUInt w buf i = some x := by
  unfold loadUInt readBytes
  have e : (i + 1) * w = i * w + w := by ring
  rw [if_pos (by omega)]
  exact ⟨_, rfl⟩

theorem loadUInt_append_left (w : Nat) (a b : List Nat) (i : Nat) (h : (i + 1) * w ≤ a.length) :
    loadUInt w (a ++ b) i = loadUInt w a i := by
  unfold loadUInt
  rw [readBytes_append_left a b (i * w) w (by
    have : (i + 1) * w = i * w + w := by ring
    omega)]

theorem copyBackwardU_spec (old new : Nat) (hold : 0 < old) (hle : old ≤ new) :
    ∀ (n : Nat) (data : List Nat), n * new ≤ data.length →
      ∃ data1, copyBackwardU old new n data = some data1 ∧ data1.length = data.length ∧
        data1.drop (n * new) = data.drop (n * new) ∧
        ∀ (i : Nat) (x : Nat), i < n → loadUInt old data i = some x → fitsInU new x →
          loadUInt new data1 i = some x := by
  intro n
  induction n with
  | zero =>
    intro data _
    exact ⟨data, rfl, rfl, rfl, fun i x hi => absurd hi (Nat.not_lt_zero i)⟩
  | succ n ih =>
    intro data hlen
    have hnew : 0 < new := by omega
    have h1 : (n + 1) * old ≤ (n + 1) * new := Nat.mul_le_mul_left _ hle
    have h2 : n * old ≤ n * new := Nat.mul_le_mul_left _ hle
    have e1 : (n + 1) * new = n * new + new := by ring
    obtain ⟨x0, hx0⟩ := loadUInt_some old data n (by omega)
    obtain ⟨d1, hs, hl1, ht1, hd1, hload1⟩ := storeUInt_spec new data n x0 hlen
    obtain ⟨d2, hc, hl2, hd2, hload2⟩ := ih d1 (by rw [hl1]; omega)
    refine ⟨d2, by simp only [copyBackwardU, hx0, hs, hc], by rw [hl2, hl1], ?_, ?_⟩
    · rw [drop_of_drop_eq d2 d1 (n * new) ((n + 1) * new) hd2 (by omega), hd1]
    · intro i x hi hx hfit
      by_cases hin : i < n
      · apply hload2 i x hin _ hfit
        rw [loadUInt_eq_of_take old data d1 i (n * new) hl1 ht1 (by
          have : (i + 1) * old ≤ n * old := Nat.mul_le_mul_right _ (by omega)
          omega)]
        exact hx
      · have hie : i = n := by omega
        subst hie
        rw [hx0] at hx
        have hxx : x0 = x := Option.some.inj hx
        rw [loadUInt_eq_of_drop new d1 d2 i (i * new) hl2 hd2 (le_refl _)]
        rw [← hxx] at hfit ⊢
        exact hload1 hfit

theorem storeAllU_spec (w : Nat) (hw : 0 < w) :
    ∀ (xs : List Nat) (data : List Nat) (i : Nat), (i + xs.length) * w ≤ data.length →
      ∃ data1, storeAllU w data i xs = some data1 ∧ data1.length = data.length ∧
        data1.take (i * w) = data.take (i * w) ∧
        ∀ (j : Nat) (x : Nat), xs[j]? = some x → fitsInU w x → loadUInt w data1 (i + j) = some x := by
  intro xs
  induction xs with
  | nil =>
    intro data i _
    exact ⟨data, rfl, rfl, rfl, fun j x hj => by simp at hj⟩
  | cons x0 xs ih =>
    intro data i hlen
    simp only [List.length_cons] at hlen
    have e1 : (i + (xs.length + 1)) * w = (i + 1) * w + xs.length * w := by ring
    have e2 : (i + 1) * w = i * w + w := by ring
    obtain ⟨d1, hs, hl1, ht1, _, hload1⟩ := storeUInt_spec w data i x0 (by
      have : 0 ≤ xs.length * w := Nat.zero_le _
      omega)
    obtain ⟨d2, hc, hl2, ht2, hload2⟩ := ih d1 (i + 1) (by
      rw [hl1]
      have : (i + 1 + xs.length) * w = (i + 1) * w + xs.length * w := by ring
      omega)
    refine ⟨d2, by simp only [storeAllU, hs, hc], by rw [hl2, hl1], ?_, ?_⟩
    · rw [take_of_take_eq d2 d1 ((i + 1) * w) (i * w) ht2 (by omega), ht1]
    · intro j x hj hfit
      cases j with
      | zero =>
        have hxx : x0 = x := by simpa using hj
        rw [Nat.add_zero, loadUInt_eq_of_take w d1 d2 i ((i + 1) * w) hl2 ht2 (le_refl _)]
        rw [← hxx] at hfit ⊢
        exact hload1 hfit
      | succ j =>
        have hj' : xs[j]? = some x := by simpa using hj
        have := hload2 j x hj' hfit
        have e : i + (j + 1) = i + 1 + j := by omega
        rw [e]; exact this

theorem AdaptiveUIntBuilder_Reserve_spec (a : AdaptiveIntBuilder) (n : Nat) (hwf : a.WF) :
    ∃ a1, a.Reserve n = some a1 ∧ a1.WF ∧ a1.int_size = a.int_size ∧
      a.base.length + n ≤ a1.base.capacity ∧ a1.base.length = a.base.length ∧
      ∀ i, i < a.base.length →
        loadUInt a.int_size (a1.data.getD []) i = loadUInt a.int_size (a.data.getD []) i := by
  obtain ⟨hlen, hbuf⟩ := hwf
  by_cases hgt : a.base.length + n > a.base.capacity
  · have hne : a.Reserve n = a.Resize (NextPower2 (a.base.length + n)) := by
      simp [AdaptiveIntBuilder.Reserve, hgt]
    have hge := NextPower2_ge (a.base.length + n)
    obtain ⟨c, hc0, hk, hres, hinit⟩ :=
      AdaptiveIntBuilder_Resize_floor a (NextPower2 (a.base.length + n))
    have hcap : a.base.length + n ≤ c := le_trans hge hc0
    clear hge hc0
    generalize NextPower2 (a.base.length + n) = c0 at hne hres hinit
    by_cases hz : a.base.capacity = 0
    · have hl0 : a.base.length = 0 := by omega
      rw [hne, hinit hz, AdaptiveIntBuilder_Init_eq]
      refine ⟨_, rfl, ?_, rfl, hcap, rfl, fun i hi => by omega⟩
      exact ⟨le_trans (Nat.le_add_right _ _) hcap, fun _ => ⟨_, _, rfl, rfl, by simp, by simp⟩⟩
    · obtain ⟨bm, d, hbm, hd, hbl, hdl⟩ := hbuf hz
      have h1 : bm.length ≤ CeilByte c / 8 := by
        rw [hbl]; exact CeilByte_mono (by omega)
      have h2 : d.length ≤ c * a.int_size := by
        rw [hdl]; exact Nat.mul_le_mul_right _ (by omega)
      rw [hne, hres, AdaptiveIntBuilder_Resize_grow a bm d c hz hbm hd h1 h2 hk]
      refine ⟨_, rfl, ?_, rfl, hcap, rfl, fun i hi => ?_⟩
      · refine ⟨le_trans (Nat.le_add_right _ _) hcap, fun _ => ⟨_, _, rfl, rfl, ?_, ?_⟩⟩
        · simp; omega
        · simp; omega
      · simp only [hd, Option.getD_some]
        apply loadUInt_append_left
        rw [hdl]
        exact Nat.mul_le_mul_right _ (by omega)
  · have hne : a.Reserve n = some a := by simp [AdaptiveIntBuilder.Reserve, hgt]
    exact ⟨a, hne, ⟨hlen, hbuf⟩, rfl, by omega, rfl, fun _ _ => rfl⟩

theorem fitsInU_mono (w w1 : Nat) (x : Nat) (h : w ≤ w1) (hf : fitsInU w x) : fitsInU w1 x := by
  unfold fitsInU at hf ⊢
  exact lt_of_lt_of_le hf (Nat.pow_le_pow_right (by norm_num) (by omega))

theorem AdaptiveUIntBuilder_ExpandIntSize_spec (a : AdaptiveIntBuilder) (new_size : Nat)
    (hwf : a.WF) (hc0 : a.base.capacity ≠ 0) (hold : isIntSize a.int_size)
    (hnew : isIntSize new_size) (hlt : a.int_size < new_size) :
    ∃ a1, AdaptiveUIntBuilder.ExpandIntSize a new_size = some a1 ∧ a1.WF ∧ a1.int_size = new_size ∧
      a.base.capacity ≤ a1.base.capacity ∧ a1.base.length = a.base.length ∧
      ∀ (i : Nat) (x : Nat), i < a.base.length →
        loadUInt a.int_size (a.data.getD []) i = some x → fitsInU new_size x →
        loadUInt new_size (a1.data.getD []) i = some x := by
  obtain ⟨hlen, hbuf⟩ := hwf
  obtain ⟨bm, d, hbm, hd, hbl, hdl⟩ := hbuf hc0
  have hopos := isIntSize_pos _ hold
  have hdiv : d.length / a.int_size = a.base.capacity := by
    rw [hdl]; exact Nat.mul_div_cancel _ hopos
  obtain ⟨c, hcc, hk, hres, _⟩ :=
    AdaptiveIntBuilder_Resize_floor { a with int_size := new_size } a.base.capacity
  have h1 : bm.length ≤ CeilByte c / 8 := by
    rw [hbl]; exact CeilByte_mono hcc
  have h2 : d.length ≤ c * new_size := by
    rw [hdl]
    exact Nat.mul_le_mul hcc (Nat.le_of_lt hlt)
  have hgrow := AdaptiveIntBuilder_Resize_grow { a with int_size := new_size } bm d c hc0 hbm hd
    h1 h2 hk
  obtain ⟨d3, hcopy, hl3, _, hload3⟩ :=
    copyBackwardU_spec a.int_size new_size hopos (Nat.le_of_lt hlt) a.base.length
      (d ++ List.replicate (c * new_size - d.length) 0) (by
        rw [List.length_append, List.length_replicate]
        have : a.base.length * new_size ≤ c * new_size :=
          Nat.mul_le_mul_right _ (le_trans hlen hcc)
        omega)
  refine ⟨{ a with int_size := new_size,
                   base := { a.base with
                     null_bitmap := some (bm ++ List.replicate (CeilByte c / 8 - bm.length) 0),
                     capacity := c },
                   data := some d3 }, ?_, ?_, rfl, hcc, rfl, ?_⟩
  · simp only [AdaptiveUIntBuilder.ExpandIntSize, AdaptiveUIntBuilder.ExpandIntSizeN]
    have hnew1 : new_size = 1 ∨ new_size = 2 ∨ new_size = 4 ∨ new_size = 8 := hnew
    have hold1 : a.int_size = 1 ∨ a.int_size = 2 ∨ a.int_size = 4 ∨ a.int_size = 8 := hold
    rw [if_pos hnew1, if_pos hold1]
    simp only [AdaptiveUIntBuilder.ExpandIntSizeInternal]
    rw [if_neg (by omega)]
    simp only [hd] at hres hgrow
    simp only [hd, hdiv, hres, hgrow, hcopy]
  · refine ⟨le_trans hlen hcc, fun _ => ⟨_, d3, rfl, rfl, ?_, ?_⟩⟩
    · simp; omega
    · rw [hl3, List.length_append, List.length_replicate]
      show _ = c * new_size
      omega
  · intro i x hi hx hfit
    simp only [Option.getD_some]
    rw [hd, Option.getD_some] at hx
    apply hload3 i x hi _ hfit
    rw [loadUInt_append_left a.int_size d _ i (by
      rw [hdl]; exact Nat.mul_le_mul_right _ (by omega))]
    exact hx

theorem expanded_uint_size_spec (x : Nat) (s : Nat) (hs : isIntSize s)
    (h : x < 2 ^ 64) :
    isIntSize (expanded_uint_size x s) ∧ s ≤ expanded_uint_size x s ∧
      fitsInU (expanded_uint_size x s) x := by
  unfold expanded_uint_size
  refine ⟨?_, Nat.le_max_left _ _, fitsInU_mono _ _ x (Nat.le_max_right _ _) (minimalUIntSize_fits x h)⟩
  rcases Nat.le_total s (minimalUIntSize x) with h1 | h1
  · rw [Nat.max_eq_right h1]; exact minimalUIntSize_isIntSize x
  · rw [Nat.max_eq_left h1]; exact hs

theorem expandedUIntSizeLoop_spec (values : List Nat) (valid_bytes : Option (List Nat))
    (hval : ∀ x, x ∈ values → x < 2 ^ 64) :
    ∀ (n i s : Nat), isIntSize s → i + n ≤ values.length →
      (∀ vb, valid_bytes = some vb → i + n ≤ vb.length) →
      ∃ r, expandedUIntSizeLoop values valid_bytes n i s = some r ∧ isIntSize r ∧ s ≤ r ∧
        ∀ (j : Nat) (x : Nat), i ≤ j → j < i + n → values[j]? = some x →
          validAt valid_bytes j = true → fitsInU r x := by
  intro n
  induction n with
  | zero =>
    intro i s hs _ _
    exact ⟨s, rfl, hs, le_refl _, fun j x h1 h2 => by omega⟩
  | succ n ih =>
    intro i s hs hlen hvb
    have hi : i < values.length := by omega
    have hget : values[i]? = some values[i] := List.getElem?_eq_getElem hi
    have hrange := hval values[i] (List.getElem_mem hi)
    obtain ⟨hs1, hle1, hfit1⟩ := expanded_uint_size_spec values[i] s hs hrange
    obtain ⟨r1, hr1, hsz1, hge1, hall1⟩ := ih (i + 1) (expanded_uint_size values[i] s) hs1
      (by omega) (fun vb h => by have := hvb vb h; omega)
    obtain ⟨r0, hr0, hsz0, hge0, hall0⟩ := ih (i + 1) s hs
      (by omega) (fun vb h => by have := hvb vb h; omega)
    cases hv : valid_bytes with
    | none =>
      subst hv
      refine ⟨r1, ?_, hsz1, le_trans hle1 hge1, fun j x h1 h2 hx hvj => ?_⟩
      · simp only [expandedUIntSizeLoop, hget]; exact hr1
      · by_cases hji : j = i
        · subst hji
          rw [hget] at hx
          rw [← Option.some.inj hx]
          exact fitsInU_mono _ _ _ hge1 hfit1
        · exact hall1 j x (by omega) (by omega) hx hvj
    | some vb =>
      subst hv
      have hvi : i < vb.length := by have := hvb vb rfl; omega
      have hgv : vb[i]? = some vb[i] := List.getElem?_eq_getElem hvi
      by_cases hb : vb[i] ≠ 0
      · refine ⟨r1, ?_, hsz1, le_trans hle1 hge1, fun j x h1 h2 hx hvj => ?_⟩
        · simp only [expandedUIntSizeLoop, hgv, hb, hget, decide_True, ne_eq, not_false_eq_true]
          exact hr1
        · by_cases hji : j = i
          · subst hji
            rw [hget] at hx
            rw [← Option.some.inj hx]
            exact fitsInU_mono _ _ _ hge1 hfit1
          · exact hall1 j x (by omega) (by omega) hx hvj
      · refine ⟨r0, ?_, hsz0, hge0, fun j x h1 h2 hx hvj => ?_⟩
        · simp only [expandedUIntSizeLoop, hgv, hb, decide_False]
          exact hr0
        · by_cases hji : j = i
          · subst hji
            exfalso
            simp only [validAt, List.getD_eq_getElem?_getD, hgv, Option.getD_some,
              decide_eq_true_eq] at hvj
            exact hb hvj
          · exact hall0 j x (by omega) (by omega) hx hvj

theorem uentriesFrom_get (vb : Option (List Nat)) :
    ∀ (xs : List Nat) (i j : Nat),
      (uentriesFrom vb i xs)[j]? = (xs[j]?).map (fun x => (x, validAt vb (i + j))) := by
  intro xs
  induction xs with
  | nil => intro i j; simp [uentriesFrom]
  | cons x xs ih =>
    intro i j
    cases j with
    | zero => simp [uentriesFrom]
    | succ j =>
      simp only [uentriesFrom, List.getElem?_cons_succ, ih]
      have e : i + 1 + j = i + (j + 1) := by omega
      rw [e]

theorem uentriesFrom_length (vb : Option (List Nat)) :
    ∀ (xs : List Nat) (i : Nat), (uentriesFrom vb i xs).length = xs.length := by
  intro xs
  induction xs with
  | nil => intro i; rfl
  | cons x xs ih => intro i; simp [uentriesFrom, ih]

theorem uentries_get (b : UIntBatch) (j : Nat) (x : Nat) (h : b.entries[j]? = some (x, true)) :
    b.values[j]? = some x ∧ validAt b.valid_bytes j = true := by
  unfold UIntBatch.entries at h
  rw [uentriesFrom_get] at h
  cases hv : b.values[j]? with
  | none => rw [hv] at h; simp at h
  | some y =>
    rw [hv] at h
    simp only [Option.map_some', Option.some.injEq, Prod.mk.injEq, Nat.zero_add] at h
    exact ⟨by rw [h.1], h.2⟩

theorem AdaptiveUIntBuilder_expandFor_spec (a : AdaptiveIntBuilder) (values : List Nat)
    (valid_bytes : Option (List Nat)) (hwf : a.WF) (hsz : isIntSize a.int_size)
    (hroom : a.base.length + values.length ≤ a.base.capacity)
    (hval : ∀ x, x ∈ values → x < 2 ^ 64)
    (hvb : ∀ vb, valid_bytes = some vb → vb.length = values.length) :
    ∃ a1, AdaptiveUIntBuilder.expandFor a values values.length valid_bytes = some a1 ∧ a1.WF ∧
      isIntSize a1.int_size ∧ a.int_size ≤ a1.int_size ∧ a1.base.length = a.base.length ∧
      a.base.capacity ≤ a1.base.capacity ∧
      (∀ (i : Nat) (x : Nat), i < a.base.length →
        loadUInt a.int_size (a.data.getD []) i = some x → fitsInU a1.int_size x →
        loadUInt a1.int_size (a1.data.getD []) i = some x) ∧
      (∀ (j : Nat) (x : Nat), values[j]? = some x → validAt valid_bytes j = true →
        fitsInU a1.int_size x) := by
  have hsame : ∃ a1, some a = some a1 ∧ a1.WF ∧ isIntSize a1.int_size ∧
      a.int_size ≤ a1.int_size ∧ a1.base.length = a.base.length ∧
      a.base.capacity ≤ a1.base.capacity ∧
      (∀ (i : Nat) (x : Nat), i < a.base.length →
        loadUInt a.int_size (a.data.getD []) i = some x → fitsInU a1.int_size x →
        loadUInt a1.int_size (a1.data.getD []) i = some x) :=
    ⟨a, rfl, hwf, hsz, le_refl _, rfl, le_refl _, fun _ _ _ h _ => h⟩
  by_cases hrun : values.length > 0 ∧ a.int_size < 8
  · obtain ⟨r, hr, hrs, hge, hfits⟩ := expandedUIntSizeLoop_spec values valid_bytes hval
      values.length 0 a.int_size hsz (by omega) (fun vb h => by rw [hvb vb h]; omega)
    have hfits' : ∀ (j : Nat) (x : Nat), values[j]? = some x → validAt valid_bytes j = true →
        fitsInU r x := by
      intro j x hx hv
      exact hfits j x (Nat.zero_le _) (by
        have := getElem?_lt values j x hx
        omega) hx hv
    by_cases hne : r ≠ a.int_size
    · obtain ⟨a1, he, hwf1, hs1, hc1, hl1, hload1⟩ :=
        AdaptiveUIntBuilder_ExpandIntSize_spec a r hwf (by omega) hsz hrs (by omega)
      refine ⟨a1, ?_, hwf1, by rw [hs1]; exact hrs, by rw [hs1]; exact hge, hl1, hc1, ?_, ?_⟩
      · have hne' : ¬ r = a.int_size := hne
        simp only [AdaptiveUIntBuilder.expandFor, hrun, hr]
        simpa [hne'] using he
      · intro i x hi hx hf
        rw [hs1] at hf ⊢
        exact hload1 i x hi hx hf
      · intro j x hx hv
        rw [hs1]; exact hfits' j x hx hv
    · have hre : r = a.int_size := by
        by_contra h; exact hne h
      obtain ⟨a1, h1, h2, h3, h4, h5, h6, h7⟩ := hsame
      have ha : a1 = a := (Option.some.inj h1).symm
      refine ⟨a1, ?_, h2, h3, h4, h5, h6, h7, ?_⟩
      · simp only [AdaptiveUIntBuilder.expandFor, hrun, hr, hre]
        simpa using h1
      · intro j x hx hv
        rw [ha, ← hre]; exact hfits' j x hx hv
  · obtain ⟨a1, h1, h2, h3, h4, h5, h6, h7⟩ := hsame
    have ha : a1 = a := (Option.some.inj h1).symm
    refine ⟨a1, ?_, h2, h3, h4, h5, h6, h7, ?_⟩
    · simp only [AdaptiveUIntBuilder.expandFor, hrun]
      simpa using h1
    · intro j x hx hv
      rw [ha]
      have hj := getElem?_lt values j x hx
      have h8 : a.int_size = 8 := by
        unfold isIntSize at hsz
        have : ¬ a.int_size < 8 := fun h => hrun ⟨by omega, h⟩
        omega
      rw [h8]
      exact hval x (List.mem_iff_getElem?.mpr ⟨j, hx⟩)

theorem AdaptiveUIntBuilder_storeValues_spec (a : AdaptiveIntBuilder) (values : List Nat)
    (hwf : a.WF) (hsz : isIntSize a.int_size)
    (hroom : a.base.length + values.length ≤ a.base.capacity) :
    ∃ data1, AdaptiveUIntBuilder.storeValues a values values.length = some data1 ∧
      (a.base.capacity ≠ 0 → ∃ d1, data1 = some d1 ∧ d1.length = a.base.capacity * a.int_size) ∧
      (∀ (i : Nat) (x : Nat), i < a.base.length →
        loadUInt a.int_size (a.data.getD []) i = some x →
        loadUInt a.int_size (data1.getD []) i = some x) ∧
      (∀ (j : Nat) (x : Nat), values[j]? = some x → fitsInU a.int_size x →
        loadUInt a.int_size (data1.getD []) (a.base.length + j) = some x) := by
  have hsz1 : a.int_size = 1 ∨ a.int_size = 2 ∨ a.int_size = 4 ∨ a.int_size = 8 := hsz
  have hw := isIntSize_pos _ hsz
  have htake : values.take values.length = values := List.take_length values
  by_cases hz : a.base.capacity = 0
  · have hn : values.length = 0 := by omega
    have hnil : values = [] := List.length_eq_zero.mp hn
    refine ⟨a.data, ?_, fun h => absurd hz h, fun _ _ _ h => h, ?_⟩
    · unfold AdaptiveUIntBuilder.storeValues
      rw [if_neg (by omega), if_pos hsz1, htake, hnil]
      cases a.data with
      | none => simp
      | some d => simp [storeAllU]
    · intro j x hx; rw [hnil] at hx; simp at hx
  · obtain ⟨bm, d, hbm, hd, hbl, hdl⟩ := hwf.2 hz
    obtain ⟨d1, hs, hl1, ht1, hload1⟩ := storeAllU_spec a.int_size hw values d a.base.length (by
      rw [hdl]; exact Nat.mul_le_mul_right _ hroom)
    refine ⟨some d1, ?_, fun _ => ⟨d1, rfl, by rw [hl1, hdl]⟩, ?_, ?_⟩
    · unfold AdaptiveUIntBuilder.storeValues
      rw [if_neg (by omega), if_pos hsz1, htake, hd]
      simp only [hs]
    · intro i x hi hx
      rw [hd] at hx
      simp only [Option.getD_some] at hx ⊢
      rw [loadUInt_eq_of_take a.int_size d d1 i (a.base.length * a.int_size) hl1 ht1
        (Nat.mul_le_mul_right _ (by omega))]
      exact hx
    · intro j x hx hf
      simp only [Option.getD_some]
      exact hload1 j x hx hf

theorem AdaptiveUIntBuilder_Append_Inv (a : AdaptiveIntBuilder) (es : List (Nat × Bool))
    (b : UIntBatch) (hinv : AdaptiveUIntBuilder.Inv a es) (hb : b.WellFormed) :
    ∃ a1, AdaptiveUIntBuilder.Append a b.values b.values.length b.valid_bytes = some a1 ∧
      AdaptiveUIntBuilder.Inv a1 (es ++ b.entries) := by
  obtain ⟨hwf, hsz, hlen, hload⟩ := hinv
  obtain ⟨hval, hvbwf⟩ := hb
  have hvb : ∀ vb, b.valid_bytes = some vb → vb.length = b.values.length := by
    intro vb h; rw [h] at hvbwf; exact hvbwf.1
  -- Reserve
  obtain ⟨a1, hr, hwf1, hs1, hcap1, hl1, hload1⟩ :=
    AdaptiveUIntBuilder_Reserve_spec a b.values.length hwf
  -- width expansion
  obtain ⟨a2, he, hwf2, hsz2, hge2, hl2, hcap2, hload2, hfit2⟩ :=
    AdaptiveUIntBuilder_expandFor_spec a1 b.values b.valid_bytes hwf1 (by rw [hs1]; exact hsz)
      (by omega) hval hvb
  -- stores
  obtain ⟨data3, hst, hd3, hload3, hnew3⟩ :=
    AdaptiveUIntBuilder_storeValues_spec a2 b.values hwf2 hsz2 (by omega)
  -- validity
  obtain ⟨b4, hbulk, hl4, hc4, hsome4, hbl4⟩ :=
    UnsafeAppendToBitmapBulk_some a2.base b.valid_bytes b.values.length (by omega)
      (WF_adaptive_room a2 hwf2) (by
        cases hv : b.valid_bytes with
        | none => trivial
        | some vb => rw [hv] at hvbwf; exact hvbwf)
  refine ⟨{ a2 with base := b4, data := data3 }, ?_, ?_, hsz2, ?_, ?_⟩
  · simp only [AdaptiveUIntBuilder.Append, hr, he, hst, hbulk]
  · refine ⟨by show b4.length ≤ b4.capacity; omega, fun hc => ?_⟩
    have hc2 : a2.base.capacity ≠ 0 := by rw [← hc4]; exact hc
    obtain ⟨bm, d, hbm, _, hbl, _⟩ := hwf2.2 hc2
    obtain ⟨d1, hd1, hdl1⟩ := hd3 hc2
    rw [hbm] at hsome4 hbl4
    cases hb4 : b4.null_bitmap with
    | none => rw [hb4] at hsome4; simp at hsome4
    | some bm4 =>
      rw [hb4] at hbl4
      simp only [Option.getD_some] at hbl4
      exact ⟨bm4, d1, rfl, hd1, by rw [hbl4, hbl, hc4], by rw [hdl1, hc4]⟩
  · show b4.length = (es ++ b.entries).length
    rw [hl4, hl2, hl1, hlen, List.length_append]
    unfold UIntBatch.entries
    rw [uentriesFrom_length]
  · intro p x hp
    show loadUInt a2.int_size (data3.getD []) p = some x ∧ fitsInU a2.int_size x
    rw [List.getElem?_append] at hp
    by_cases hpl : p < es.length
    · rw [if_pos hpl] at hp
      obtain ⟨hx, hf⟩ := hload p x hp
      have hf2 : fitsInU a2.int_size x := fitsInU_mono _ _ x (by rw [← hs1]; exact hge2) hf
      refine ⟨?_, hf2⟩
      apply hload3 p x (by omega)
      apply hload2 p x (by omega) _ hf2
      rw [hs1, hload1 p (by omega)]
      exact hx
    · rw [if_neg hpl] at hp
      obtain ⟨hx, hv⟩ := uentries_get b _ x hp
      have hf2 := hfit2 _ x hx hv
      refine ⟨?_, hf2⟩
      have := hnew3 _ x hx hf2
      have e : a2.base.length + (p - es.length) = p := by omega
      rwa [e] at this

theorem AdaptiveUIntBuilder_run_Inv : ∀ (batches : List UIntBatch) (a : AdaptiveIntBuilder)
    (es : List (Nat × Bool)), AdaptiveUIntBuilder.Inv a es → (∀ b, b ∈ batches → b.WellFormed) →
    ∃ a1, AdaptiveUIntBuilder.run a batches = some a1 ∧ AdaptiveUIntBuilder.Inv a1 (es ++ usessionEntries batches) := by
  intro batches
  induction batches with
  | nil =>
    intro a es hinv _
    exact ⟨a, rfl, by simpa [usessionEntries] using hinv⟩
  | cons b bs ih =>
    intro a es hinv hwf
    obtain ⟨a1, happ, hinv1⟩ :=
      AdaptiveUIntBuilder_Append_Inv a es b hinv (hwf b (List.mem_cons_self _ _))
    obtain ⟨a2, hrun, hinv2⟩ := ih a1 (es ++ b.entries) hinv1
      (fun b1 h => hwf b1 (List.mem_cons_of_mem _ h))
    refine ⟨a2, by simp only [AdaptiveUIntBuilder.run, happ, hrun], ?_⟩
    simpa [usessionEntries, List.append_assoc] using hinv2

theorem AdaptiveUIntBuilder_Inv_fresh : AdaptiveUIntBuilder.Inv AdaptiveIntBuilder.fresh [] := by
  refine ⟨⟨le_refl _, fun h => absurd rfl h⟩, Or.inl rfl, rfl, fun p x h => ?_⟩
  simp at h

/-! ## AdaptiveUIntBuilder: the round trip -/

/-- C23: for every session of well-formed batches of `uint64_t` values (every
value below 2^64, a validity array of one byte per value and only on a
non-empty batch) appended with `AdaptiveUIntBuilder::Append` to a fresh
builder, the session runs to a builder whose width is one of 1, 2, 4, 8, whose
length is the number of appended entries, and in which every position whose
entry was appended as valid reads back, at the final width with zero extension,
exactly the value appended there. -/
theorem AdaptiveUIntBuilder_run_spec (batches : List UIntBatch)
    (hwf : ∀ b, b ∈ batches → b.WellFormed) :
    ∃ a, AdaptiveUIntBuilder.run AdaptiveIntBuilder.fresh batches = some a ∧
      isIntSize a.int_size ∧ a.base.length = (usessionEntries batches).length ∧
      ∀ (p : Nat) (x : Nat), (usessionEntries batches)[p]? = some (x, true) →
        loadUInt a.int_size (a.data.getD []) p = some x := by
  obtain ⟨a, hrun, hinv⟩ :=
    AdaptiveUIntBuilder_run_Inv batches AdaptiveIntBuilder.fresh [] AdaptiveUIntBuilder_Inv_fresh
      hwf
  rw [List.nil_append] at hinv
  obtain ⟨_, hsz, hlen, hload⟩ := hinv
  exact ⟨a, hrun, hsz, hlen, fun p x h => (hload p x h).1⟩

/-- The batches of the example session are well-formed. -/
theorem usampleSession_wellFormed :
    ∀ b, b ∈ [UIntBatch.mk [200, 7] none,
      UIntBatch.mk [70000, 9, 65535] (some [1, 0, 1]),
      UIntBatch.mk [9223372036854775808, 18446744073709551615] none] → b.WellFormed := by
  decide

/-- C23 on a concrete session: 200 and 7, then 70000, an invalid 9 and 65535,
then 2^63 and 2^64 - 1, which no signed 64-bit integer holds. The session ends
at width 8 and the six valid positions read back the values appended. -/
theorem AdaptiveUIntBuilder_run_spec_witness :
    (∀ b, b ∈ [UIntBatch.mk [200, 7] none,
      UIntBatch.mk [70000, 9, 65535] (some [1, 0, 1]),
      UIntBatch.mk [9223372036854775808, 18446744073709551615] none] → b.WellFormed) ∧
    (∃ a, AdaptiveUIntBuilder.run AdaptiveIntBuilder.fresh
        [UIntBatch.mk [200, 7] none,
          UIntBatch.mk [70000, 9, 65535] (some [1, 0, 1]),
          UIntBatch.mk [9223372036854775808, 18446744073709551615] none] = some a ∧
      isIntSize a.int_size ∧
      a.base.length = (usessionEntries [UIntBatch.mk [200, 7] none,
        UIntBatch.mk [70000, 9, 65535] (some [1, 0, 1]),
        UIntBatch.mk [9223372036854775808, 18446744073709551615] none]).length ∧
      ∀ (p : Nat) (x : Nat), (usessionEntries [UIntBatch.mk [200, 7] none,
          UIntBatch.mk [70000, 9, 65535] (some [1, 0, 1]),
          UIntBatch.mk [9223372036854775808, 18446744073709551615] none])[p]? = some (x, true) →
        loadUInt a.int_size (a.data.getD []) p = some x) ∧
    (AdaptiveUIntBuilder.run AdaptiveIntBuilder.fresh
        [UIntBatch.mk [200, 7] none,
          UIntBatch.mk [70000, 9, 65535] (some [1, 0, 1]),
          UIntBatch.mk [9223372036854775808, 18446744073709551615] none]).map
      (fun a => (a.int_size, (List.range 7).map (fun i => loadUInt a.int_size (a.data.getD []) i))) =
      some (8, [some 200, some 7, some 70000, some 9, some 65535, some 9223372036854775808,
        some 18446744073709551615]) ∧
    (AdaptiveUIntBuilder.run AdaptiveIntBuilder.fresh
        [UIntBatch.mk [200, 7] none,
          UIntBatch.mk [70000, 9, 65535] (some [1, 0, 1])]).map
      (fun a => (a.int_size, (List.range 5).map (fun i => loadUInt a.int_size (a.data.getD []) i))) =
      some (4, [some 200, some 7, some 70000, some 9, some 65535]) :=
  ⟨usampleSession_wellFormed,
    AdaptiveUIntBuilder_run_spec _ usampleSession_wellFormed,
    by set_option maxRecDepth 100000 in decide,
    by set_option maxRecDepth 100000 in decide⟩

/-! ## Growth and expansion that end with the allocation error, and appends of no element -/

set_option maxRecDepth 100000 in
/-- C31: a growth in which the pool grants the bitmap and refuses the value
buffer leaves `capacity_` at its new value over a value buffer that was not
grown. For a fresh `int32` builder, `Append({7}, 1, nullptr)` ends with the
allocation error at `capacity_ = 32` and a value buffer of 0 bytes, where 32
elements take 128; the next `Append({7}, 1, nullptr)` finds room, skips the
growth and copies 4 bytes outside the buffer. For a builder of capacity 8 that
holds 3 one-byte elements, `Reserve(6)` ends with the error at capacity 32 over
the old 8 bytes, and appending 6 elements then leaves the buffer too. -/
theorem PrimitiveBuilder_capacity_after_refused_growth :
    (PrimitiveBuilder.fresh 4).TryAppend [true, false] [7, 0, 0, 0] 1 none
      = Alloc.oom { base := { null_bitmap := some [0, 0, 0, 0], null_count := 0, length := 0,
                              capacity := 32 },
                    data := some [], width := 4 } ∧
    ([] : List Nat).length < bytes_required 4 32 ∧
    PrimitiveBuilder.Append
        { base := { null_bitmap := some [0, 0, 0, 0], null_count := 0, length := 0,
                    capacity := 32 },
          data := some [], width := 4 } [7, 0, 0, 0] 1 none = none ∧
    PrimitiveBuilder.sample.TryReserve [true, false] 6
      = Alloc.oom { base := { null_bitmap := some [5, 0, 0, 0], null_count := 1, length := 3,
                              capacity := 32 },
                    data := some [1, 2, 3, 0, 0, 0, 0, 0], width := 1 } ∧
    ([1, 2, 3, 0, 0, 0, 0, 0] : List Nat).length < bytes_required 1 32 ∧
    PrimitiveBuilder.Append
        { base := { null_bitmap := some [5, 0, 0, 0], null_count := 1, length := 3,
                    capacity := 32 },
          data := some [1, 2, 3, 0, 0, 0, 0, 0], width := 1 } [1, 2, 3, 4, 5, 6] 6 none = none := by
  decide

set_option maxRecDepth 100000 in
/-- C32: a zero-length bulk append is not safe on every state, nor always a
no-op. On a fresh builder, `Append(values, 0, valid_bytes)` with an explicit
validity array reads `null_bitmap_data_[0]` although there is no bitmap (with no
array the call goes through and changes nothing). On a full builder of capacity
8 the same call reads the byte after the one-byte bitmap. With no validity
array, on a builder of length 9 whose element 0 is null (bitmap `[254, 1, 0, 0]`)
the call sets bits 0 to 6: the bitmap becomes `[255, 1, 0, 0]` while `length` and
`null_count` stay 9 and 1. With an explicit array the same builder is left as it
was. -/
theorem PrimitiveBuilder_Append_zero_length :
    (PrimitiveBuilder.fresh 4).Append [] 0 (some []) = none ∧
    (PrimitiveBuilder.fresh 4).Append [] 0 none = some (PrimitiveBuilder.fresh 4) ∧
    PrimitiveBuilder.Append
        { base := { null_bitmap := some [255], null_count := 0, length := 8, capacity := 8 },
          data := some (List.replicate 8 0), width := 1 } [] 0 (some []) = none ∧
    PrimitiveBuilder.Append
        { base := { null_bitmap := some [254, 1, 0, 0], null_count := 1, length := 9,
                    capacity := 32 },
          data := some (List.replicate 32 0), width := 1 } [] 0 none =
      some { base := { null_bitmap := some [255, 1, 0, 0], null_count := 1, length := 9,
                       capacity := 32 },
             data := some (List.replicate 32 0), width := 1 } ∧
    PrimitiveBuilder.Append
        { base := { null_bitmap := some [254, 1, 0, 0], null_count := 1, length := 9,
                    capacity := 32 },
          data := some (List.replicate 32 0), width := 1 } [] 0 (some []) =
      some { base := { null_bitmap := some [254, 1, 0, 0], null_count := 1, length := 9,
                       capacity := 32 },
             data := some (List.replicate 32 0), width := 1 } := by
  decide

set_option maxRecDepth 100000 in
/-- C34: `ExpandIntSizeInternal` assigns `int_size_` before the `Resize` that
can fail. A builder that holds the valid values 1 and 2 at width 1 is given 300
and 5 while the pool refuses the growth of the value buffer from 32 to 64 bytes
inside the expansion: the call ends with the allocation error, `int_size_` is 2
and the value buffer still holds the one-byte elements, so that element 0 read
at the current width is 513 and element 1 is 0. The unsigned builder does the
same. -/
theorem AdaptiveIntBuilder_width_after_refused_expansion :
    AdaptiveIntBuilder.fresh.Append [1, 2] 2 none = some AdaptiveIntBuilder.sample ∧
    (List.range 2).map (loadInt AdaptiveIntBuilder.sample.int_size
        (AdaptiveIntBuilder.sample.data.getD [])) = [some 1, some 2] ∧
    AdaptiveIntBuilder.sample.TryAppend [true, false] [300, 5] 2 none
      = Alloc.oom { AdaptiveIntBuilder.sample with int_size := 2 } ∧
    (List.range 2).map (loadInt 2 (AdaptiveIntBuilder.sample.data.getD []))
      = [some 513, some 0] ∧
    AdaptiveUIntBuilder.TryAppend AdaptiveIntBuilder.sample [true, false] [300, 5] 2 none
      = Alloc.oom { AdaptiveIntBuilder.sample with int_size := 2 } ∧
    (List.range 2).map (loadUInt 2 (AdaptiveIntBuilder.sample.data.getD []))
      = [some 513, some 0] := by
  decide

/-! ## Adaptive builders: the in-place width expansion -/

theorem fromBytesLE_lt : ∀ (bs : List Nat), (∀ b, b ∈ bs → b < 256) →
    fromBytesLE bs < 256 ^ bs.length := by
  intro bs
  induction bs with
  | nil => intro _; simp [fromBytesLE]
  | cons b bs ih =>
    intro h
    have hb := h b (List.mem_cons_self _ _)
    have := ih (fun x hx => h x (List.mem_cons_of_mem _ hx))
    simp only [fromBytesLE, List.length_cons, Nat.pow_succ]
    omega

theorem readBytes_bytes (buf : List Nat) (off w : Nat) (bs : List Nat)
    (hbuf : ∀ b, b ∈ buf → b < 256) (h : readBytes buf off w = some bs) :
    bs.length = w ∧ ∀ b, b ∈ bs → b < 256 := by
  unfold readBytes at h
  split at h
  · cases h
    refine ⟨?_, fun b hb => hbuf b (List.mem_of_mem_drop (List.mem_of_mem_take hb))⟩
    rw [List.length_take, List.length_drop]; omega
  · cases h

theorem toSigned_fits (w u : Nat) (hw : 0 < w) (hu : u < 2 ^ (8 * w)) : fitsIn w (toSigned w u) := by
  unfold fitsIn toSigned
  have hpow : (2 : Int) ^ (8 * w) = 2 * 2 ^ (8 * w - 1) := by
    rw [← pow_succ']; congr 1; omega
  have hpos : (0 : Int) < 2 ^ (8 * w - 1) := by positivity
  have hu' : (u : Int) < 2 ^ (8 * w) := by exact_mod_cast hu
  split_ifs with h
  · have h' : (u : Int) < 2 ^ (8 * w - 1) := by exact_mod_cast h
    constructor <;> omega
  · have h' : (2 : Int) ^ (8 * w - 1) ≤ (u : Int) := by
      have := Nat.le_of_not_lt h
      exact_mod_cast this
    constructor <;> omega

theorem loadInt_fits (w : Nat) (hw : 0 < w) (buf : List Nat) (i : Nat) (x : Int)
    (hbuf : ∀ b, b ∈ buf → b < 256) (h : loadInt w buf i = some x) : fitsIn w x := by
  unfold loadInt at h
  cases hr : readBytes buf (i * w) w with
  | none => rw [hr] at h; cases h
  | some bs =>
    rw [hr] at h
    cases h
    obtain ⟨hl, hb⟩ := readBytes_bytes buf _ w bs hbuf hr
    have := fromBytesLE_lt bs hb
    rw [hl, pow256] at this
    exact toSigned_fits w _ hw this

theorem loadUInt_fits (w : Nat) (buf : List Nat) (i : Nat) (x : Nat)
    (hbuf : ∀ b, b ∈ buf → b < 256) (h : loadUInt w buf i = some x) : fitsInU w x := by
  unfold loadUInt at h
  cases hr : readBytes buf (i * w) w with
  | none => rw [hr] at h; cases h
  | some bs =>
    rw [hr] at h
    cases h
    obtain ⟨hl, hb⟩ := readBytes_bytes buf _ w bs hbuf hr
    have := fromBytesLE_lt bs hb
    rw [hl, pow256] at this
    exact this

theorem AdaptiveIntBuilder_ExpandIntSize_Internal (a : AdaptiveIntBuilder) (new_size : Nat)
    (hold : isIntSize a.int_size) (hnew : isIntSize new_size) :
    a.ExpandIntSize new_size = a.ExpandIntSizeInternal new_size a.int_size := by
  have hnew1 : new_size = 1 ∨ new_size = 2 ∨ new_size = 4 ∨ new_size = 8 := hnew
  have hold1 : a.int_size = 1 ∨ a.int_size = 2 ∨ a.int_size = 4 ∨ a.int_size = 8 := hold
  simp only [AdaptiveIntBuilder.ExpandIntSize, AdaptiveIntBuilder.ExpandIntSizeN]
  rw [if_pos hnew1, if_pos hold1]

theorem AdaptiveUIntBuilder_ExpandIntSize_Internal (a : AdaptiveIntBuilder) (new_size : Nat)
    (hold : isIntSize a.int_size) (hnew : isIntSize new_size) :
    AdaptiveUIntBuilder.ExpandIntSize a new_size
      = AdaptiveUIntBuilder.ExpandIntSizeInternal a new_size a.int_size := by
  have hnew1 : new_size = 1 ∨ new_size = 2 ∨ new_size = 4 ∨ new_size = 8 := hnew
  have hold1 : a.int_size = 1 ∨ a.int_size = 2 ∨ a.int_size = 4 ∨ a.int_size = 8 := hold
  simp only [AdaptiveUIntBuilder.ExpandIntSize, AdaptiveUIntBuilder.ExpandIntSizeN]
  rw [if_pos hnew1, if_pos hold1]

/-- C33: for a well-formed adaptive builder with buffers (capacity not 0) whose
width `int_size_` is one of 1, 2, 4, 8, for every larger width of 1, 2, 4, 8 and
every content of the value buffer (any bytes), the in-place expansion
`ExpandIntSizeInternal<new_type, old_type>` succeeds, sets the width, leaves
`length_` as it was, and element `i` read at the new width is element `i` read at
the old width before the call, for every `i < length_`: with sign extension for
the signed builder and with zero extension for the unsigned one. -/
theorem ExpandIntSizeInternal_keeps_elements (a : AdaptiveIntBuilder) (new_size : Nat)
    (hwf : a.WF) (hc0 : a.base.capacity ≠ 0) (hold : isIntSize a.int_size)
    (hnew : isIntSize new_size) (hlt : a.int_size < new_size)
    (hbytes : ∀ b, b ∈ a.data.getD [] → b < 256) :
    (∃ a1, a.ExpandIntSizeInternal new_size a.int_size = some a1 ∧ a1.int_size = new_size ∧
      a1.base.length = a.base.length ∧
      ∀ i, i < a.base.length →
        ∃ x, loadInt a.int_size (a.data.getD []) i = some x ∧
          loadInt new_size (a1.data.getD []) i = some x) ∧
    (∃ a1, AdaptiveUIntBuilder.ExpandIntSizeInternal a new_size a.int_size = some a1 ∧
      a1.int_size = new_size ∧ a1.base.length = a.base.length ∧
      ∀ i, i < a.base.length →
        ∃ x, loadUInt a.int_size (a.data.getD []) i = some x ∧
          loadUInt new_size (a1.data.getD []) i = some x) := by
  have hw := isIntSize_pos _ hold
  have hroom : ∀ i, i < a.base.length → (i + 1) * a.int_size ≤ (a.data.getD []).length := by
    intro i hi
    obtain ⟨bm, d, _, hd, _, hdl⟩ := hwf.2 hc0
    rw [hd, Option.getD_some, hdl]
    exact Nat.mul_le_mul_right _ (by have := hwf.1; omega)
  constructor
  · obtain ⟨a1, he, _, hs1, _, hl1, hload⟩ :=
      AdaptiveIntBuilder_ExpandIntSize_spec a new_size hwf hc0 hold hnew hlt
    rw [AdaptiveIntBuilder_ExpandIntSize_Internal a new_size hold hnew] at he
    refine ⟨a1, he, hs1, hl1, fun i hi => ?_⟩
    obtain ⟨x, hx⟩ := loadInt_some a.int_size (a.data.getD []) i (hroom i hi)
    have hf := loadInt_fits a.int_size hw _ i x hbytes hx
    exact ⟨x, hx, hload i x hi hx (fitsIn_mono _ _ x (Nat.le_of_lt hlt) hf)⟩
  · obtain ⟨a1, he, _, hs1, _, hl1, hload⟩ :=
      AdaptiveUIntBuilder_ExpandIntSize_spec a new_size hwf hc0 hold hnew hlt
    rw [AdaptiveUIntBuilder_ExpandIntSize_Internal a new_size hold hnew] at he
    refine ⟨a1, he, hs1, hl1, fun i hi => ?_⟩
    obtain ⟨x, hx⟩ := loadUInt_some a.int_size (a.data.getD []) i (hroom i hi)
    have hf := loadUInt_fits a.int_size _ i x hbytes hx
    exact ⟨x, hx, hload i x hi hx (fitsInU_mono _ _ x (Nat.le_of_lt hlt) hf)⟩

theorem AdaptiveIntBuilder_sampleBytes_WF : AdaptiveIntBuilder.sampleBytes.WF :=
  ⟨by decide, fun _ => ⟨_, _, rfl, rfl, by decide, by decide⟩⟩

set_option maxRecDepth 100000 in
/-- Witness for C33: the bytes `0xFF`, `0x02`, `0x80` at width 1 are expanded to
width 2 and to width 8: the signed builder reads -1, 2, -128 before and after,
the unsigned builder 255, 2, 128. -/
theorem ExpandIntSizeInternal_keeps_elements_witness :
    ((∃ a1, AdaptiveIntBuilder.sampleBytes.ExpandIntSizeInternal 2
          AdaptiveIntBuilder.sampleBytes.int_size = some a1 ∧ a1.int_size = 2 ∧
        a1.base.length = AdaptiveIntBuilder.sampleBytes.base.length ∧
        ∀ i, i < AdaptiveIntBuilder.sampleBytes.base.length →
          ∃ x, loadInt AdaptiveIntBuilder.sampleBytes.int_size
              (AdaptiveIntBuilder.sampleBytes.data.getD []) i = some x ∧
            loadInt 2 (a1.data.getD []) i = some x) ∧
      (∃ a1, AdaptiveUIntBuilder.ExpandIntSizeInternal AdaptiveIntBuilder.sampleBytes 2
          AdaptiveIntBuilder.sampleBytes.int_size = some a1 ∧ a1.int_size = 2 ∧
        a1.base.length = AdaptiveIntBuilder.sampleBytes.base.length ∧
        ∀ i, i < AdaptiveIntBuilder.sampleBytes.base.length →
          ∃ x, loadUInt AdaptiveIntBuilder.sampleBytes.int_size
              (AdaptiveIntBuilder.sampleBytes.data.getD []) i = some x ∧
            loadUInt 2 (a1.data.getD []) i = some x)) ∧
    (List.range 3).map (loadInt 1 (AdaptiveIntBuilder.sampleBytes.data.getD []))
      = [some (-1), some 2, some (-128)] ∧
    (AdaptiveIntBuilder.sampleBytes.ExpandIntSizeInternal 2 1).map
        (fun a1 => (a1.int_size, a1.base.length,
          (List.range 3).map (loadInt 2 (a1.data.getD []))))
      = some (2, 3, [some (-1), some 2, some (-128)]) ∧
    (AdaptiveIntBuilder.sampleBytes.ExpandIntSizeInternal 8 1).map
        (fun a1 => (a1.int_size, a1.base.length,
          (List.range 3).map (loadInt 8 (a1.data.getD []))))
      = some (8, 3, [some (-1), some 2, some (-128)]) ∧
    (AdaptiveUIntBuilder.ExpandIntSizeInternal AdaptiveIntBuilder.sampleBytes 2 1).map
        (fun a1 => (a1.int_size, a1.base.length,
          (List.range 3).map (loadUInt 2 (a1.data.getD []))))
      = some (2, 3, [some 255, some 2, some 128]) :=
  ⟨ExpandIntSizeInternal_keeps_elements AdaptiveIntBuilder.sampleBytes 2
      AdaptiveIntBuilder_sampleBytes_WF (by decide) (Or.inl rfl) (Or.inr (Or.inl rfl))
      (by decide) (by decide),
    by decide, by decide, by decide, by decide⟩

/-! ## Base builder: the bits from length on are zero -/

theorem bulkAppend_explicit_bits (b : ArrayBuilder) (bm v : List Nat)
    (hbm : b.null_bitmap = some bm) (hcap : b.capacity ≤ 8 * bm.length)
    (hroom : b.length + v.length ≤ b.capacity) (hn : 1 ≤ v.length) :
    ∃ bm1, b.UnsafeAppendToBitmapBulk (some v) v.length =
        some { b with null_bitmap := some bm1, null_count := b.null_count + v.count 0,
                      length := b.length + v.length } ∧
      bm1.length = bm.length ∧
      ∀ j, GetBit bm1 j =
        if b.length ≤ j ∧ j < b.length + v.length then decide (v.getD (j - b.length) 0 ≠ 0)
        else GetBit bm j := by
  have hbo : b.length / 8 < bm.length := by omega
  let c0 : BitmapCursor :=
    { data := bm, byte_offset := b.length / 8, bit_offset := b.length % 8,
      bitset := bm[b.length / 8], null_count := b.null_count }
  have hpos0 : c0.byte_offset * 8 + c0.bit_offset = b.length := by
    show b.length / 8 * 8 + b.length % 8 = b.length
    omega
  obtain ⟨c, hl, hlen, hboc, h8, hpos, hsum, hnc, hbit⟩ :=
    appendBitsLoop_spec v v.length 0 c0 (by show b.length % 8 ≤ 8; omega) hbo
      (by rw [hpos0]; show b.length + v.length ≤ 8 * bm.length; omega) (by omega)
  have hne : c.bit_offset ≠ 0 := by
    have := hpos (Or.inl hn); omega
  have hcommit0 : c0.commit = bm := by
    show bm.set (b.length / 8) bm[b.length / 8] = bm
    exact list_set_getElem bm _ hbo
  have hnc' : c.null_count = b.null_count + v.count 0 := by
    rw [hnc]
    show b.null_count + _ = _
    simp
  refine ⟨c.commit, ?_, ?_, fun j => ?_⟩
  · simp only [ArrayBuilder.UnsafeAppendToBitmapBulk, hbm, List.getElem?_eq_getElem hbo]
    rw [show appendBitsLoop v v.length 0 c0 = some c from hl]
    simp only [ne_eq, hne, not_false_eq_true, if_true, hboc, BitmapCursor.commit, hnc']
  · rw [BitmapCursor.commit, List.length_set, hlen]
  · rw [hbit j, hpos0, hcommit0]
    simp only [Nat.zero_add]

theorem bulkAppend_explicit_none (b b1 : ArrayBuilder)
    (h : b.UnsafeAppendToBitmapBulk (some []) 0 = some b1) :
    b1.length = b.length ∧ b1.null_count = b.null_count ∧ b1.capacity = b.capacity ∧
      (b1.null_bitmap.getD []).length = (b.null_bitmap.getD []).length ∧
      b1.null_bitmap.isSome = b.null_bitmap.isSome ∧
      ∀ j, b1.IsValid j = b.IsValid j := by
  unfold ArrayBuilder.UnsafeAppendToBitmapBulk at h
  simp only [] at h
  cases hbm : b.null_bitmap with
  | none => rw [hbm] at h; cases h
  | some bm =>
    rw [hbm] at h
    simp only [] at h
    cases hget : bm[b.length / 8]? with
    | none => rw [hget] at h; cases h
    | some bs =>
      rw [hget] at h
      simp only [appendBitsLoop] at h
      have hlt := getElem?_lt bm _ bs hget
      have hset : bm.set (b.length / 8) bs = bm := by
        have e : bs = bm[b.length / 8] := by
          rw [List.getElem?_eq_getElem hlt] at hget
          exact (Option.some.inj hget).symm
        rw [e]; exact list_set_getElem bm _ hlt
      have hv : ∀ j, GetBit (bm.set (b.length / 8) bs) j = GetBit bm j := by
        intro j; rw [hset]
      split at h
      · cases h
        refine ⟨rfl, rfl, rfl, ?_, rfl, fun j => ?_⟩
        · simp
        · simp only [ArrayBuilder.IsValid, hbm]
          exact hv j
      · cases h
        refine ⟨rfl, rfl, rfl, rfl, rfl, fun j => ?_⟩
        simp only [ArrayBuilder.IsValid, hbm]

theorem ArrayBuilder_WF_room (b : ArrayBuilder) (hwf : b.WF) :
    b.capacity ≤ 8 * (b.null_bitmap.getD []).length := by
  obtain ⟨_, hbm⟩ := hwf
  cases hb : b.null_bitmap with
  | none => rw [hb] at hbm; simp only [] at hbm; omega
  | some bm =>
    rw [hb] at hbm
    simp only [] at hbm
    rw [Option.getD_some, hbm, CeilByte_div]; omega

theorem ArrayBuilder_Reserve_ClearBeyond (b : ArrayBuilder) (n : Nat) (h : b.ClearBeyond) :
    ∃ b1, b.Reserve n = some b1 ∧ b1.ClearBeyond ∧ b1.length = b.length ∧
      b1.null_count = b.null_count ∧ b.length + n ≤ b1.capacity ∧
      ∀ j, b1.IsValid j = b.IsValid j := by
  obtain ⟨hwf, hclear⟩ := h
  unfold ArrayBuilder.Reserve
  split
  · rename_i hgt
    have hge := NextPower2_ge (b.length + n)
    generalize NextPower2 (b.length + n) = c at hge
    obtain ⟨bm1, hr, hl1, hbits⟩ := ArrayBuilder_grow b c (by
      cases hb : b.null_bitmap with
      | none => trivial
      | some bm =>
        have := hwf.2
        rw [hb] at this
        simp only [] at this ⊢
        rw [this]; exact CeilByte_mono (by omega))
    refine ⟨_, hr, ⟨⟨by show b.length ≤ c; omega, hl1⟩, fun j hj => ?_⟩, rfl, rfl, hge,
      fun j => ?_⟩
    · show GetBit bm1 j = false
      rw [hbits j]; exact hclear j hj
    · show GetBit bm1 j = _
      exact hbits j
  · rename_i hle
    exact ⟨b, rfl, ⟨hwf, hclear⟩, rfl, rfl, by omega, fun _ => rfl⟩

theorem ArrayBuilder_AppendToBitmap_ClearBeyond (b : ArrayBuilder) (v : Bool)
    (h : b.ClearBeyond) :
    ∃ b1, b.AppendToBitmap v = some b1 ∧ b1.ClearBeyond ∧ b1.IsValid b.length = v ∧
      b1.null_count = b.null_count + (if v then 0 else 1) ∧ b1.length = b.length + 1 ∧
      ∀ j, j < b.length → b1.IsValid j = b.IsValid j := by
  have key : ∀ (b2 : ArrayBuilder), b2.ClearBeyond → b2.length < b2.capacity →
      ∃ b1, b2.UnsafeAppendToBitmap v = some b1 ∧ b1.ClearBeyond ∧ b1.IsValid b2.length = v ∧
        b1.null_count = b2.null_count + (if v then 0 else 1) ∧ b1.length = b2.length + 1 ∧
        ∀ j, j < b2.length → b1.IsValid j = b2.IsValid j := by
    intro b2 hcb hlt
    obtain ⟨hwf, hclear⟩ := hcb
    have hroom := ArrayBuilder_WF_room b2 hwf
    cases hb : b2.null_bitmap with
    | none =>
      have := hwf.2
      rw [hb] at this
      simp only [] at this
      omega
    | some bm =>
      rw [hb, Option.getD_some] at hroom
      have hlen : bm.length = CeilByte b2.capacity / 8 := by
        have := hwf.2
        rw [hb] at this
        exact this
      cases v with
      | false =>
        refine ⟨{ b2 with null_count := b2.null_count + 1, length := b2.length + 1 }, ?_,
          ⟨⟨by show b2.length + 1 ≤ b2.capacity; omega, ?_⟩, fun j hj => ?_⟩, ?_, by simp, rfl,
          fun j _ => ?_⟩
        · simp [ArrayBuilder.UnsafeAppendToBitmap]
        · show (match b2.null_bitmap with
            | none => b2.capacity = 0
            | some bm => bm.length = CeilByte b2.capacity / 8)
          exact hwf.2
        · have := hclear j (by show b2.length ≤ j; have : b2.length + 1 ≤ j := hj; omega)
          simpa [ArrayBuilder.IsValid] using this
        · have := hclear b2.length (le_refl _)
          simpa [ArrayBuilder.IsValid] using this
        · simp [ArrayBuilder.IsValid]
      | true =>
        obtain ⟨bm1, hs, hl1, hbits⟩ := SetBit_some bm b2.length (by omega)
        refine ⟨{ b2 with null_bitmap := some bm1, length := b2.length + 1 }, ?_,
          ⟨⟨by show b2.length + 1 ≤ b2.capacity; omega, ?_⟩, fun j hj => ?_⟩, ?_, by simp, rfl,
          fun j hj => ?_⟩
        · simp [ArrayBuilder.UnsafeAppendToBitmap, hb, hs]
        · show bm1.length = CeilByte b2.capacity / 8
          rw [hl1, hlen]
        · have hj' : b2.length + 1 ≤ j := hj
          show GetBit bm1 j = false
          rw [hbits j, if_neg (by omega)]
          have := hclear j (by omega)
          simpa [ArrayBuilder.IsValid, hb] using this
        · show GetBit bm1 b2.length = true
          rw [hbits, if_pos rfl]
        · show GetBit bm1 j = b2.IsValid j
          rw [hbits j, if_neg (by omega)]
          simp [ArrayBuilder.IsValid, hb]
  simp only [ArrayBuilder.AppendToBitmap]
  by_cases heq : b.length = b.capacity
  · simp only [if_pos heq]
    have hge := NextPower2_ge (b.capacity + 1)
    generalize NextPower2 (b.capacity + 1) = c at hge ⊢
    obtain ⟨bm1, hr, hl1, hbits⟩ := ArrayBuilder_grow b c (by
      cases hb : b.null_bitmap with
      | none => trivial
      | some bm =>
        have := h.1.2
        rw [hb] at this
        simp only [] at this ⊢
        rw [this]; exact CeilByte_mono (by omega))
    have hr' : b.Resize c = some { b with null_bitmap := some bm1, capacity := c } := hr
    rw [hr']
    obtain ⟨b1, h1, h2, h3, h4, h5, h6⟩ :=
      key { b with null_bitmap := some bm1, capacity := c }
        ⟨⟨by show b.length ≤ c; omega, hl1⟩, fun j hj => by
          show GetBit bm1 j = false
          rw [hbits j]; exact h.2 j hj⟩
        (by show b.length < c; omega)
    refine ⟨b1, h1, h2, h3, h4, h5, fun j hj => ?_⟩
    rw [h6 j hj]
    show GetBit bm1 j = _
    exact hbits j
  · simp only [if_neg heq]
    exact key b h (by have := h.1.1; omega)

theorem ArrayBuilder_AppendToBitmapBulk_ClearBeyond (b b1 : ArrayBuilder) (vb : List Nat)
    (h : b.ClearBeyond) (hrun : b.AppendToBitmapBulk (some vb) vb.length = some b1) :
    b1.ClearBeyond ∧ b1.length = b.length + vb.length ∧
      b1.null_count = b.null_count + vb.count 0 ∧
      (∀ j, j < b.length → b1.IsValid j = b.IsValid j) ∧
      ∀ i, i < vb.length → b1.IsValid (b.length + i) = decide (vb.getD i 0 ≠ 0) := by
  obtain ⟨b2, hres, hcb2, hl2, hn2, hcap2, hbits2⟩ :=
    ArrayBuilder_Reserve_ClearBeyond b vb.length h
  simp only [ArrayBuilder.AppendToBitmapBulk, hres] at hrun
  by_cases hn : vb.length = 0
  · have hnil : vb = [] := List.length_eq_zero.mp hn
    subst hnil
    obtain ⟨e1, e2, e3, e4, e5, e6⟩ := bulkAppend_explicit_none b2 b1 hrun
    refine ⟨⟨⟨by rw [e1, e3]; exact hcb2.1.1, ?_⟩, fun j hj => ?_⟩, by rw [e1, hl2]; rfl,
      by rw [e2, hn2]; rfl, fun j _ => by rw [e6, hbits2], fun i hi => by simp at hi⟩
    · have hw := hcb2.1.2
      cases hb1 : b1.null_bitmap with
      | none =>
        rw [hb1] at e5
        cases hb2 : b2.null_bitmap with
        | none => rw [hb2] at hw; simp only [] at hw ⊢; rw [e3]; exact hw
        | some bm2 => rw [hb2] at e5; simp at e5
      | some bm1 =>
        rw [hb1] at e4 e5
        cases hb2 : b2.null_bitmap with
        | none => rw [hb2] at e5; simp at e5
        | some bm2 =>
          rw [hb2] at hw e4
          simp only [Option.getD_some] at e4
          simp only [] at hw ⊢
          rw [e3, e4]; exact hw
    · rw [e6]; exact hcb2.2 j (by rw [e1] at hj; exact hj)
  · have hroom := ArrayBuilder_WF_room b2 hcb2.1
    cases hb2 : b2.null_bitmap with
    | none =>
      rw [hb2] at hroom
      simp only [Option.getD_none, List.length_nil] at hroom
      omega
    | some bm2 =>
      rw [hb2, Option.getD_some] at hroom
      have hlen2 : bm2.length = CeilByte b2.capacity / 8 := by
        have := hcb2.1.2
        rw [hb2] at this
        exact this
      obtain ⟨bm1, he, hl1, hbits⟩ :=
        bulkAppend_explicit_bits b2 bm2 vb hb2 hroom (by omega) (by omega)
      rw [he] at hrun
      cases hrun
      refine ⟨⟨⟨by show b2.length + vb.length ≤ b2.capacity; omega, ?_⟩, fun j hj => ?_⟩,
        by show b2.length + vb.length = _; rw [hl2], by show b2.null_count + _ = _; rw [hn2],
        fun j hj => ?_, fun i hi => ?_⟩
      · show bm1.length = CeilByte b2.capacity / 8
        rw [hl1, hlen2]
      · have hj' : b2.length + vb.length ≤ j := hj
        show GetBit bm1 j = false
        rw [hbits j, if_neg (by omega)]
        have := hcb2.2 j (by omega)
        simpa [ArrayBuilder.IsValid, hb2] using this
      · show GetBit bm1 j = b.IsValid j
        rw [hbits j, if_neg (by omega), ← hbits2 j]
        simp [ArrayBuilder.IsValid, hb2]
      · show GetBit bm1 (b.length + i) = _
        rw [hbits, if_pos (by omega)]
        have e : b.length + i - b2.length = i := by omega
        rw [e]

theorem ArrayBuilder_apply_ClearBeyond (b b1 : ArrayBuilder) (op : BuilderOp)
    (h : b.ClearBeyond) (hop : op.isBitmapAppend = true) (hrun : b.apply op = some b1) :
    b1.ClearBeyond := by
  cases op with
  | Init c => simp [BuilderOp.isBitmapAppend] at hop
  | Resize c => simp [BuilderOp.isBitmapAppend] at hop
  | Advance n => simp [BuilderOp.isBitmapAppend] at hop
  | SetNotNull n => simp [BuilderOp.isBitmapAppend] at hop
  | Reserve n =>
    obtain ⟨b2, hr, hcb, _⟩ := ArrayBuilder_Reserve_ClearBeyond b n h
    simp only [ArrayBuilder.apply, hr] at hrun
    cases hrun; exact hcb
  | AppendToBitmap v =>
    obtain ⟨b2, hr, hcb, _⟩ := ArrayBuilder_AppendToBitmap_ClearBeyond b v h
    simp only [ArrayBuilder.apply, hr] at hrun
    cases hrun; exact hcb
  | AppendToBitmapBulk valid_bytes n =>
    cases valid_bytes with
    | none => simp [BuilderOp.isBitmapAppend] at hop
    | some vb =>
      simp only [BuilderOp.isBitmapAppend, decide_eq_true_eq] at hop
      subst hop
      exact (ArrayBuilder_AppendToBitmapBulk_ClearBeyond b b1 vb h hrun).1

theorem ArrayBuilder_apply_bitmap_some (b : ArrayBuilder) (op : BuilderOp)
    (h : b.ClearBeyond) (hop : op.isBitmapAppend = true) (hne : op.nonEmptyBulk = true) :
    ∃ b1, b.apply op = some b1 := by
  cases op with
  | Init c => simp [BuilderOp.isBitmapAppend] at hop
  | Resize c => simp [BuilderOp.isBitmapAppend] at hop
  | Advance n => simp [BuilderOp.isBitmapAppend] at hop
  | SetNotNull n => simp [BuilderOp.isBitmapAppend] at hop
  | Reserve n =>
    obtain ⟨b2, hr, _⟩ := ArrayBuilder_Reserve_ClearBeyond b n h
    exact ⟨b2, hr⟩
  | AppendToBitmap v =>
    obtain ⟨b2, hr, _⟩ := ArrayBuilder_AppendToBitmap_ClearBeyond b v h
    exact ⟨b2, hr⟩
  | AppendToBitmapBulk valid_bytes n =>
    cases valid_bytes with
    | none => simp [BuilderOp.isBitmapAppend] at hop
    | some vb =>
      simp only [BuilderOp.isBitmapAppend, decide_eq_true_eq] at hop
      simp only [BuilderOp.nonEmptyBulk, decide_eq_true_eq] at hne
      subst hop
      obtain ⟨b2, hres, hcb2, hl2, _, hcap2, _⟩ := ArrayBuilder_Reserve_ClearBeyond b vb.length h
      have hroom := ArrayBuilder_WF_room b2 hcb2.1
      cases hb2 : b2.null_bitmap with
      | none =>
        rw [hb2] at hroom
        simp only [Option.getD_none, List.length_nil] at hroom
        omega
      | some bm2 =>
        rw [hb2, Option.getD_some] at hroom
        obtain ⟨bm1, he, _⟩ := bulkAppend_explicit_bits b2 bm2 vb hb2 hroom (by omega) (by omega)
        refine ⟨{ b2 with null_bitmap := some bm1, null_count := b2.null_count + vb.count 0,
                          length := b2.length + vb.length }, ?_⟩
        simp only [ArrayBuilder.apply, ArrayBuilder.AppendToBitmapBulk, hres, he]

theorem ArrayBuilder_runOps_ClearBeyond : ∀ (ops : List BuilderOp) (b : ArrayBuilder),
    b.ClearBeyond → (∀ op, op ∈ ops → op.isBitmapAppend = true) →
    ((∀ op, op ∈ ops → op.nonEmptyBulk = true) → ∃ b1, b.runOps ops = some b1) ∧
    ∀ b1, b.runOps ops = some b1 → b1.ClearBeyond := by
  intro ops
  induction ops with
  | nil =>
    intro b h _
    exact ⟨fun _ => ⟨b, rfl⟩, fun b1 hrun => by
      simp only [ArrayBuilder.runOps] at hrun; cases hrun; exact h⟩
  | cons op ops ih =>
    intro b h hops
    have hop := hops op (List.mem_cons_self _ _)
    have hops' : ∀ op1, op1 ∈ ops → op1.isBitmapAppend = true :=
      fun op1 h1 => hops op1 (List.mem_cons_of_mem _ h1)
    constructor
    · intro hne
      obtain ⟨b2, hb2⟩ := ArrayBuilder_apply_bitmap_some b op h hop (hne op (List.mem_cons_self _ _))
      have hcb2 := ArrayBuilder_apply_ClearBeyond b b2 op h hop hb2
      obtain ⟨b1, hb1⟩ := (ih b2 hcb2 hops').1 (fun op1 h1 => hne op1 (List.mem_cons_of_mem _ h1))
      exact ⟨b1, by simp only [ArrayBuilder.runOps, hb2, hb1]⟩
    · intro b1 hrun
      simp only [ArrayBuilder.runOps] at hrun
      split at hrun
      · rename_i b2 hb2
        exact (ih b2 (ArrayBuilder_apply_ClearBeyond b b2 op h hop hb2) hops').2 b1 hrun
      · cases hrun

theorem ArrayBuilder_fresh_ClearBeyond : ArrayBuilder.fresh.ClearBeyond :=
  ⟨⟨le_refl _, rfl⟩, fun _ _ => rfl⟩

/-- C37: in every state reached from an empty base builder by `Reserve`, single
`AppendToBitmap(is_valid)` and bulk `AppendToBitmap` calls with an explicit
validity array, the bitmap has `ceil(capacity / 8)` bytes and all its bits from
`length` on are zero; therefore a single `AppendToBitmap(is_valid)` succeeds
there, leaves the bit at the old length set exactly when `is_valid`, adds one to
`null_count` exactly when `is_valid` is false, adds one to `length`, leaves the
bits below the old length unchanged, and the bits from the new length on are
zero again. A sequence whose bulk calls all append at least one element runs
through. -/
theorem ArrayBuilder_bits_beyond_length (ops : List BuilderOp)
    (hops : ∀ op, op ∈ ops → op.isBitmapAppend = true) :
    ((∀ op, op ∈ ops → op.nonEmptyBulk = true) → ∃ b, ArrayBuilder.fresh.runOps ops = some b) ∧
    ∀ b, ArrayBuilder.fresh.runOps ops = some b →
      b.WF ∧ (∀ j, b.length ≤ j → b.IsValid j = false) ∧
      ∀ is_valid, ∃ b1, b.AppendToBitmap is_valid = some b1 ∧
        b1.IsValid b.length = is_valid ∧
        b1.null_count = b.null_count + (if is_valid then 0 else 1) ∧
        b1.length = b.length + 1 ∧
        (∀ j, j < b.length → b1.IsValid j = b.IsValid j) ∧
        ∀ j, b1.length ≤ j → b1.IsValid j = false := by
  obtain ⟨h1, h2⟩ := ArrayBuilder_runOps_ClearBeyond ops ArrayBuilder.fresh
    ArrayBuilder_fresh_ClearBeyond hops
  refine ⟨h1, fun b hrun => ?_⟩
  have hcb := h2 b hrun
  refine ⟨hcb.1, hcb.2, fun v => ?_⟩
  obtain ⟨b1, e1, e2, e3, e4, e5, e6⟩ := ArrayBuilder_AppendToBitmap_ClearBeyond b v hcb
  exact ⟨b1, e1, e3, e4, e5, e6, e2.2⟩

set_option maxRecDepth 100000 in
/-- Witness for C37: `Reserve(3)`, a valid and a null element, nine elements with
an explicit validity array across a growth and a byte boundary, and one more
valid element: the bitmap is `[181, 15]` at length 12, with bits 12 to 15
zero. -/
theorem ArrayBuilder_bits_beyond_length_witness :
    (∀ op, op ∈ [BuilderOp.Reserve 3, BuilderOp.AppendToBitmap true,
        BuilderOp.AppendToBitmap false,
        BuilderOp.AppendToBitmapBulk (some [1, 0, 1, 1, 0, 1, 1, 1, 1]) 9,
        BuilderOp.AppendToBitmap true] → op.isBitmapAppend = true) ∧
    ArrayBuilder.fresh.runOps [BuilderOp.Reserve 3, BuilderOp.AppendToBitmap true,
        BuilderOp.AppendToBitmap false,
        BuilderOp.AppendToBitmapBulk (some [1, 0, 1, 1, 0, 1, 1, 1, 1]) 9,
        BuilderOp.AppendToBitmap true]
      = some { null_bitmap := some [181, 15], null_count := 3, length := 12, capacity := 16 } ∧
    ((⟨some [181, 15], 3, 12, 16⟩ : ArrayBuilder).WF ∧
      (∀ j, (⟨some [181, 15], 3, 12, 16⟩ : ArrayBuilder).length ≤ j →
        (⟨some [181, 15], 3, 12, 16⟩ : ArrayBuilder).IsValid j = false) ∧
      ∀ is_valid, ∃ b1,
        (⟨some [181, 15], 3, 12, 16⟩ : ArrayBuilder).AppendToBitmap is_valid = some b1 ∧
        b1.IsValid (⟨some [181, 15], 3, 12, 16⟩ : ArrayBuilder).length = is_valid ∧
        b1.null_count = (⟨some [181, 15], 3, 12, 16⟩ : ArrayBuilder).null_count +
          (if is_valid then 0 else 1) ∧
        b1.length = (⟨some [181, 15], 3, 12, 16⟩ : ArrayBuilder).length + 1 ∧
        (∀ j, j < (⟨some [181, 15], 3, 12, 16⟩ : ArrayBuilder).length →
          b1.IsValid j = (⟨some [181, 15], 3, 12, 16⟩ : ArrayBuilder).IsValid j) ∧
        ∀ j, b1.length ≤ j → b1.IsValid j = false) ∧
    (⟨some [181, 15], 3, 12, 16⟩ : ArrayBuilder).AppendToBitmap false
      = some { null_bitmap := some [181, 15], null_count := 4, length := 13, capacity := 16 } :=
  ⟨by decide, by decide,
    (ArrayBuilder_bits_beyond_length [BuilderOp.Reserve 3, BuilderOp.AppendToBitmap true,
        BuilderOp.AppendToBitmap false,
        BuilderOp.AppendToBitmapBulk (some [1, 0, 1, 1, 0, 1, 1, 1, 1]) 9,
        BuilderOp.AppendToBitmap true] (by decide)).2 _ (by decide),
    by decide⟩

/-! ## DictionaryBuilder: rehashing with the comparison of the builder -/

theorem rehashLoop_general {α : Type} (c : HashConsts) (k : DictKind α) (dict : List α)
    (new_size : Nat) (huniq : ∀ (x y : Nat) (u v : α), dict[x]? = some u → dict[y]? = some v →
      k.different u v = false → x = y)
    (hlt : dict.length ≤ c.kHashSlotEmpty) (hs : 0 < new_size) :
    ∀ (rest pre N : List Nat),
      (∀ x, x ∈ rest → x ≠ c.kHashSlotEmpty → x < dict.length) →
      pre.length + rest.length < new_size →
      N.length = new_size →
      (∀ (s x : Nat), N[s]? = some x → x ≠ c.kHashSlotEmpty → x < dict.length) →
      (∀ (i : Nat) (v : α), i ∈ pre → dict[i]? = some v →
        ProbePath c N new_size (k.HashValue v &&& (new_size - 1)) i) →
      new_size + pre.count c.kHashSlotEmpty ≤ N.count c.kHashSlotEmpty + pre.length →
      ∃ N1, rehashLoop c k dict new_size rest N = some N1 ∧ N1.length = new_size ∧
        (∀ (s x : Nat), N1[s]? = some x → x ≠ c.kHashSlotEmpty → x < dict.length) ∧
        (∀ (i : Nat) (v : α), i ∈ pre ++ rest → dict[i]? = some v →
          ProbePath c N1 new_size (k.HashValue v &&& (new_size - 1)) i) ∧
        new_size + (pre ++ rest).count c.kHashSlotEmpty ≤
          N1.count c.kHashSlotEmpty + (pre ++ rest).length := by
  intro rest
  induction rest with
  | nil =>
    intro pre N _ _ hlen hgood hpath hcount
    exact ⟨N, rfl, hlen, hgood, by simpa using hpath, by simpa using hcount⟩
  | cons idx rest ih =>
    intro pre N hrest hroom hlen hgood hpath hcount
    have hsplit : pre ++ idx :: rest = (pre ++ [idx]) ++ rest := by simp
    have hrest' : ∀ x, x ∈ rest → x ≠ c.kHashSlotEmpty → x < dict.length :=
      fun x hx => hrest x (List.mem_cons_of_mem _ hx)
    have hroom' : (pre ++ [idx]).length + rest.length < new_size := by
      simp only [List.length_append, List.length_cons, List.length_nil] at hroom ⊢; omega
    by_cases he : idx = c.kHashSlotEmpty
    · obtain ⟨N1, hr, h1, h2, h3, h4⟩ := ih (pre ++ [idx]) N hrest' hroom' hlen hgood
        (by
          intro i v hi hv
          rcases List.mem_append.mp hi with h | h
          · exact hpath i v h hv
          · have : i = idx := by simpa using h
            have := getElem?_lt dict i v hv
            omega)
        (by
          rw [List.count_append, List.length_append, he]
          simp only [List.count_cons_self, List.count_nil, List.length_cons, List.length_nil]
          omega)
      refine ⟨N1, ?_, h1, h2, ?_, ?_⟩
      · simp only [rehashLoop, if_pos he]; exact hr
      · rw [hsplit]; exact h3
      · rw [hsplit]; exact h4
    · have hidx : idx < dict.length := hrest idx (List.mem_cons_self _ _) he
      have hv : dict[idx]? = some dict[idx] := List.getElem?_eq_getElem hidx
      have hcpos : 0 < N.count c.kHashSlotEmpty := by
        simp only [List.length_cons] at hroom; omega
      obtain ⟨j, x, hprobe, hj, _, _, hlen', hgood', hpidx, hpold, hcnt, _⟩ :=
        table_insert c k dict N new_size dict[idx] idx (k.HashValue dict[idx] &&& (new_size - 1))
          ⟨hlen, hgood⟩ hs (mask_lt _ _ hs) he
          (fun y u hu hd => huniq y idx u dict[idx] hu hv hd)
          (exists_empty_slot c N new_size hlen hcpos)
      obtain ⟨N1, hr, h1, h2, h3, h4⟩ := ih (pre ++ [idx]) (N.set j idx) hrest' hroom' hlen'
        (by
          intro s y hy hye
          rcases hgood' s y hy hye with h | h
          · exact h
          · rw [h]; exact hidx)
        (by
          intro i v hi hiv
          rcases List.mem_append.mp hi with h | h
          · have hil := getElem?_lt dict i v hiv
            exact hpold _ i (by omega) (hpath i v h hiv)
          · have hii : i = idx := by simpa using h
            subst hii
            rw [hv] at hiv
            rw [← Option.some.inj hiv]
            exact hpidx)
        (by
          rw [List.count_append, List.length_append]
          simp only [List.count_cons, List.count_nil, List.length_cons, List.length_nil,
            beq_iff_eq, if_neg he]
          omega)
      refine ⟨N1, ?_, h1, h2, ?_, ?_⟩
      · simp only [rehashLoop, if_neg he, GetDictionaryValue, hv, hprobe, hj, if_true]; exact hr
      · rw [hsplit]; exact h3
      · rw [hsplit]; exact h4

theorem DoubleTableSize_general {α : Type} (c : HashConsts) (k : DictKind α)
    (d : DictionaryBuilder α)
    (huniq : ∀ (x y : Nat) (u v : α), d.dict_builder[x]? = some u → d.dict_builder[y]? = some v →
      k.different u v = false → x = y)
    (hg : TableGood c d.dict_builder d.hash_slots d.hash_table_size)
    (hs : 0 < d.hash_table_size)
    (hcount : d.hash_table_size ≤ d.hash_slots.count c.kHashSlotEmpty + d.dict_builder.length)
    (hlt : d.dict_builder.length ≤ c.kHashSlotEmpty)
    (hin : ∀ (i : Nat) (v : α), d.dict_builder[i]? = some v → i ∈ d.hash_slots) :
    ∃ N1, d.DoubleTableSize c k =
        some { d with hash_slots := N1, hash_table_size := d.hash_table_size * 2,
                      mod_bitmask := d.hash_table_size * 2 - 1 } ∧
      TableGood c d.dict_builder N1 (d.hash_table_size * 2) ∧
      d.hash_table_size * 2 ≤ N1.count c.kHashSlotEmpty + d.dict_builder.length ∧
      ∀ (i : Nat) (v : α), d.dict_builder[i]? = some v →
        ProbePath c N1 (d.hash_table_size * 2)
          (k.HashValue v &&& (d.hash_table_size * 2 - 1)) i := by
  obtain ⟨hlen, hidx⟩ := hg
  have htake : d.hash_slots.take d.hash_table_size = d.hash_slots :=
    List.take_of_length_le (by omega)
  obtain ⟨N1, hr, h1, h2, h3, h4⟩ :=
    rehashLoop_general c k d.dict_builder (d.hash_table_size * 2) huniq hlt (by omega)
      d.hash_slots [] (List.replicate (d.hash_table_size * 2) c.kHashSlotEmpty)
      (by
        intro x hx hxe
        obtain ⟨s, hs1, hget⟩ := List.getElem_of_mem hx
        exact hidx s x (by rw [List.getElem?_eq_getElem hs1, hget]) hxe)
      (by simp only [List.length_nil]; omega)
      (by simp)
      (by
        intro s x hx hxe
        rw [List.getElem?_replicate] at hx
        split_ifs at hx
        exact absurd (Option.some.inj hx).symm hxe)
      (by intro i v hi; simp at hi)
      (by simp)
  rw [List.nil_append] at h3 h4
  refine ⟨N1, ?_, ⟨h1, h2⟩, ?_, fun i v hv => h3 i v (hin i v hv) hv⟩
  · unfold DictionaryBuilder.DoubleTableSize
    simp only [htake, hr]
    rw [if_neg (by omega)]
  · omega

theorem probe_found_general {α : Type} (c : HashConsts) (k : DictKind α) (dict : List α)
    (slots : List Nat) (size : Nat) (v : α) (i start : Nat)
    (huniq : ∀ (x y : Nat) (u w : α), dict[x]? = some u → dict[y]? = some w →
      k.different u w = false → x = y)
    (hvv : k.different v v = false)
    (hg : TableGood c dict slots size) (hs : 0 < size) (hstart : start < size)
    (hi : dict[i]? = some v)
    (hp : ProbePath c slots size start i) :
    ∃ j, probe c k dict slots size v size start = some (j, i) := by
  obtain ⟨n, hn, hslot, hocc⟩ := hp
  have hstopn : StopsAt c k dict slots v ((start + n) % size) :=
    ⟨i, hslot, Or.inr ⟨v, hi, hvv⟩⟩
  obtain ⟨K, hK, ⟨x, hx, hxs⟩, hcont⟩ := first_stop c k dict slots size v hg hs start n hstopn
  have hxi : x = i := by
    rcases hxs with h | ⟨u, hu, hd⟩
    · rcases Nat.lt_or_ge K n with h1 | h1
      · obtain ⟨y, hy, hye⟩ := hocc K h1
        rw [hx] at hy
        have hxy : x = y := Option.some.inj hy
        exact absurd (hxy.symm.trans h) hye
      · have : K = n := by omega
        subst this
        rw [hx] at hslot
        exact Option.some.inj hslot
    · exact huniq x i u v hu hi hd
  have hrun := probe_run c k dict slots size v hs K size start x (by omega) hcont hx hxs
  rw [Nat.mod_eq_of_lt hstart, hxi] at hrun
  exact ⟨_, hrun⟩

/-! ## DictionaryBuilder: doubling a table whose entries the comparison tells apart -/

theorem count_partition (e n : Nat) (hn : n ≤ e) : ∀ (l : List Nat),
    (∀ x, x ∈ l → x = e ∨ x < n) →
    l.length = l.count e + Finset.sum (Finset.range n) (fun i => l.count i) := by
  intro l
  induction l with
  | nil => intro _; simp
  | cons a t ih =>
    intro h
    have iht := ih (fun x hx => h x (List.mem_cons_of_mem _ hx))
    have hsum : Finset.sum (Finset.range n) (fun i => (a :: t).count i) =
        Finset.sum (Finset.range n) (fun i => t.count i) + (if a < n then 1 else 0) := by
      have e1 : ∀ i, (a :: t).count i = t.count i + (if a = i then 1 else 0) := by
        intro i
        rw [List.count_cons]
        simp only [beq_iff_eq]
      simp only [e1, Finset.sum_add_distrib, Finset.sum_ite_eq, Finset.mem_range]
    rw [hsum, List.length_cons, List.count_cons]
    simp only [beq_iff_eq]
    rcases h a (List.mem_cons_self _ _) with ha | ha
    · rw [if_pos ha, if_neg (by omega)]; omega
    · rw [if_neg (by omega), if_pos ha]; omega

theorem counts_exact (e n : Nat) (hn : n ≤ e) (l : List Nat)
    (hl : ∀ x, x ∈ l → x = e ∨ x < n) (hmem : ∀ i, i < n → i ∈ l)
    (hle : l.length ≤ l.count e + n) :
    l.length = l.count e + n ∧ ∀ i, i < n → l.count i = 1 := by
  have hp := count_partition e n hn l hl
  have h1 : ∀ i, i ∈ Finset.range n → 1 ≤ l.count i := by
    intro i hi
    exact List.count_pos_iff.mpr (hmem i (Finset.mem_range.mp hi))
  have hn1 : Finset.sum (Finset.range n) (fun _ => 1) = n := by simp
  have hsum : n ≤ Finset.sum (Finset.range n) (fun i => l.count i) := by
    calc n = Finset.sum (Finset.range n) (fun _ => 1) := hn1.symm
      _ ≤ Finset.sum (Finset.range n) (fun i => l.count i) := Finset.sum_le_sum h1
  refine ⟨by omega, fun i hi => ?_⟩
  by_contra hne
  have h2 : 1 < l.count i := by
    have := h1 i (Finset.mem_range.mpr hi)
    omega
  have hlt : Finset.sum (Finset.range n) (fun _ => 1) <
      Finset.sum (Finset.range n) (fun i => l.count i) :=
    Finset.sum_lt_sum h1 ⟨i, Finset.mem_range.mpr hi, h2⟩
  omega

theorem TableGood_entries {α : Type} (c : HashConsts) (dict : List α) (slots : List Nat)
    (size : Nat) (hg : TableGood c dict slots size) :
    ∀ x, x ∈ slots → x = c.kHashSlotEmpty ∨ x < dict.length := by
  intro x hx
  obtain ⟨s, hs⟩ := List.mem_iff_getElem?.mp hx
  by_cases he : x = c.kHashSlotEmpty
  · exact Or.inl he
  · exact Or.inr (hg.2 s x hs he)

theorem occupiedSlots_eq (c : HashConsts) (slots : List Nat) (n : Nat)
    (h : slots.length = slots.count c.kHashSlotEmpty + n) : occupiedSlots c slots = n := by
  unfold occupiedSlots; omega

theorem WellFormed_of_law {α : Type} (k : DictKind α) (d : DictionaryBuilder α)
    (hk : ∀ a b, k.different a b = true ↔ a ≠ b) (hnd : d.dict_builder.Nodup) :
    ∀ (i j : Nat) (u v : α), d.dict_builder[i]? = some u → d.dict_builder[j]? = some v →
      k.different u v = false → i = j := by
  intro i j u v hu hv hd
  have := different_false_eq k hk u v hd
  rw [this] at hu
  exact nodup_index_unique d.dict_builder hnd i j v hu hv

/-- For every dictionary state that is well-formed for the comparison of its
kind (a table of `hash_table_size` slots whose occupied slots hold dictionary
indices, every dictionary index in exactly one slot, no two dictionary entries
that `SlotDifferent` takes for the same value), `DoubleTableSize` succeeds; the
table size is doubled and the probe
mask is the new size minus one; the dictionary and the indices appended so far
are untouched; every dictionary index is in exactly one slot of the new table
and the other slots are empty; from the hash position of every dictionary value
the slot that holds its index is reached before any empty slot, and the probe
for a value that is not different from itself returns that index; the new state
is well-formed again. -/
theorem DoubleTableSize_rehash {α : Type} (c : HashConsts) (k : DictKind α)
    (d : DictionaryBuilder α) (hwf : d.WellFormedFor c k) :
    ∃ d1, d.DoubleTableSize c k = some d1 ∧
      d1.hash_table_size = 2 * d.hash_table_size ∧
      d1.mod_bitmask = d1.hash_table_size - 1 ∧
      d1.hash_slots.length = d1.hash_table_size ∧
      d1.dict_builder = d.dict_builder ∧ d1.values_builder = d.values_builder ∧
      d1.base = d.base ∧
      (∀ i, i < d.dict_builder.length → d1.hash_slots.count i = 1) ∧
      (∀ x, x ∈ d1.hash_slots → x = c.kHashSlotEmpty ∨ x < d.dict_builder.length) ∧
      occupiedSlots c d1.hash_slots = d.dict_builder.length ∧
      (∀ (i : Nat) (v : α), d.dict_builder[i]? = some v →
        ProbePath c d1.hash_slots d1.hash_table_size (k.HashValue v &&& d1.mod_bitmask) i) ∧
      (∀ (i : Nat) (v : α), d.dict_builder[i]? = some v → k.different v v = false →
        ∃ j, probe c k d1.dict_builder d1.hash_slots d1.hash_table_size v d1.hash_table_size
          (k.HashValue v &&& d1.mod_bitmask) = some (j, i)) ∧
      d1.WellFormedFor c k := by
  obtain ⟨hg, hs, hlt, hone, huniq⟩ := hwf
  have hold := count_partition c.kHashSlotEmpty d.dict_builder.length hlt d.hash_slots
    (TableGood_entries c _ _ _ hg)
  have hsum1 : Finset.sum (Finset.range d.dict_builder.length) (fun i => d.hash_slots.count i)
      = d.dict_builder.length := by
    rw [Finset.sum_congr rfl (fun i hi => hone i (Finset.mem_range.mp hi))]
    simp
  have hcount : d.hash_table_size ≤
      d.hash_slots.count c.kHashSlotEmpty + d.dict_builder.length := by
    rw [← hg.1]; omega
  have hin : ∀ (i : Nat) (v : α), d.dict_builder[i]? = some v → i ∈ d.hash_slots := by
    intro i v hv
    have := hone i (getElem?_lt _ i v hv)
    exact List.count_pos_iff.mp (by omega)
  obtain ⟨N1, hdbl, hg1, hcount1, hpaths1⟩ :=
    DoubleTableSize_general c k d huniq hg hs hcount hlt hin
  obtain ⟨hlen1, hone1⟩ := counts_exact c.kHashSlotEmpty d.dict_builder.length hlt N1
    (TableGood_entries c _ _ _ hg1)
    (fun i hi => ProbePath_mem c _ _ _ i
      (hpaths1 i d.dict_builder[i] (List.getElem?_eq_getElem hi)))
    (by rw [hg1.1]; exact hcount1)
  refine ⟨_, hdbl, Nat.mul_comm _ _, rfl, hg1.1, rfl, rfl, rfl, hone1,
    TableGood_entries c _ _ _ hg1, occupiedSlots_eq c N1 _ hlen1, hpaths1, fun i v hv hvv => ?_,
    ⟨hg1, by show 0 < d.hash_table_size * 2; omega, hlt, hone1, huniq⟩⟩
  exact probe_found_general c k d.dict_builder N1 (d.hash_table_size * 2) v i
    (k.HashValue v &&& (d.hash_table_size * 2 - 1)) huniq hvv hg1
    (by omega) (mask_lt _ _ (by omega)) hv (hpaths1 i v hv)

theorem scalarKind_law {α : Type} [DecidableEq α] (hash : α → Nat) (a b : α) :
    (scalarKind hash).different a b = true ↔ a ≠ b := by
  simp [scalarKind]

theorem DictionaryBuilder_sample_WellFormed :
    DictionaryBuilder.sample.WellFormedFor HashConsts.upstream (scalarKind (fun x => x)) := by
  refine ⟨⟨rfl, fun s x hx hxe => ?_⟩, by decide, by decide, fun i hi => ?_,
    WellFormed_of_law _ _ (scalarKind_law _) (by decide)⟩
  · have hs : s < 4 := getElem?_lt DictionaryBuilder.sample.hash_slots s x hx
    have hx' : DictionaryBuilder.sample.hash_slots[s]? = some x := hx
    show x < 2
    interval_cases s
    · have : x = 1 := by
        simp [DictionaryBuilder.sample] at hx'
        exact hx'.symm
      omega
    · have : x = 2147483647 := by
        simp [DictionaryBuilder.sample] at hx'
        exact hx'.symm
      exact absurd this hxe
    · have : x = 0 := by
        simp [DictionaryBuilder.sample] at hx'
        exact hx'.symm
      omega
    · have : x = 2147483647 := by
        simp [DictionaryBuilder.sample] at hx'
        exact hx'.symm
      exact absurd this hxe
  · have hi' : i < 2 := hi
    interval_cases i <;> decide

set_option maxRecDepth 100000 in
/-- A table of 4 slots that holds the indices of the integer values 2 and 4
(hashed by their value) is doubled: the indices 0 and 1 go to the slots 2 and 4
of the 8 new slots. -/
theorem DoubleTableSize_rehash_witness :
    DictionaryBuilder.sample.DoubleTableSize HashConsts.upstream (scalarKind (fun x => x))
      = some { DictionaryBuilder.sample with
          hash_slots := [2147483647, 2147483647, 0, 2147483647, 1, 2147483647, 2147483647,
            2147483647],
          hash_table_size := 8, mod_bitmask := 7 } ∧
    ∃ d1, DictionaryBuilder.sample.DoubleTableSize HashConsts.upstream
        (scalarKind (fun x => x)) = some d1 ∧
      d1.hash_table_size = 2 * DictionaryBuilder.sample.hash_table_size ∧
      d1.mod_bitmask = d1.hash_table_size - 1 ∧
      d1.hash_slots.length = d1.hash_table_size ∧
      d1.dict_builder = DictionaryBuilder.sample.dict_builder ∧
      d1.values_builder = DictionaryBuilder.sample.values_builder ∧
      d1.base = DictionaryBuilder.sample.base ∧
      (∀ i, i < DictionaryBuilder.sample.dict_builder.length → d1.hash_slots.count i = 1) ∧
      (∀ x, x ∈ d1.hash_slots → x = HashConsts.upstream.kHashSlotEmpty ∨
        x < DictionaryBuilder.sample.dict_builder.length) ∧
      occupiedSlots HashConsts.upstream d1.hash_slots
        = DictionaryBuilder.sample.dict_builder.length ∧
      (∀ (i : Nat) (v : Nat), DictionaryBuilder.sample.dict_builder[i]? = some v →
        ProbePath HashConsts.upstream d1.hash_slots d1.hash_table_size
          ((scalarKind (fun x => x)).HashValue v &&& d1.mod_bitmask) i) ∧
      (∀ (i : Nat) (v : Nat), DictionaryBuilder.sample.dict_builder[i]? = some v →
        (scalarKind (fun x => x)).different v v = false →
        ∃ j, probe HashConsts.upstream (scalarKind (fun x => x)) d1.dict_builder d1.hash_slots
          d1.hash_table_size v d1.hash_table_size
          ((scalarKind (fun x => x)).HashValue v &&& d1.mod_bitmask) = some (j, i)) ∧
      d1.WellFormedFor HashConsts.upstream (scalarKind (fun x => x)) :=
  ⟨by decide,
    DoubleTableSize_rehash HashConsts.upstream (scalarKind (fun x => x)) DictionaryBuilder.sample
      DictionaryBuilder_sample_WellFormed⟩

theorem WellFormedFor_of_WellFormed {α : Type} (c : HashConsts) (k : DictKind α)
    (d : DictionaryBuilder α) (hk : ∀ a b, k.different a b = true ↔ a ≠ b)
    (hwf : d.WellFormed c) : d.WellFormedFor c k := by
  obtain ⟨hlen, hs, hent, hlt, hone, hnd⟩ := hwf
  refine ⟨⟨hlen, fun s x hx hxe => ?_⟩, hs, hlt, hone, WellFormed_of_law k d hk hnd⟩
  rcases hent x (List.mem_iff_getElem?.mpr ⟨s, hx⟩) with h | h
  · exact absurd h hxe
  · exact h

/-- For a kind whose `SlotDifferent` is the inequality of the values (the integer
kinds and the binary kinds) and every well-formed dictionary state,
`DoubleTableSize` succeeds; the table size is doubled and the probe mask is the
new size minus one; the dictionary and the indices appended so far are
untouched; every dictionary index is in exactly one slot of the new table and
the other slots are empty; the probe for every dictionary value returns the
index of that value; the new state is well-formed again. -/
theorem DoubleTableSize_rehash_by_value {α : Type} (c : HashConsts) (k : DictKind α)
    (d : DictionaryBuilder α) (hk : ∀ a b, k.different a b = true ↔ a ≠ b)
    (hwf : d.WellFormed c) :
    ∃ d1, d.DoubleTableSize c k = some d1 ∧
      d1.hash_table_size = 2 * d.hash_table_size ∧
      d1.mod_bitmask = d1.hash_table_size - 1 ∧
      d1.dict_builder = d.dict_builder ∧ d1.values_builder = d.values_builder ∧
      d1.base = d.base ∧
      (∀ i, i < d.dict_builder.length → d1.hash_slots.count i = 1) ∧
      occupiedSlots c d1.hash_slots = d.dict_builder.length ∧
      (∀ (i : Nat) (v : α), d.dict_builder[i]? = some v →
        ProbePath c d1.hash_slots d1.hash_table_size (k.HashValue v &&& d1.mod_bitmask) i) ∧
      (∀ (i : Nat) (v : α), d.dict_builder[i]? = some v →
        ∃ j, probe c k d1.dict_builder d1.hash_slots d1.hash_table_size v d1.hash_table_size
          (k.HashValue v &&& d1.mod_bitmask) = some (j, i)) ∧
      d1.WellFormed c := by
  obtain ⟨d1, h1, h2, h3, h4, h5, h6, h7, h8, h9, h10, h11, h12, h13⟩ :=
    DoubleTableSize_rehash c k d (WellFormedFor_of_WellFormed c k d hk hwf)
  have hvv : ∀ v, k.different v v = false := by
    intro v
    cases hd : k.different v v with
    | false => rfl
    | true => exact absurd rfl ((hk v v).mp hd)
  refine ⟨d1, h1, h2, h3, h5, h6, h7, h8, h10, h11, fun i v hv => h12 i v hv (hvv v), ?_⟩
  refine ⟨h4, by rw [h2]; have := hwf.2.1; omega, ?_, ?_, ?_, ?_⟩
  · rw [h5]; exact h9
  · rw [h5]; exact hwf.2.2.2.1
  · rw [h5]; exact h8
  · rw [h5]; exact hwf.2.2.2.2.2

/-! ## DictionaryBuilder: occupied slots in reachable states -/

theorem probe_terminates {α : Type} (c : HashConsts) (k : DictKind α) (dict : List α)
    (slots : List Nat) (size : Nat) (v : α) (start : Nat)
    (hg : TableGood c dict slots size) (hs : 0 < size) (hstart : start < size)
    (hempty : ∃ s, s < size ∧ slots[s]? = some c.kHashSlotEmpty) :
    ∃ j x, probe c k dict slots size v size start = some (j, x) ∧ slots[j]? = some x := by
  obtain ⟨se, hse, hsee⟩ := hempty
  obtain ⟨n, hn, hoff⟩ := offset_to size start se hse
  have hstopn : StopsAt c k dict slots v ((start + n) % size) := by
    rw [hoff]; exact ⟨_, hsee, Or.inl rfl⟩
  obtain ⟨K, hK, ⟨x, hx, hxs⟩, hcont⟩ := first_stop c k dict slots size v hg hs start n hstopn
  have hrun := probe_run c k dict slots size v hs K size start x (by omega) hcont hx hxs
  rw [Nat.mod_eq_of_lt hstart] at hrun
  exact ⟨_, x, hrun, hx⟩

theorem DictionaryBuilder_Inv_load {α : Type} (c : HashConsts) (k : DictKind α)
    (d : DictionaryBuilder α) (hk : ∀ a b, k.different a b = true ↔ a ≠ b)
    (hg : TableGood c d.dict_builder d.hash_slots d.hash_table_size)
    (hmask : d.mod_bitmask + 1 = d.hash_table_size) (hnd : d.dict_builder.Nodup)
    (hlen : d.dict_builder.length < d.hash_table_size)
    (hcount : d.hash_table_size ≤ d.hash_slots.count c.kHashSlotEmpty + d.dict_builder.length)
    (hlt : d.dict_builder.length < c.kHashSlotEmpty)
    (hpaths : ∀ (i : Nat) (v : α), d.dict_builder[i]? = some v →
      ProbePath c d.hash_slots d.hash_table_size (k.HashValue v &&& d.mod_bitmask) i) :
    occupiedSlots c d.hash_slots = d.dict_builder.length ∧
    d.dict_builder.length < d.hash_table_size ∧
    d.hash_slots.length = d.hash_table_size ∧
    (∃ s, s < d.hash_table_size ∧ d.hash_slots[s]? = some c.kHashSlotEmpty) ∧
    (∀ v, ∃ j x, probe c k d.dict_builder d.hash_slots d.hash_table_size v d.hash_table_size
      (k.HashValue v &&& d.mod_bitmask) = some (j, x) ∧ d.hash_slots[j]? = some x) ∧
    ∃ d2, d.DoubleTableSize c k = some d2 := by
  have hs : 0 < d.hash_table_size := by omega
  obtain ⟨hexact, _⟩ := counts_exact c.kHashSlotEmpty d.dict_builder.length (by omega)
    d.hash_slots (TableGood_entries c _ _ _ hg)
    (fun i hi => ProbePath_mem c _ _ _ i
      (hpaths i d.dict_builder[i] (List.getElem?_eq_getElem hi)))
    (by rw [hg.1]; exact hcount)
  have hempty : ∃ s, s < d.hash_table_size ∧ d.hash_slots[s]? = some c.kHashSlotEmpty :=
    exists_empty_slot c _ _ hg.1 (by rw [hg.1] at hexact; omega)
  have hm : d.mod_bitmask = d.hash_table_size - 1 := by omega
  refine ⟨occupiedSlots_eq c _ _ hexact, hlen, hg.1, hempty, fun v => ?_, ?_⟩
  · exact probe_terminates c k d.dict_builder d.hash_slots d.hash_table_size v _ hg hs
      (by rw [hm]; exact mask_lt _ _ hs) hempty
  · obtain ⟨N1, hdbl, _⟩ := DoubleTableSize_spec c k d hk hg hs hnd hcount (by omega)
      (fun i v hv => ProbePath_mem c _ _ _ i (hpaths i v hv))
    exact ⟨_, hdbl⟩

theorem DictionaryBuilder_EmptyTable_Inv {α : Type} (c : HashConsts) (k : DictKind α)
    (d : DictionaryBuilder α) (b : ArrayBuilder) (h : d.EmptyTable c)
    (h0 : 0 < c.kInitialHashTableSize) (he : 0 < c.kHashSlotEmpty)
    (hb : b.length + 1 ≤ b.capacity) :
    DictionaryBuilder.Inv c k { d with base := b } := by
  obtain ⟨_, _, hdict, hslots, hsize, hmask⟩ := h
  refine ⟨hb, ⟨?_, fun s x hx hxe => ?_⟩, ?_, ?_, ?_, ?_, ?_, fun i v hv => ?_⟩
  · show d.hash_slots.length = d.hash_table_size
    rw [hslots, hsize]; simp
  · exfalso
    have hx' : d.hash_slots[s]? = some x := hx
    rw [hslots, List.getElem?_replicate] at hx'
    split_ifs at hx'
    exact hxe (Option.some.inj hx').symm
  · show d.mod_bitmask + 1 = d.hash_table_size
    rw [hmask, hsize]; omega
  · show d.dict_builder.Nodup
    rw [hdict]; exact List.nodup_nil
  · show d.dict_builder.length < d.hash_table_size
    rw [hdict, hsize]; exact h0
  · show d.hash_table_size ≤ d.hash_slots.count c.kHashSlotEmpty + d.dict_builder.length
    rw [hslots, hsize]; simp
  · show d.dict_builder.length < c.kHashSlotEmpty
    rw [hdict]; exact he
  · have hv' : d.dict_builder[i]? = some v := hv
    rw [hdict] at hv'
    simp at hv'

theorem DictionaryBuilder_Init_state {α : Type} (c : HashConsts) (k : DictKind α)
    (elements : Nat) (h0 : 0 < c.kInitialHashTableSize) (he : 0 < c.kHashSlotEmpty) :
    ∃ d0, (DictionaryBuilder.fresh α).Init c elements = some d0 ∧
      d0.dict_builder = [] ∧ (DictionaryBuilder.Inv c k d0 ∨ d0.EmptyTable c) := by
  refine ⟨{ DictionaryBuilder.fresh α with
      base := { ArrayBuilder.fresh with
        null_bitmap := some (List.replicate (CeilByte elements / 8) 0),
        capacity := elements },
      hash_slots := List.replicate c.kInitialHashTableSize c.kHashSlotEmpty,
      hash_table_size := c.kInitialHashTableSize,
      mod_bitmask := c.kInitialHashTableSize - 1 }, ?_, rfl, ?_⟩
  · simp only [DictionaryBuilder.Init, ArrayBuilder_Init_eq]
    rfl
  · by_cases hz : elements = 0
    · right
      exact ⟨rfl, hz, rfl, rfl, rfl, rfl⟩
    · left
      exact DictionaryBuilder_EmptyTable_Inv c k
        { DictionaryBuilder.fresh α with
          hash_slots := List.replicate c.kInitialHashTableSize c.kHashSlotEmpty,
          hash_table_size := c.kInitialHashTableSize,
          mod_bitmask := c.kInitialHashTableSize - 1 }
        { ArrayBuilder.fresh with
          null_bitmap := some (List.replicate (CeilByte elements / 8) 0),
          capacity := elements }
        ⟨rfl, rfl, rfl, rfl, rfl, rfl⟩ h0 he (by show 0 + 1 ≤ elements; omega)

theorem DictionaryBuilder_EmptyTable_Reserve {α : Type} (c : HashConsts) (k : DictKind α)
    (d : DictionaryBuilder α) (h : d.EmptyTable c)
    (h0 : 0 < c.kInitialHashTableSize) (he : 0 < c.kHashSlotEmpty) :
    ∃ d1, d.Reserve c 1 = some d1 ∧ d1.Reserve c 1 = some d1 ∧ DictionaryBuilder.Inv c k d1 ∧
      d1.dict_builder = [] := by
  obtain ⟨hlen, hcap, hdict, hslots, hsize, hmask⟩ := h
  refine ⟨{ d with
      base := { d.base with
        null_bitmap := some (List.replicate (CeilByte kMinBuilderCapacity / 8) 0),
        capacity := kMinBuilderCapacity },
      hash_slots := List.replicate c.kInitialHashTableSize c.kHashSlotEmpty,
      hash_table_size := c.kInitialHashTableSize,
      mod_bitmask := c.kInitialHashTableSize - 1,
      values_builder := d.values_builder.map (fun _ => none) }, ?_, ?_, ?_, hdict⟩
  · have h1 : d.base.length + 1 > d.base.capacity := by rw [hlen, hcap]; omega
    have h2 : (1 : Nat) < kMinBuilderCapacity := by decide
    have e1 : d.base.length + 1 = 1 := by rw [hlen]
    simp only [DictionaryBuilder.Reserve, h1, if_true, DictionaryBuilder.Resize]
    rw [e1, NextPower2_one, if_pos h2, if_pos hcap]
    simp only [DictionaryBuilder.Init, ArrayBuilder_Init_eq]
  · simp only [DictionaryBuilder.Reserve]
    rw [if_neg (by show ¬ (d.base.length + 1 > kMinBuilderCapacity); rw [hlen]; decide)]
  · have := DictionaryBuilder_EmptyTable_Inv c k d
      { d.base with
        null_bitmap := some (List.replicate (CeilByte kMinBuilderCapacity / 8) 0),
        capacity := kMinBuilderCapacity }
      ⟨hlen, hcap, hdict, hslots, hsize, hmask⟩ h0 he
      (by show d.base.length + 1 ≤ kMinBuilderCapacity; rw [hlen]; decide)
    obtain ⟨a1, a2, a3, a4, a5, a6, a7, a8⟩ := this
    refine ⟨a1, ⟨?_, fun s x hx hxe => ?_⟩, ?_, a4, ?_, ?_, a7, fun i v hv => ?_⟩
    · show (List.replicate c.kInitialHashTableSize c.kHashSlotEmpty).length
        = c.kInitialHashTableSize
      simp
    · exfalso
      have hx' : (List.replicate c.kInitialHashTableSize c.kHashSlotEmpty)[s]? = some x := hx
      rw [List.getElem?_replicate] at hx'
      split_ifs at hx'
      exact hxe (Option.some.inj hx').symm
    · show c.kInitialHashTableSize - 1 + 1 = c.kInitialHashTableSize; omega
    · show d.dict_builder.length < c.kInitialHashTableSize
      rw [hdict]; exact h0
    · show c.kInitialHashTableSize ≤
        (List.replicate c.kInitialHashTableSize c.kHashSlotEmpty).count c.kHashSlotEmpty
          + d.dict_builder.length
      simp
    · have hv' : d.dict_builder[i]? = some v := hv
      rw [hdict] at hv'
      simp at hv'

theorem DictionaryBuilder_apply_Inv {α : Type} [DecidableEq α] (c : HashConsts)
    (k : DictKind α) (hk : ∀ a b, k.different a b = true ↔ a ≠ b)
    (h0 : 0 < c.kInitialHashTableSize) (hload : c.loadNum < c.loadDen)
    (d : DictionaryBuilder α) (op : DictOp α)
    (hinv : DictionaryBuilder.Inv c k d ∨ d.EmptyTable c)
    (hroom : d.dict_builder.length + 1 < c.kHashSlotEmpty) :
    ∃ d1, d.apply c k op = some d1 ∧ (DictionaryBuilder.Inv c k d1 ∨ d1.EmptyTable c) ∧
      d1.dict_builder.length ≤ d.dict_builder.length + 1 := by
  cases op with
  | AppendNull =>
    refine ⟨{ d with values_builder := d.values_builder ++ [none] }, rfl, ?_, by
      show d.dict_builder.length ≤ _; omega⟩
    rcases hinv with h | h
    · exact Or.inl h
    · exact Or.inr h
  | Append v =>
    rcases hinv with h | h
    · obtain ⟨d1, happ, hinv1, hdict, _⟩ := DictionaryBuilder_Append_spec c k d v hk hload h hroom
      exact ⟨d1, happ, Or.inl hinv1, by rw [hdict]; exact insertNew_length _ _⟩
    · obtain ⟨d0, hr, hr0, hinv0, hd0⟩ :=
        DictionaryBuilder_EmptyTable_Reserve c k d h h0 (by omega)
      obtain ⟨d1, happ, hinv1, hdict, _⟩ :=
        DictionaryBuilder_Append_spec c k d0 v hk hload hinv0 (by rw [hd0]; simp; omega)
      have hfirst : d.Append c k v = d0.Append c k v := by
        simp only [DictionaryBuilder.Append, hr, hr0]
      refine ⟨d1, by simp only [DictionaryBuilder.apply]; rw [hfirst]; exact happ, Or.inl hinv1, ?_⟩
      rw [hdict, hd0, h.2.2.1]
      exact insertNew_length _ _

theorem DictionaryBuilder_runOps_Inv {α : Type} [DecidableEq α] (c : HashConsts)
    (k : DictKind α) (hk : ∀ a b, k.different a b = true ↔ a ≠ b)
    (h0 : 0 < c.kInitialHashTableSize) (hload : c.loadNum < c.loadDen) :
    ∀ (ops : List (DictOp α)) (d : DictionaryBuilder α),
      (DictionaryBuilder.Inv c k d ∨ d.EmptyTable c) →
      d.dict_builder.length + ops.length < c.kHashSlotEmpty →
      ∃ d1, d.runOps c k ops = some d1 ∧ (DictionaryBuilder.Inv c k d1 ∨ d1.EmptyTable c) := by
  intro ops
  induction ops with
  | nil => intro d h _; exact ⟨d, rfl, h⟩
  | cons op ops ih =>
    intro d h hroom
    simp only [List.length_cons] at hroom
    obtain ⟨d1, h1, hinv1, hl1⟩ := DictionaryBuilder_apply_Inv c k hk h0 hload d op h (by omega)
    obtain ⟨d2, h2, hinv2⟩ := ih d1 hinv1 (by omega)
    exact ⟨d2, by simp only [DictionaryBuilder.runOps, h1, h2], hinv2⟩

/-! ## DictionaryBuilder: the load stays below one -/

theorem rehashLoop_weak {α : Type} (c : HashConsts) (k : DictKind α) (dict : List α)
    (new_size : Nat) (hs : 0 < new_size) :
    ∀ (rest N : List Nat),
      (∀ x, x ∈ rest → x ≠ c.kHashSlotEmpty → x < dict.length) →
      N.length = new_size →
      (∀ (s x : Nat), N[s]? = some x → x ≠ c.kHashSlotEmpty → x < dict.length) →
      rest.length < N.count c.kHashSlotEmpty + rest.count c.kHashSlotEmpty →
      ∃ N1, rehashLoop c k dict new_size rest N = some N1 ∧ N1.length = new_size ∧
        (∀ (s x : Nat), N1[s]? = some x → x ≠ c.kHashSlotEmpty → x < dict.length) ∧
        N.count c.kHashSlotEmpty + rest.count c.kHashSlotEmpty ≤
          N1.count c.kHashSlotEmpty + rest.length := by
  intro rest
  induction rest with
  | nil =>
    intro N _ hlen hgood _
    exact ⟨N, rfl, hlen, hgood, by simp⟩
  | cons idx rest ih =>
    intro N hrest hlen hgood hroom
    have hrest' : ∀ x, x ∈ rest → x ≠ c.kHashSlotEmpty → x < dict.length :=
      fun x hx => hrest x (List.mem_cons_of_mem _ hx)
    by_cases he : idx = c.kHashSlotEmpty
    · have hc : (idx :: rest).count c.kHashSlotEmpty = rest.count c.kHashSlotEmpty + 1 := by
        rw [he]; simp
      rw [hc, List.length_cons] at hroom
      obtain ⟨N1, hr, h1, h2, h3⟩ := ih N hrest' hlen hgood (by omega)
      refine ⟨N1, ?_, h1, h2, ?_⟩
      · simp only [rehashLoop, if_pos he]; exact hr
      · rw [hc, List.length_cons]; omega
    · have hc : (idx :: rest).count c.kHashSlotEmpty = rest.count c.kHashSlotEmpty := by
        rw [List.count_cons]
        simp only [beq_iff_eq, if_neg he, Nat.add_zero]
      rw [hc, List.length_cons] at hroom
      have hidx : idx < dict.length := hrest idx (List.mem_cons_self _ _) he
      have hv : dict[idx]? = some dict[idx] := List.getElem?_eq_getElem hidx
      have hcle := List.count_le_length c.kHashSlotEmpty rest
      have hcpos : 0 < N.count c.kHashSlotEmpty := by omega
      obtain ⟨j, x, hprobe, hjx⟩ := probe_terminates c k dict N new_size dict[idx]
        (k.HashValue dict[idx] &&& (new_size - 1)) ⟨hlen, hgood⟩ hs (mask_lt _ _ hs)
        (exists_empty_slot c N new_size hlen hcpos)
      have hj : j < N.length := getElem?_lt N j x hjx
      have hcs := count_set N j idx c.kHashSlotEmpty hj
      rw [if_neg he] at hcs
      have hcnt : N.count c.kHashSlotEmpty ≤ (N.set j idx).count c.kHashSlotEmpty + 1 := by
        split_ifs at hcs <;> omega
      obtain ⟨N1, hr, h1, h2, h3⟩ := ih (N.set j idx) hrest'
        (by rw [List.length_set]; exact hlen)
        (by
          intro s y hy hye
          rw [List.getElem?_set] at hy
          by_cases hjs : j = s
          · rw [if_pos hjs, if_pos hj] at hy
            rw [← Option.some.inj hy]; exact hidx
          · rw [if_neg hjs] at hy
            exact hgood s y hy hye)
        (by omega)
      refine ⟨N1, ?_, h1, h2, ?_⟩
      · simp only [rehashLoop, if_neg he, GetDictionaryValue, hv, hprobe, hj, if_true]; exact hr
      · rw [hc, List.length_cons]; omega

theorem DoubleTableSize_weak {α : Type} (c : HashConsts) (k : DictKind α)
    (d : DictionaryBuilder α)
    (hg : TableGood c d.dict_builder d.hash_slots d.hash_table_size)
    (hs : 0 < d.hash_table_size) :
    ∃ N1, d.DoubleTableSize c k =
        some { d with hash_slots := N1, hash_table_size := d.hash_table_size * 2,
                      mod_bitmask := d.hash_table_size * 2 - 1 } ∧
      TableGood c d.dict_builder N1 (d.hash_table_size * 2) ∧
      d.hash_table_size + d.hash_slots.count c.kHashSlotEmpty ≤ N1.count c.kHashSlotEmpty := by
  obtain ⟨hlen, hidx⟩ := hg
  have htake : d.hash_slots.take d.hash_table_size = d.hash_slots :=
    List.take_of_length_le (by omega)
  have hcle := List.count_le_length c.kHashSlotEmpty d.hash_slots
  obtain ⟨N1, hr, h1, h2, h3⟩ :=
    rehashLoop_weak c k d.dict_builder (d.hash_table_size * 2) (by omega)
      d.hash_slots (List.replicate (d.hash_table_size * 2) c.kHashSlotEmpty)
      (by
        intro x hx hxe
        obtain ⟨s, hs1, hget⟩ := List.getElem_of_mem hx
        exact hidx s x (by rw [List.getElem?_eq_getElem hs1, hget]) hxe)
      (by simp)
      (by
        intro s x hx hxe
        rw [List.getElem?_replicate] at hx
        split_ifs at hx
        exact absurd (Option.some.inj hx).symm hxe)
      (by simp; omega)
  refine ⟨N1, ?_, ⟨h1, h2⟩, ?_⟩
  · unfold DictionaryBuilder.DoubleTableSize
    simp only [htake, hr]
    rw [if_neg (by omega)]
  · simp only [List.count_replicate_self] at h3
    omega

theorem DictionaryBuilder_Append_weak {α : Type} (c : HashConsts) (k : DictKind α)
    (d : DictionaryBuilder α) (v : α) (hload : c.loadNum < c.loadDen)
    (hinv : d.LoadInv c) (hroom : d.dict_builder.length + 1 < c.kHashSlotEmpty) :
    ∃ d1, d.Append c k v = some d1 ∧ d1.LoadInv c ∧
      d1.dict_builder.length ≤ d.dict_builder.length + 1 := by
  obtain ⟨hcap, hg, hmask, hlen, hcount, hlt⟩ := hinv
  have hs : 0 < d.hash_table_size := by omega
  have hres : d.Reserve c 1 = some d := by
    simp only [DictionaryBuilder.Reserve]
    rw [if_neg (by omega)]
  have hm : d.mod_bitmask = d.hash_table_size - 1 := by omega
  have hstart : k.HashValue v &&& d.mod_bitmask < d.hash_table_size := by
    rw [hm]; exact mask_lt _ _ hs
  obtain ⟨j, x, hprobe, hjx⟩ := probe_terminates c k d.dict_builder d.hash_slots
    d.hash_table_size v _ hg hs hstart (exists_empty_slot c _ _ hg.1 (by omega))
  have hj : j < d.hash_slots.length := getElem?_lt _ j x hjx
  by_cases hxe : x = c.kHashSlotEmpty
  · have hidxe : d.dict_builder.length ≠ c.kHashSlotEmpty := by omega
    have hcs := count_set d.hash_slots j d.dict_builder.length c.kHashSlotEmpty hj
    have hval : d.hash_slots[j] = c.kHashSlotEmpty := by
      have h2 := List.getElem?_eq_getElem hj
      rw [hjx, hxe] at h2
      exact (Option.some.inj h2).symm
    rw [if_neg hidxe, if_pos hval] at hcs
    have hlen2 : (d.dict_builder ++ [v]).length = d.dict_builder.length + 1 := by simp
    have hg2 : TableGood c (d.dict_builder ++ [v])
        (d.hash_slots.set j d.dict_builder.length) d.hash_table_size := by
      refine ⟨by rw [List.length_set]; exact hg.1, fun s y hy hye => ?_⟩
      rw [hlen2]
      rw [List.getElem?_set] at hy
      by_cases hjs : j = s
      · rw [if_pos hjs, if_pos hj] at hy
        have := Option.some.inj hy
        omega
      · rw [if_neg hjs] at hy
        have := hg.2 s y hy hye
        omega
    by_cases hgrow : (d.dict_builder ++ [v]).length * c.loadDen > d.hash_table_size * c.loadNum
    · obtain ⟨N1, hdbl, hg3, hcount3⟩ :=
        DoubleTableSize_weak c k
          { d with hash_slots := d.hash_slots.set j d.dict_builder.length,
                   dict_builder := d.dict_builder ++ [v] } hg2 hs
      refine ⟨{ d with hash_slots := N1, hash_table_size := d.hash_table_size * 2,
                       mod_bitmask := d.hash_table_size * 2 - 1,
                       dict_builder := d.dict_builder ++ [v],
                       values_builder := d.values_builder ++ [some d.dict_builder.length] },
        ?_, ⟨hcap, hg3, ?_, ?_, ?_, ?_⟩, ?_⟩
      · simp only [DictionaryBuilder.Append, hres, hprobe, hxe, if_true, hj, hgrow, hdbl]
      · show d.hash_table_size * 2 - 1 + 1 = d.hash_table_size * 2; omega
      · show (d.dict_builder ++ [v]).length < d.hash_table_size * 2; rw [hlen2]; omega
      · show d.hash_table_size * 2 ≤ N1.count c.kHashSlotEmpty + (d.dict_builder ++ [v]).length
        have hc3 : d.hash_table_size +
            (d.hash_slots.set j d.dict_builder.length).count c.kHashSlotEmpty
              ≤ N1.count c.kHashSlotEmpty := hcount3
        rw [hlen2]; omega
      · show (d.dict_builder ++ [v]).length < c.kHashSlotEmpty; rw [hlen2]; omega
      · show (d.dict_builder ++ [v]).length ≤ _; rw [hlen2]
    · have hlt2 := load_ok c hload _ _ hgrow hs
      refine ⟨{ d with hash_slots := d.hash_slots.set j d.dict_builder.length,
                       dict_builder := d.dict_builder ++ [v],
                       values_builder := d.values_builder ++ [some d.dict_builder.length] },
        ?_, ⟨hcap, hg2, hmask, hlt2, ?_, ?_⟩, ?_⟩
      · simp only [DictionaryBuilder.Append, hres, hprobe, hxe, if_true, hj, hgrow, if_false]
      · show d.hash_table_size ≤
          (d.hash_slots.set j d.dict_builder.length).count c.kHashSlotEmpty
            + (d.dict_builder ++ [v]).length
        rw [hlen2]; omega
      · show (d.dict_builder ++ [v]).length < c.kHashSlotEmpty; rw [hlen2]; omega
      · show (d.dict_builder ++ [v]).length ≤ _; rw [hlen2]
  · refine ⟨{ d with values_builder := d.values_builder ++ [some x] }, ?_,
      ⟨hcap, hg, hmask, hlen, hcount, hlt⟩, by show d.dict_builder.length ≤ _; omega⟩
    simp only [DictionaryBuilder.Append, hres, hprobe, if_neg hxe]

theorem DictionaryBuilder_Inv_LoadInv {α : Type} (c : HashConsts) (k : DictKind α)
    (d : DictionaryBuilder α) (h : DictionaryBuilder.Inv c k d) : d.LoadInv c := by
  obtain ⟨a1, a2, a3, _, a5, a6, a7, _⟩ := h
  exact ⟨a1, a2, a3, a5, a6, a7⟩

theorem DictionaryBuilder_apply_LoadInv {α : Type} (c : HashConsts) (k : DictKind α)
    (h0 : 0 < c.kInitialHashTableSize) (hload : c.loadNum < c.loadDen)
    (d : DictionaryBuilder α) (op : DictOp α)
    (hinv : d.LoadInv c ∨ d.EmptyTable c)
    (hroom : d.dict_builder.length + 1 < c.kHashSlotEmpty) :
    ∃ d1, d.apply c k op = some d1 ∧ (d1.LoadInv c ∨ d1.EmptyTable c) ∧
      d1.dict_builder.length ≤ d.dict_builder.length + 1 := by
  cases op with
  | AppendNull =>
    refine ⟨{ d with values_builder := d.values_builder ++ [none] }, rfl, ?_, by
      show d.dict_builder.length ≤ _; omega⟩
    rcases hinv with h | h
    · exact Or.inl h
    · exact Or.inr h
  | Append v =>
    rcases hinv with h | h
    · obtain ⟨d1, happ, hinv1, hl1⟩ := DictionaryBuilder_Append_weak c k d v hload h hroom
      exact ⟨d1, happ, Or.inl hinv1, hl1⟩
    · obtain ⟨d0, hr, hr0, hinv0, hd0⟩ :=
        DictionaryBuilder_EmptyTable_Reserve c k d h h0 (by omega)
      obtain ⟨d1, happ, hinv1, hl1⟩ :=
        DictionaryBuilder_Append_weak c k d0 v hload (DictionaryBuilder_Inv_LoadInv c k d0 hinv0)
          (by rw [hd0]; simp; omega)
      have hfirst : d.Append c k v = d0.Append c k v := by
        simp only [DictionaryBuilder.Append, hr, hr0]
      refine ⟨d1, by simp only [DictionaryBuilder.apply]; rw [hfirst]; exact happ, Or.inl hinv1, ?_⟩
      rw [hd0] at hl1
      rw [h.2.2.1]
      exact hl1

theorem DictionaryBuilder_runOps_LoadInv {α : Type} (c : HashConsts) (k : DictKind α)
    (h0 : 0 < c.kInitialHashTableSize) (hload : c.loadNum < c.loadDen) :
    ∀ (ops : List (DictOp α)) (d : DictionaryBuilder α),
      (d.LoadInv c ∨ d.EmptyTable c) →
      d.dict_builder.length + ops.length < c.kHashSlotEmpty →
      ∃ d1, d.runOps c k ops = some d1 ∧ (d1.LoadInv c ∨ d1.EmptyTable c) := by
  intro ops
  induction ops with
  | nil => intro d h _; exact ⟨d, rfl, h⟩
  | cons op ops ih =>
    intro d h hroom
    simp only [List.length_cons] at hroom
    obtain ⟨d1, h1, hinv1, hl1⟩ := DictionaryBuilder_apply_LoadInv c k h0 hload d op h (by omega)
    obtain ⟨d2, h2, hinv2⟩ := ih d1 hinv1 (by omega)
    exact ⟨d2, by simp only [DictionaryBuilder.runOps, h1, h2], hinv2⟩

theorem DictionaryBuilder_LoadInv_load {α : Type} (c : HashConsts) (k : DictKind α)
    (d : DictionaryBuilder α)
    (hg : TableGood c d.dict_builder d.hash_slots d.hash_table_size)
    (hmask : d.mod_bitmask + 1 = d.hash_table_size)
    (hlen : d.dict_builder.length < d.hash_table_size)
    (hcount : d.hash_table_size ≤ d.hash_slots.count c.kHashSlotEmpty + d.dict_builder.length) :
    occupiedSlots c d.hash_slots ≤ d.dict_builder.length ∧
    d.dict_builder.length < d.hash_table_size ∧
    d.hash_slots.length = d.hash_table_size ∧
    (∃ s, s < d.hash_table_size ∧ d.hash_slots[s]? = some c.kHashSlotEmpty) ∧
    (∀ v, ∃ j x, probe c k d.dict_builder d.hash_slots d.hash_table_size v d.hash_table_size
      (k.HashValue v &&& d.mod_bitmask) = some (j, x) ∧ d.hash_slots[j]? = some x) ∧
    ∃ d2, d.DoubleTableSize c k = some d2 := by
  have hs : 0 < d.hash_table_size := by omega
  have hempty : ∃ s, s < d.hash_table_size ∧ d.hash_slots[s]? = some c.kHashSlotEmpty :=
    exists_empty_slot c _ _ hg.1 (by omega)
  have hm : d.mod_bitmask = d.hash_table_size - 1 := by omega
  refine ⟨?_, hlen, hg.1, hempty, fun v => ?_, ?_⟩
  · unfold occupiedSlots
    rw [hg.1]; omega
  · exact probe_terminates c k d.dict_builder d.hash_slots d.hash_table_size v _ hg hs
      (by rw [hm]; exact mask_lt _ _ hs) hempty
  · obtain ⟨N1, hdbl, _⟩ := DoubleTableSize_weak c k d hg hs
    exact ⟨_, hdbl⟩

/-- With a positive initial table size and a maximum load below 1, every
sequence of `Append` and `AppendNull` calls (fewer than the empty-slot marker)
on a freshly initialised dictionary builder of any kind runs through, and in the
state it reaches the number of occupied hash slots is at most the dictionary
length, which is below the table size; so a slot is empty, the wrapping linear
probe of `Append` ends for every value within one pass over the table, and
`DoubleTableSize`, whose probes run on a table that is emptier still, succeeds.
For a kind whose `SlotDifferent` is the inequality of the values, the number of
occupied slots is equal to the dictionary length. -/
theorem DictionaryBuilder_load_below_one {α : Type} [DecidableEq α] (c : HashConsts)
    (k : DictKind α) (h0 : 0 < c.kInitialHashTableSize) (hload : c.loadNum < c.loadDen)
    (elements : Nat) (ops : List (DictOp α)) (hlen : ops.length < c.kHashSlotEmpty) :
    ∃ d0 d, (DictionaryBuilder.fresh α).Init c elements = some d0 ∧
      d0.runOps c k ops = some d ∧
      occupiedSlots c d.hash_slots ≤ d.dict_builder.length ∧
      d.dict_builder.length < d.hash_table_size ∧
      d.hash_slots.length = d.hash_table_size ∧
      (∃ s, s < d.hash_table_size ∧ d.hash_slots[s]? = some c.kHashSlotEmpty) ∧
      (∀ v, ∃ j x, probe c k d.dict_builder d.hash_slots d.hash_table_size v d.hash_table_size
        (k.HashValue v &&& d.mod_bitmask) = some (j, x) ∧ d.hash_slots[j]? = some x) ∧
      (∃ d2, d.DoubleTableSize c k = some d2) ∧
      ((∀ a b, k.different a b = true ↔ a ≠ b) →
        occupiedSlots c d.hash_slots = d.dict_builder.length) := by
  have he : 0 < c.kHashSlotEmpty := by omega
  obtain ⟨d0, hinit, hd0, hinv0⟩ := DictionaryBuilder_Init_state (α := α) c k elements h0 he
  have hroom : d0.dict_builder.length + ops.length < c.kHashSlotEmpty := by
    rw [hd0]; simpa using hlen
  have hinv0' : d0.LoadInv c ∨ d0.EmptyTable c := by
    rcases hinv0 with h | h
    · exact Or.inl (DictionaryBuilder_Inv_LoadInv c k d0 h)
    · exact Or.inr h
  obtain ⟨d, hrun, hinv⟩ := DictionaryBuilder_runOps_LoadInv c k h0 hload ops d0 hinv0' hroom
  have hfacts : occupiedSlots c d.hash_slots ≤ d.dict_builder.length ∧
      d.dict_builder.length < d.hash_table_size ∧
      d.hash_slots.length = d.hash_table_size ∧
      (∃ s, s < d.hash_table_size ∧ d.hash_slots[s]? = some c.kHashSlotEmpty) ∧
      (∀ v, ∃ j x, probe c k d.dict_builder d.hash_slots d.hash_table_size v d.hash_table_size
        (k.HashValue v &&& d.mod_bitmask) = some (j, x) ∧ d.hash_slots[j]? = some x) ∧
      ∃ d2, d.DoubleTableSize c k = some d2 := by
    rcases hinv with h | h
    · obtain ⟨_, a2, a3, a4, a5, _⟩ := h
      exact DictionaryBuilder_LoadInv_load c k d a2 a3 a4 a5
    · obtain ⟨_, a2, a3, _, a5, a6, _, _⟩ :=
        DictionaryBuilder_EmptyTable_Inv c k d ⟨none, 0, 0, 1⟩ h h0 he (by decide)
      exact DictionaryBuilder_LoadInv_load c k d a2 a3 a5 a6
  obtain ⟨f1, f2, f3, f4, f5, f6⟩ := hfacts
  refine ⟨d0, d, hinit, hrun, f1, f2, f3, f4, f5, f6, fun hk => ?_⟩
  obtain ⟨d1, hrun1, hinv1⟩ := DictionaryBuilder_runOps_Inv c k hk h0 hload ops d0 hinv0 hroom
  rw [hrun] at hrun1
  cases hrun1
  rcases hinv1 with h | h
  · obtain ⟨_, a2, a3, a4, a5, a6, a7, a8⟩ := h
    exact (DictionaryBuilder_Inv_load c k d hk a2 a3 a4 a5 a6 a7 a8).1
  · obtain ⟨_, a2, a3, a4, a5, a6, a7, a8⟩ :=
      DictionaryBuilder_EmptyTable_Inv c k d ⟨none, 0, 0, 1⟩ h h0 he (by decide)
    exact (DictionaryBuilder_Inv_load c k d hk a2 a3 a4 a5 a6 a7 a8).1

set_option maxRecDepth 1000000 in
/-- With the upstream constants and integers hashed by their value, `Init(0)`
followed by the appends of 2, a null, 4, 2 again and 1026, which
meets 2 and 4 on its probe: three slots of 1024 are occupied for three
dictionary values. -/
theorem DictionaryBuilder_load_below_one_witness :
    (((DictionaryBuilder.fresh Nat).Init HashConsts.upstream 0).bind
        (fun d0 => d0.runOps HashConsts.upstream (scalarKind (fun x => x))
          [DictOp.Append 2, DictOp.AppendNull, DictOp.Append 4, DictOp.Append 2,
            DictOp.Append 1026])).map
      (fun d => (d.dict_builder, d.values_builder,
        occupiedSlots HashConsts.upstream d.hash_slots, d.hash_table_size,
        d.hash_slots.take 5))
      = some ([2, 4, 1026], [some 0, none, some 1, some 0, some 2], 3, 1024,
          [2147483647, 2147483647, 0, 2, 1]) ∧
    ∃ d0 d, (DictionaryBuilder.fresh Nat).Init HashConsts.upstream 0 = some d0 ∧
      d0.runOps HashConsts.upstream (scalarKind (fun x => x))
        [DictOp.Append 2, DictOp.AppendNull, DictOp.Append 4, DictOp.Append 2,
          DictOp.Append 1026] = some d ∧
      occupiedSlots HashConsts.upstream d.hash_slots ≤ d.dict_builder.length ∧
      d.dict_builder.length < d.hash_table_size ∧
      d.hash_slots.length = d.hash_table_size ∧
      (∃ s, s < d.hash_table_size ∧
        d.hash_slots[s]? = some HashConsts.upstream.kHashSlotEmpty) ∧
      (∀ v, ∃ j x, probe HashConsts.upstream (scalarKind (fun x => x)) d.dict_builder
        d.hash_slots d.hash_table_size v d.hash_table_size
        ((scalarKind (fun x => x)).HashValue v &&& d.mod_bitmask) = some (j, x) ∧
        d.hash_slots[j]? = some x) ∧
      (∃ d2, d.DoubleTableSize HashConsts.upstream (scalarKind (fun x => x)) = some d2) ∧
      ((∀ a b, (scalarKind (fun x => x)).different a b = true ↔ a ≠ b) →
        occupiedSlots HashConsts.upstream d.hash_slots = d.dict_builder.length) :=
  ⟨by decide,
    DictionaryBuilder_load_below_one HashConsts.upstream (scalarKind (fun x => x))
      (by decide) (by decide) 0
      [DictOp.Append 2, DictOp.AppendNull, DictOp.Append 4, DictOp.Append 2, DictOp.Append 1026]
      (by decide)⟩

/-! ## DictionaryBuilder: a float dictionary that holds both zeros -/

set_option maxRecDepth 100000 in
/-- C35: `DoubleTableSize` on a well-formed float dictionary that holds both
zeros. The state is the one in which the `Append` of a third value calls
`DoubleTableSize`: 4 slots, the dictionary `-0.0`, `+0.0`, `0x00000007` with the
indices 0, 1, 2 in the slots 3, 0, 1, every index in exactly one slot and no
value twice; before the call the probe for `+0.0` ends in slot 0 with index 1.
The loop over the old slots moves index 1 (`+0.0`) to the new slot 0 and index
2 to the new slot 7; for index 0 (`-0.0`, hashed to 7) the probe starts at slot
7, passes index 2, wraps to slot 0 and stops there, because `SlotDifferent`,
`other != value` on floats, says that `+0.0` is not different from `-0.0`;
`new_hash_slots[0] = index` then overwrites index 1. In the table of 8 slots
index 1 is in no slot, two slots are occupied for three dictionary values, and
the probe for `+0.0` now ends in slot 0 with index 0. -/
theorem DoubleTableSize_float_zeros :
    DictionaryBuilder.floatSample.WellFormed HashConsts.upstream ∧
    ((DictionaryBuilder.fresh Nat).Init HashConsts.small 0).bind
        (fun d0 => d0.runOps HashConsts.small (floatKind zeroHash)
          [DictOp.Append 2147483648, DictOp.Append 0])
      = some { DictionaryBuilder.floatSample with
          hash_slots := [1, 2147483647, 2147483647, 0],
          dict_builder := [2147483648, 0] } ∧
    probe HashConsts.upstream (floatKind zeroHash) DictionaryBuilder.floatSample.dict_builder
        DictionaryBuilder.floatSample.hash_slots 4 0 4 (zeroHash 0 &&& 3) = some (0, 1) ∧
    DictionaryBuilder.floatSample.DoubleTableSize HashConsts.upstream (floatKind zeroHash)
      = some { DictionaryBuilder.floatSample with
          hash_slots := [0, 2147483647, 2147483647, 2147483647, 2147483647, 2147483647,
            2147483647, 2],
          hash_table_size := 8, mod_bitmask := 7 } ∧
    ([0, 2147483647, 2147483647, 2147483647, 2147483647, 2147483647, 2147483647, 2] :
        List Nat).count 1 = 0 ∧
    occupiedSlots HashConsts.upstream
        [0, 2147483647, 2147483647, 2147483647, 2147483647, 2147483647, 2147483647, 2] = 2 ∧
    probe HashConsts.upstream (floatKind zeroHash) DictionaryBuilder.floatSample.dict_builder
        [0, 2147483647, 2147483647, 2147483647, 2147483647, 2147483647, 2147483647, 2]
        8 0 8 (zeroHash 0 &&& 7) = some (0, 0) := by
  decide

set_option maxRecDepth 100000 in
/-- C36: the occupied slots of a float dictionary after a rehash, traced from
`Init` on a table of 4 initial slots with maximum load 0.7. After the appends of
`-0.0` and `+0.0` the dictionary has two entries in two slots (3 and 0). The
append of `0x00000007` puts index 2 into slot 1 and, with 3 entries above
0.7 * 4, calls `DoubleTableSize`, in which the probe of `-0.0` ends at the slot
of `+0.0` (`SlotDifferent` is `other != value`, and the two zeros are equal as
floats) and overwrites it: the builder is left with three dictionary entries and
two occupied slots of 8, index 1 in no slot. One more append of `+0.0` stores
index 0, the entry of `-0.0`. The number of occupied slots stays below the
table size throughout. -/
theorem DictionaryBuilder_float_occupied_slots :
    (((DictionaryBuilder.fresh Nat).Init HashConsts.small 0).bind
        (fun d0 => d0.runOps HashConsts.small (floatKind zeroHash)
          [DictOp.Append 2147483648, DictOp.Append 0])).map
      (fun d => (d.dict_builder, d.values_builder, occupiedSlots HashConsts.small d.hash_slots,
        d.hash_table_size, d.hash_slots))
      = some ([2147483648, 0], [some 0, some 1], 2, 4, [1, 2147483647, 2147483647, 0]) ∧
    (((DictionaryBuilder.fresh Nat).Init HashConsts.small 0).bind
        (fun d0 => d0.runOps HashConsts.small (floatKind zeroHash)
          [DictOp.Append 2147483648, DictOp.Append 0, DictOp.Append 7])).map
      (fun d => (d.dict_builder, d.values_builder, occupiedSlots HashConsts.small d.hash_slots,
        d.hash_table_size, d.hash_slots))
      = some ([2147483648, 0, 7], [some 0, some 1, some 2], 2, 8,
          [0, 2147483647, 2147483647, 2147483647, 2147483647, 2147483647, 2147483647, 2]) ∧
    (((DictionaryBuilder.fresh Nat).Init HashConsts.small 0).bind
        (fun d0 => d0.runOps HashConsts.small (floatKind zeroHash)
          [DictOp.Append 2147483648, DictOp.Append 0, DictOp.Append 7, DictOp.Append 0])).map
      (fun d => (d.dict_builder, d.values_builder, occupiedSlots HashConsts.small d.hash_slots,
        d.hash_table_size, d.hash_slots))
      = some ([2147483648, 0, 7], [some 0, some 1, some 2, some 0], 2, 8,
          [0, 2147483647, 2147483647, 2147483647, 2147483647, 2147483647, 2147483647, 2]) := by
  refine ⟨?_, ?_, ?_⟩ <;> decide

end Arrow
